import Mathlib

/-!
# shstat / hist: a verification development

A shallow embedding of `hist/hist.go`, `internal/lib.go`, `fld/fld.go` and
`tally/tally.go` of gaal/shstat, with the properties of the histogram core and of
the two column tools stated and proved over it.

Conventions of the embedding

* A Go `string` / `[]byte` is a list of bytes, `Bytes := List Nat`; a byte is a
  natural number below 256.  Functions that inspect bytes treat a larger number
  as an invalid byte, so every theorem quantified over `Bytes` covers all Go
  strings.
* Go `int` and `int64` are 64-bit two's complement: values are `Int`, and the
  result of arithmetic that can leave the 64-bit range is passed through
  `wrapInt`.
* Fallible code returns `Option` / `Except`.  Loops that the source runs until
  an index passes the end of a string are given a fuel argument; running out of
  fuel is `none`, and totality lemmas show the fuel supplied is enough.
* A Go `float64` is an IEEE 754 binary64 value with exact rounding to nearest,
  ties to even (`float64`, `roundNearest`); `math.Log2`, whose results are not
  determined bit for bit, is a parameter.
* Library code the source calls (`unicode/utf8`, `strconv`, `bufio`, `sort`,
  `fmt`) is embedded by what it computes.  A regular expression is a parameter: the
  function `FindAllIndex` it stands for.  A `bufio.Scanner` is run to its end over
  an input held in memory, with its default buffer limit `MaxScanTokenSize`.
-/

set_option autoImplicit false

namespace Shstat

/-! ## Machine integers and byte strings -/

/-- A Go string or byte slice. -/
abbrev Bytes := List Nat

/-- Two's-complement wrap-around of a 64-bit signed integer (Go `int`, `int64`). -/
def wrapInt (x : Int) : Int := (x + 2 ^ 63) % 2 ^ 64 - 2 ^ 63

/-- The values of a 64-bit signed integer. -/
def isInt64 (x : Int) : Prop := -(2 ^ 63) ≤ x ∧ x < 2 ^ 63

instance (x : Int) : Decidable (isInt64 x) := by unfold isInt64; infer_instance

/-- The bytes of an ASCII string literal. -/
def ascii (s : String) : Bytes := s.toList.map Char.toNat

/-- Decimal digits of a natural number, as bytes. -/
def natDigits (n : Nat) : Bytes := (Nat.toDigits 10 n).map Char.toNat

/-- Go `strconv.Itoa`. -/
def Itoa (n : Int) : Bytes :=
  if n < 0 then 45 :: natDigits n.natAbs else natDigits n.natAbs

/-- Go `strings.Join`. -/
def stringsJoin (elems : List Bytes) (sep : Bytes) : Bytes := sep.intercalate elems

/-- Go `strings.Replace(s, "%", "%%", -1)`: every `%` byte is doubled. -/
def escapePercent : Bytes → Bytes
  | [] => []
  | b :: rest => if b = 37 then 37 :: 37 :: escapePercent rest else b :: escapePercent rest

/-! ## unicode/utf8: decoding -/

/-- The constant `utf8.RuneError`. -/
def RuneError : Nat := 0xFFFD

/-- The table `utf8.first`: information about the first byte of an encoding.
`0xF0` is an ASCII byte, `0xF1` an invalid lead byte; otherwise the low three
bits are the size of the encoding and the high four bits index `acceptRanges`. -/
def first (b : Nat) : Nat :=
  if b < 0x80 then 0xF0
  else if b < 0xC2 then 0xF1
  else if b < 0xE0 then 0x02
  else if b = 0xE0 then 0x13
  else if b < 0xED then 0x03
  else if b = 0xED then 0x23
  else if b < 0xF0 then 0x03
  else if b = 0xF0 then 0x34
  else if b < 0xF4 then 0x04
  else if b = 0xF4 then 0x44
  else 0xF1

/-- The table `utf8.acceptRanges`: the range of valid second bytes. -/
def acceptRanges (i : Nat) : Nat × Nat :=
  match i with
  | 0 => (0x80, 0xBF)
  | 1 => (0xA0, 0xBF)
  | 2 => (0x80, 0x9F)
  | 3 => (0x90, 0xBF)
  | 4 => (0x80, 0x8F)
  | _ => (0, 0)

/-- Go `utf8.DecodeRuneInString` (and `utf8.DecodeRune`): the first rune of `s`
and its width in bytes; `(RuneError, 0)` on the empty string and
`(RuneError, 1)` on an invalid encoding.  The masks and shifts of the Go code
are written as `%` and `*`. -/
def DecodeRuneInString (s : Bytes) : Nat × Nat :=
  match s with
  | [] => (RuneError, 0)
  | s0 :: _ =>
    let x := first s0
    if x ≥ 0xF0 then
      (if x % 2 = 0 then s0 else RuneError, 1)
    else
      let sz := x % 8
      let accept := acceptRanges (x / 16)
      if s.length < sz then (RuneError, 1)
      else
        let s1 := s.getD 1 0
        if s1 < accept.1 ∨ accept.2 < s1 then (RuneError, 1)
        else if sz ≤ 2 then (s0 % 32 * 64 + s1 % 64, 2)
        else
          let s2 := s.getD 2 0
          if s2 < 0x80 ∨ 0xBF < s2 then (RuneError, 1)
          else if sz ≤ 3 then (s0 % 16 * 4096 + s1 % 64 * 64 + s2 % 64, 3)
          else
            let s3 := s.getD 3 0
            if s3 < 0x80 ∨ 0xBF < s3 then (RuneError, 1)
            else (s0 % 8 * 262144 + s1 % 64 * 4096 + s2 % 64 * 64 + s3 % 64, 4)

/-- The loop of Go `utf8.RuneCountInString`, by fuel. -/
def runeCountLoop : Nat → Bytes → Nat
  | 0, _ => 0
  | fuel + 1, s =>
    if s = [] then 0 else 1 + runeCountLoop fuel (s.drop (DecodeRuneInString s).2)

/-- Go `utf8.RuneCountInString`: the number of runes in `s`, every invalid byte
counting as one rune.  The fuel `s.length` is enough, see `runeCount_unfold`. -/
def RuneCountInString (s : Bytes) : Nat := runeCountLoop s.length s

/-- What the decoder needs of an entry of the table `first`. -/
def leadOK (x : Nat) : Prop :=
  x ≥ 0xF0 ∨
    (x < 0xF0 ∧ (x % 8 = 2 ∨ x % 8 = 3 ∨ x % 8 = 4) ∧
      0x80 ≤ (acceptRanges (x / 16)).1 ∧ (acceptRanges (x / 16)).2 ≤ 0xBF)

instance (x : Nat) : Decidable (leadOK x) := by unfold leadOK; infer_instance

/-- Whether the bytes after a multi-byte lead complete a valid encoding of size
`sz` whose second byte must lie in `[lo, hi]`. -/
def validTail (sz lo hi : Nat) (rest : Bytes) : Bool :=
  decide (sz ≤ rest.length + 1) &&
  (decide (lo ≤ rest.getD 0 0) && decide (rest.getD 0 0 ≤ hi)) &&
  (decide (sz ≤ 2) ||
    ((decide (0x80 ≤ rest.getD 1 0) && decide (rest.getD 1 0 ≤ 0xBF)) &&
      (decide (sz ≤ 3) ||
        (decide (0x80 ≤ rest.getD 2 0) && decide (rest.getD 2 0 ≤ 0xBF)))))

/-- The rune a valid multi-byte encoding of size `sz` stands for. -/
def multiValue (sz s0 : Nat) (rest : Bytes) : Nat :=
  if sz ≤ 2 then s0 % 32 * 64 + rest.getD 0 0 % 64
  else if sz ≤ 3 then s0 % 16 * 4096 + rest.getD 0 0 % 64 * 64 + rest.getD 1 0 % 64
  else s0 % 8 * 262144 + rest.getD 0 0 % 64 * 4096 + rest.getD 1 0 % 64 * 64 +
    rest.getD 2 0 % 64

/-! ## hist.go: snip -/

/-- The constant `snipMark`, the UTF-8 encoding of U+2026. -/
def snipMark : Bytes := [0xE2, 0x80, 0xA6]

/-- The loop of `snip`: `i` is the byte index, `width` the remaining budget.
`width--` runs only when `width > 1`, so it cannot wrap around. -/
def snipLoop (s : Bytes) : Nat → Nat → Int → Option (Bytes × Bool)
  | 0, _, _ => none
  | fuel + 1, i, width =>
    if i < s.length then
      if width ≤ 1 then some (s.take i ++ snipMark, true)
      else snipLoop s fuel (i + (DecodeRuneInString (s.drop i)).2) (width - 1)
    else some (s, false)

/-- The function `snip`: a snippet of `s` and whether snippeting has occurred.
Every iteration advances `i` by at least one byte, so `len(s) + 1` iterations
are enough (`snip_total`). -/
def snip (s : Bytes) (width : Int) : Option (Bytes × Bool) :=
  snipLoop s (s.length + 1) 0 width

/-! ## internal/lib.go: the field extractor -/

/-- A compiled regular expression, as far as `splitb` uses it: the function
`FindAllIndex(b, -1)`, the list of `[start, end)` index pairs of the successive
non-overlapping matches in `b`. -/
abbrev Regexp := Bytes → List (Nat × Nat)

/-- The loop of `splitb` over the matches: the state is `(outs, beg, end)`. -/
def splitbLoop (b : Bytes) :
    List (Nat × Nat) → List Bytes × Nat × Nat → List Bytes × Nat × Nat
  | [], st => st
  | m :: ms, (outs, beg, _) =>
    if m.2 ≠ 0 then splitbLoop b ms (outs ++ [(b.take m.1).drop beg], m.2, m.1)
    else splitbLoop b ms (outs, beg, m.1)

/-- The function `splitb`: the pieces of `b` between the matches of `re`. -/
def splitb (re : Regexp) (b : Bytes) : List Bytes :=
  let st := splitbLoop b (re b) ([], 0, 0)
  if st.2.2 ≠ b.length then st.1 ++ [b.drop st.2.1] else st.1

/-- The struct `Parter`. -/
structure Parter where
  re : Regexp
  idx : List Int

/-- The function `NewParter`. -/
def NewParter (ifs : Regexp) (idx : List Int) : Parter := { re := ifs, idx := idx }

/-- One iteration of the loop of `Parter.Fields` over `p.idx`: the selected
part, or `none` for Go's `nil` when the index is out of range. -/
def fieldAt (parts : List Bytes) (v : Int) : Option Bytes :=
  let v := if v < 0 then wrapInt (parts.length + v) else if v > 0 then wrapInt (v - 1) else v
  if v ≥ 0 ∧ v < parts.length then parts.get? v.toNat else none

/-- The method `Parter.Fields`; a `nil` element is `none`. -/
def Parter.Fields (p : Parter) (line : Bytes) : List (Option Bytes) :=
  let parts := splitb p.re line
  if p.idx.length = 0 then parts.map some
  else p.idx.foldl (fun out v => out ++ [fieldAt parts v]) []

/-- The bytes of a possibly `nil` slice. -/
def bytesOf (b : Option Bytes) : Bytes := b.getD []

/-- The matches of the regular expression ` +` (one or more spaces), used by the
tests as `ifs`: the maximal runs of the byte 32.  `pos` is the index of the head
of the list and `start` the beginning of the run being read. -/
def spaceRuns : Bytes → Nat → Option Nat → List (Nat × Nat)
  | [], pos, some st => [(st, pos)]
  | [], _, none => []
  | b :: rest, pos, none =>
    if b = 32 then spaceRuns rest (pos + 1) (some pos) else spaceRuns rest (pos + 1) none
  | b :: rest, pos, some st =>
    if b = 32 then spaceRuns rest (pos + 1) (some st)
    else (st, pos) :: spaceRuns rest (pos + 1) none

/-- The value of `regexp.MustCompile(" +")`. -/
def reSpaces : Regexp := fun b => spaceRuns b 0 none

/-! ## strconv.ParseInt -/

/-- The digit loop of Go `strconv.ParseUint(s, 10, 64)` without its overflow
check: the value of a string of decimal digits, `none` on any other byte. -/
def parseDigits : Bytes → Nat → Option Nat
  | [], acc => some acc
  | c :: rest, acc => if 48 ≤ c ∧ c ≤ 57 then parseDigits rest (acc * 10 + (c - 48)) else none

/-- Go `strconv.ParseInt(s, 10, 64)`: `some n` when it returns a nil error, `none`
when it returns a syntax or range error.  An optional sign, then one or more
decimal digits, the value within the signed 64-bit range. -/
def ParseInt (s : Bytes) : Option Int :=
  match s with
  | [] => none
  | c :: rest =>
    let neg := decide (c = 45)
    let digits := if c = 43 ∨ c = 45 then rest else s
    if digits = [] then none
    else
      match parseDigits digits 0 with
      | none => none
      | some un =>
        if ¬ neg ∧ un ≥ 2 ^ 63 then none
        else if neg ∧ un > 2 ^ 63 then none
        else some (if neg then -(un : Int) else (un : Int))

/-! ## strconv.Atoi and internal/lib.go: AtoiList -/

/-- The digit loop of the fast path of Go `strconv.Atoi`: `ch -= '0'` on a byte
wraps around below `'0'`, and the test `ch > 9` then fails the string, so a byte
passes exactly when it is a decimal digit.  `none` is the error it returns. -/
def atoiLoop : Bytes → Int → Option Int
  | [], n => some n
  | ch :: rest, n =>
    if ch < 48 ∨ ch - 48 > 9 then none else atoiLoop rest (n * 10 + ((ch - 48 : Nat) : Int))

/-- Go `strconv.Atoi(s)` where `int` has 64 bits: `some n` when it returns a nil
error.  Strings of 1 to 18 bytes take the fast path, whose sum cannot leave the
`int` range; every other string goes through `ParseInt(s, 10, 0)`. -/
def Atoi (s : Bytes) : Option Int :=
  if 0 < s.length ∧ s.length < 19 then
    match s with
    | [] => none
    | c :: rest =>
      let digits := if c = 45 ∨ c = 43 then rest else s
      if (c = 45 ∨ c = 43) ∧ digits.length < 1 then none
      else
        match atoiLoop digits 0 with
        | none => none
        | some n => some (if c = 45 then -n else n)
  else ParseInt s

/-- What `AtoiList` returns: `ok res` for `(res, nil)`, and `notAnInteger v` for
the nil slice together with the error `fmt.Errorf("not an integer: %q", v)`,
kept as its operand `v`. -/
inductive AtoiListResult where
  | ok (res : List Int)
  | notAnInteger (v : Bytes)
  deriving DecidableEq, Repr

/-- The loop of `AtoiList` over `nums`, `res` being the slice built so far. -/
def atoiListLoop : List Bytes → List Int → AtoiListResult
  | [], res => AtoiListResult.ok res
  | v :: rest, res =>
    match Atoi v with
    | none => AtoiListResult.notAnInteger v
    | some n => atoiListLoop rest (res ++ [n])

/-- The function `AtoiList`. -/
def AtoiList (nums : List Bytes) : AtoiListResult := atoiListLoop nums []

/-! ## bufio.Scanner -/

/-- The constant `bufio.MaxScanTokenSize`, the size the scanner's buffer may grow to. -/
def MaxScanTokenSize : Nat := 64 * 1024

/-- The errors of a scanner reading from memory: `bufio.ErrTooLong`. -/
inductive ScanError where
  | ErrTooLong
  deriving DecidableEq, Repr

/-- What a `bufio.Scanner` delivers over its life: the tokens for which `Scan()`
returned true, and the value of `Err()` afterwards. -/
structure ScanResult where
  tokens : List Bytes
  err : Option ScanError
  deriving DecidableEq, Repr

/-- Put a token in front of what the scanner delivers afterwards. -/
def ScanResult.cons (t : Bytes) (r : ScanResult) : ScanResult :=
  { tokens := t :: r.tokens, err := r.err }

/-- The function `dropCR` of bufio: a terminal carriage return is dropped. -/
def dropCR (data : Bytes) : Bytes :=
  if data.getLast? = some 13 then data.dropLast else data

/-- The raw lines of the input: the text between newlines, and a last
unterminated line when it is not empty.  `cur` is the line being read. -/
def rawLines : Bytes → Bytes → List Bytes
  | [], cur => if cur = [] then [] else [cur]
  | b :: rest, cur => if b = 10 then cur :: rawLines rest [] else rawLines rest (cur ++ [b])

/-- Delivery of the lines by a scanner with the default split function
`bufio.ScanLines`.  A line is found once its newline, or the end of the input,
is in the buffer; a line of `MaxScanTokenSize` bytes or more fills the buffer
first, and the scanner stops with `ErrTooLong`. -/
def deliverLines : List Bytes → ScanResult
  | [] => { tokens := [], err := none }
  | l :: ls =>
    if l.length < MaxScanTokenSize then (deliverLines ls).cons (dropCR l)
    else { tokens := [], err := some ScanError.ErrTooLong }

/-- A scanner with `bufio.ScanLines` run to its end over the input `inp`. -/
def scanLines (inp : Bytes) : ScanResult := deliverLines (rawLines inp [])

/-- The function `isSpace` of bufio. -/
def isSpace (r : Nat) : Bool :=
  if r ≤ 0xFF then
    r = 0x20 ∨ r = 0x09 ∨ r = 0x0A ∨ r = 0x0B ∨ r = 0x0C ∨ r = 0x0D ∨ r = 0x85 ∨ r = 0xA0
  else if 0x2000 ≤ r ∧ r ≤ 0x200A then true
  else r = 0x1680 ∨ r = 0x2028 ∨ r = 0x2029 ∨ r = 0x202F ∨ r = 0x205F ∨ r = 0x3000

/-- The runes of a string with the bytes of each, as successive calls of
`utf8.DecodeRune` see them, by fuel. -/
def runesLoop : Nat → Bytes → List (Nat × Bytes)
  | 0, _ => []
  | fuel + 1, s =>
    if s = [] then []
    else ((DecodeRuneInString s).1, s.take (DecodeRuneInString s).2) ::
      runesLoop fuel (s.drop (DecodeRuneInString s).2)

/-- The runes of a string; the fuel `s.length` is enough (`runes_unfold`). -/
def runes (s : Bytes) : List (Nat × Bytes) := runesLoop s.length s

/-- Delivery of the words by a scanner with `bufio.ScanWords` over the runes of
the input; `cur` is the word being read.  Leading spaces are consumed without a
token.  A word is found once the whole space rune after it, or the end of the
input, is in the buffer; when the word and that rune do not fit in
`MaxScanTokenSize` bytes the scanner stops with `ErrTooLong`. -/
def deliverWords : List (Nat × Bytes) → Bytes → ScanResult
  | [], cur =>
    if cur = [] then { tokens := [], err := none }
    else if cur.length < MaxScanTokenSize then { tokens := [cur], err := none }
    else { tokens := [], err := some ScanError.ErrTooLong }
  | (r, bs) :: rest, cur =>
    if isSpace r then
      if cur = [] then deliverWords rest []
      else if cur.length + bs.length ≤ MaxScanTokenSize then (deliverWords rest []).cons cur
      else { tokens := [], err := some ScanError.ErrTooLong }
    else deliverWords rest (cur ++ bs)

/-- A scanner with `bufio.ScanWords` run to its end over the input `inp`. -/
def scanWords (inp : Bytes) : ScanResult := deliverWords (runes inp) []

/-! ## hist.go: entries and their order -/

/-- The constant `countAvail`. -/
def countAvail : Int := 15

/-- The struct `keyCount`; the display fields are never assigned by the code
embedded here and stay empty. -/
structure keyCount where
  key : Bytes
  cnt : Int
  dCnt : Bytes := []
  dKey : Bytes := []
  dGraph : Bytes := []
  deriving DecidableEq, Repr

/-- The body of `byCountKey.Less` on the two entries it compares: by count, then
by key under Go's byte-wise string comparison. -/
def keyCount.less (x y : keyCount) : Bool :=
  if x.cnt < y.cnt then true
  else if x.cnt > y.cnt then false
  else decide (x.key < y.key)

/-- The type `byCountKey`. -/
abbrev byCountKey := List keyCount

/-- The method `byCountKey.Less(i, j)`. -/
def byCountKey.Less (a : byCountKey) (i j : Fin a.length) : Bool :=
  (a.get i).less (a.get j)

/-! ## hist.go: layout -/

/-- The function `hlinefmt`: the format string, `kavail` and `gavail`. -/
def hlinefmt (tw : Int) (graph : Bool) (ofs : Bytes) : Bytes × Int × Int :=
  let auto := decide (ofs = [])
  let sep : Bytes := if auto then [32] else escapePercent ofs
  let cfmt : Int → Bytes := fun avail =>
    if auto then [37] ++ Itoa avail ++ [100] else [37, 100]
  let kfmt : Int → Bytes := fun avail =>
    if auto then [37, 45] ++ Itoa avail ++ [115] else [37, 115]
  if graph then
    let kavail := wrapInt (wrapInt (Int.tdiv tw 2 - countAvail) - 1)
    let gavail := wrapInt (wrapInt (wrapInt (tw - countAvail) - kavail) - 3)
    (stringsJoin [cfmt countAvail, kfmt kavail, [37, 115]] sep, kavail, gavail)
  else
    let kavail := wrapInt (wrapInt (tw - countAvail) - 2)
    (stringsJoin [cfmt countAvail, kfmt kavail] sep, kavail, 0)

/-- The `kavail` result of `hlinefmt`. -/
def kavailOf (r : Bytes × Int × Int) : Int := r.2.1

/-- The `gavail` result of `hlinefmt`. -/
def gavailOf (r : Bytes × Int × Int) : Int := r.2.2

/-! ## float64 -/

/-- A Go `float64`, an IEEE 754 binary64 value: a NaN, an infinity, or the
finite value `±m·2^e`.  The values arithmetic produces are in canonical form:
`m < 2^53`, `-1074 ≤ e ≤ 971`, and `2^52 ≤ m` unless `e = -1074`; the two zeros are
`fin neg 0 (-1074)`. -/
inductive float64 where
  | nan
  | inf (neg : Bool)
  | fin (neg : Bool) (m : Nat) (e : Int)
  deriving DecidableEq, Repr

/-- The loop that counts the halvings of `n` down to 1. -/
def log2Loop : Nat → Nat → Nat
  | 0, _ => 0
  | fuel + 1, n => if n < 2 then 0 else log2Loop fuel (n / 2) + 1

/-- The position of the leading bit of `n`: the `k` with `2^k ≤ n < 2^(k+1)`, for
positive `n`. -/
def log2Nat (n : Nat) : Nat := log2Loop n n

/-- The integer `k` with `2^k ≤ n/d < 2^(k+1)`, for positive `n` and `d`. -/
def floorLog2 (n d : Nat) : Int :=
  let k : Int := (log2Nat n : Int) - (log2Nat d : Int)
  if (if k ≥ 0 then d <<< k.toNat ≤ n else d ≤ n <<< (-k).toNat) then k else k - 1

/-- The integer nearest to `n/d`, a tie going to the even one. -/
def roundHalfEven (n d : Nat) : Nat :=
  let f := n / d
  let r := n % d
  if 2 * r < d then f else if d < 2 * r then f + 1 else if f % 2 = 0 then f else f + 1

/-- The `float64` nearest to `±n/d`, a tie going to the even significand (the
rounding of every float64 operation): the significand has 53 bits, or fewer
below `2^-1022`; a result of `2^1024` or more is an infinity. -/
def roundNearest (neg : Bool) (n d : Nat) : float64 :=
  if n = 0 then float64.fin neg 0 (-1074)
  else
    let e : Int := max (floorLog2 n d - 52) (-1074)
    let m := if e ≥ 0 then roundHalfEven n (d <<< e.toNat)
      else roundHalfEven (n <<< (-e).toNat) d
    if m = 2 ^ 53 then
      if e + 1 > 971 then float64.inf neg else float64.fin neg (2 ^ 52) (e + 1)
    else if e > 971 then float64.inf neg
    else float64.fin neg m e

/-- The conversion `float64(v)` of an `int64`. -/
def float64.ofInt (v : Int) : float64 := roundNearest (decide (v < 0)) v.natAbs 1

/-- The quotient `x / y` of two `float64`. -/
def float64.div : float64 → float64 → float64
  | float64.nan, _ => float64.nan
  | _, float64.nan => float64.nan
  | float64.inf _, float64.inf _ => float64.nan
  | float64.inf s, float64.fin t _ _ => float64.inf (xor s t)
  | float64.fin s _ _, float64.inf t => float64.fin (xor s t) 0 (-1074)
  | float64.fin s m e, float64.fin t m2 e2 =>
    if m2 = 0 then (if m = 0 then float64.nan else float64.inf (xor s t))
    else if e2 ≤ e then roundNearest (xor s t) (m <<< (e - e2).toNat) m2
    else roundNearest (xor s t) m (m2 <<< (e2 - e).toNat)

/-- The sum `x + y` of two `float64`.  A zero added to a value leaves it as it is;
two zeros give `-0` only when both are `-0`; a sum of two opposite values is `+0`. -/
def float64.add : float64 → float64 → float64
  | float64.nan, _ => float64.nan
  | _, float64.nan => float64.nan
  | float64.inf s, float64.inf t => if s = t then float64.inf s else float64.nan
  | float64.inf s, float64.fin _ _ _ => float64.inf s
  | float64.fin _ _ _, float64.inf t => float64.inf t
  | float64.fin s m e, float64.fin t m2 e2 =>
    let e0 := min e e2
    let a : Int := (if s then -1 else 1) * ((m <<< (e - e0).toNat : Nat) : Int)
    let b : Int := (if t then -1 else 1) * ((m2 <<< (e2 - e0).toNat : Nat) : Int)
    if m = 0 ∧ m2 = 0 then float64.fin (s && t) 0 (-1074)
    else if m = 0 then float64.fin t m2 e2
    else if m2 = 0 then float64.fin s m e
    else if a + b = 0 then float64.fin false 0 (-1074)
    else if 0 ≤ e0 then roundNearest (decide (a + b < 0)) ((a + b).natAbs <<< e0.toNat) 1
    else roundNearest (decide (a + b < 0)) (a + b).natAbs (1 <<< (-e0).toNat)

/-- The comparison `v < 0`. -/
def float64.ltZero : float64 → Bool
  | float64.nan => false
  | float64.inf s => s
  | float64.fin s m _ => s && decide (m ≠ 0)

/-- Go `math.IsNaN`. -/
def IsNaN : float64 → Bool
  | float64.nan => true
  | _ => false

/-- Go `math.IsInf(v, 0)`. -/
def IsInf : float64 → Bool
  | float64.inf _ => true
  | _ => false

/-- Go `math.Abs`. -/
def Abs : float64 → float64
  | float64.nan => float64.nan
  | float64.inf _ => float64.inf false
  | float64.fin _ m e => float64.fin false m e

/-- Go `math.Copysign(x, y)` for a `y` that is not a NaN. -/
def Copysign (x y : float64) : float64 :=
  let s := match y with
    | float64.nan => false
    | float64.inf s => s
    | float64.fin s _ _ => s
  match x with
  | float64.nan => float64.nan
  | float64.inf _ => float64.inf s
  | float64.fin _ m e => float64.fin s m e

/-- Go `math.Trunc`: the integer part, with the sign of the argument. -/
def Trunc : float64 → float64
  | float64.nan => float64.nan
  | float64.inf s => float64.inf s
  | float64.fin s m e => if 0 ≤ e then float64.fin s m e else roundNearest s (m >>> (-e).toNat) 1

/-- The conversion `int(v)`: the value without its fraction.  The result for a
value that an `int` cannot hold, which Go leaves to the implementation, is
`none`. -/
def float64.toInt : float64 → Option Int
  | float64.nan => none
  | float64.inf _ => none
  | float64.fin s m e =>
    let a : Nat := if 0 ≤ e then m <<< e.toNat else m >>> (-e).toNat
    let v : Int := if s then -(a : Int) else (a : Int)
    if isInt64 v then some v else none

/-- Go `fmt.Sprint(v)` of a `float64` that is a NaN or an infinity; the decimal
text of a finite value is not embedded (`none`). -/
def Sprint : float64 → Option Bytes
  | float64.nan => some (ascii "NaN")
  | float64.inf false => some (ascii "+Inf")
  | float64.inf true => some (ascii "-Inf")
  | float64.fin _ _ _ => none

/-- The constant 0.5. -/
def float64.half : float64 := float64.fin false (2 ^ 52) (-53)

/-- The zero value of a `float64`. -/
def float64.zero : float64 := float64.fin false 0 (-1074)

/-- Go `strings.Repeat` of a one-byte string: `none` for its panic on a
negative count. -/
def stringsRepeat (c : Nat) (count : Int) : Option Bytes :=
  if count < 0 then none else some (List.replicate count.toNat c)

/-- The method `gv` of `histogrammer`, which does not use its receiver: the bar
of the value `v`; `none` when the conversion `int(v)` or `strings.Repeat` leaves no
result. -/
def gv (v : float64) : Option Bytes :=
  if IsNaN v || IsInf v then Sprint v
  else
    let c : Nat := if v.ltZero then 45 else 43
    let v := Abs (Trunc (v.add (Copysign float64.half v)))
    match v.toInt with
    | none => none
    | some n => stringsRepeat c n

/-! ## hist.go: the histogrammer -/

/-- The type `gType` and its constants. -/
inductive gType where
  | gNone
  | gLinear
  | gLog
  deriving DecidableEq, Repr

/-- The struct `histogrammer`. -/
structure histogrammer where
  keys : List Int := []
  weightCol : Int := 0
  words : Bool := false
  termWidth : Int := 0
  ifs : Regexp
  ofs : Bytes := []
  gt : gType := gType.gNone
  snip : Bool := false
  maxVal : Int := 0
  maxKey : Int := 0
  hfmt : Bytes := []
  kavail : Int := 0
  gavail : Int := 0
  gscale : float64 := float64.zero

/-- The function `abs` on int64. -/
def abs (v : Int) : Int := if v ≥ 0 then v else wrapInt (-v)

/-- The closure `key` of `hist`: the line itself, or the selected fields joined
by one space. -/
def keyFn (h : histogrammer) (line : Bytes) : Bytes :=
  if h.keys.length > 0 then
    stringsJoin (((NewParter h.ifs h.keys).Fields line).map bytesOf) [32]
  else line

/-- The closure `weight` of `hist`: `some w` when it returns a nil error, `none`
when it returns an error ("short line", or the error of `ParseInt`). -/
def weightFn (h : histogrammer) (line : Bytes) : Option Int :=
  if h.weightCol ≠ 0 then
    let parts := (NewParter h.ifs [h.weightCol]).Fields line
    match parts with
    | [] => none
    | p0 :: _ => ParseInt (bytesOf p0)
  else some 1

/-- The map `d` of `hist`, a `map[string]int64`, as an association list with
one pair per key, in the order in which the keys were first assigned. -/
abbrev CountMap := List (Bytes × Int)

/-- The statement `d[k] += w`. -/
def mapAdd : CountMap → Bytes → Int → CountMap
  | [], k, w => [(k, wrapInt (0 + w))]
  | (k1, v) :: rest, k, w =>
    if k1 = k then (k1, wrapInt (v + w)) :: rest else (k1, v) :: mapAdd rest k w

/-- The body of the loop `for s.Scan()` of `hist` on one record: the state is the
map `d` and the field `maxKey`.  A record without a weight is skipped; the
warning the source then writes to `os.Stderr` is outside the embedding. -/
def histStep (h : histogrammer) (st : CountMap × Int) (line : Bytes) : CountMap × Int :=
  match weightFn h line with
  | none => st
  | some w =>
    let k := keyFn h line
    (mapAdd st.1 k w, if (k.length : Int) > st.2 then (k.length : Int) else st.2)

/-- Go `sort.Sort(byCountKey(kc))`: the slice in ascending order as `Less`
determines it.  The embedding sorts by insertion, an entry going before the
first one that is not less than it. -/
def sortSort (kc : byCountKey) : byCountKey :=
  kc.insertionSort (fun a b => b.less a = false)

/-- The scanner `hist` builds: `ScanWords` when `h.words`, else `ScanLines`. -/
def scan (words : Bool) (inp : Bytes) : ScanResult :=
  if words then scanWords inp else scanLines inp

/-- The method `histogrammer.hist` on the input `inp`, up to its last statements,
which assign the floating-point field `gscale` and are added by `histScaled`: the
histogrammer as the method leaves it, and the returned pair as `Except`:
`error e` for `(nil, e)`, `ok kc` for `(kc, nil)`.  The map is ranged over in the
order of first assignment; `sortSort` makes the result independent of that
order. -/
def hist (h : histogrammer) (inp : Bytes) : histogrammer × Except ScanError (List keyCount) :=
  let fmt := hlinefmt h.termWidth (h.gt != gType.gNone) h.ofs
  let h1 := { h with hfmt := fmt.1, kavail := fmt.2.1, gavail := fmt.2.2 }
  let s := scan h1.words inp
  let st := s.tokens.foldl (histStep h1) ([], h1.maxKey)
  let h2 := { h1 with maxKey := st.2 }
  match s.err with
  | some e => (h2, Except.error e)
  | none =>
    let kc := sortSort (st.1.map (fun kv => { key := kv.1, cnt := kv.2 }))
    let maxVal :=
      match kc.head?, kc.getLast? with
      | some f, some l => if abs l.cnt > abs f.cnt then abs l.cnt else abs f.cnt
      | _, _ => h2.maxVal
    ({ h2 with maxVal := maxVal }, Except.ok kc)

/-- The slice `hist` returns: `nil` when it returns an error. -/
def histEntries (h : histogrammer) (inp : Bytes) : List keyCount :=
  match (hist h inp).2 with
  | Except.ok kc => kc
  | Except.error _ => []

/-- The sum of the weights of the records in `recs`. -/
def sumWeights (h : histogrammer) (recs : List Bytes) : Int :=
  (recs.map (fun r => (weightFn h r).getD 0)).sum

/-! ## Auxiliary notions for the statements -/

/-- The value `d[k]` of the map: zero when the key is absent. -/
def valOf : CountMap → Bytes → Int
  | [], _ => 0
  | (k1, v) :: rest, k => if k1 = k then v else valOf rest k

/-- The (key, weight) pairs of the records that yield a weight, in order. -/
def pairsOf (h : histogrammer) (recs : List Bytes) : List (Bytes × Int) :=
  recs.filterMap (fun r => (weightFn h r).map (fun w => (keyFn h r, w)))

/-- The map after `d[k] += w` for the pairs `ps` in order. -/
def addAll (d : CountMap) (ps : List (Bytes × Int)) : CountMap :=
  ps.foldl (fun d p => mapAdd d p.1 p.2) d

/-- The sum of the weights among `ps` that go to the key `k`. -/
def totalOf (ps : List (Bytes × Int)) (k : Bytes) : Int :=
  ((ps.filter (fun p => p.1 = k)).map (fun p => p.2)).sum

/-- The entries of a map, as `hist` appends them to `kc`. -/
def entriesOf (d : CountMap) : List keyCount :=
  d.map (fun kv => { key := kv.1, cnt := kv.2 })

/-- The order the output of `hist` is claimed to have: by increasing count,
ties by increasing key. -/
def countKeyLE (a b : keyCount) : Prop :=
  a.cnt < b.cnt ∨ (a.cnt = b.cnt ∧ a.key ≤ b.key)

instance (a b : keyCount) : Decidable (countKeyLE a b) := by unfold countKeyLE; infer_instance

/-- Lines written out, each terminated by a newline. -/
def unlines : List Bytes → Bytes
  | [] => []
  | l :: ls => l ++ 10 :: unlines ls

/-- The input `inp` with every line removed whose record (the line without its
carriage return) fails `p`; the lines kept are each terminated by a newline. -/
def removeRecords (p : Bytes → Bool) (inp : Bytes) : Bytes :=
  unlines ((rawLines inp []).filter (fun l => p (dropCR l)))

/-- The bytes of a sequence of runes. -/
def bytesOfRunes (rs : List (Nat × Bytes)) : Bytes := (rs.map (fun x => x.2)).flatten

/-- The maximal runs of non-whitespace characters of the input, following the
words of the specification: the pieces of the rune sequence between whitespace
runes that are not empty. -/
def maximalRuns (inp : Bytes) : List Bytes :=
  (((runes inp).splitOnP (fun x => isSpace x.1)).filter (fun seg => seg ≠ [])).map bytesOfRunes

/-- An input for the check of skipped records: the weights of "b x" and of "c"
cannot be obtained. -/
def testSkipInput : Bytes := ascii "a 1\nb x\nc\na 2"

/-- The input of `TestHist`. -/
def testHistInput : Bytes := ascii "a b 2\na c 5"

/-- The input of `TestWords`. -/
def testWordsInput : Bytes :=
  ascii "... What\nconquest brings  he  home? What  tributaries \nfollow ...  "

/-- The test helper `kc`. -/
def kc (k : String) (c : Int) : keyCount := { key := ascii k, cnt := c }

/-- The digits of a decimal numeral: the string without its sign. -/
def digitsOf (s : Bytes) : Bytes :=
  match s with
  | [] => []
  | c :: rest => if c = 43 ∨ c = 45 then rest else s

/-- A decimal integer as text: an optional sign `+` or `-`, then one or more of
the digits `0` to `9`. -/
def isDecimal (s : Bytes) : Prop :=
  digitsOf s ≠ [] ∧ ∀ c ∈ digitsOf s, 48 ≤ c ∧ c ≤ 57

instance (s : Bytes) : Decidable (isDecimal s) := by unfold isDecimal; infer_instance

/-- The number a string of digits stands for. -/
def digitsValue (ds : Bytes) : Nat := ds.foldl (fun acc c => acc * 10 + (c - 48)) 0

/-- The integer a decimal numeral stands for. -/
def decimalValue (s : Bytes) : Int :=
  if s.head? = some 45 then -(digitsValue (digitsOf s) : Int) else (digitsValue (digitsOf s) : Int)

/-- The string is a decimal integer whose value an `int` holds. -/
def isDecimalInt (s : Bytes) : Prop := isDecimal s ∧ isInt64 (decimalValue s)

instance (s : Bytes) : Decidable (isDecimalInt s) := by unfold isDecimalInt; infer_instance

/-- Go `utf8.ValidString`: the string is a sequence of valid encodings, that is,
no step of the decoder reports an invalid one, which it does as
`(RuneError, 1)`. -/
def ValidString (s : Bytes) : Bool :=
  (runes s).all (fun x => decide (¬ (x.1 = RuneError ∧ x.2.length = 1)))

/-- The bytes of the first `n` runes of `s`. -/
def runePrefix (n : Nat) (s : Bytes) : Bytes := bytesOfRunes ((runes s).take n)

/-! ## fld/fld.go and its test -/

/-- The matches of a regular expression `c+` for a byte `c` (one or more times
that byte): the maximal runs of `c`.  `pos` is the index of the head of the list
and `start` the beginning of the run being read. -/
def byteRuns (c : Nat) : Bytes → Nat → Option Nat → List (Nat × Nat)
  | [], pos, some st => [(st, pos)]
  | [], _, none => []
  | b :: rest, pos, none =>
    if b = c then byteRuns c rest (pos + 1) (some pos) else byteRuns c rest (pos + 1) none
  | b :: rest, pos, some st =>
    if b = c then byteRuns c rest (pos + 1) (some st)
    else (st, pos) :: byteRuns c rest (pos + 1) none

/-- The value of `regexp.MustCompile("_+")`, the `ifs` of `TestFld`. -/
def reUnderscores : Regexp := fun b => byteRuns 95 b 0 none

/-- Go `bytes.Join` on slices that may be `nil`. -/
def bytesJoin (parts : List (Option Bytes)) (sep : Bytes) : Bytes :=
  stringsJoin (parts.map bytesOf) sep

/-- The function `fld` on an input held in memory, the writer being a buffer
that never fails: `ok out` with everything written when it returns nil,
`error e` when it returns the scanner's error. -/
def fld (inp : Bytes) (ifs : Regexp) (ofs : Bytes) (idx : List Int) : Except ScanError Bytes :=
  let p := NewParter ifs idx
  let s := scanLines inp
  match s.err with
  | some e => Except.error e
  | none => Except.ok (s.tokens.foldl (fun out line => out ++ bytesJoin (p.Fields line) ofs ++ [10]) [])

/-- The input of `TestFld`. -/
def testFldInput : Bytes :=
  ascii "one_two_three_four_five\none__two__three__four__five\none_two\none\n\none_two_three"

/-! ## tally/tally.go -/

/-- How a run of `tally` ends: it returns nil after writing `out`, it returns
the scanner's error (nothing has been written then), or it stops in a run-time
panic (an index out of range). -/
inductive TallyResult where
  | ok (out : Bytes)
  | error (e : ScanError)
  | panic
  deriving DecidableEq, Repr

/-- The loop `for i, v := range parts` of `tally` from index `i` on: a part that
`ParseInt` rejects is passed over, the value of any other part is added to
`sums[i]`; `none` when `i` is out of the range of `sums`. -/
def tallyRange (sums : List Int) : List (Option Bytes) → Nat → Option (List Int)
  | [], _ => some sums
  | v :: rest, i =>
    match ParseInt (bytesOf v) with
    | none => tallyRange sums rest (i + 1)
    | some n =>
      if i < sums.length then tallyRange (sums.set i (wrapInt (sums.getD i 0 + n))) rest (i + 1)
      else none

/-- The loop `for i, v := range sums` of `tally` from index `i` on: what it
writes. -/
def writeSums (ofs : Bytes) : List Int → Nat → Bytes
  | [], _ => []
  | v :: rest, i => (if i > 0 then ofs else []) ++ Itoa v ++ writeSums ofs rest (i + 1)

/-- The function `tally` on an input held in memory, the writer being a buffer
that never fails.  The warnings written to `os.Stderr` are outside the
embedding. -/
def tally (inp : Bytes) (ifs : Regexp) (ofs : Bytes) (idx : List Int) : TallyResult :=
  let sums := List.replicate idx.length (0 : Int)
  let p := NewParter ifs idx
  let s := scanLines inp
  match s.tokens.foldl (fun st line => st.bind (fun sums => tallyRange sums (p.Fields line) 0))
      (some sums) with
  | none => TallyResult.panic
  | some sums =>
    match s.err with
    | some e => TallyResult.error e
    | none => TallyResult.ok (writeSums ofs sums 0 ++ [10])

/-- The input of the test of `tally`. -/
def testTallyInput : Bytes :=
  ascii "1 10\n2 20\n4 30\n8 40\n16 50\n32 60\n64 70\n128 80\n256 90"

/-- What a field contributes to its column: its value when `ParseInt` accepts
it, nothing when the field is absent (`nil`) or is not an integer. -/
def contribution (f : Option Bytes) : Int := (ParseInt (bytesOf f)).getD 0

/-- The signed 64-bit sum, over the lines, of the field selected by the index
`v`. -/
def columnSum (ifs : Regexp) (lines : List Bytes) (v : Int) : Int :=
  wrapInt ((lines.map (fun line => contribution (fieldAt (splitb ifs line) v))).sum)

/-- The statement `sums[i] += n` of `tally` for the field `f`, passed over when
`ParseInt` rejects the field. -/
def addField (s : Int) (f : Option Bytes) : Int :=
  match ParseInt (bytesOf f) with
  | none => s
  | some n => wrapInt (s + n)

/-! ## fmt.Sprintf -/

/-- An operand of `Sprintf`: an `int64` or a `string`. -/
inductive FmtArg where
  | int64 (v : Int)
  | string (s : Bytes)
  deriving DecidableEq, Repr

/-- Where `doPrintf` stands in the format: in plain text, after a `%` among the
flags (`minus`: a `-` was read), or in the digits of a width (`num`: their value
so far). -/
inductive FmtState where
  | text
  | flags (minus : Bool)
  | width (minus : Bool) (num : Nat)
  deriving DecidableEq, Repr

/-- The method `pad` of fmt: the text `b` in a field of `wid` runes, on the left
of it when `minus` is set. -/
def fmtPad (minus : Bool) (wid : Option Nat) (b : Bytes) : Bytes :=
  match wid with
  | none => b
  | some w =>
    if minus then b ++ List.replicate (w - RuneCountInString b) 32
    else List.replicate (w - RuneCountInString b) 32 ++ b

/-- What `doPrintf` appends for operands left over: `%!(EXTRA type=value, ...)`. -/
def extraArgs (args : List FmtArg) : Bytes :=
  if args = [] then []
  else
    ascii "%!(EXTRA " ++
    stringsJoin (args.map (fun a =>
      match a with
      | FmtArg.int64 v => ascii "int64=" ++ Itoa v
      | FmtArg.string s => ascii "string=" ++ s)) (ascii ", ") ++ ascii ")"

/-- One verb of `doPrintf` with its flag and width: what is written and the
operands that remain.  `%%` takes no operand; `%d` prints an `int64` in decimal
and `%s` a `string`, padded to the width; a verb without operand prints
`%!verb(MISSING)`.  Any other pairing of verb and operand is outside the
embedding (`none`). -/
def printVerb (verb : Nat) (minus : Bool) (wid : Option Nat) (args : List FmtArg) :
    Option (Bytes × List FmtArg) :=
  if verb = 37 then some ([37], args)
  else if 128 ≤ verb then none
  else
    match args with
    | [] => some (ascii "%!" ++ [verb] ++ ascii "(MISSING)", [])
    | FmtArg.int64 v :: rest => if verb = 100 then some (fmtPad minus wid (Itoa v), rest) else none
    | FmtArg.string s :: rest => if verb = 115 then some (fmtPad minus wid s, rest) else none

/-- The loop of fmt `doPrintf` over the bytes of the format.  Embedded: plain
text, the flags `-` and `0` (the latter only where `-` has cancelled it), a
decimal width, the verbs of `printVerb`, and the endings `%!(NOVERB)` (the format
ends inside a directive, or `parsenum` gives up on a width: it does so when the
digits read before another digit exceed 1000000) and `%!(EXTRA ...)`.  The
flags `#`, `+`, space and an effective `0`, `*`, precisions and argument indexes
are outside the embedding (`none`). -/
def doPrintf : Bytes → FmtState → List FmtArg → Option Bytes
  | [], FmtState.text, args => some (extraArgs args)
  | [], _, args => some (ascii "%!(NOVERB)" ++ extraArgs args)
  | c :: rest, FmtState.text, args =>
    if c = 37 then doPrintf rest (FmtState.flags false) args
    else (doPrintf rest FmtState.text args).map (fun out => c :: out)
  | c :: rest, FmtState.flags minus, args =>
    if c = 45 then doPrintf rest (FmtState.flags true) args
    else if c = 48 then (if minus then doPrintf rest (FmtState.flags minus) args else none)
    else if c = 35 ∨ c = 43 ∨ c = 32 ∨ c = 42 ∨ c = 46 ∨ c = 91 then none
    else if 49 ≤ c ∧ c ≤ 57 then doPrintf rest (FmtState.width minus (c - 48)) args
    else
      match printVerb c minus none args with
      | none => none
      | some (b, args) => (doPrintf rest FmtState.text args).map (fun out => b ++ out)
  | c :: rest, FmtState.width minus num, args =>
    if 48 ≤ c ∧ c ≤ 57 then
      if num > 1000000 then some (ascii "%!(NOVERB)" ++ extraArgs args)
      else doPrintf rest (FmtState.width minus (num * 10 + (c - 48))) args
    else if c = 46 ∨ c = 91 then none
    else
      match printVerb c minus (some num) args with
      | none => none
      | some (b, args) => (doPrintf rest FmtState.text args).map (fun out => b ++ out)

/-- Go `fmt.Sprintf` on `int64` and `string` operands. -/
def Sprintf (format : Bytes) (args : List FmtArg) : Option Bytes :=
  doPrintf format FmtState.text args

/-- Go `strings.TrimRight(s, " ")`. -/
def TrimRight (s : Bytes) : Bytes := s.rdropWhile (fun b => b = 32)

/-! ## hist.go: scale and lines -/

/-- The last statements of `hist`, after the ranked entries are known: the value
it assigns to `h.gscale`.  `Log2` stands for `math.Log2`. -/
def gscaleOf (Log2 : float64 → float64) (h : histogrammer) : float64 :=
  let g := float64.ofInt h.maxVal
  let g := if h.gt = gType.gLog then Log2 (float64.ofInt h.maxVal) else g
  g.div (float64.ofInt h.gavail)

/-- The method `histogrammer.hist` in full: `hist`, followed on the path that
returns entries by the assignment of `h.gscale`. -/
def histScaled (Log2 : float64 → float64) (h : histogrammer) (inp : Bytes) :
    histogrammer × Except ScanError (List keyCount) :=
  let r := hist h inp
  match r.2 with
  | Except.error e => (r.1, Except.error e)
  | Except.ok kc => ({ r.1 with gscale := gscaleOf Log2 r.1 }, Except.ok kc)

/-- The value `g` that `hline` passes to `gv` for the count `cnt`. -/
def barValue (Log2 : float64 → float64) (h : histogrammer) (cnt : Int) : float64 :=
  match h.gt with
  | gType.gLinear => (float64.ofInt cnt).div h.gscale
  | gType.gLog => (Log2 (float64.ofInt cnt)).div h.gscale
  | gType.gNone => float64.zero

/-- The method `hline`: the report line of one entry.  `none` stands for a run
that does not return a line (`gv` does not), or leaves the embedded part of
`Sprintf`. -/
def hline (Log2 : float64 → float64) (h : histogrammer) (kc : keyCount) : Option Bytes :=
  let okey := if h.snip then (snip kc.key h.kavail).map (fun r => r.1) else some kc.key
  match okey with
  | none => none
  | some key =>
    if h.gt = gType.gNone then
      (Sprintf h.hfmt [FmtArg.int64 kc.cnt, FmtArg.string key]).map TrimRight
    else
      match gv (barValue Log2 h kc.cnt) with
      | none => none
      | some bar =>
        (Sprintf h.hfmt [FmtArg.int64 kc.cnt, FmtArg.string key, FmtArg.string bar]).map TrimRight

/-- The method `printHist` into a buffer: every line followed by a newline. -/
def printHist (Log2 : float64 → float64) (h : histogrammer) : List keyCount → Option Bytes
  | [] => some []
  | kv :: rest =>
    match hline Log2 h kv, printHist Log2 h rest with
    | some l, some out => some (l ++ 10 :: out)
    | _, _ => none

/-- The input of `TestGraph`. -/
def testGraphInput : Bytes :=
  ascii "- -10\n0 0\na 1\nb 10\nc 100\nz_long_key_that_is_snippetted 100"

/-- The histogrammer of `TestGraph` at the scale `gt`. -/
def testGraphHist (gt : gType) : histogrammer :=
  { keys := [1], weightCol := 2, ifs := reSpaces, termWidth := 40, snip := true, gt := gt }

/-! ## Auxiliary notions for the statements on float64 -/

/-- A function with the special cases of `math.Log2` (a NaN for a NaN and for a
negative argument, `-Inf` for a zero, `+Inf` for `+Inf`) that is exact at the
powers of two, as `math.Log2` is, and gives the integer below the logarithm
elsewhere.  It takes the place of the parameter `Log2` in checks whose outcome
does not depend on the value elsewhere. -/
def log2Floor : float64 → float64
  | float64.nan => float64.nan
  | float64.inf s => if s then float64.nan else float64.inf false
  | float64.fin s m e =>
    if m = 0 then float64.inf true
    else if s then float64.nan
    else float64.ofInt ((log2Nat m : Int) + e)

/-- The number a finite `float64` stands for (zero for a NaN or an infinity). -/
def float64.val : float64 → ℚ
  | float64.fin s m e => (if s then -1 else 1) * (m : ℚ) * (2 : ℚ) ^ e
  | _ => 0

/-- The exponent `roundNearest` gives the result for `n/d`, before a carry out of
the significand. -/
def roundExp (n d : Nat) : Int := max (floorLog2 n d - 52) (-1074)

/-- The significand `roundNearest` gives the result for `n/d`, before a carry. -/
def roundSig (n d : Nat) : Nat :=
  if roundExp n d ≥ 0 then roundHalfEven n (d <<< (roundExp n d).toNat)
  else roundHalfEven (n <<< (-(roundExp n d)).toNat) d

/-- The magnitude of the `float64` nearest to `n/d`, were the exponent range
unbounded above. -/
def roundMag (n d : Nat) : ℚ := (roundSig n d : ℚ) * (2 : ℚ) ^ roundExp n d

/-- The natural number `m` is nearest to `x`, and is even when `x` lies halfway
between two numbers. -/
def nearestEven (x : ℚ) (m : Nat) : Prop :=
  x - 1 / 2 ≤ m ∧ (m : ℚ) ≤ x + 1 / 2 ∧
  ((m : ℚ) = x + 1 / 2 → m % 2 = 0) ∧ ((m : ℚ) = x - 1 / 2 → m % 2 = 0)

instance (x : ℚ) (m : Nat) : Decidable (nearestEven x m) := by
  unfold nearestEven; infer_instance

/-- The value `x` is finite and not a zero, with the sign `s` and the magnitude
`v`; its significand has at most 53 bits. -/
def float64.finite (s : Bool) (x : float64) (v : ℚ) : Prop :=
  ∃ m e, x = float64.fin s m e ∧ m ≠ 0 ∧ m < 2 ^ 53 ∧ (m : ℚ) * (2 : ℚ) ^ e = v

/-- The magnitude of the `float64` nearest to the positive rational `q`, were the
exponent range unbounded above. -/
def roundQ (q : ℚ) : ℚ := roundMag q.num.natAbs q.den

/-- What the development assumes of `math.Log2`: its documented special cases
(a NaN below zero, `-Inf` at a zero) and, at the `float64` of an integer from 1
to `2^63 - 1`, a result that is `+0` or a finite number from 1 to 64 (the
logarithm of 1 is 0, that of a larger `int64` lies between 1 and 63). -/
structure Log2Spec (Log2 : float64 → float64) : Prop where
  neg : ∀ x, x.ltZero = true → Log2 x = float64.nan
  zero : ∀ s e, Log2 (float64.fin s 0 e) = float64.inf true
  int : ∀ c : Int, 1 ≤ c → c < 2 ^ 63 →
    (∃ e, Log2 (float64.ofInt c) = float64.fin false 0 e) ∨
    ∃ v, (Log2 (float64.ofInt c)).finite false v ∧ 1 ≤ v ∧ v ≤ 64

/-- The histogrammer `h` with the graph column width `gavail` and the scale
factor that `hist` computes from it. -/
def rescale (Log2 : float64 → float64) (h : histogrammer) (gavail : Int) : histogrammer :=
  { h with gavail := gavail, gscale := gscaleOf Log2 { h with gavail := gavail } }

/-! # Theorems -/

/-! ## Checks of the layout against `TestHlinefmt` -/

example : hlinefmt 40 false [] = (ascii "%15d %-23s", 23, 0) := by decide
example : hlinefmt 40 false (ascii ",") = (ascii "%d,%s", 23, 0) := by decide
example : hlinefmt 60 true [] = (ascii "%15d %-14s %s", 14, 28) := by decide
example : hlinefmt 60 true (ascii ",") = (ascii "%d,%s,%s", 14, 28) := by decide

/-! ## Arithmetic helpers -/

theorem wrapInt_of_isInt64 {x : Int} (h : isInt64 x) : wrapInt x = x := by
  unfold isInt64 at h
  unfold wrapInt
  omega

theorem wrapInt_isInt64 (x : Int) : isInt64 (wrapInt x) := by
  unfold isInt64 wrapInt
  omega

theorem tdiv_two (tw : Int) : tw.tdiv 2 = if 0 ≤ tw then tw / 2 else -((-tw) / 2) := by
  split
  · rename_i h
    exact Int.tdiv_eq_ediv h (by decide)
  · rename_i h
    have h1 : tw = -(-tw) := by omega
    rw [h1, Int.neg_tdiv, Int.tdiv_eq_ediv (by omega) (by decide)]
    simp

/-! ## The order of entries -/

example : ascii "a" < ascii "ab" := by decide
example : ascii "ab" < ascii "b" := by decide
example : ascii "Z" < ascii "a" := by decide
example : (kc "b" 1).less (kc "a" 2) = true := by decide
example : (kc "a" 2).less (kc "b" 2) = true := by decide
example : (kc "b" 2).less (kc "a" 2) = false := by decide

theorem less_iff (x y : keyCount) :
    x.less y = true ↔ x.cnt < y.cnt ∨ (x.cnt = y.cnt ∧ x.key < y.key) := by
  unfold keyCount.less
  by_cases h1 : x.cnt < y.cnt
  · simp [h1]
  · by_cases h2 : x.cnt > y.cnt
    · simp [h1, h2]
      intro h; omega
    · have h3 : x.cnt = y.cnt := by omega
      simp [h1, h2, h3]

theorem less_irrefl (x : keyCount) : x.less x = false := by
  rw [Bool.eq_false_iff]
  intro h
  rw [less_iff] at h
  rcases h with h | ⟨_, h⟩
  · omega
  · exact lt_irrefl _ h

theorem less_trans {x y z : keyCount} (hxy : x.less y = true) (hyz : y.less z = true) :
    x.less z = true := by
  rw [less_iff] at *
  rcases hxy with h1 | ⟨h1, k1⟩ <;> rcases hyz with h2 | ⟨h2, k2⟩
  · left; omega
  · left; omega
  · left; omega
  · right; exact ⟨h1.trans h2, lt_trans k1 k2⟩

theorem less_asymm {x y : keyCount} (hxy : x.less y = true) : y.less x = false := by
  rw [Bool.eq_false_iff]
  intro hyx
  have h := less_trans hxy hyx
  rw [less_irrefl] at h
  exact Bool.false_ne_true h

theorem less_total_of_ne {x y : keyCount} (h : ¬ (x.cnt = y.cnt ∧ x.key = y.key)) :
    x.less y = true ∨ y.less x = true := by
  rw [less_iff, less_iff]
  rcases lt_trichotomy x.cnt y.cnt with h1 | h1 | h1
  · left; left; exact h1
  · rcases lt_trichotomy x.key y.key with h2 | h2 | h2
    · left; right; exact ⟨h1, h2⟩
    · exact absurd ⟨h1, h2⟩ h
    · right; right; exact ⟨h1.symm, h2⟩
  · right; left; exact h1

theorem less_false_of_same {x y : keyCount} (h : x.cnt = y.cnt ∧ x.key = y.key) :
    x.less y = false := by
  rw [Bool.eq_false_iff]
  intro hl
  rw [less_iff] at hl
  rcases hl with h1 | ⟨_, h1⟩
  · omega
  · rw [h.2] at h1
    exact lt_irrefl _ h1

/-! ## Layout widths (C7, C8) -/

/-- The widths `hlinefmt` computes, without wrap-around. -/
theorem hlinefmt_exact (tw : Int) (ofs : Bytes)
    (hlo : -(2 ^ 63) + 17 ≤ tw) (hhi : tw < 2 ^ 63) :
    kavailOf (hlinefmt tw false ofs) = tw - 15 - 2 ∧
    gavailOf (hlinefmt tw false ofs) = 0 ∧
    kavailOf (hlinefmt tw true ofs) = Int.tdiv tw 2 - 15 - 1 ∧
    gavailOf (hlinefmt tw true ofs) = tw - 15 - kavailOf (hlinefmt tw true ofs) - 3 := by
  have hd := tdiv_two tw
  refine ⟨?_, ?_, ?_, ?_⟩
  · simp only [hlinefmt, kavailOf, countAvail, wrapInt]
    simp
    omega
  · simp [hlinefmt, gavailOf]
  · simp only [hlinefmt, kavailOf, countAvail, wrapInt]
    simp
    split at hd <;> omega
  · simp only [hlinefmt, kavailOf, gavailOf, countAvail, wrapInt]
    simp
    split at hd <;> omega

/-- C7: for every terminal width `tw` (a Go int whose subtraction of 17 does
not wrap around) and every separator `ofs`, `hlinefmt(tw, false, ofs)` returns
kavail = tw - 15 - 2 and gavail = 0, and `hlinefmt(tw, true, ofs)` returns
kavail = tw/2 - 15 - 1 (division truncating toward zero) and
gavail = tw - 15 - kavail - 3; neither width depends on `ofs`. -/
theorem hlinefmt_widths (tw : Int) (ofs : Bytes)
    (hlo : -(2 ^ 63) + 17 ≤ tw) (hhi : tw < 2 ^ 63) :
    kavailOf (hlinefmt tw false ofs) = tw - 15 - 2 ∧
    gavailOf (hlinefmt tw false ofs) = 0 ∧
    kavailOf (hlinefmt tw true ofs) = Int.tdiv tw 2 - 15 - 1 ∧
    gavailOf (hlinefmt tw true ofs) = tw - 15 - kavailOf (hlinefmt tw true ofs) - 3 ∧
    (∀ (g : Bool) (ofs2 : Bytes),
      kavailOf (hlinefmt tw g ofs2) = kavailOf (hlinefmt tw g ofs) ∧
      gavailOf (hlinefmt tw g ofs2) = gavailOf (hlinefmt tw g ofs)) := by
  obtain ⟨h1, h2, h3, h4⟩ := hlinefmt_exact tw ofs hlo hhi
  refine ⟨h1, h2, h3, h4, ?_⟩
  intro g ofs2
  cases g <;> simp [hlinefmt, kavailOf, gavailOf]

/-- C7 at the widths of `TestHlinefmt`: tw = 40 without graph gives kavail 23,
tw = 60 with graph gives kavail 14 and gavail 28. -/
theorem hlinefmt_widths_witness :
    kavailOf (hlinefmt 40 false []) = 23 ∧
    kavailOf (hlinefmt 60 true (ascii ",")) = 14 ∧
    gavailOf (hlinefmt 60 true (ascii ",")) = 28 :=
  ⟨by have h := (hlinefmt_widths 40 [] (by decide) (by decide)).1; simpa using h,
   by have h := (hlinefmt_widths 60 (ascii ",") (by decide) (by decide)).2.2.1
      rw [h]; decide,
   by decide⟩

/-- C8 fails as stated: at the floor width 20 with the graph enabled the key
column width is negative (20/2 - 15 - 1 = -6). -/
theorem hlinefmt_nonneg_counterexample :
    (20 : Int) ≤ 20 ∧ kavailOf (hlinefmt 20 true []) = -6 ∧
    ¬ (0 ≤ kavailOf (hlinefmt 20 true [])) := by
  decide

/-- C8, amended: for every terminal width tw >= 20, without a graph both widths
are non-negative (gavail is 0); with a graph gavail is non-negative, and kavail
is non-negative exactly when tw >= 32. -/
theorem hlinefmt_nonneg (tw : Int) (ofs : Bytes) (h20 : 20 ≤ tw) (hhi : tw < 2 ^ 63) :
    0 ≤ kavailOf (hlinefmt tw false ofs) ∧
    0 ≤ gavailOf (hlinefmt tw false ofs) ∧
    0 ≤ gavailOf (hlinefmt tw true ofs) ∧
    (0 ≤ kavailOf (hlinefmt tw true ofs) ↔ 32 ≤ tw) := by
  obtain ⟨h1, h2, h3, h4⟩ := hlinefmt_exact tw ofs (by omega) hhi
  have hd := tdiv_two tw
  rw [if_pos (by omega)] at hd
  rw [h1, h2, h4, h3, hd]
  refine ⟨by omega, by omega, by omega, by omega⟩

/-- C8 amended, at tw = 20 and tw = 32. -/
theorem hlinefmt_nonneg_witness :
    (0 ≤ kavailOf (hlinefmt 20 false []) ∧ 0 ≤ gavailOf (hlinefmt 20 true [])) ∧
    0 ≤ kavailOf (hlinefmt 32 true []) :=
  ⟨⟨(hlinefmt_nonneg 20 [] (by decide) (by decide)).1,
    (hlinefmt_nonneg 20 [] (by decide) (by decide)).2.2.1⟩,
   ((hlinefmt_nonneg 32 [] (by decide) (by decide)).2.2.2).2 (by decide)⟩

/-! ## UTF-8 decoding: width and stability -/

example : DecodeRuneInString [0xE2, 0x80, 0xA6] = (0x2026, 3) := by decide
example : DecodeRuneInString [0xE2, 0x80] = (RuneError, 1) := by decide
example : DecodeRuneInString [0x41, 0x80] = (0x41, 1) := by decide
example : DecodeRuneInString [0xF0, 0x9F, 0x98, 0x80] = (0x1F600, 4) := by decide
example : DecodeRuneInString [0xED, 0xA0, 0x80] = (RuneError, 1) := by decide
example : DecodeRuneInString [0xC0, 0x80] = (RuneError, 1) := by decide

theorem first_leadOK (b : Nat) : leadOK (first b) := by
  unfold first
  by_cases h0 : b < 0x80
  · rw [if_pos h0]; decide
  rw [if_neg h0]
  by_cases h1 : b < 0xC2
  · rw [if_pos h1]; decide
  rw [if_neg h1]
  by_cases h2 : b < 0xE0
  · rw [if_pos h2]; decide
  rw [if_neg h2]
  by_cases h3 : b = 0xE0
  · rw [if_pos h3]; decide
  rw [if_neg h3]
  by_cases h4 : b < 0xED
  · rw [if_pos h4]; decide
  rw [if_neg h4]
  by_cases h5 : b = 0xED
  · rw [if_pos h5]; decide
  rw [if_neg h5]
  by_cases h6 : b < 0xF0
  · rw [if_pos h6]; decide
  rw [if_neg h6]
  by_cases h7 : b = 0xF0
  · rw [if_pos h7]; decide
  rw [if_neg h7]
  by_cases h8 : b < 0xF4
  · rw [if_pos h8]; decide
  rw [if_neg h8]
  by_cases h9 : b = 0xF4
  · rw [if_pos h9]; decide
  rw [if_neg h9]
  decide

theorem first_cases (b : Nat) :
    first b ≥ 0xF0 ∨
    (first b < 0xF0 ∧ (first b % 8 = 2 ∨ first b % 8 = 3 ∨ first b % 8 = 4) ∧
      0x80 ≤ (acceptRanges (first b / 16)).1 ∧ (acceptRanges (first b / 16)).2 ≤ 0xBF) :=
  first_leadOK b

/-- The decoder in closed form: an ASCII or invalid lead gives width 1; a
multi-byte lead gives its size when the tail is valid and `(RuneError, 1)`
otherwise. -/
theorem decode_cons (s0 : Nat) (rest : Bytes) :
    DecodeRuneInString (s0 :: rest) =
      if first s0 ≥ 0xF0 then (if first s0 % 2 = 0 then s0 else RuneError, 1)
      else if validTail (first s0 % 8) (acceptRanges (first s0 / 16)).1
          (acceptRanges (first s0 / 16)).2 rest
        then (multiValue (first s0 % 8) s0 rest, first s0 % 8)
        else (RuneError, 1) := by
  rcases first_cases s0 with h | ⟨h, hsz, -, -⟩
  · simp only [DecodeRuneInString, h, if_true]
  · have h2 : ¬ first s0 ≥ 0xF0 := by omega
    simp only [DecodeRuneInString, h2, if_false, List.length_cons, List.getD_cons_succ,
      validTail, multiValue, Bool.and_eq_true, Bool.or_eq_true, decide_eq_true_eq]
    generalize first s0 % 8 = sz at hsz ⊢
    generalize (acceptRanges (first s0 / 16)).1 = lo
    generalize (acceptRanges (first s0 / 16)).2 = hi
    generalize rest.getD 0 0 = s1
    generalize rest.getD 1 0 = s2
    generalize rest.getD 2 0 = s3
    rcases hsz with rfl | rfl | rfl <;> split_ifs <;>
      first | rfl | (exfalso; omega)

theorem validTail_length {sz lo hi : Nat} {rest : Bytes}
    (h : validTail sz lo hi rest = true) : sz ≤ rest.length + 1 := by
  simp only [validTail, Bool.and_eq_true, decide_eq_true_eq] at h
  exact h.1.1

/-- A valid tail stays valid when the bytes after a prefix `k` are replaced by
bytes `t` that do not start with a continuation byte: read backwards, an
invalid encoding cannot be completed by cutting it and appending `t`. -/
theorem validTail_stable (sz lo hi : Nat) (k q t : Bytes)
    (hsz : sz = 2 ∨ sz = 3 ∨ sz = 4) (hlo : 0x80 ≤ lo) (hhi : hi ≤ 0xBF)
    (ht : t.headD 0 < 0x80 ∨ 0xBF < t.headD 0)
    (hw : validTail sz lo hi (k ++ t) = true) :
    validTail sz lo hi (k ++ q) = true := by
  rcases k with _ | ⟨a, _ | ⟨b, _ | ⟨c, k⟩⟩⟩ <;> rcases t with _ | ⟨t0, t⟩ <;>
    rcases q with _ | ⟨q0, q⟩ <;>
    rcases hsz with rfl | rfl | rfl <;>
    simp only [validTail, List.nil_append, List.cons_append, List.length_cons, List.length_nil,
      List.getD_cons_zero, List.getD_cons_succ, List.getD_nil, List.headD_cons, List.headD_nil,
      Bool.and_eq_true, Bool.or_eq_true, decide_eq_true_eq] at hw ht ⊢ <;> omega

/-- A valid encoding is determined by its own `sz` bytes. -/
theorem validTail_take (sz lo hi s0 : Nat) (rest v : Bytes)
    (hsz : sz = 2 ∨ sz = 3 ∨ sz = 4)
    (hw : validTail sz lo hi rest = true) :
    validTail sz lo hi (rest.take (sz - 1) ++ v) = true ∧
    multiValue sz s0 (rest.take (sz - 1) ++ v) = multiValue sz s0 rest := by
  rcases rest with _ | ⟨a, _ | ⟨b, _ | ⟨c, k⟩⟩⟩ <;>
    rcases hsz with rfl | rfl | rfl <;>
    simp only [validTail, multiValue, List.nil_append, List.cons_append, List.length_cons,
      List.length_nil, List.getD_cons_zero, List.getD_cons_succ, List.getD_nil,
      List.take_nil, List.take_succ_cons, List.take_zero, Nat.reduceSub, Nat.reduceLeDiff,
      if_true, if_false, and_true, true_and, false_and, and_false, true_or, or_true,
      false_or, or_false,
      Bool.and_eq_true, Bool.or_eq_true, decide_eq_true_eq] at hw ⊢ <;>
    omega

theorem decode_nil : DecodeRuneInString [] = (RuneError, 0) := rfl

/-- The width of the first rune: between 1 and 4, and within the string. -/
theorem decode_width (s : Bytes) (hs : s ≠ []) :
    1 ≤ (DecodeRuneInString s).2 ∧ (DecodeRuneInString s).2 ≤ s.length := by
  rcases s with _ | ⟨s0, rest⟩
  · exact absurd rfl hs
  · rw [decode_cons]
    rcases first_cases s0 with h | ⟨h, hsz, -, -⟩
    · rw [if_pos h]
      simp
    · rw [if_neg (by omega)]
      by_cases hv : validTail (first s0 % 8) (acceptRanges (first s0 / 16)).1
          (acceptRanges (first s0 / 16)).2 rest = true
      · rw [if_pos hv]
        have := validTail_length hv
        simp only [List.length_cons]
        omega
      · rw [if_neg hv]
        simp

/-- Decoding is stable under cutting and re-joining: if the first rune of `s`
has width `w`, `k` is a prefix of what follows it, and `t` does not start with a
continuation byte, then the first rune of `take w s ++ k ++ t` is the same rune
with the same width. -/
theorem decode_stable (s k q t : Bytes) (hs : s ≠ [])
    (hk : s.drop (DecodeRuneInString s).2 = k ++ q)
    (ht : t.headD 0 < 0x80 ∨ 0xBF < t.headD 0) :
    DecodeRuneInString (s.take (DecodeRuneInString s).2 ++ (k ++ t)) = DecodeRuneInString s := by
  rcases s with _ | ⟨s0, rest⟩
  · exact absurd rfl hs
  · rw [decode_cons] at hk ⊢
    rcases first_cases s0 with h | ⟨h, hsz, hlo, hhi⟩
    · rw [if_pos h] at hk ⊢
      simp only [List.take_succ_cons, List.take_zero, List.cons_append, List.nil_append]
      rw [decode_cons, if_pos h]
    · rw [if_neg (by omega)] at hk ⊢
      by_cases hv : validTail (first s0 % 8) (acceptRanges (first s0 / 16)).1
          (acceptRanges (first s0 / 16)).2 rest = true
      · rw [if_pos hv] at hk ⊢
        obtain ⟨n, hn⟩ : ∃ n, first s0 % 8 = n + 1 := ⟨first s0 % 8 - 1, by omega⟩
        have ht2 := validTail_take (first s0 % 8) (acceptRanges (first s0 / 16)).1
          (acceptRanges (first s0 / 16)).2 s0 rest (k ++ t) hsz hv
        simp only [hn, List.take_succ_cons, List.cons_append]
        rw [decode_cons, if_neg (by omega)]
        simp only [hn, Nat.add_sub_cancel] at ht2
        simp only [hn]
        rw [if_pos ht2.1, ht2.2]
      · rw [if_neg hv] at hk ⊢
        simp only [List.drop_succ_cons, List.drop_zero] at hk
        simp only [List.take_succ_cons, List.take_zero, List.cons_append, List.nil_append]
        rw [decode_cons, if_neg (by omega)]
        have hv2 : ¬ validTail (first s0 % 8) (acceptRanges (first s0 / 16)).1
            (acceptRanges (first s0 / 16)).2 (k ++ t) = true := by
          intro hc
          apply hv
          rw [hk]
          exact validTail_stable _ _ _ k q t hsz hlo hhi ht hc
        rw [if_neg hv2]

/-! ## Counting runes -/

theorem runeCountLoop_fuel : ∀ (f1 f2 : Nat) (s : Bytes), s.length ≤ f1 → s.length ≤ f2 →
    runeCountLoop f1 s = runeCountLoop f2 s := by
  intro f1
  induction f1 with
  | zero =>
    intro f2 s h1 _
    have hs : s = [] := List.length_eq_zero.mp (by omega)
    subst hs
    cases f2 <;> simp [runeCountLoop]
  | succ n ih =>
    intro f2 s h1 h2
    by_cases hs : s = []
    · subst hs
      cases f2 <;> simp [runeCountLoop]
    · have hw := decode_width s hs
      have hpos : 0 < s.length := List.length_pos.mpr hs
      rcases f2 with _ | m
      · omega
      · simp only [runeCountLoop, if_neg hs]
        rw [ih m _ (by simp only [List.length_drop]; omega)
          (by simp only [List.length_drop]; omega)]

theorem runeCount_nil : RuneCountInString [] = 0 := rfl

/-- One step of `utf8.RuneCountInString`; in particular the fuel `s.length` of
the definition never runs out. -/
theorem runeCount_unfold (s : Bytes) (hs : s ≠ []) :
    RuneCountInString s = 1 + RuneCountInString (s.drop (DecodeRuneInString s).2) := by
  have hw := decode_width s hs
  have hpos : 0 < s.length := List.length_pos.mpr hs
  unfold RuneCountInString
  obtain ⟨n, hn⟩ : ∃ n, s.length = n + 1 := ⟨s.length - 1, by omega⟩
  rw [hn]
  simp only [runeCountLoop, if_neg hs]
  rw [runeCountLoop_fuel n _ _ (by simp only [List.length_drop]; omega) (le_refl _)]

theorem runeCount_snipMark : RuneCountInString snipMark = 1 := by decide

/-! ## snip (C9, C10) -/

/-- The rune count of a whole rune followed by more text. -/
theorem runeCount_take_append (d k q t : Bytes) (hd : d ≠ [])
    (hk : d.drop (DecodeRuneInString d).2 = k ++ q)
    (ht : t.headD 0 < 0x80 ∨ 0xBF < t.headD 0) :
    RuneCountInString (d.take (DecodeRuneInString d).2 ++ (k ++ t)) =
      1 + RuneCountInString (k ++ t) := by
  have hw := decode_width d hd
  have hne : d.take (DecodeRuneInString d).2 ++ (k ++ t) ≠ [] := by
    intro h
    have hl := congrArg List.length h
    simp only [List.length_append, List.length_take, List.length_nil] at hl
    omega
  rw [runeCount_unfold _ hne, decode_stable d k q t hd hk ht]
  have hlen : (d.take (DecodeRuneInString d).2).length = (DecodeRuneInString d).2 := by
    simp only [List.length_take]; omega
  rw [List.drop_append_eq_append_drop, hlen, Nat.sub_self, List.drop_zero,
    List.drop_of_length_le (by omega), List.nil_append]

/-- What the loop of `snip` returns from byte index `i` on: either it cuts, and
then the result is `s[:i]`, a prefix `k` of `s[i:]` and the mark, `k` and the
mark together being exactly `max width 1` runes; or it returns `s` itself, and
then `s[i:]` has fewer than `max width 1` runes. -/
theorem snipLoop_spec (s : Bytes) : ∀ (fuel i : Nat) (width : Int),
    i ≤ s.length → s.length - i < fuel →
    (∃ k, k <+: s.drop i ∧
      snipLoop s fuel i width = some (s.take i ++ (k ++ snipMark), true) ∧
      (RuneCountInString (k ++ snipMark) : Int) = max width 1 ∧
      (max width 1 : Int) ≤ RuneCountInString (s.drop i)) ∨
    (snipLoop s fuel i width = some (s, false) ∧
      (RuneCountInString (s.drop i) : Int) < max width 1) := by
  intro fuel
  induction fuel with
  | zero => intro i width _ h; omega
  | succ n ih =>
    intro i width hi hf
    by_cases hlt : i < s.length
    · have hd : s.drop i ≠ [] := by
        intro h
        have := congrArg List.length h
        simp only [List.length_drop, List.length_nil] at this
        omega
      have hw := decode_width (s.drop i) hd
      simp only [List.length_drop] at hw
      have hcnt := runeCount_unfold (s.drop i) hd
      by_cases hwd : width ≤ 1
      · left
        refine ⟨[], List.nil_prefix, ?_, ?_, ?_⟩
        · simp only [snipLoop, if_pos hlt, if_pos hwd, List.nil_append]
        · rw [List.nil_append, runeCount_snipMark, max_eq_right hwd]
          rfl
        · rw [max_eq_right hwd, hcnt]
          push_cast
          omega
      · simp only [snipLoop, if_pos hlt, if_neg hwd]
        have hdd : (s.drop i).drop (DecodeRuneInString (s.drop i)).2 =
            s.drop (i + (DecodeRuneInString (s.drop i)).2) := by
          rw [List.drop_drop, Nat.add_comm]
        rcases ih (i + (DecodeRuneInString (s.drop i)).2) (width - 1) (by omega) (by omega)
          with ⟨k, hk, hres, hc, hge⟩ | ⟨hres, hc⟩
        · left
          obtain ⟨q, hq⟩ := hk
          refine ⟨(s.drop i).take (DecodeRuneInString (s.drop i)).2 ++ k, ?_, ?_, ?_, ?_⟩
          · refine ⟨q, ?_⟩
            rw [List.append_assoc, hq, ← hdd, List.take_append_drop]
          · rw [hres, List.take_add, List.append_assoc, List.append_assoc]
          · rw [List.append_assoc,
              runeCount_take_append (s.drop i) k q snipMark hd (by rw [hdd, hq])
                (by decide)]
            have h1 : max (width - 1) 1 = width - 1 := max_eq_left (by omega)
            have h2 : max width 1 = width := max_eq_left (by omega)
            rw [h1] at hc
            rw [h2]
            push_cast
            omega
          · rw [hcnt, hdd]
            have h1 : max (width - 1) 1 = width - 1 := max_eq_left (by omega)
            have h2 : max width 1 = width := max_eq_left (by omega)
            rw [h1] at hge
            rw [h2]
            push_cast
            omega
        · right
          refine ⟨hres, ?_⟩
          rw [hcnt, hdd]
          have h2 : max width 1 = width := max_eq_left (by omega)
          rw [h2]
          push_cast
          rcases le_total (width - 1) 1 with h | h
          · rw [max_eq_right h] at hc; omega
          · rw [max_eq_left h] at hc; omega
    · right
      have hil : i = s.length := by omega
      refine ⟨by simp only [snipLoop, if_neg hlt], ?_⟩
      rw [hil, List.drop_length, runeCount_nil]
      have : (1 : Int) ≤ max width 1 := le_max_right _ _
      simp only [Nat.cast_zero]
      omega

/-- The function `snip` always returns: the fuel it passes to its loop is
enough.  It cuts exactly when `s` has at least `max width 1` runes, and the cut
result has exactly `max width 1` runes. -/
theorem snip_spec (s : Bytes) (width : Int) :
    (∃ k, k <+: s ∧ snip s width = some (k ++ snipMark, true) ∧
      (RuneCountInString (k ++ snipMark) : Int) = max width 1 ∧
      (max width 1 : Int) ≤ RuneCountInString s) ∨
    (snip s width = some (s, false) ∧ (RuneCountInString s : Int) < max width 1) := by
  have h := snipLoop_spec s (s.length + 1) 0 width (Nat.zero_le _) (by omega)
  simpa only [snip, List.drop_zero, List.take_zero, List.nil_append] using h

theorem snip_total (s : Bytes) (width : Int) : ∃ r, snip s width = some r := by
  rcases snip_spec s width with ⟨k, _, h, _⟩ | ⟨h, _⟩
  · exact ⟨_, h⟩
  · exact ⟨_, h⟩

/-- C9, the boundary case: the string "ab" has exactly 2 runes, so it fits
within width 2, yet `snip("ab", 2)` cuts it to "a…" and reports truncation. -/
theorem snip_exact_fit_is_cut :
    RuneCountInString (ascii "ab") = 2 ∧
    snip (ascii "ab") 2 = some (ascii "a" ++ snipMark, true) := by
  decide

/-- What does hold of input that fits: a string with fewer runes than `width`
(and the empty string at any width) is returned unchanged and unflagged. -/
theorem snip_unchanged_of_lt (s : Bytes) (width : Int)
    (h : (RuneCountInString s : Int) < max width 1) : snip s width = some (s, false) := by
  rcases snip_spec s width with ⟨k, _, _, _, hge⟩ | ⟨hres, _⟩
  · omega
  · exact hres

/-- C10: the comment on `snip` promises a snippet "at most width runes long",
and the code breaks the promise at width 0: the non-empty string "a" is cut to
the mark alone, which is one rune long, more than the width.  Such widths reach
`snip`: at terminal width 20 with a graph `hlinefmt` returns `kavail` = -6, and
the key "a" is again cut to the one-rune mark. -/
theorem snip_exceeds_width :
    snip (ascii "a") 0 = some (snipMark, true) ∧ RuneCountInString snipMark = 1 ∧
    ¬ ((RuneCountInString snipMark : Int) ≤ 0) ∧
    kavailOf (hlinefmt 20 true []) = -6 ∧
    snip (ascii "a") (kavailOf (hlinefmt 20 true [])) = some (snipMark, true) ∧
    ¬ ((RuneCountInString snipMark : Int) ≤ kavailOf (hlinefmt 20 true [])) := by
  decide

/-- What does hold of the length: for every string `s` and every width,
`snip(s, width)` returns, and the string it returns is at most `max(width, 1)`
runes long, the ellipsis mark included; so for every width >= 1 it is at most
`width` runes long. -/
theorem snip_length_bound (s : Bytes) (width : Int) :
    ∃ out b, snip s width = some (out, b) ∧
      (RuneCountInString out : Int) ≤ max width 1 ∧
      (1 ≤ width → (RuneCountInString out : Int) ≤ width) := by
  rcases snip_spec s width with ⟨k, _, hres, hc, _⟩ | ⟨hres, hc⟩
  · refine ⟨_, _, hres, le_of_eq hc, ?_⟩
    intro hw
    rw [hc, max_eq_left hw]
  · refine ⟨_, _, hres, le_of_lt hc, ?_⟩
    intro hw
    rw [max_eq_left hw] at hc
    exact le_of_lt hc

/-- The length at the key of `TestGraph`: the 29-rune key is cut to 23 runes at
width 23 and to the 4 runes "z_l…" at width 4. -/
theorem snip_length_bound_witness :
    RuneCountInString (ascii "z_long_key_that_is_snippetted") = 29 ∧
    snip (ascii "z_long_key_that_is_snippetted") 23 =
      some (ascii "z_long_key_that_is_sni" ++ snipMark, true) ∧
    RuneCountInString (ascii "z_long_key_that_is_sni" ++ snipMark) = 23 ∧
    snip (ascii "z_long_key_that_is_snippetted") 4 = some (ascii "z_l" ++ snipMark, true) ∧
    (∃ out b, snip (ascii "z_long_key_that_is_snippetted") 4 = some (out, b) ∧
      (RuneCountInString out : Int) ≤ max 4 1 ∧
      ((1 : Int) ≤ 4 → (RuneCountInString out : Int) ≤ 4)) :=
  ⟨by decide, by decide, by decide, by decide,
   snip_length_bound (ascii "z_long_key_that_is_snippetted") 4⟩

/-! ## Checks of `hist` against `TestHist` and `TestWords` -/

example : histEntries { ifs := reSpaces } testHistInput = [kc "a b 2" 1, kc "a c 5" 1] := by
  decide
example : histEntries { ifs := reSpaces, keys := [1, 2], weightCol := -1 } testHistInput =
    [kc "a b" 2, kc "a c" 5] := by
  decide
example : histEntries { ifs := reSpaces, keys := [1] } testHistInput = [kc "a" 2] := by
  decide
example : histEntries { ifs := reSpaces, keys := [1], weightCol := -1 } testHistInput =
    [kc "a" 7] := by
  decide
example : histEntries { ifs := reSpaces, words := true } testWordsInput =
    [kc "brings" 1, kc "conquest" 1, kc "follow" 1, kc "he" 1, kc "home?" 1,
     kc "tributaries" 1, kc "..." 2, kc "What" 2] := by
  decide

/-! ## The map of counts -/

theorem wrapInt_add_left (a b : Int) : wrapInt (wrapInt a + b) = wrapInt (a + b) := by
  unfold wrapInt
  omega

theorem wrapInt_wrapInt (a : Int) : wrapInt (wrapInt a) = wrapInt a := by
  unfold wrapInt
  omega

theorem valOf_mapAdd (d : CountMap) (k : Bytes) (w : Int) (k2 : Bytes) :
    valOf (mapAdd d k w) k2 = if k2 = k then wrapInt (valOf d k + w) else valOf d k2 := by
  induction d with
  | nil =>
    by_cases h : k2 = k
    · simp [mapAdd, valOf, h]
    · have h2 : ¬ k = k2 := fun e => h e.symm
      simp [mapAdd, valOf, h, h2]
  | cons kv rest ih =>
    obtain ⟨k1, v⟩ := kv
    by_cases h1 : k1 = k
    · subst h1
      by_cases h : k2 = k1
      · simp [mapAdd, valOf, h]
      · have h2 : ¬ k1 = k2 := fun e => h e.symm
        simp [mapAdd, valOf, h, h2]
    · by_cases h : k2 = k
      · subst h
        simp [mapAdd, valOf, h1, ih]
      · by_cases h3 : k1 = k2
        · simp [mapAdd, valOf, h1, h, h3]
        · simp [mapAdd, valOf, h1, h, h3, ih]

theorem keys_mapAdd (d : CountMap) (k : Bytes) (w : Int) :
    (mapAdd d k w).map Prod.fst =
      if k ∈ d.map Prod.fst then d.map Prod.fst else d.map Prod.fst ++ [k] := by
  induction d with
  | nil => simp [mapAdd]
  | cons kv rest ih =>
    obtain ⟨k1, v⟩ := kv
    by_cases h1 : k1 = k
    · subst h1
      simp [mapAdd]
    · have h2 : ¬ k = k1 := fun e => h1 e.symm
      by_cases hm : k ∈ rest.map Prod.fst
      · simp only [mapAdd, if_neg h1, List.map_cons, ih, if_pos hm, List.mem_cons, h2,
          false_or]
      · simp only [mapAdd, if_neg h1, List.map_cons, ih, if_neg hm, List.mem_cons, h2,
          false_or, List.cons_append]

theorem nodup_mapAdd (d : CountMap) (k : Bytes) (w : Int) (hd : (d.map Prod.fst).Nodup) :
    ((mapAdd d k w).map Prod.fst).Nodup := by
  rw [keys_mapAdd]
  by_cases hm : k ∈ d.map Prod.fst
  · rw [if_pos hm]; exact hd
  · rw [if_neg hm]
    rw [List.nodup_append]
    refine ⟨hd, List.nodup_singleton k, ?_⟩
    intro a ha hb
    rw [List.mem_singleton] at hb
    subst hb
    exact hm ha

theorem mem_keys_mapAdd (d : CountMap) (k : Bytes) (w : Int) (k2 : Bytes) :
    k2 ∈ (mapAdd d k w).map Prod.fst ↔ k2 = k ∨ k2 ∈ d.map Prod.fst := by
  rw [keys_mapAdd]
  by_cases hm : k ∈ d.map Prod.fst
  · rw [if_pos hm]
    constructor
    · intro h; exact Or.inr h
    · rintro (h | h)
      · rw [h]; exact hm
      · exact h
  · rw [if_neg hm, List.mem_append, List.mem_singleton]
    exact or_comm

/-- In a map with one pair per key, a pair is in the map exactly when its value
is the value read at its key. -/
theorem mem_iff_valOf (d : CountMap) (hd : (d.map Prod.fst).Nodup) (k : Bytes) (v : Int) :
    (k, v) ∈ d ↔ k ∈ d.map Prod.fst ∧ valOf d k = v := by
  induction d with
  | nil => simp
  | cons kv rest ih =>
    obtain ⟨k1, v1⟩ := kv
    simp only [List.map_cons, List.nodup_cons] at hd
    by_cases h1 : k1 = k
    · subst h1
      simp only [List.mem_cons, Prod.mk.injEq, true_and, List.map_cons, true_or, valOf,
        if_true]
      constructor
      · rintro (h | h)
        · exact h.symm
        · exact absurd (List.mem_map_of_mem Prod.fst h) hd.1
      · intro h; exact Or.inl h.symm
    · have h2 : ¬ k = k1 := fun e => h1 e.symm
      simp only [List.mem_cons, Prod.mk.injEq, h2, false_and, false_or, List.map_cons,
        valOf, if_neg h1]
      exact ih hd.2

theorem totalOf_nil (k : Bytes) : totalOf [] k = 0 := rfl

theorem totalOf_cons (p : Bytes × Int) (ps : List (Bytes × Int)) (k : Bytes) :
    totalOf (p :: ps) k = if p.1 = k then p.2 + totalOf ps k else totalOf ps k := by
  unfold totalOf
  by_cases h : p.1 = k
  · simp [List.filter_cons, h]
  · simp [List.filter_cons, h]

theorem totalOf_eq_zero (ps : List (Bytes × Int)) (k : Bytes)
    (h : ¬ ∃ p ∈ ps, p.1 = k) : totalOf ps k = 0 := by
  induction ps with
  | nil => rfl
  | cons p ps ih =>
    rw [totalOf_cons]
    have h1 : ¬ p.1 = k := fun e => h ⟨p, List.mem_cons_self _ _, e⟩
    rw [if_neg h1]
    exact ih (fun ⟨q, hq, e⟩ => h ⟨q, List.mem_cons_of_mem _ hq, e⟩)

/-- After adding the pairs `ps`, one pair per key is kept, the keys are those
of the map before and of the pairs, and the value at a key that received a
weight is the wrapped sum of the value before and the weights added. -/
theorem addAll_spec (ps : List (Bytes × Int)) : ∀ (d : CountMap), (d.map Prod.fst).Nodup →
    ((addAll d ps).map Prod.fst).Nodup ∧
    (∀ k, k ∈ (addAll d ps).map Prod.fst ↔ k ∈ d.map Prod.fst ∨ ∃ p ∈ ps, p.1 = k) ∧
    (∀ k, valOf (addAll d ps) k =
      if (∃ p ∈ ps, p.1 = k) then wrapInt (valOf d k + totalOf ps k) else valOf d k) := by
  induction ps with
  | nil =>
    intro d hd
    refine ⟨hd, ?_, ?_⟩
    · intro k; simp [addAll]
    · intro k; simp [addAll]
  | cons p ps ih =>
    intro d hd
    obtain ⟨h1, h2, h3⟩ := ih (mapAdd d p.1 p.2) (nodup_mapAdd d p.1 p.2 hd)
    have hfold : addAll d (p :: ps) = addAll (mapAdd d p.1 p.2) ps := rfl
    rw [hfold]
    refine ⟨h1, ?_, ?_⟩
    · intro k
      rw [h2 k, mem_keys_mapAdd]
      constructor
      · rintro ((h | h) | ⟨q, hq, e⟩)
        · exact Or.inr ⟨p, List.mem_cons_self _ _, h.symm⟩
        · exact Or.inl h
        · exact Or.inr ⟨q, List.mem_cons_of_mem _ hq, e⟩
      · rintro (h | ⟨q, hq, e⟩)
        · exact Or.inl (Or.inr h)
        · rcases List.mem_cons.mp hq with rfl | hq
          · exact Or.inl (Or.inl e.symm)
          · exact Or.inr ⟨q, hq, e⟩
    · intro k
      rw [h3 k, valOf_mapAdd, totalOf_cons]
      by_cases hp : p.1 = k
      · have hex : ∃ q ∈ p :: ps, q.1 = k := ⟨p, List.mem_cons_self _ _, hp⟩
        rw [if_pos hex, if_pos hp.symm, if_pos hp]
        by_cases hps : ∃ q ∈ ps, q.1 = k
        · rw [if_pos hps, wrapInt_add_left, hp, add_assoc]
        · rw [if_neg hps, totalOf_eq_zero ps k hps, hp, add_zero]
      · have hp2 : ¬ k = p.1 := fun e => hp e.symm
        rw [if_neg hp2, if_neg hp]
        by_cases hps : ∃ q ∈ ps, q.1 = k
        · have hex : ∃ q ∈ p :: ps, q.1 = k := by
            obtain ⟨q, hq, e⟩ := hps
            exact ⟨q, List.mem_cons_of_mem _ hq, e⟩
          rw [if_pos hps, if_pos hex]
        · have hex : ¬ ∃ q ∈ p :: ps, q.1 = k := by
            rintro ⟨q, hq, e⟩
            rcases List.mem_cons.mp hq with rfl | hq
            · exact hp e
            · exact hps ⟨q, hq, e⟩
          rw [if_neg hps, if_neg hex]

/-! ## Sorting -/

theorem not_less_iff (a b : keyCount) : b.less a = false ↔ countKeyLE a b := by
  rw [Bool.eq_false_iff, Ne, less_iff]
  unfold countKeyLE
  constructor
  · intro h
    rcases lt_trichotomy a.cnt b.cnt with h1 | h1 | h1
    · exact Or.inl h1
    · refine Or.inr ⟨h1, ?_⟩
      exact not_lt.mp (fun hk => h (Or.inr ⟨h1.symm, hk⟩))
    · exact absurd (Or.inl h1) h
  · rintro (h | ⟨h1, h2⟩) (h3 | ⟨h3, h4⟩)
    · omega
    · omega
    · omega
    · exact absurd h4 (not_lt.mpr h2)

theorem countKeyLE_total (a b : keyCount) : countKeyLE a b ∨ countKeyLE b a := by
  unfold countKeyLE
  rcases lt_trichotomy a.cnt b.cnt with h1 | h1 | h1
  · exact Or.inl (Or.inl h1)
  · rcases le_total a.key b.key with h2 | h2
    · exact Or.inl (Or.inr ⟨h1, h2⟩)
    · exact Or.inr (Or.inr ⟨h1.symm, h2⟩)
  · exact Or.inr (Or.inl h1)

theorem countKeyLE_trans {a b c : keyCount} (h1 : countKeyLE a b) (h2 : countKeyLE b c) :
    countKeyLE a c := by
  unfold countKeyLE at *
  rcases h1 with h1 | ⟨h1, k1⟩ <;> rcases h2 with h2 | ⟨h2, k2⟩
  · left; omega
  · left; omega
  · left; omega
  · right; exact ⟨h1.trans h2, le_trans k1 k2⟩

theorem notLess_isTotal : IsTotal keyCount (fun a b => b.less a = false) :=
  ⟨fun a b => by
    rcases countKeyLE_total a b with h | h
    · exact Or.inl ((not_less_iff a b).mpr h)
    · exact Or.inr ((not_less_iff b a).mpr h)⟩

theorem notLess_isTrans : IsTrans keyCount (fun a b => b.less a = false) :=
  ⟨fun a b c h1 h2 =>
    (not_less_iff a c).mpr
      (countKeyLE_trans ((not_less_iff a b).mp h1) ((not_less_iff b c).mp h2))⟩

theorem sortSort_perm (l : byCountKey) : (sortSort l).Perm l :=
  List.perm_insertionSort _ l

theorem sortSort_sorted (l : byCountKey) : (sortSort l).Pairwise countKeyLE := by
  haveI := notLess_isTotal
  haveI := notLess_isTrans
  have h : List.Sorted (fun a b : keyCount => b.less a = false) (sortSort l) :=
    List.sorted_insertionSort _ l
  exact List.Pairwise.imp (fun {a b} hab => (not_less_iff a b).mp hab) h

/-! ## The result of `hist` -/

theorem foldl_histStep (h : histogrammer) (recs : List Bytes) : ∀ (st : CountMap × Int),
    (recs.foldl (histStep h) st).1 = addAll st.1 (pairsOf h recs) := by
  induction recs with
  | nil => intro st; rfl
  | cons r recs ih =>
    intro st
    rw [List.foldl_cons, ih]
    cases hw : weightFn h r with
    | none => simp [histStep, hw, pairsOf]
    | some w => simp [histStep, hw, pairsOf, addAll]

/-- The ranked entries of the records `recs`. -/
theorem hist_ok (h : histogrammer) (inp : Bytes) (hs : (scan h.words inp).err = none) :
    (hist h inp).2 =
      Except.ok (sortSort (entriesOf (addAll [] (pairsOf h (scan h.words inp).tokens)))) := by
  have hf := foldl_histStep h (scan h.words inp).tokens ([], h.maxKey)
  simp only [hist, hs]
  simp only [entriesOf]
  exact congrArg _ (congrArg _ (congrArg _ hf))

theorem hist_error (h : histogrammer) (inp : Bytes) (e : ScanError)
    (hs : (scan h.words inp).err = some e) : (hist h inp).2 = Except.error e := by
  simp only [hist, hs]

theorem histEntries_ok (h : histogrammer) (inp : Bytes) (hs : (scan h.words inp).err = none) :
    histEntries h inp =
      sortSort (entriesOf (addAll [] (pairsOf h (scan h.words inp).tokens))) := by
  unfold histEntries
  rw [hist_ok h inp hs]

theorem histEntries_error (h : histogrammer) (inp : Bytes)
    (hs : (scan h.words inp).err ≠ none) : histEntries h inp = [] := by
  unfold histEntries
  cases he : (scan h.words inp).err with
  | none => exact absurd he hs
  | some e => rw [hist_error h inp e he]

theorem keys_entriesOf (d : CountMap) : (entriesOf d).map keyCount.key = d.map Prod.fst := by
  simp [entriesOf, Function.comp_def]

theorem mem_entriesOf (d : CountMap) (e : keyCount) :
    e ∈ entriesOf d → (e.key, e.cnt) ∈ d := by
  intro he
  simp only [entriesOf, List.mem_map] at he
  obtain ⟨kv, hkv, rfl⟩ := he
  exact hkv

/-- The ranked entries of the pairs `ps`: one entry per key among the pairs,
each with the wrapped sum of the weights that went to its key. -/
theorem rank_spec (ps : List (Bytes × Int)) :
    ((sortSort (entriesOf (addAll [] ps))).map keyCount.key).Nodup ∧
    (∀ k, k ∈ (sortSort (entriesOf (addAll [] ps))).map keyCount.key ↔ ∃ p ∈ ps, p.1 = k) ∧
    (∀ e ∈ sortSort (entriesOf (addAll [] ps)), e.cnt = wrapInt (totalOf ps e.key)) := by
  obtain ⟨h1, h2, h3⟩ := addAll_spec ps [] List.nodup_nil
  have hperm := sortSort_perm (entriesOf (addAll [] ps))
  have hk : ((sortSort (entriesOf (addAll [] ps))).map keyCount.key).Perm
      ((addAll [] ps).map Prod.fst) := by
    rw [← keys_entriesOf]
    exact hperm.map _
  refine ⟨hk.nodup_iff.mpr h1, ?_, ?_⟩
  · intro k
    rw [hk.mem_iff, h2 k]
    simp
  · intro e he
    have hmem := mem_entriesOf _ e (hperm.mem_iff.mp he)
    have hv := (mem_iff_valOf _ h1 e.key e.cnt).mp hmem
    have hex : ∃ p ∈ ps, p.1 = e.key := by
      have := (h2 e.key).mp hv.1
      simpa using this
    rw [← hv.2, h3 e.key, if_pos hex]
    simp [valOf]

theorem mem_pairsOf (h : histogrammer) (recs : List Bytes) (k : Bytes) :
    (∃ p ∈ pairsOf h recs, p.1 = k) ↔
      ∃ r ∈ recs, (weightFn h r).isSome = true ∧ keyFn h r = k := by
  unfold pairsOf
  constructor
  · rintro ⟨p, hp, rfl⟩
    rw [List.mem_filterMap] at hp
    obtain ⟨r, hr, hrp⟩ := hp
    cases hw : weightFn h r with
    | none => simp [hw] at hrp
    | some w =>
      simp only [hw, Option.map_some', Option.some.injEq] at hrp
      exact ⟨r, hr, by rw [hw]; rfl, by rw [← hrp]⟩
  · rintro ⟨r, hr, hw, rfl⟩
    obtain ⟨w, hw2⟩ := Option.isSome_iff_exists.mp hw
    exact ⟨(keyFn h r, w), List.mem_filterMap.mpr ⟨r, hr, by simp [hw2]⟩, rfl⟩

theorem totalOf_pairsOf (h : histogrammer) (recs : List Bytes) (k : Bytes) :
    totalOf (pairsOf h recs) k = sumWeights h (recs.filter (fun r => keyFn h r = k)) := by
  induction recs with
  | nil => rfl
  | cons r recs ih =>
    have hp : pairsOf h (r :: recs) =
        match weightFn h r with
        | none => pairsOf h recs
        | some w => (keyFn h r, w) :: pairsOf h recs := by
      unfold pairsOf
      cases hw : weightFn h r <;> simp [List.filterMap_cons, hw]
    rw [hp]
    cases hw : weightFn h r with
    | none =>
      simp only []
      rw [ih]
      by_cases hk : keyFn h r = k
      · simp [sumWeights, List.filter_cons, hk, hw]
      · simp [sumWeights, List.filter_cons, hk]
    | some w =>
      simp only []
      rw [totalOf_cons, ih]
      by_cases hk : keyFn h r = k
      · simp [sumWeights, List.filter_cons, hk, hw]
      · simp [sumWeights, List.filter_cons, hk]

/-! ## The line scanner -/

theorem rawLines_no_newline (l : Bytes) : ∀ (cur : Bytes), (∀ x ∈ l, x ≠ 10) →
    rawLines l cur = if cur ++ l = [] then [] else [cur ++ l] := by
  induction l with
  | nil => intro cur _; simp [rawLines]
  | cons b rest ih =>
    intro cur hl
    have hb : b ≠ 10 := hl b (List.mem_cons_self _ _)
    have hr : ∀ x ∈ rest, x ≠ 10 := fun x hx => hl x (List.mem_cons_of_mem _ hx)
    simp only [rawLines, if_neg hb]
    rw [ih (cur ++ [b]) hr]
    simp

theorem rawLines_append_newline (l rest : Bytes) : ∀ (cur : Bytes), (∀ x ∈ l, x ≠ 10) →
    rawLines (l ++ 10 :: rest) cur = (cur ++ l) :: rawLines rest [] := by
  induction l with
  | nil => intro cur _; simp [rawLines]
  | cons b l ih =>
    intro cur hl
    have hb : b ≠ 10 := hl b (List.mem_cons_self _ _)
    have hr : ∀ x ∈ l, x ≠ 10 := fun x hx => hl x (List.mem_cons_of_mem _ hx)
    rw [List.cons_append]
    simp only [rawLines, if_neg hb]
    rw [ih (cur ++ [b]) hr]
    simp

/-- A short line followed by a line of `MaxScanTokenSize` bytes or more: the
scanner delivers the first line and stops with `ErrTooLong`. -/
theorem scanLines_long (pre : Bytes) (n b : Nat) (hb : b ≠ 10) (hn : MaxScanTokenSize ≤ n)
    (hpre : ∀ x ∈ pre, x ≠ 10) (hl : pre.length < MaxScanTokenSize) :
    scanLines (pre ++ 10 :: List.replicate n b) =
      { tokens := [dropCR pre], err := some ScanError.ErrTooLong } := by
  have hne : List.replicate n b ≠ [] := by
    intro h
    have := congrArg List.length h
    simp only [List.length_replicate, List.length_nil] at this
    have h0 : 0 < MaxScanTokenSize := by decide
    omega
  unfold scanLines
  rw [rawLines_append_newline pre _ [] hpre,
    rawLines_no_newline _ [] (fun x hx => by rw [(List.mem_replicate.mp hx).2]; exact hb)]
  simp only [List.nil_append, if_neg hne, deliverLines, if_pos hl, List.length_replicate,
    if_neg (not_lt.mpr hn), ScanResult.cons]

/-- The scanner reads the input to its end exactly when every raw line is
shorter than `MaxScanTokenSize`; its tokens are then the raw lines without
their carriage returns. -/
theorem deliverLines_ok (ls : List Bytes) :
    ((deliverLines ls).err = none ↔ ∀ l ∈ ls, l.length < MaxScanTokenSize) ∧
    ((deliverLines ls).err = none → (deliverLines ls).tokens = ls.map dropCR) := by
  induction ls with
  | nil => simp [deliverLines]
  | cons l ls ih =>
    by_cases hl : l.length < MaxScanTokenSize
    · rw [deliverLines, if_pos hl]
      simp only [ScanResult.cons, List.mem_cons, forall_eq_or_imp, hl, true_and, List.map_cons]
      refine ⟨ih.1, fun h => ?_⟩
      rw [ih.2 h]
    · rw [deliverLines, if_neg hl]
      simp only [List.mem_cons, forall_eq_or_imp, hl, false_and]
      simp

/-! ## The field extractor and the weight -/

theorem foldl_append_singleton {α β : Type} (f : α → β) (l : List α) : ∀ (acc : List β),
    l.foldl (fun out v => out ++ [f v]) acc = acc ++ l.map f := by
  induction l with
  | nil => intro acc; simp
  | cons a l ih =>
    intro acc
    rw [List.foldl_cons, ih]
    simp

theorem Fields_eq_map (p : Parter) (line : Bytes) (hidx : p.idx ≠ []) :
    p.Fields line = p.idx.map (fieldAt (splitb p.re line)) := by
  have hlen : ¬ p.idx.length = 0 := fun h => hidx (List.length_eq_zero.mp h)
  simp only [Parter.Fields, if_neg hlen]
  rw [foldl_append_singleton]
  rfl

/-- The weight of a record: the implicit 1 when no weight column is set, else
`ParseInt` of the weight field, which is empty when the field is absent. -/
theorem weightFn_spec (h : histogrammer) (r : Bytes) :
    (h.weightCol = 0 → weightFn h r = some 1) ∧
    (h.weightCol ≠ 0 →
      weightFn h r = ParseInt (bytesOf (fieldAt (splitb h.ifs r) h.weightCol))) := by
  constructor
  · intro hc
    simp [weightFn, hc]
  · intro hwc
    simp only [weightFn, if_pos hwc]
    rw [Fields_eq_map _ _ (by simp [NewParter])]
    simp [NewParter]

/-! ## Order of the output (C2) -/

/-- C2: for every input, in the sequence returned by `hist` every entry `a` that
comes before an entry `b` satisfies a.cnt < b.cnt, or a.cnt = b.cnt and
a.key <= b.key under byte-wise comparison. -/
theorem hist_output_sorted (h : histogrammer) (inp : Bytes) :
    (histEntries h inp).Pairwise
      (fun a b => a.cnt < b.cnt ∨ (a.cnt = b.cnt ∧ a.key ≤ b.key)) := by
  by_cases hs : (scan h.words inp).err = none
  · rw [histEntries_ok h inp hs]
    exact sortSort_sorted _
  · rw [histEntries_error h inp hs]
    exact List.Pairwise.nil

/-! ## Aggregation (C1) -/

/-- C1 fails as stated: after the line "a" comes a line of 70000 bytes, more
than a `bufio.Scanner` token may hold.  The record "a" yields the weight 1 and
the scanner delivers no other record, yet `hist` returns the scanner's error
and no entry for the key "a". -/
theorem hist_aggregates_counterexample :
    (scan false (ascii "a" ++ 10 :: List.replicate 70000 98)).tokens = [ascii "a"] ∧
    weightFn { ifs := reSpaces } (ascii "a") = some 1 ∧
    (hist { ifs := reSpaces } (ascii "a" ++ 10 :: List.replicate 70000 98)).2 =
      Except.error ScanError.ErrTooLong ∧
    histEntries { ifs := reSpaces } (ascii "a" ++ 10 :: List.replicate 70000 98) = [] := by
  have hsc : scan false (ascii "a" ++ 10 :: List.replicate 70000 98) =
      { tokens := [ascii "a"], err := some ScanError.ErrTooLong } := by
    have h := scanLines_long (ascii "a") 70000 98 (by decide) (by decide) (by decide)
      (by decide)
    have hd : dropCR (ascii "a") = ascii "a" := by decide
    rw [hd] at h
    exact h
  have hw0 : ({ ifs := reSpaces } : histogrammer).words = false := rfl
  refine ⟨by rw [hsc], by decide, ?_, ?_⟩
  · exact hist_error _ _ _ (by rw [hw0, hsc])
  · refine histEntries_error _ _ ?_
    rw [hw0, hsc]
    exact Option.some_ne_none _

/-- C1, amended: for every input stream that the scanner reads to its end (no
`ErrTooLong`; in line mode that is: every line is shorter than
`MaxScanTokenSize`) and whose records all yield a weight (the implicit weight 1,
or the weight field parsed by `ParseInt`), `hist` returns exactly one entry per
distinct key occurring in the input, and that entry's cnt equals the signed
64-bit (wrapped) sum of the weights of all records whose key equals it.  When
the scanner stops with an error, `hist` returns that error and no entries. -/
theorem hist_aggregates (h : histogrammer) (inp : Bytes) :
    (∀ r, (h.weightCol = 0 → weightFn h r = some 1) ∧
      (h.weightCol ≠ 0 →
        weightFn h r = ParseInt (bytesOf (fieldAt (splitb h.ifs r) h.weightCol)))) ∧
    ((scan h.words inp).err = none →
      (∀ r ∈ (scan h.words inp).tokens, (weightFn h r).isSome = true) →
      ∃ kc, (hist h inp).2 = Except.ok kc ∧
        (kc.map keyCount.key).Nodup ∧
        (∀ k, k ∈ kc.map keyCount.key ↔ ∃ r ∈ (scan h.words inp).tokens, keyFn h r = k) ∧
        (∀ e ∈ kc, e.cnt = wrapInt (sumWeights h
          ((scan h.words inp).tokens.filter (fun r => keyFn h r = e.key))))) ∧
    (∀ e, (scan h.words inp).err = some e →
      (hist h inp).2 = Except.error e ∧ histEntries h inp = []) ∧
    (h.words = false →
      ((scan h.words inp).err = none ↔
        ∀ l ∈ rawLines inp [], l.length < MaxScanTokenSize)) := by
  refine ⟨weightFn_spec h, ?_, ?_, ?_⟩
  · intro hscan hw
    obtain ⟨h1, h2, h3⟩ := rank_spec (pairsOf h (scan h.words inp).tokens)
    refine ⟨_, hist_ok h inp hscan, h1, ?_, ?_⟩
    · intro k
      rw [h2 k, mem_pairsOf]
      constructor
      · rintro ⟨r, hr, _, hk⟩
        exact ⟨r, hr, hk⟩
      · rintro ⟨r, hr, hk⟩
        exact ⟨r, hr, hw r hr, hk⟩
    · intro e he
      rw [h3 e he, totalOf_pairsOf]
  · intro e he
    refine ⟨hist_error h inp e he, histEntries_error h inp ?_⟩
    rw [he]
    exact Option.some_ne_none _
  · intro hl
    have hsc : scan h.words inp = scanLines inp := by simp [scan, hl]
    rw [hsc]
    exact (deliverLines_ok (rawLines inp [])).1

/-- C1 at the input of `TestHist`, "a b 2\na c 5" with keys {1} and weight
column -1: the scanner reads it to its end, both records yield a weight, and
the single entry is {"a": 7}. -/
theorem hist_aggregates_witness :
    histEntries { ifs := reSpaces, keys := [1], weightCol := -1 } testHistInput = [kc "a" 7] ∧
    (scan false testHistInput).err = none ∧
    (∀ r ∈ (scan false testHistInput).tokens,
      (weightFn { ifs := reSpaces, keys := [1], weightCol := -1 } r).isSome = true) ∧
    ∃ kc, (hist { ifs := reSpaces, keys := [1], weightCol := -1 } testHistInput).2 =
        Except.ok kc ∧
      (kc.map keyCount.key).Nodup ∧
      (∀ k, k ∈ kc.map keyCount.key ↔
        ∃ r ∈ (scan false testHistInput).tokens,
          keyFn { ifs := reSpaces, keys := [1], weightCol := -1 } r = k) ∧
      (∀ e ∈ kc, e.cnt = wrapInt (sumWeights { ifs := reSpaces, keys := [1], weightCol := -1 }
        ((scan false testHistInput).tokens.filter
          (fun r => keyFn { ifs := reSpaces, keys := [1], weightCol := -1 } r = e.key)))) :=
  ⟨by decide, by decide, by decide,
   (hist_aggregates { ifs := reSpaces, keys := [1], weightCol := -1 } testHistInput).2.1
     (by decide) (by decide)⟩

/-! ## Key derivation (C5) -/

theorem keyFn_ofs (h : histogrammer) (ofs2 : Bytes) (line : Bytes) :
    keyFn { h with ofs := ofs2 } line = keyFn h line := rfl

theorem hist_ofs (h : histogrammer) (ofs2 : Bytes) (inp : Bytes) :
    (hist { h with ofs := ofs2 } inp).2 = (hist h inp).2 := by
  cases he : (scan h.words inp).err with
  | none =>
    rw [hist_ok h inp he, hist_ok { h with ofs := ofs2 } inp he]
    rfl
  | some e =>
    rw [hist_error h inp e he, hist_error { h with ofs := ofs2 } inp e he]

theorem histEntries_keys (h : histogrammer) (inp : Bytes) :
    ∀ e ∈ histEntries h inp,
      ∃ r ∈ (scan h.words inp).tokens, (weightFn h r).isSome = true ∧ keyFn h r = e.key := by
  intro e he
  by_cases hs : (scan h.words inp).err = none
  · rw [histEntries_ok h inp hs] at he
    obtain ⟨_, h2, _⟩ := rank_spec (pairsOf h (scan h.words inp).tokens)
    have hk : e.key ∈ (sortSort (entriesOf (addAll []
        (pairsOf h (scan h.words inp).tokens)))).map keyCount.key :=
      List.mem_map_of_mem _ he
    exact (mem_pairsOf h _ e.key).mp ((h2 e.key).mp hk)
  · rw [histEntries_error h inp hs] at he
    exact absurd he (List.not_mem_nil _)

/-- C5: for every record, when no key field indices are configured the key is
the raw record unmodified; when field indices are configured the key is the
selected fields (a `nil` field counting as empty), in the order of the index list,
joined by exactly one ASCII space; the key and the result of `hist` are the same
whatever the output separator `ofs` is; and every key in the result of `hist` is
the key so derived of a record that yielded a weight. -/
theorem hist_key_derivation (h : histogrammer) (line : Bytes) :
    (h.keys = [] → keyFn h line = line) ∧
    (h.keys ≠ [] → keyFn h line =
      stringsJoin (h.keys.map (fun v => bytesOf (fieldAt (splitb h.ifs line) v))) [32]) ∧
    (∀ ofs2 : Bytes, keyFn { h with ofs := ofs2 } line = keyFn h line) ∧
    (∀ (ofs2 inp : Bytes), (hist { h with ofs := ofs2 } inp).2 = (hist h inp).2) ∧
    (∀ inp : Bytes, ∀ e ∈ histEntries h inp,
      ∃ r ∈ (scan h.words inp).tokens, (weightFn h r).isSome = true ∧ keyFn h r = e.key) := by
  refine ⟨?_, ?_, fun ofs2 => keyFn_ofs h ofs2 line, hist_ofs h, histEntries_keys h⟩
  · intro hk
    simp [keyFn, hk]
  · intro hk
    have hlen : h.keys.length > 0 := List.length_pos.mpr hk
    simp only [keyFn, if_pos hlen]
    rw [Fields_eq_map (NewParter h.ifs h.keys) line hk]
    simp [NewParter, Function.comp_def]

/-- C5 at the record "a b 2": without key indices the key is the record; with
keys {1,2} it is "a b", and with keys {2,1} it is "b a", also when `ofs` is ",". -/
theorem hist_key_derivation_witness :
    keyFn { ifs := reSpaces } (ascii "a b 2") = ascii "a b 2" ∧
    keyFn { ifs := reSpaces, keys := [1, 2], ofs := ascii "," } (ascii "a b 2") = ascii "a b" ∧
    keyFn { ifs := reSpaces, keys := [2, 1] } (ascii "a b 2") = ascii "b a" :=
  ⟨(hist_key_derivation { ifs := reSpaces } (ascii "a b 2")).1 rfl,
   by rw [(hist_key_derivation { ifs := reSpaces, keys := [1, 2], ofs := ascii "," }
      (ascii "a b 2")).2.1 (by decide)]; decide,
   by decide⟩

/-! ## The order of entries is strict and total (C3) -/

theorem histEntries_nodup (h : histogrammer) (inp : Bytes) :
    ((histEntries h inp).map keyCount.key).Nodup := by
  by_cases hs : (scan h.words inp).err = none
  · rw [histEntries_ok h inp hs]
    exact (rank_spec _).1
  · rw [histEntries_error h inp hs]
    exact List.nodup_nil

/-- C3: `byCountKey.Less` is a strict total order on entries compared by
(cnt, key): it is irreflexive and transitive, for any two entries exactly one of
Less(a,b), Less(b,a), or (a.cnt = b.cnt and a.key = b.key) holds; in a slice
whose keys are pairwise distinct any two different positions are strictly
ordered one way or the other (never both, never neither), and the keys of the
slice `hist` returns are pairwise distinct. -/
theorem byCountKey_Less_strict_total :
    (∀ a : keyCount, a.less a = false) ∧
    (∀ a b c : keyCount, a.less b = true → b.less c = true → a.less c = true) ∧
    (∀ a b : keyCount,
      (a.less b = true ∧ b.less a = false ∧ ¬ (a.cnt = b.cnt ∧ a.key = b.key)) ∨
      (a.less b = false ∧ b.less a = true ∧ ¬ (a.cnt = b.cnt ∧ a.key = b.key)) ∨
      (a.less b = false ∧ b.less a = false ∧ (a.cnt = b.cnt ∧ a.key = b.key))) ∧
    (∀ (kc : byCountKey), (kc.map keyCount.key).Nodup →
      ∀ i j : Fin kc.length, i ≠ j →
        (kc.Less i j = true ∧ kc.Less j i = false) ∨
        (kc.Less i j = false ∧ kc.Less j i = true)) ∧
    (∀ (h : histogrammer) (inp : Bytes), ((histEntries h inp).map keyCount.key).Nodup) := by
  refine ⟨less_irrefl, fun a b c => less_trans, ?_, ?_, histEntries_nodup⟩
  · intro a b
    by_cases h : a.cnt = b.cnt ∧ a.key = b.key
    · right; right
      exact ⟨less_false_of_same h, less_false_of_same ⟨h.1.symm, h.2.symm⟩, h⟩
    · rcases less_total_of_ne h with h1 | h1
      · left; exact ⟨h1, less_asymm h1, h⟩
      · right; left; exact ⟨less_asymm h1, h1, h⟩
  · intro kc hnd i j hij
    have hne : ¬ ((kc.get i).cnt = (kc.get j).cnt ∧ (kc.get i).key = (kc.get j).key) := by
      rintro ⟨_, hk⟩
      apply hij
      have hi : i.val < (kc.map keyCount.key).length := by simp
      have hj : j.val < (kc.map keyCount.key).length := by simp
      have := (List.Nodup.get_inj_iff hnd (i := ⟨i.val, hi⟩) (j := ⟨j.val, hj⟩)).1
        (by simpa using hk)
      exact Fin.ext (by simpa using this)
    unfold byCountKey.Less
    rcases less_total_of_ne hne with h1 | h1
    · left; exact ⟨h1, less_asymm h1⟩
    · right; exact ⟨less_asymm h1, h1⟩

/-- C3 at a concrete slice: the three entries ("b",1), ("a",2), ("c",1) have
pairwise distinct keys; transitivity and the strictness of the order are
applied to them. -/
theorem byCountKey_Less_strict_total_witness :
    (keyCount.less ⟨[98], 1, [], [], []⟩ ⟨[97], 2, [], [], []⟩ = true) ∧
    ((⟨[98], 1, [], [], []⟩ : keyCount).less ⟨[99], 1, [], [], []⟩ = true ∧
      (⟨[99], 1, [], [], []⟩ : keyCount).less ⟨[98], 1, [], [], []⟩ = false ∨
     (⟨[98], 1, [], [], []⟩ : keyCount).less ⟨[99], 1, [], [], []⟩ = false ∧
      (⟨[99], 1, [], [], []⟩ : keyCount).less ⟨[98], 1, [], [], []⟩ = true) :=
  ⟨byCountKey_Less_strict_total.2.1 ⟨[98], 1, [], [], []⟩ ⟨[99], 1, [], [], []⟩
      ⟨[97], 2, [], [], []⟩ (by decide) (by decide),
   byCountKey_Less_strict_total.2.2.2.1
      [⟨[98], 1, [], [], []⟩, ⟨[97], 2, [], [], []⟩, ⟨[99], 1, [], [], []⟩]
      (by decide) ⟨0, by decide⟩ ⟨2, by decide⟩ (by decide)⟩

/-! ## Records without a weight (C4) -/

theorem rawLines_no_nl (inp : Bytes) : ∀ (cur : Bytes), (∀ x ∈ cur, x ≠ 10) →
    ∀ l ∈ rawLines inp cur, ∀ x ∈ l, x ≠ 10 := by
  induction inp with
  | nil =>
    intro cur hc l hl
    by_cases h : cur = []
    · simp [rawLines, h] at hl
    · simp only [rawLines, if_neg h, List.mem_singleton] at hl
      rw [hl]; exact hc
  | cons b rest ih =>
    intro cur hc l hl
    by_cases hb : b = 10
    · simp only [rawLines, if_pos hb, List.mem_cons] at hl
      rcases hl with rfl | hl
      · exact hc
      · exact ih [] (fun x hx => absurd hx (List.not_mem_nil _)) l hl
    · simp only [rawLines, if_neg hb] at hl
      refine ih (cur ++ [b]) ?_ l hl
      intro x hx
      rcases List.mem_append.mp hx with hx | hx
      · exact hc x hx
      · rw [List.mem_singleton.mp hx]; exact hb

theorem rawLines_unlines (ls : List Bytes) (hls : ∀ l ∈ ls, ∀ x ∈ l, x ≠ 10) :
    rawLines (unlines ls) [] = ls := by
  induction ls with
  | nil => rfl
  | cons l ls ih =>
    rw [unlines, rawLines_append_newline l _ [] (hls l (List.mem_cons_self _ _)),
      ih (fun m hm => hls m (List.mem_cons_of_mem _ hm)), List.nil_append]

/-- Removing the lines whose records fail `p` from an input the scanner reads
to its end gives an input the scanner reads to its end, with the records that
pass `p`. -/
theorem scanLines_removeRecords (p : Bytes → Bool) (inp : Bytes)
    (hscan : (scanLines inp).err = none) :
    (scanLines (removeRecords p inp)).err = none ∧
    (scanLines (removeRecords p inp)).tokens = (scanLines inp).tokens.filter p := by
  have hraw := deliverLines_ok (rawLines inp [])
  have hshort := hraw.1.mp hscan
  have hnl := rawLines_no_nl inp [] (fun x hx => absurd hx (List.not_mem_nil _))
  have hkeep : rawLines (removeRecords p inp) [] =
      (rawLines inp []).filter (fun l => p (dropCR l)) :=
    rawLines_unlines _ (fun l hl => hnl l (List.mem_filter.mp hl).1)
  have hnew := deliverLines_ok ((rawLines inp []).filter (fun l => p (dropCR l)))
  have herr : (deliverLines ((rawLines inp []).filter (fun l => p (dropCR l)))).err = none :=
    hnew.1.mpr (fun l hl => hshort l (List.mem_filter.mp hl).1)
  unfold scanLines
  rw [hkeep]
  refine ⟨herr, ?_⟩
  rw [hnew.2 herr, hraw.2 hscan, List.filter_map]
  rfl

/-- C4 fails as stated: with weight column 1, after the line "1" comes a line of
70000 bytes, more than a `bufio.Scanner` token may hold, and `hist` returns the
scanner's error. -/
theorem hist_skips_unweighted_counterexample :
    ({ ifs := reSpaces, weightCol := 1 } : histogrammer).words = false ∧
    ({ ifs := reSpaces, weightCol := 1 } : histogrammer).weightCol ≠ 0 ∧
    (hist { ifs := reSpaces, weightCol := 1 } (ascii "1" ++ 10 :: List.replicate 70000 50)).2 =
      Except.error ScanError.ErrTooLong := by
  have hsc : scan false (ascii "1" ++ 10 :: List.replicate 70000 50) =
      { tokens := [ascii "1"], err := some ScanError.ErrTooLong } := by
    have h := scanLines_long (ascii "1") 70000 50 (by decide) (by decide) (by decide)
      (by decide)
    have hd : dropCR (ascii "1") = ascii "1" := by decide
    rw [hd] at h
    exact h
  have hw0 : ({ ifs := reSpaces, weightCol := 1 } : histogrammer).words = false := rfl
  refine ⟨rfl, by decide, ?_⟩
  exact hist_error _ _ _ (by rw [hw0, hsc])

/-- C4, amended: in line mode with weightCol != 0, the weight of a record is
`ParseInt` of its weight field (empty when absent).  For every input in which
every line is shorter than `MaxScanTokenSize` (so that the scanner reads it to
its end), `hist` returns no error, and returns exactly the entries it returns for
the same input with every line removed whose record yields no weight; every key
in the result is the key of a record that yields a weight, so a key that occurs
only in records without a weight does not appear at all.  An input with a line
of `MaxScanTokenSize` bytes or more makes `hist` return the scanner's error
`ErrTooLong` and no entries. -/
theorem hist_skips_unweighted (h : histogrammer) (inp : Bytes)
    (hl : h.words = false) (hwc : h.weightCol ≠ 0) :
    (∀ r, weightFn h r = ParseInt (bytesOf (fieldAt (splitb h.ifs r) h.weightCol))) ∧
    ((∀ l ∈ rawLines inp [], l.length < MaxScanTokenSize) →
      ∃ kc, (hist h inp).2 = Except.ok kc ∧
        (scanLines (removeRecords (fun r => (weightFn h r).isSome) inp)).tokens =
          (scanLines inp).tokens.filter (fun r => (weightFn h r).isSome) ∧
        (hist h (removeRecords (fun r => (weightFn h r).isSome) inp)).2 = Except.ok kc ∧
        (∀ e ∈ kc, ∃ r ∈ (scanLines inp).tokens,
          (weightFn h r).isSome = true ∧ keyFn h r = e.key)) ∧
    ((∃ l ∈ rawLines inp [], MaxScanTokenSize ≤ l.length) →
      (hist h inp).2 = Except.error ScanError.ErrTooLong ∧ histEntries h inp = []) := by
  have hsc : ∀ x, scan h.words x = scanLines x := by
    intro x; simp [scan, hl]
  refine ⟨fun r => (weightFn_spec h r).2 hwc, ?_, ?_⟩
  · intro hshort
    have hscan : (scanLines inp).err = none := (deliverLines_ok (rawLines inp [])).1.mpr hshort
    have hs1 : (scan h.words inp).err = none := by rw [hsc]; exact hscan
    obtain ⟨herr, htok⟩ := scanLines_removeRecords (fun r => (weightFn h r).isSome) inp hscan
    have hs2 : (scan h.words (removeRecords (fun r => (weightFn h r).isSome) inp)).err =
        none := by
      rw [hsc]; exact herr
    refine ⟨_, hist_ok h inp hs1, htok, ?_, ?_⟩
    · rw [hist_ok h _ hs2, hsc, htok, hsc]
      have hp : pairsOf h ((scanLines inp).tokens.filter (fun r => (weightFn h r).isSome)) =
          pairsOf h (scanLines inp).tokens := by
        unfold pairsOf
        generalize (scanLines inp).tokens = recs
        induction recs with
        | nil => rfl
        | cons r recs ih =>
          cases hw : weightFn h r with
          | none => simp [List.filter_cons, hw, ih]
          | some w => simp [List.filter_cons, hw, ih]
      rw [hp]
    · intro e he
      have hmem : e ∈ histEntries h inp := by
        unfold histEntries
        rw [hist_ok h inp hs1]
        exact he
      have := histEntries_keys h inp e hmem
      rw [hsc] at this
      exact this
  · intro ⟨l, hlm, hlong⟩
    have hne : (scanLines inp).err ≠ none := by
      intro hnone
      have := (deliverLines_ok (rawLines inp [])).1.mp hnone l hlm
      omega
    have hsome : (scan h.words inp).err = some ScanError.ErrTooLong := by
      rw [hsc]
      cases herr : (scanLines inp).err with
      | none => exact absurd herr hne
      | some e => cases e; rfl
    refine ⟨hist_error h inp _ hsome, histEntries_error h inp ?_⟩
    rw [hsome]
    exact Option.some_ne_none _

/-- C4 at the input "a 1\nb x\nc\na 2" with keys {1} and weight column 2: the
records "b x" (not an integer) and "c" (no second field) are dropped, the input
without them is "a 1\na 2\n", and both give the single entry {"a": 3}. -/
theorem hist_skips_unweighted_witness :
    removeRecords (fun r => (weightFn { ifs := reSpaces, keys := [1], weightCol := 2 } r).isSome)
      testSkipInput = ascii "a 1\na 2\n" ∧
    histEntries { ifs := reSpaces, keys := [1], weightCol := 2 } testSkipInput = [kc "a" 3] ∧
    (∀ l ∈ rawLines testSkipInput [], l.length < MaxScanTokenSize) ∧
    ∃ kc, (hist { ifs := reSpaces, keys := [1], weightCol := 2 } testSkipInput).2 =
        Except.ok kc ∧
      (scanLines (removeRecords
          (fun r => (weightFn { ifs := reSpaces, keys := [1], weightCol := 2 } r).isSome)
          testSkipInput)).tokens =
        (scanLines testSkipInput).tokens.filter
          (fun r => (weightFn { ifs := reSpaces, keys := [1], weightCol := 2 } r).isSome) ∧
      (hist { ifs := reSpaces, keys := [1], weightCol := 2 }
        (removeRecords
          (fun r => (weightFn { ifs := reSpaces, keys := [1], weightCol := 2 } r).isSome)
          testSkipInput)).2 = Except.ok kc ∧
      (∀ e ∈ kc, ∃ r ∈ (scanLines testSkipInput).tokens,
        (weightFn { ifs := reSpaces, keys := [1], weightCol := 2 } r).isSome = true ∧
        keyFn { ifs := reSpaces, keys := [1], weightCol := 2 } r = e.key) :=
  ⟨by decide, by decide, by decide,
   (hist_skips_unweighted { ifs := reSpaces, keys := [1], weightCol := 2 } testSkipInput
     rfl (by decide)).2.1 (by decide)⟩

/-! ## The runes of a string -/

theorem runesLoop_fuel : ∀ (f1 f2 : Nat) (s : Bytes), s.length ≤ f1 → s.length ≤ f2 →
    runesLoop f1 s = runesLoop f2 s := by
  intro f1
  induction f1 with
  | zero =>
    intro f2 s h1 _
    have hs : s = [] := List.length_eq_zero.mp (by omega)
    subst hs
    cases f2 <;> simp [runesLoop]
  | succ n ih =>
    intro f2 s h1 h2
    by_cases hs : s = []
    · subst hs
      cases f2 <;> simp [runesLoop]
    · have hw := decode_width s hs
      have hpos : 0 < s.length := List.length_pos.mpr hs
      rcases f2 with _ | m
      · omega
      · simp only [runesLoop, if_neg hs]
        rw [ih m _ (by simp only [List.length_drop]; omega)
          (by simp only [List.length_drop]; omega)]

theorem runes_nil : runes [] = [] := rfl

/-- One step of `runes`; in particular the fuel of the definition never runs out. -/
theorem runes_unfold (s : Bytes) (hs : s ≠ []) :
    runes s = ((DecodeRuneInString s).1, s.take (DecodeRuneInString s).2) ::
      runes (s.drop (DecodeRuneInString s).2) := by
  have hw := decode_width s hs
  have hpos : 0 < s.length := List.length_pos.mpr hs
  unfold runes
  obtain ⟨n, hn⟩ : ∃ n, s.length = n + 1 := ⟨s.length - 1, by omega⟩
  rw [hn]
  simp only [runesLoop, if_neg hs]
  rw [runesLoop_fuel n _ _ (by simp only [List.length_drop]; omega) (le_refl _)]

theorem bytesOfRunes_nil : bytesOfRunes [] = [] := rfl

theorem bytesOfRunes_cons (x : Nat × Bytes) (rs : List (Nat × Bytes)) :
    bytesOfRunes (x :: rs) = x.2 ++ bytesOfRunes rs := by
  simp [bytesOfRunes]

theorem bytesOfRunes_append (a b : List (Nat × Bytes)) :
    bytesOfRunes (a ++ b) = bytesOfRunes a ++ bytesOfRunes b := by
  simp [bytesOfRunes]

/-- The runes of a string partition its bytes, and no rune is empty. -/
theorem runes_bytes : ∀ (n : Nat) (s : Bytes), s.length ≤ n →
    bytesOfRunes (runes s) = s ∧ ∀ x ∈ runes s, x.2 ≠ [] := by
  intro n
  induction n with
  | zero =>
    intro s h
    have hs : s = [] := List.length_eq_zero.mp (by omega)
    subst hs
    simp [runes_nil, bytesOfRunes_nil]
  | succ n ih =>
    intro s h
    by_cases hs : s = []
    · subst hs
      simp [runes_nil, bytesOfRunes_nil]
    · have hw := decode_width s hs
      obtain ⟨h1, h2⟩ := ih (s.drop (DecodeRuneInString s).2)
        (by simp only [List.length_drop]; omega)
      rw [runes_unfold s hs]
      refine ⟨?_, ?_⟩
      · rw [bytesOfRunes_cons, h1]
        exact List.take_append_drop _ _
      · intro x hx
        rcases List.mem_cons.mp hx with rfl | hx
        · intro hnil
          have := congrArg List.length hnil
          simp only [List.length_take, List.length_nil] at this
          omega
        · exact h2 x hx

theorem bytesOfRunes_runes (s : Bytes) : bytesOfRunes (runes s) = s :=
  (runes_bytes s.length s (le_refl _)).1

theorem runes_ne_nil (s : Bytes) : ∀ x ∈ runes s, x.2 ≠ [] :=
  (runes_bytes s.length s (le_refl _)).2

/-- The runes after the first ones of a string are the runes of the rest of
the string. -/
theorem runes_suffix (A : List (Nat × Bytes)) : ∀ (s : Bytes) (R : List (Nat × Bytes)),
    runes s = A ++ R → runes (bytesOfRunes R) = R := by
  induction A with
  | nil =>
    intro s R h
    rw [List.nil_append] at h
    rw [← h, bytesOfRunes_runes]
  | cons a A ih =>
    intro s R h
    have hs : s ≠ [] := by
      intro hnil
      rw [hnil, runes_nil] at h
      exact List.noConfusion h
    rw [runes_unfold s hs, List.cons_append] at h
    exact ih _ R (List.cons.inj h).2

/-- The first runes of a string are the runes of the bytes they take up: a
string cut at a rune boundary decodes as before the cut. -/
theorem runes_prefix (seg : List (Nat × Bytes)) : ∀ (s : Bytes) (B : List (Nat × Bytes)),
    runes s = seg ++ B → runes (bytesOfRunes seg) = seg := by
  induction seg with
  | nil => intro s B _; rfl
  | cons x seg ih =>
    intro s B h
    have hs : s ≠ [] := by
      intro hnil
      rw [hnil, runes_nil] at h
      exact List.noConfusion h
    have hw := decode_width s hs
    rw [runes_unfold s hs, List.cons_append] at h
    obtain ⟨hx, hrest⟩ := List.cons.inj h
    have hseg := ih _ B hrest
    have hdrop : s.drop (DecodeRuneInString s).2 = bytesOfRunes seg ++ bytesOfRunes B := by
      rw [← bytesOfRunes_append, ← hrest, bytesOfRunes_runes]
    have hstab := decode_stable s (bytesOfRunes seg) (bytesOfRunes B) [] hs hdrop (by decide)
    rw [List.append_nil] at hstab
    have hlen : (s.take (DecodeRuneInString s).2).length = (DecodeRuneInString s).2 := by
      simp only [List.length_take]; omega
    have hne : s.take (DecodeRuneInString s).2 ++ bytesOfRunes seg ≠ [] := by
      intro hnil
      have := congrArg List.length hnil
      simp only [List.length_append, List.length_nil] at this
      omega
    rw [bytesOfRunes_cons, ← hx]
    simp only []
    rw [runes_unfold _ hne, hstab, List.take_append_eq_append_take, hlen, Nat.sub_self,
      List.take_zero, List.append_nil, List.take_take, Nat.min_self,
      List.drop_append_eq_append_drop, hlen, Nat.sub_self, List.drop_zero,
      List.drop_of_length_le (by omega), List.nil_append, hseg]

/-- A contiguous run of the runes of a string is the runes of its own bytes. -/
theorem runes_infix (s : Bytes) (seg : List (Nat × Bytes)) (h : seg <:+: runes s) :
    runes (bytesOfRunes seg) = seg := by
  obtain ⟨A, B, hAB⟩ := h
  rw [List.append_assoc] at hAB
  have h1 := runes_suffix A s (seg ++ B) hAB.symm
  exact runes_prefix seg _ B h1

/-! ## The word scanner -/

/-- Every token of the word scanner is the bytes of a non-empty contiguous run
of non-whitespace runes of the input. -/
theorem deliverWords_tokens_seg (rs : List (Nat × Bytes)) :
    ∀ (c A full : List (Nat × Bytes)), full = A ++ c ++ rs →
      (∀ x ∈ c, isSpace x.1 = false) →
      ∀ t ∈ (deliverWords rs (bytesOfRunes c)).tokens,
        ∃ seg, t = bytesOfRunes seg ∧ seg ≠ [] ∧ (∀ x ∈ seg, isSpace x.1 = false) ∧
          seg <:+: full := by
  induction rs with
  | nil =>
    intro c A full hfull hc t ht
    have hcne : bytesOfRunes c ≠ [] → c ≠ [] := by
      intro h1 h2; exact h1 (by rw [h2]; rfl)
    by_cases h0 : bytesOfRunes c = []
    · simp [deliverWords, h0] at ht
    · by_cases h1 : (bytesOfRunes c).length < MaxScanTokenSize
      · simp only [deliverWords, if_neg h0, if_pos h1, List.mem_singleton] at ht
        exact ⟨c, ht, hcne h0, hc, ⟨A, [], by rw [hfull]⟩⟩
      · simp [deliverWords, h0, h1] at ht
  | cons x rest ih =>
    intro c A full hfull hc t ht
    obtain ⟨r, bs⟩ := x
    by_cases hsp : isSpace r = true
    · by_cases h0 : bytesOfRunes c = []
      · simp only [deliverWords, if_pos hsp, if_pos h0] at ht
        exact ih [] (A ++ c ++ [(r, bs)]) full (by rw [hfull]; simp) (by simp) t ht
      · have hcne : c ≠ [] := by
          intro h2; exact h0 (by rw [h2]; rfl)
        by_cases h1 : (bytesOfRunes c).length + bs.length ≤ MaxScanTokenSize
        · simp only [deliverWords, if_pos hsp, if_neg h0, if_pos h1, ScanResult.cons,
            List.mem_cons] at ht
          rcases ht with rfl | ht
          · exact ⟨c, rfl, hcne, hc, ⟨A, (r, bs) :: rest, by rw [hfull]⟩⟩
          · exact ih [] (A ++ c ++ [(r, bs)]) full (by rw [hfull]; simp) (by simp) t ht
        · simp [deliverWords, hsp, h0, h1] at ht
    · have hns : isSpace r = false := by
        cases h : isSpace r
        · rfl
        · exact absurd h hsp
      simp only [deliverWords, if_neg hsp] at ht
      have hb : bytesOfRunes c ++ bs = bytesOfRunes (c ++ [(r, bs)]) := by
        rw [bytesOfRunes_append, bytesOfRunes_cons, bytesOfRunes_nil, List.append_nil]
      rw [hb] at ht
      refine ih (c ++ [(r, bs)]) A full (by rw [hfull]; simp) ?_ t ht
      intro y hy
      rcases List.mem_append.mp hy with hy | hy
      · exact hc y hy
      · rw [List.mem_singleton.mp hy]; exact hns

theorem bytesOfRunes_eq_nil (c : List (Nat × Bytes)) (hne : ∀ x ∈ c, x.2 ≠ []) :
    bytesOfRunes c = [] ↔ c = [] := by
  constructor
  · intro h
    rcases c with _ | ⟨x, c⟩
    · rfl
    · rw [bytesOfRunes_cons] at h
      exact absurd (List.append_eq_nil.mp h).1 (hne x (List.mem_cons_self _ _))
  · intro h; rw [h]; rfl

/-- The maximal runs of `c ++ rs` when `c` is a run being read: the pieces of
`rs` between whitespace runes, the first one continuing `c`, without the empty
pieces. -/
theorem deliverWords_refines (rs : List (Nat × Bytes)) :
    ∀ (c : List (Nat × Bytes)), (∀ x ∈ c, x.2 ≠ []) → (∀ x ∈ rs, x.2 ≠ []) →
      (deliverWords rs (bytesOfRunes c)).tokens <+:
        ((((rs.splitOnP (fun x => isSpace x.1)).modifyHead (fun l => c ++ l)).filter
          (fun seg => seg ≠ [])).map bytesOfRunes) ∧
      ((deliverWords rs (bytesOfRunes c)).err = none →
        (deliverWords rs (bytesOfRunes c)).tokens =
          ((((rs.splitOnP (fun x => isSpace x.1)).modifyHead (fun l => c ++ l)).filter
            (fun seg => seg ≠ [])).map bytesOfRunes)) := by
  induction rs with
  | nil =>
    intro c hc _
    have hnil := bytesOfRunes_eq_nil c hc
    by_cases h0 : c = []
    · subst h0
      simp [deliverWords, bytesOfRunes_nil, List.splitOnP_nil, List.modifyHead]
    · have hb : bytesOfRunes c ≠ [] := fun h => h0 (hnil.mp h)
      by_cases h1 : (bytesOfRunes c).length < MaxScanTokenSize
      · simp [deliverWords, hb, h1, List.splitOnP_nil, List.modifyHead, h0]
      · simp [deliverWords, hb, h1, List.splitOnP_nil, List.modifyHead, h0]
  | cons x rest ih =>
    intro c hc hrs
    obtain ⟨r, bs⟩ := x
    have hrest : ∀ y ∈ rest, y.2 ≠ [] := fun y hy => hrs y (List.mem_cons_of_mem _ hy)
    have hnil := bytesOfRunes_eq_nil c hc
    have hid : ∀ l : List (List (Nat × Bytes)),
        l.modifyHead (fun m => ([] : List (Nat × Bytes)) ++ m) = l := by
      intro l; cases l <;> simp [List.modifyHead]
    by_cases hsp : isSpace r = true
    · have ih0 := ih [] (by simp) hrest
      rw [hid, bytesOfRunes_nil] at ih0
      rw [List.splitOnP_cons]
      simp only [hsp, if_true, List.modifyHead, List.append_nil]
      by_cases h0 : c = []
      · subst h0
        simp only [deliverWords, hsp, if_true, bytesOfRunes_nil, List.filter_cons, ne_eq,
          not_true_eq_false, decide_False, Bool.false_eq_true, if_false]
        exact ih0
      · have hb : bytesOfRunes c ≠ [] := fun h => h0 (hnil.mp h)
        by_cases h1 : (bytesOfRunes c).length + bs.length ≤ MaxScanTokenSize
        · simp only [deliverWords, hsp, if_true, if_neg hb, if_pos h1, ScanResult.cons,
            List.filter_cons, ne_eq, h0, not_false_eq_true, decide_True, List.map_cons]
          refine ⟨?_, fun he => ?_⟩
          · exact (List.prefix_cons_inj _).mpr ih0.1
          · rw [ih0.2 he]
        · simp only [deliverWords, hsp, if_true, if_neg hb, if_neg h1]
          refine ⟨List.nil_prefix, fun he => ?_⟩
          exact absurd he (by simp)
    · have hb : bytesOfRunes c ++ bs = bytesOfRunes (c ++ [(r, bs)]) := by
        rw [bytesOfRunes_append, bytesOfRunes_cons, bytesOfRunes_nil, List.append_nil]
      have hc2 : ∀ y ∈ c ++ [(r, bs)], y.2 ≠ [] := by
        intro y hy
        rcases List.mem_append.mp hy with hy | hy
        · exact hc y hy
        · rw [List.mem_singleton.mp hy]; exact hrs _ (List.mem_cons_self _ _)
      have ih1 := ih (c ++ [(r, bs)]) hc2 hrest
      have hfun : ((fun l => c ++ l) ∘ List.cons (r, bs)) =
          (fun l : List (Nat × Bytes) => c ++ [(r, bs)] ++ l) := by
        funext l; simp
      have hns : isSpace r = false := by
        cases h : isSpace r
        · rfl
        · exact absurd h hsp
      rw [List.splitOnP_cons]
      simp only [hns, Bool.false_eq_true, if_false, deliverWords, List.modifyHead_modifyHead,
        hfun]
      rw [hb]
      exact ih1

/-- The word scanner refines the maximal runs: its tokens are the first maximal
runs of non-whitespace characters of the input, and all of them when it reads
the input to its end. -/
theorem scanWords_refines (inp : Bytes) :
    (scanWords inp).tokens <+: maximalRuns inp ∧
    ((scanWords inp).err = none → (scanWords inp).tokens = maximalRuns inp) := by
  have h := deliverWords_refines (runes inp) [] (by simp) (runes_ne_nil inp)
  have hid : ∀ l : List (List (Nat × Bytes)),
      l.modifyHead (fun m => ([] : List (Nat × Bytes)) ++ m) = l := by
    intro l; cases l <;> simp [List.modifyHead]
  rw [hid, bytesOfRunes_nil] at h
  exact h

theorem deliverWords_no_error (rs : List (Nat × Bytes)) : ∀ (cur : Bytes),
    cur.length + (bytesOfRunes rs).length < MaxScanTokenSize →
      (deliverWords rs cur).err = none := by
  induction rs with
  | nil =>
    intro cur h
    simp only [bytesOfRunes_nil, List.length_nil, Nat.add_zero] at h
    by_cases h0 : cur = []
    · simp [deliverWords, h0]
    · simp [deliverWords, h0, h]
  | cons x rest ih =>
    intro cur h
    obtain ⟨r, bs⟩ := x
    rw [bytesOfRunes_cons, List.length_append] at h
    simp only [] at h
    by_cases hsp : isSpace r = true
    · by_cases h0 : cur = []
      · simp only [deliverWords, if_pos hsp, if_pos h0]
        exact ih [] (by simp only [List.length_nil]; omega)
      · have h1 : cur.length + bs.length ≤ MaxScanTokenSize := by omega
        simp only [deliverWords, if_pos hsp, if_neg h0, if_pos h1, ScanResult.cons]
        exact ih [] (by simp only [List.length_nil]; omega)
    · simp only [deliverWords, if_neg hsp]
      exact ih (cur ++ bs) (by simp only [List.length_append]; omega)

/-- An input shorter than `MaxScanTokenSize` is read to its end. -/
theorem scanWords_no_error (inp : Bytes) (h : inp.length < MaxScanTokenSize) :
    (scanWords inp).err = none := by
  unfold scanWords
  refine deliverWords_no_error _ [] ?_
  rw [bytesOfRunes_runes]
  simpa using h

theorem deliverWords_length (rs : List (Nat × Bytes)) : ∀ (cur : Bytes),
    (deliverWords rs cur).tokens.length ≤ rs.length + (if cur = [] then 0 else 1) := by
  induction rs with
  | nil =>
    intro cur
    by_cases h0 : cur = []
    · simp [deliverWords, h0]
    · by_cases h1 : cur.length < MaxScanTokenSize
      · simp [deliverWords, h0, h1]
      · simp [deliverWords, h0, h1]
  | cons x rest ih =>
    intro cur
    obtain ⟨r, bs⟩ := x
    have ih0 := ih []
    simp only [if_true] at ih0
    by_cases hsp : isSpace r = true
    · by_cases h0 : cur = []
      · simp only [deliverWords, if_pos hsp, if_pos h0, List.length_cons]
        omega
      · by_cases h1 : cur.length + bs.length ≤ MaxScanTokenSize
        · simp only [deliverWords, if_pos hsp, if_neg h0, if_pos h1, ScanResult.cons,
            List.length_cons]
          omega
        · simp [deliverWords, hsp, h0, h1]
    · simp only [deliverWords, if_neg hsp, List.length_cons]
      have := ih (cur ++ bs)
      split at this <;> split <;> omega

theorem runes_length_le (rs : List (Nat × Bytes)) (hne : ∀ x ∈ rs, x.2 ≠ []) :
    rs.length ≤ (bytesOfRunes rs).length := by
  induction rs with
  | nil => simp
  | cons x rs ih =>
    rw [bytesOfRunes_cons, List.length_append, List.length_cons]
    have h1 := ih (fun y hy => hne y (List.mem_cons_of_mem _ hy))
    have h2 : 0 < x.2.length := List.length_pos.mpr (hne x (List.mem_cons_self _ _))
    omega

/-- The word scanner delivers at most as many tokens as the input has bytes. -/
theorem scanWords_length (inp : Bytes) : (scanWords inp).tokens.length ≤ inp.length := by
  have h1 := deliverWords_length (runes inp) []
  have h2 := runes_length_le (runes inp) (runes_ne_nil inp)
  rw [bytesOfRunes_runes] at h2
  simp only [if_true] at h1
  unfold scanWords
  omega

/-! ## Word mode (C6) -/

theorem pairsOf_words (h : histogrammer) (hk : h.keys = []) (hc : h.weightCol = 0)
    (toks : List Bytes) : pairsOf h toks = toks.map (fun t => (t, (1 : Int))) := by
  have hkey : ∀ r, keyFn h r = r := by intro r; simp [keyFn, hk]
  have hwt : ∀ r, weightFn h r = some 1 := by intro r; simp [weightFn, hc]
  have hf : (fun r => (weightFn h r).map (fun w => (keyFn h r, w))) =
      fun r => some (r, (1 : Int)) := by
    funext r
    rw [hkey, hwt]
    rfl
  unfold pairsOf
  rw [hf]
  induction toks with
  | nil => rfl
  | cons t toks ih => rw [List.filterMap_cons, ih, List.map_cons]

theorem totalOf_ones (toks : List Bytes) (k : Bytes) :
    totalOf (toks.map (fun t => (t, (1 : Int)))) k = (toks.count k : Int) := by
  induction toks with
  | nil => rfl
  | cons t toks ih =>
    rw [List.map_cons, totalOf_cons, ih]
    by_cases htk : t = k
    · subst htk
      simp only [if_true, List.count_cons_self]
      push_cast
      omega
    · have hne : (t == k) = false := by simpa using htk
      simp only [if_neg htk, List.count_cons, hne]
      simp

/-- The runes of ASCII text: one for each byte. -/
theorem runes_ascii : ∀ (l : Bytes), (∀ b ∈ l, b < 128) → runes l = l.map (fun b => (b, [b])) := by
  intro l
  induction l with
  | nil => intro _; rfl
  | cons b l ih =>
    intro h
    have hb : b < 128 := h b (List.mem_cons_self b l)
    have hd : DecodeRuneInString (b :: l) = (b, 1) := by
      have hf : first b = 0xF0 := by
        unfold first
        rw [if_pos hb]
      rw [decode_cons, hf]
      simp
    rw [runes_unfold (b :: l) (List.cons_ne_nil b l), hd]
    simp only [List.take_succ_cons, List.take_zero, List.drop_succ_cons, List.drop_zero,
      List.map_cons]
    rw [ih (fun x hx => h x (List.mem_cons_of_mem b hx))]

/-- Runes that are not spaces are gathered into the word being read. -/
theorem deliverWords_nospace (rs : List (Nat × Bytes)) : ∀ (cur : Bytes),
    (∀ x ∈ rs, isSpace x.1 = false) →
    deliverWords rs cur = deliverWords [] (cur ++ bytesOfRunes rs) := by
  induction rs with
  | nil => intro cur _; rw [bytesOfRunes_nil, List.append_nil]
  | cons x rest ih =>
    intro cur h
    obtain ⟨r, bs⟩ := x
    have hr : ¬ isSpace r = true := by
      have := h (r, bs) (List.mem_cons_self _ _)
      simp only [] at this
      rw [this]
      exact Bool.false_ne_true
    have hstep : deliverWords ((r, bs) :: rest) cur = deliverWords rest (cur ++ bs) := by
      simp only [deliverWords, if_neg hr]
    rw [hstep, ih (cur ++ bs) (fun y hy => h y (List.mem_cons_of_mem _ hy)), bytesOfRunes_cons,
      List.append_assoc]

/-- A word of `MaxScanTokenSize` bytes or more, alone in the input: the scanner
delivers no token and stops with `ErrTooLong`, while the word is a maximal run
of the input. -/
theorem scanWords_long (n : Nat) (hn : MaxScanTokenSize ≤ n) :
    scan true (List.replicate n 97) = { tokens := [], err := some ScanError.ErrTooLong } ∧
    maximalRuns (List.replicate n 97) = [List.replicate n 97] := by
  have hascii : ∀ b ∈ List.replicate n 97, b < 128 := by
    intro b hb
    rw [(List.mem_replicate.mp hb).2]
    decide
  have hr := runes_ascii _ hascii
  have hns : ∀ x ∈ runes (List.replicate n 97), isSpace x.1 = false := by
    intro x hx
    rw [hr] at hx
    obtain ⟨b, hb, hbx⟩ := List.mem_map.mp hx
    rw [← hbx, (List.mem_replicate.mp hb).2]
    decide
  have hne : List.replicate n 97 ≠ [] := by
    intro h
    have := congrArg List.length h
    simp only [List.length_replicate, List.length_nil] at this
    have h0 : 0 < MaxScanTokenSize := by decide
    omega
  constructor
  · unfold scan scanWords
    rw [if_pos rfl, deliverWords_nospace _ [] hns, List.nil_append, bytesOfRunes_runes]
    simp only [deliverWords, if_neg hne, List.length_replicate, if_neg (not_lt.mpr hn)]
  · unfold maximalRuns
    have hsplit : (runes (List.replicate n 97)).splitOnP (fun x => isSpace x.1) =
        [runes (List.replicate n 97)] := by
      apply List.splitOnP_eq_single
      intro x hx
      rw [hns x hx]
      exact Bool.false_ne_true
    have hrne : runes (List.replicate n 97) ≠ [] := by
      intro h
      have := bytesOfRunes_runes (List.replicate n 97)
      rw [h, bytesOfRunes_nil] at this
      exact hne this.symm
    rw [hsplit]
    simp only [List.filter_cons, List.filter_nil, decide_eq_true hrne, if_true, List.map_cons,
      List.map_nil, bytesOfRunes_runes]

/-- C6 fails as stated, in two ways.  For the input made of one word of 70000
bytes, more than a `bufio.Scanner` token may hold, the word is the one maximal
run of non-whitespace characters, but the scanner delivers no record: `hist`
returns the error `ErrTooLong` and no entries.  And `words` alone does not make
the keys the words: with the key field index 5 also set, the two words of "a b"
both give the empty key, and `hist` returns the entry {"": 2}. -/
theorem hist_words_counterexample :
    ({ ifs := reSpaces, words := true } : histogrammer).words = true ∧
    maximalRuns (List.replicate 70000 97) = [List.replicate 70000 97] ∧
    (scan true (List.replicate 70000 97)).tokens = [] ∧
    (hist { ifs := reSpaces, words := true } (List.replicate 70000 97)).2 =
      Except.error ScanError.ErrTooLong ∧
    histEntries { ifs := reSpaces, words := true } (List.replicate 70000 97) = [] ∧
    histEntries { ifs := reSpaces, words := true, keys := [5] } (ascii "a b") = [kc "" 2] := by
  obtain ⟨h1, h2⟩ := scanWords_long 70000 (by decide)
  have hsc := h1
  have hw0 : ({ ifs := reSpaces, words := true } : histogrammer).words = true := rfl
  refine ⟨rfl, h2, by rw [hsc], ?_, ?_, by decide⟩
  · exact hist_error _ _ _ (by rw [hw0, hsc])
  · refine histEntries_error _ _ ?_
    rw [hw0, hsc]
    exact Option.some_ne_none _

/-- C6, amended.  Word mode is `words` true with no key indices and no weight
column.  The scanner's tokens are the first maximal runs of non-whitespace
characters of the input, and all of them whenever it reads the input to its
end, which it does for every input shorter than `MaxScanTokenSize`; `hist` then
returns an entry for each.  Every key returned by `hist` is non-empty (so
whitespace of any kind produces no empty-string entry), contains no Unicode
whitespace, is a maximal run of the input, and its count is the (64-bit) number
of maximal runs of the input equal to it.  When the scanner stops with an
error, `hist` returns that error and no entries. -/
theorem hist_words (h : histogrammer) (inp : Bytes)
    (hw : h.words = true) (hk : h.keys = []) (hc : h.weightCol = 0) :
    (scan h.words inp).tokens <+: maximalRuns inp ∧
    ((scan h.words inp).err = none →
      (scan h.words inp).tokens = maximalRuns inp ∧
      ∃ kc, (hist h inp).2 = Except.ok kc ∧ ∀ t ∈ maximalRuns inp, ∃ e ∈ kc, e.key = t) ∧
    (inp.length < MaxScanTokenSize → (scan h.words inp).err = none) ∧
    (∀ e ∈ histEntries h inp,
      e.key ≠ [] ∧ (∀ x ∈ runes e.key, isSpace x.1 = false) ∧ e.key ∈ maximalRuns inp ∧
      e.cnt = wrapInt ((maximalRuns inp).count e.key) ∧
      ((inp.length : Int) < 2 ^ 63 → e.cnt = ((maximalRuns inp).count e.key : Int))) ∧
    (∀ e, (scan h.words inp).err = some e →
      (hist h inp).2 = Except.error e ∧ histEntries h inp = []) := by
  have herrpath : ∀ e, (scan h.words inp).err = some e →
      (hist h inp).2 = Except.error e ∧ histEntries h inp = [] := by
    intro e he
    refine ⟨hist_error h inp e he, histEntries_error h inp ?_⟩
    rw [he]
    exact Option.some_ne_none _
  have hsc : scan h.words inp = scanWords inp := by simp [scan, hw]
  have href := scanWords_refines inp
  have hkey : ∀ r, keyFn h r = r := by intro r; simp [keyFn, hk]
  refine ⟨?_, ?_, ?_, ?_, herrpath⟩
  · rw [hsc]; exact href.1
  · rw [hsc]
    intro herr
    have hs1 : (scan h.words inp).err = none := by rw [hsc]; exact herr
    refine ⟨href.2 herr, _, hist_ok h inp hs1, ?_⟩
    intro t ht
    obtain ⟨_, h2, _⟩ := rank_spec (pairsOf h (scan h.words inp).tokens)
    have hmem : t ∈ (sortSort (entriesOf (addAll []
        (pairsOf h (scan h.words inp).tokens)))).map keyCount.key := by
      rw [h2 t, mem_pairsOf]
      refine ⟨t, ?_, by simp [weightFn, hc], hkey t⟩
      rw [hsc, href.2 herr]
      exact ht
    obtain ⟨e, he, hek⟩ := List.mem_map.mp hmem
    exact ⟨e, he, hek⟩
  · rw [hsc]; exact scanWords_no_error inp
  · intro e he
    by_cases herr : (scanWords inp).err = none
    · have hs1 : (scan h.words inp).err = none := by rw [hsc]; exact herr
      have htoks := href.2 herr
      obtain ⟨r, hr0, _, hrk⟩ := histEntries_keys h inp e he
      rw [hkey] at hrk
      rw [hsc, hrk] at hr0
      have hr : e.key ∈ (deliverWords (runes inp) (bytesOfRunes [])).tokens := hr0
      obtain ⟨seg, hseg, hne, hns, hinf⟩ :=
        deliverWords_tokens_seg (runes inp) [] [] (runes inp) (by simp) (by simp) e.key hr
      have hrunes : runes e.key = seg := by rw [hseg]; exact runes_infix inp seg hinf
      have hcnt : e.cnt = wrapInt ((maximalRuns inp).count e.key) := by
        rw [histEntries_ok h inp hs1] at he
        obtain ⟨_, _, h3⟩ := rank_spec (pairsOf h (scan h.words inp).tokens)
        rw [h3 e he, pairsOf_words h hk hc, totalOf_ones, hsc, htoks]
      refine ⟨?_, ?_, ?_, hcnt, ?_⟩
      · rw [hseg]
        intro hnil
        exact hne ((bytesOfRunes_eq_nil seg
          (fun x hx => runes_ne_nil inp x (hinf.subset hx))).mp hnil)
      · rw [hrunes]; exact hns
      · rw [← htoks]; exact hr0
      · intro hlen
        rw [hcnt]
        have h1 : (maximalRuns inp).count e.key ≤ (maximalRuns inp).length :=
          List.count_le_length _ _
        have h2 := scanWords_length inp
        rw [htoks] at h2
        have h3 : ((maximalRuns inp).count e.key : Int) ≤ (inp.length : Int) := by
          exact_mod_cast le_trans h1 h2
        have h0 : (0 : Int) ≤ ((maximalRuns inp).count e.key : Int) := Int.natCast_nonneg _
        exact wrapInt_of_isInt64 ⟨by omega, by omega⟩
    · have hs1 : (scan h.words inp).err ≠ none := by rw [hsc]; exact herr
      rw [histEntries_error h inp hs1] at he
      exact absurd he (List.not_mem_nil _)

/-- C6 at the input of `TestWords`: "What" and "..." get count 2 and every
other token count 1, and there is no empty-string entry although the input has
leading, repeated and trailing whitespace and newlines. -/
theorem hist_words_witness :
    histEntries { ifs := reSpaces, words := true } testWordsInput =
      [kc "brings" 1, kc "conquest" 1, kc "follow" 1, kc "he" 1, kc "home?" 1,
       kc "tributaries" 1, kc "..." 2, kc "What" 2] ∧
    maximalRuns testWordsInput =
      [ascii "...", ascii "What", ascii "conquest", ascii "brings", ascii "he",
       ascii "home?", ascii "What", ascii "tributaries", ascii "follow", ascii "..."] ∧
    (∀ e ∈ histEntries { ifs := reSpaces, words := true } testWordsInput,
      e.key ≠ [] ∧ (∀ x ∈ runes e.key, isSpace x.1 = false) ∧
      e.key ∈ maximalRuns testWordsInput ∧
      e.cnt = wrapInt ((maximalRuns testWordsInput).count e.key) ∧
      ((testWordsInput.length : Int) < 2 ^ 63 →
        e.cnt = ((maximalRuns testWordsInput).count e.key : Int))) :=
  ⟨by decide, by decide,
   (hist_words { ifs := reSpaces, words := true } testWordsInput rfl rfl rfl).2.2.2.1⟩

/-! ## strconv.ParseInt: checks and range -/

example : ParseInt (ascii "42") = some 42 := by decide
example : ParseInt (ascii "-10") = some (-10) := by decide
example : ParseInt (ascii "+7") = some 7 := by decide
example : ParseInt (ascii "") = none := by decide
example : ParseInt (ascii "-") = none := by decide
example : ParseInt (ascii "1_000") = none := by decide
example : ParseInt (ascii "0x10") = none := by decide
example : ParseInt (ascii " 5") = none := by decide
example : ParseInt (ascii "9223372036854775807") = some 9223372036854775807 := by decide
example : ParseInt (ascii "9223372036854775808") = none := by decide
example : ParseInt (ascii "-9223372036854775808") = some (-9223372036854775808) := by decide
example : ParseInt (ascii "-9223372036854775809") = none := by decide

/-- A weight `ParseInt` accepts is a signed 64-bit integer. -/
theorem ParseInt_isInt64 (s : Bytes) (n : Int) (h : ParseInt s = some n) : isInt64 n := by
  unfold ParseInt at h
  rcases s with _ | ⟨c, rest⟩
  · exact absurd h (by simp)
  · simp only [] at h
    generalize (if c = 43 ∨ c = 45 then rest else c :: rest) = digits at h
    by_cases hdn : digits = []
    · rw [if_pos hdn] at h
      exact absurd h (by simp)
    · rw [if_neg hdn] at h
      cases hp : parseDigits digits 0 with
      | none =>
        rw [hp] at h
        exact absurd h (by simp)
      | some un =>
        rw [hp] at h
        simp only [] at h
        by_cases h1 : ¬ decide (c = 45) = true ∧ un ≥ 2 ^ 63
        · rw [if_pos h1] at h
          exact absurd h (by simp)
        · rw [if_neg h1] at h
          by_cases h2 : decide (c = 45) = true ∧ un > 2 ^ 63
          · rw [if_pos h2] at h
            exact absurd h (by simp)
          · rw [if_neg h2] at h
            have hn := Option.some.inj h
            unfold isInt64
            by_cases hneg : decide (c = 45) = true
            · rw [if_pos hneg] at hn
              have h3 : ¬ un > 2 ^ 63 := fun hc => h2 ⟨hneg, hc⟩
              have h4 : (un : Int) ≤ 2 ^ 63 := by
                have : un ≤ 2 ^ 63 := not_lt.mp h3
                exact_mod_cast this
              omega
            · rw [if_neg hneg] at hn
              have h3 : ¬ un ≥ 2 ^ 63 := fun hc => h1 ⟨hneg, hc⟩
              have h4 : (un : Int) < 2 ^ 63 := by
                have : un < 2 ^ 63 := not_le.mp h3
                exact_mod_cast this
              omega

/-! ## The snippeter at a degenerate width -/

/-- At a width of at most 1 the loop of `snip` stops in its first round: a
non-empty string is replaced by the marker alone. -/
theorem snip_le_one (s : Bytes) (width : Int) (hs : s ≠ []) (hw : width ≤ 1) :
    snip s width = some (snipMark, true) := by
  have hlen : 0 < s.length := List.length_pos.mpr hs
  unfold snip
  rw [snipLoop, if_pos hlen, if_pos hw]
  rfl

/-- The loop of `snip` never runs on the empty string. -/
theorem snip_nil (width : Int) : snip [] width = some ([], false) := by
  unfold snip
  rw [snipLoop, if_neg (by simp)]

/-- C11, the claim as stated fails: at the widths 1, 0 and -5 the empty string is
returned unchanged, without the marker and with the flag false. -/
theorem snip_degenerate_counterexample :
    snip [] 1 = some ([], false) ∧ snip [] 0 = some ([], false) ∧
    snip [] (-5) = some ([], false) ∧ snip [] 1 ≠ some (snipMark, true) := by
  decide

/-- C11, amended: at a width of at most 1, every non-empty string (a string of
one code point at width 1 too) is replaced by the one-code-point marker alone
and reported as cut; the empty string is returned unchanged and unflagged, at
every width. -/
theorem snip_degenerate (s : Bytes) (width : Int) :
    (width ≤ 1 → s ≠ [] → snip s width = some (snipMark, true)) ∧
    (s = [] → snip s width = some ([], false)) ∧
    RuneCountInString snipMark = 1 := by
  refine ⟨fun hw hs => snip_le_one s width hs hw, ?_, runeCount_snipMark⟩
  intro h0
  rw [h0]
  exact snip_nil width

/-- C11 at the string "a" of one code point and at "hello", at the widths 1, 0
and -5; and the empty string at width 7. -/
theorem snip_degenerate_witness :
    (1 : Int) ≤ 1 ∧ ascii "a" ≠ [] ∧ snip (ascii "a") 1 = some (snipMark, true) ∧
    snip (ascii "hello") 0 = some (snipMark, true) ∧
    snip (ascii "hello") (-5) = some (snipMark, true) ∧
    snip [] 7 = some ([], false) :=
  ⟨by decide, by decide, (snip_degenerate (ascii "a") 1).1 (by decide) (by decide),
    (snip_degenerate (ascii "hello") 0).1 (by decide) (by decide),
    (snip_degenerate (ascii "hello") (-5)).1 (by decide) (by decide),
    (snip_degenerate [] 7).2.1 rfl⟩

/-! ## The field extractor -/

example : (fld testFldInput reUnderscores (ascii " ") [1, 5, -2]).toOption =
    some (ascii "one five four\none five four\none  one\none  \n  \none  two\n") := by
  decide

/-- An index counted from the start: `v` is the `v`-th part. -/
theorem fieldAt_pos (parts : List Bytes) (v : Int) (h1 : 1 ≤ v)
    (hn : v ≤ (parts.length : Int)) (hv : isInt64 v) :
    fieldAt parts v = parts.get? (v - 1).toNat ∧ (v - 1).toNat < parts.length := by
  have hw : wrapInt (v - 1) = v - 1 := wrapInt_of_isInt64 (by unfold isInt64 at *; omega)
  have h2 : ¬ v < 0 := by omega
  have h3 : v > 0 := by omega
  have h4 : v - 1 ≥ 0 ∧ v - 1 < (parts.length : Int) := by omega
  refine ⟨?_, by omega⟩
  simp only [fieldAt, if_neg h2, if_pos h3, hw, if_pos h4]

/-- An index counted from the end: `-k` is the `k`-th part of the reversed
list. -/
theorem fieldAt_neg (parts : List Bytes) (v : Int) (h1 : v ≤ -1)
    (hn : -(parts.length : Int) ≤ v) (hlen : (parts.length : Int) < 2 ^ 63) :
    fieldAt parts v = parts.reverse.get? (-v - 1).toNat ∧ (-v - 1).toNat < parts.length := by
  have hw : wrapInt ((parts.length : Int) + v) = (parts.length : Int) + v :=
    wrapInt_of_isInt64 (by unfold isInt64; omega)
  have h2 : v < 0 := by omega
  have h4 : (parts.length : Int) + v ≥ 0 ∧ (parts.length : Int) + v < (parts.length : Int) := by
    omega
  have hk : (-v - 1).toNat < parts.length := by omega
  refine ⟨?_, hk⟩
  simp only [fieldAt, if_pos h2, hw, if_pos h4, List.get?_eq_getElem?]
  rw [List.getElem?_reverse hk]
  congr 1
  omega

/-- An index beyond either end selects nothing. -/
theorem fieldAt_out (parts : List Bytes) (v : Int)
    (h : v < -(parts.length : Int) ∨ (parts.length : Int) < v) (hv : isInt64 v)
    (hlen : (parts.length : Int) < 2 ^ 63) : fieldAt parts v = none := by
  unfold isInt64 at hv
  rcases h with h | h
  · have hw : wrapInt ((parts.length : Int) + v) = (parts.length : Int) + v :=
      wrapInt_of_isInt64 (by unfold isInt64; omega)
    have h2 : v < 0 := by omega
    have h4 : ¬ ((parts.length : Int) + v ≥ 0 ∧ (parts.length : Int) + v < (parts.length : Int)) := by
      omega
    simp only [fieldAt, if_pos h2, hw, if_neg h4]
  · have hw : wrapInt (v - 1) = v - 1 := wrapInt_of_isInt64 (by unfold isInt64; omega)
    have h2 : ¬ v < 0 := by omega
    have h3 : v > 0 := by omega
    have h4 : ¬ (v - 1 ≥ 0 ∧ v - 1 < (parts.length : Int)) := by omega
    simp only [fieldAt, if_neg h2, if_pos h3, hw, if_neg h4]

/-- C19: for a line that `splitb` cuts into `n` parts and a non-empty list `idx`
of 64-bit indices, `Parter.Fields` returns `len(idx)` elements, in the order of
`idx`: for `1 ≤ idx[i] ≤ n` the `idx[i]`-th part from the start, for
`-n ≤ idx[i] ≤ -1` the `|idx[i]|`-th part from the end, and `nil` for an index
beyond either end.  (No index is assumed non-zero; none of the three cases
applies to zero.) -/
theorem Fields_contract (p : Parter) (line : Bytes) (hne : p.idx ≠ [])
    (hint : ∀ v ∈ p.idx, isInt64 v)
    (hlen : ((splitb p.re line).length : Int) < 2 ^ 63) :
    (p.Fields line).length = p.idx.length ∧
    ∀ (i : Nat) (hi : i < p.idx.length),
      (1 ≤ p.idx.get ⟨i, hi⟩ ∧ p.idx.get ⟨i, hi⟩ ≤ ((splitb p.re line).length : Int) →
        ∃ f, (splitb p.re line).get? (p.idx.get ⟨i, hi⟩ - 1).toNat = some f ∧
          (p.Fields line).get? i = some (some f)) ∧
      (-((splitb p.re line).length : Int) ≤ p.idx.get ⟨i, hi⟩ ∧ p.idx.get ⟨i, hi⟩ ≤ -1 →
        ∃ f, (splitb p.re line).reverse.get? (-(p.idx.get ⟨i, hi⟩) - 1).toNat = some f ∧
          (p.Fields line).get? i = some (some f)) ∧
      (p.idx.get ⟨i, hi⟩ < -((splitb p.re line).length : Int) ∨
          ((splitb p.re line).length : Int) < p.idx.get ⟨i, hi⟩ →
        (p.Fields line).get? i = some none) := by
  rw [Fields_eq_map p line hne]
  refine ⟨List.length_map _ _, ?_⟩
  intro i hi
  have hv : isInt64 (p.idx.get ⟨i, hi⟩) := hint _ (List.get_mem _ _ _)
  have hget : (p.idx.map (fieldAt (splitb p.re line))).get? i =
      some (fieldAt (splitb p.re line) (p.idx.get ⟨i, hi⟩)) := by
    rw [List.get?_eq_getElem?, List.getElem?_map, List.getElem?_eq_getElem hi]
    rfl
  rw [hget]
  refine ⟨?_, ?_, ?_⟩
  · rintro ⟨h1, h2⟩
    obtain ⟨he, hlt⟩ := fieldAt_pos (splitb p.re line) _ h1 h2 hv
    refine ⟨(splitb p.re line).get ⟨_, hlt⟩, List.get?_eq_get hlt, ?_⟩
    rw [he, List.get?_eq_get hlt]
  · rintro ⟨h1, h2⟩
    obtain ⟨he, hlt⟩ := fieldAt_neg (splitb p.re line) _ h2 h1 hlen
    have hlt2 : (-(p.idx.get ⟨i, hi⟩) - 1).toNat < (splitb p.re line).reverse.length := by
      rw [List.length_reverse]; exact hlt
    refine ⟨(splitb p.re line).reverse.get ⟨_, hlt2⟩, List.get?_eq_get hlt2, ?_⟩
    rw [he, List.get?_eq_get hlt2]
  · intro h
    rw [fieldAt_out (splitb p.re line) _ h hv hlen]

/-- The example of C19: "one_two" split on `_+` with the indices 1, 5, -2. -/
theorem Fields_contract_witness :
    splitb reUnderscores (ascii "one_two") = [ascii "one", ascii "two"] ∧
    (NewParter reUnderscores [1, 5, -2]).Fields (ascii "one_two") =
      [some (ascii "one"), none, some (ascii "one")] ∧
    ((NewParter reUnderscores [1, 5, -2]).Fields (ascii "one_two")).length = 3 :=
  ⟨by decide, by decide,
    (Fields_contract (NewParter reUnderscores [1, 5, -2]) (ascii "one_two") (by decide)
      (by decide) (by decide)).1⟩

/-! ## tally: column sums -/

example : tally testTallyInput reSpaces (ascii " ") [1, 2, -1, -2] =
    TallyResult.ok (ascii "511 450 450 511\n") := by decide

/-- One pass of `sums[i] += n` over the parts, when there is a sum for each
part. -/
theorem tallyRange_eq (parts : List (Option Bytes)) : ∀ (pre sums : List Int),
    parts.length = sums.length →
    tallyRange (pre ++ sums) parts pre.length = some (pre ++ List.zipWith addField sums parts) := by
  induction parts with
  | nil =>
    intro pre sums h
    have hs : sums = [] := List.length_eq_zero.mp h.symm
    rw [hs]
    rfl
  | cons f parts ih =>
    intro pre sums h
    rcases sums with _ | ⟨s, sums⟩
    · simp at h
    · have hl : parts.length = sums.length := by simpa using h
      have hpre : pre ++ s :: sums = (pre ++ [s]) ++ sums := by simp
      have hlen : (pre ++ [s]).length = pre.length + 1 := by simp
      cases hp : ParseInt (bytesOf f) with
      | none =>
        have h1 := ih (pre ++ [s]) sums hl
        rw [hlen] at h1
        simp only [tallyRange, hp, List.zipWith_cons_cons, addField]
        rw [hpre, h1]
        simp
      | some n =>
        have hlt : pre.length < (pre ++ s :: sums).length := by simp
        have hg : (pre ++ s :: sums).getD pre.length 0 = s := by
          rw [List.getD_eq_getElem?_getD, List.getElem?_append_right (Nat.le_refl _)]
          simp
        have hset : (pre ++ s :: sums).set pre.length (wrapInt ((pre ++ s :: sums).getD pre.length 0 + n)) =
            (pre ++ [wrapInt (s + n)]) ++ sums := by
          rw [hg]
          simp [List.set_append]
        have h1 := ih (pre ++ [wrapInt (s + n)]) sums hl
        have hlen2 : (pre ++ [wrapInt (s + n)]).length = pre.length + 1 := by simp
        rw [hlen2] at h1
        simp only [tallyRange, hp, if_pos hlt, List.zipWith_cons_cons, addField]
        rw [hset, h1]
        simp

theorem zipWith_map_map {α β γ δ : Type} (f : β → γ → δ) (g : α → β) (h : α → γ)
    (l : List α) : List.zipWith f (l.map g) (l.map h) = l.map (fun v => f (g v) (h v)) := by
  induction l with
  | nil => rfl
  | cons a l ih => simp [ih]

/-- The loop of `tally` over the lines, for a non-empty index list: column by
column. -/
theorem tally_fold (ifs : Regexp) (idx : List Int) (hidx : idx ≠ []) (lines : List Bytes) :
    ∀ (g : Int → Int),
    lines.foldl (fun st line => st.bind (fun sums =>
        tallyRange sums ((NewParter ifs idx).Fields line) 0)) (some (idx.map g)) =
      some (idx.map (fun v =>
        lines.foldl (fun acc line => addField acc (fieldAt (splitb ifs line) v)) (g v))) := by
  induction lines with
  | nil => intro g; rfl
  | cons line lines ih =>
    intro g
    have hF : (NewParter ifs idx).Fields line = idx.map (fieldAt (splitb ifs line)) :=
      Fields_eq_map (NewParter ifs idx) line hidx
    have h1 := tallyRange_eq (idx.map (fieldAt (splitb ifs line))) [] (idx.map g) (by simp)
    simp only [List.nil_append, List.length_nil] at h1
    have hz : List.zipWith addField (idx.map g) (idx.map (fieldAt (splitb ifs line))) =
        idx.map (fun v => addField (g v) (fieldAt (splitb ifs line) v)) :=
      zipWith_map_map _ _ _ idx
    rw [List.foldl_cons, Option.some_bind, hF, h1, hz, ih]
    rfl

/-- The accumulator of one column is the wrapped sum of the contributions. -/
theorem foldl_addField (F : Bytes → Option Bytes) (lines : List Bytes) : ∀ (S : Int),
    lines.foldl (fun acc line => addField acc (F line)) (wrapInt S) =
      wrapInt (S + (lines.map (fun line => contribution (F line))).sum) := by
  induction lines with
  | nil => intro S; simp
  | cons line lines ih =>
    intro S
    have hstep : addField (wrapInt S) (F line) = wrapInt (S + contribution (F line)) := by
      unfold addField contribution
      cases ParseInt (bytesOf (F line)) with
      | none => simp
      | some n => simp [wrapInt_add_left]
    rw [List.foldl_cons, hstep, ih, List.map_cons, List.sum_cons, add_assoc]

/-- What `tally` writes for the sums: the decimal numbers joined by `ofs`. -/
theorem writeSums_succ (ofs : Bytes) (l : List Int) : ∀ (i : Nat),
    writeSums ofs l (i + 1) = (l.map (fun v => ofs ++ Itoa v)).flatten := by
  induction l with
  | nil => intro i; rfl
  | cons v l ih =>
    intro i
    have hi : i + 1 > 0 := Nat.succ_pos i
    rw [writeSums, if_pos hi, ih, List.map_cons, List.flatten_cons]

theorem intercalate_cons (sep a : Bytes) (l : List Bytes) :
    sep.intercalate (a :: l) = a ++ (l.map (fun x => sep ++ x)).flatten := by
  induction l generalizing a with
  | nil => simp [List.intercalate]
  | cons b l ih =>
    have h := ih b
    simp only [List.intercalate] at h ⊢
    rw [List.intersperse_cons_cons, List.flatten_cons, List.flatten_cons, h]
    simp

theorem writeSums_zero (ofs : Bytes) (l : List Int) :
    writeSums ofs l 0 = stringsJoin (l.map Itoa) ofs := by
  rcases l with _ | ⟨v, l⟩
  · rfl
  · have h0 : ¬ 0 > 0 := Nat.lt_irrefl 0
    rw [writeSums, if_neg h0, writeSums_succ]
    unfold stringsJoin
    rw [List.map_cons, intercalate_cons, List.map_map]
    rfl

/-- With a non-empty index list `tally` never leaves the range of `sums`: it
returns the scanner's error, or writes the column sums. -/
theorem tally_eq (inp : Bytes) (ifs : Regexp) (ofs : Bytes) (idx : List Int) (hidx : idx ≠ []) :
    tally inp ifs ofs idx =
      match (scanLines inp).err with
      | some e => TallyResult.error e
      | none => TallyResult.ok
          (stringsJoin (idx.map (fun v => Itoa (columnSum ifs (scanLines inp).tokens v))) ofs
            ++ [10]) := by
  have hrep : List.replicate idx.length (0 : Int) = idx.map (fun _ => wrapInt 0) := by
    have hw : wrapInt 0 = 0 := by decide
    rw [hw]
    exact (List.map_const _ _).symm
  unfold tally
  simp only []
  rw [hrep, tally_fold ifs idx hidx]
  simp only [foldl_addField, zero_add, writeSums_zero, List.map_map]
  rfl

/-- C20, the claim as stated fails twice.  With the empty index list every
field of a line is added, and `sums` has no element: on the line "5" `tally`
stops in an index-out-of-range panic instead of writing a newline.  And on an
input with a line of 70000 bytes `tally` returns the scanner's error and
writes nothing. -/
theorem tally_column_sums_counterexample :
    tally (ascii "5") reSpaces (ascii " ") [] = TallyResult.panic ∧
    tally (ascii "5" ++ 10 :: List.replicate 70000 49) reSpaces (ascii " ") [1] =
      TallyResult.error ScanError.ErrTooLong := by
  refine ⟨by decide, ?_⟩
  rw [tally_eq _ _ _ _ (by decide),
    scanLines_long (ascii "5") 70000 49 (by decide) (by decide) (by decide) (by decide)]

/-- C20, amended: for every input that the scanner reads to its end (every
line shorter than `MaxScanTokenSize`) and every non-empty index list `idx`,
`tally` returns nil and writes `len(idx)` decimal integers in the order of
`idx`, separated by `ofs` and followed by one newline; the `i`-th is the signed
64-bit sum, over all lines, of what the field selected by `idx[i]` contributes:
its value when it is an integer, nothing when it is absent or not an
integer, whatever the other fields of the line are. -/
theorem tally_column_sums (inp : Bytes) (ifs : Regexp) (ofs : Bytes) (idx : List Int)
    (hidx : idx ≠ []) (herr : (scanLines inp).err = none) :
    tally inp ifs ofs idx = TallyResult.ok
      (stringsJoin (idx.map (fun v => Itoa (columnSum ifs (scanLines inp).tokens v))) ofs
        ++ [10]) := by
  rw [tally_eq inp ifs ofs idx hidx, herr]

/-- C20 at the input of the test of `tally`, and at an input with an absent
and a non-numeric field: the line "x 7" adds 7 to the second column, the line
"3" adds 3 to the first. -/
theorem tally_column_sums_witness :
    ([1, 2, -1, -2] : List Int) ≠ [] ∧ (scanLines testTallyInput).err = none ∧
    tally testTallyInput reSpaces (ascii " ") [1, 2, -1, -2] = TallyResult.ok
      (stringsJoin (([1, 2, -1, -2] : List Int).map (fun v =>
        Itoa (columnSum reSpaces (scanLines testTallyInput).tokens v))) (ascii " ") ++ [10]) ∧
    tally testTallyInput reSpaces (ascii " ") [1, 2, -1, -2] =
      TallyResult.ok (ascii "511 450 450 511\n") ∧
    tally (ascii "1 2\nx 7\n3") reSpaces (ascii ",") [1, 2] = TallyResult.ok (ascii "4,9\n") :=
  ⟨by decide, by decide,
    tally_column_sums testTallyInput reSpaces (ascii " ") [1, 2, -1, -2] (by decide) (by decide),
    by decide, by decide⟩

/-! ## Checks of the report against `TestGraph` -/

example : (histScaled log2Floor (testGraphHist gType.gNone) testGraphInput).2.toOption.bind
    (printHist log2Floor (histScaled log2Floor (testGraphHist gType.gNone) testGraphInput).1) =
    some (ascii "            -10 -\n              0 0\n              1 a\n             10 b\n            100 c\n            100 z_long_key_that_is_sni" ++ snipMark ++ [10]) := by
  decide

example : (histScaled log2Floor (testGraphHist gType.gLinear) testGraphInput).2.toOption.bind
    (printHist log2Floor (histScaled log2Floor (testGraphHist gType.gLinear) testGraphInput).1) =
    some (ascii "            -10 -    --\n              0 0\n              1 a\n             10 b    ++\n            100 c    ++++++++++++++++++\n            100 z_l" ++ snipMark ++ ascii " ++++++++++++++++++\n") := by
  decide

/-- The lines of the Log-mode report that do not depend on the value of
`math.Log2` away from the powers of two. -/
example : [kc "-" (-10), kc "0" 0, kc "a" 1].map
    (hline log2Floor (histScaled log2Floor (testGraphHist gType.gLog) testGraphInput).1) =
    [some (ascii "            -10 -    NaN"), some (ascii "              0 0    -Inf"),
     some (ascii "              1 a")] := by
  decide

example : float64.ofInt 0 = float64.zero := by decide
example : float64.ofInt 1 = float64.fin false (2 ^ 52) (-52) := by decide
example : float64.ofInt (-10) = float64.fin true (5 * 2 ^ 50) (-49) := by decide
example : float64.ofInt (2 ^ 63 - 1) = float64.fin false (2 ^ 52) 11 := by decide
example : (float64.ofInt 1).div (float64.ofInt 3) =
    float64.fin false 0x15555555555555 (-54) := by decide
example : (float64.ofInt 1).div (float64.ofInt 0) = float64.inf false := by decide
example : (float64.ofInt 0).div (float64.ofInt 0) = float64.nan := by decide
example : (float64.ofInt 1).div (float64.ofInt 10) =
    float64.fin false 0x1999999999999A (-56) := by decide
example : ((float64.ofInt 1).div (float64.ofInt 10)).add
    ((float64.ofInt 2).div (float64.ofInt 10)) =
    float64.fin false 0x13333333333334 (-54) := by decide
example : (float64.ofInt 9007199254740993) = float64.fin false (2 ^ 52) 1 := by decide
example : Trunc (float64.fin true (5 * 2 ^ 50) (-51)) = float64.ofInt (-2) := by decide
example : (float64.fin false (5 * 2 ^ 50) (-51)).toInt = some 2 := by decide
/-! ## float64: rounding -/

theorem log2Loop_spec : ∀ (fuel n : Nat), 1 ≤ n → n ≤ fuel →
    2 ^ log2Loop fuel n ≤ n ∧ n < 2 ^ (log2Loop fuel n + 1) := by
  intro fuel
  induction fuel with
  | zero => intro n h1 h2; omega
  | succ fuel ih =>
    intro n h1 h2
    by_cases h : n < 2
    · rw [log2Loop, if_pos h]
      simp only [pow_zero, zero_add, pow_one]
      omega
    · rw [log2Loop, if_neg h]
      obtain ⟨i1, i2⟩ := ih (n / 2) (by omega) (by omega)
      rw [pow_succ] at i2 ⊢
      rw [pow_succ]
      constructor <;> omega

/-- The leading bit of a positive number. -/
theorem log2Nat_spec (n : Nat) (h : 1 ≤ n) : 2 ^ log2Nat n ≤ n ∧ n < 2 ^ (log2Nat n + 1) :=
  log2Loop_spec n n h (Nat.le_refl n)

/-- Rounding to an integer stays between the integers on either side. -/
theorem roundHalfEven_bounds (n d : Nat) :
    n / d ≤ roundHalfEven n d ∧ roundHalfEven n d ≤ n / d + 1 := by
  unfold roundHalfEven
  simp only []
  split_ifs <;> omega

theorem roundHalfEven_one (n : Nat) : roundHalfEven n 1 = n := by
  unfold roundHalfEven
  simp [Nat.mod_one, Nat.div_one]

/-- The `float64` of a non-zero integer is not a zero, and has the sign of the
integer. -/
theorem roundNearest_int_ne_zero (s : Bool) (n : Nat) (hn : 1 ≤ n) :
    roundNearest s n 1 = float64.inf s ∨
      ∃ m e, roundNearest s n 1 = float64.fin s m e ∧ m ≠ 0 := by
  have hn0 : n ≠ 0 := by omega
  obtain ⟨hl1, _⟩ := log2Nat_spec n hn
  have hfl : floorLog2 n 1 ≤ (log2Nat n : Int) := by
    unfold floorLog2
    have h1 : log2Nat 1 = 0 := by decide
    simp only [h1]
    split_ifs <;> omega
  have hm : ∀ e : Int, e = max (floorLog2 n 1 - 52) (-1074) →
      (if e ≥ 0 then roundHalfEven n (1 <<< e.toNat) else roundHalfEven (n <<< (-e).toNat) 1) ≠ 0 := by
    intro e he
    by_cases hpos : e ≥ 0
    · rw [if_pos hpos]
      have hle : e.toNat ≤ log2Nat n := by omega
      have hp : 1 <<< e.toNat ≤ n := by
        rw [Nat.shiftLeft_eq, one_mul]
        exact le_trans (Nat.pow_le_pow_right (by decide) hle) hl1
      have hpos2 : 0 < 1 <<< e.toNat := by
        rw [Nat.shiftLeft_eq, one_mul]
        exact Nat.pos_pow_of_pos _ (by decide)
      have hdiv : 1 ≤ n / (1 <<< e.toNat) := (Nat.one_le_div_iff hpos2).mpr hp
      have := (roundHalfEven_bounds n (1 <<< e.toNat)).1
      omega
    · rw [if_neg hpos, roundHalfEven_one, Nat.shiftLeft_eq]
      exact Nat.mul_ne_zero hn0 (by positivity)
  unfold roundNearest
  rw [if_neg hn0]
  simp only []
  have hm' := hm _ rfl
  generalize (if max (floorLog2 n 1 - 52) (-1074) ≥ 0
    then roundHalfEven n (1 <<< (max (floorLog2 n 1 - 52) (-1074)).toNat)
    else roundHalfEven (n <<< (-(max (floorLog2 n 1 - 52) (-1074))).toNat) 1) = m at hm' ⊢
  by_cases h1 : m = 2 ^ 53
  · rw [if_pos h1]
    by_cases h2 : max (floorLog2 n 1 - 52) (-1074) + 1 > 971
    · rw [if_pos h2]; exact Or.inl rfl
    · rw [if_neg h2]; exact Or.inr ⟨_, _, rfl, by decide⟩
  · rw [if_neg h1]
    by_cases h2 : max (floorLog2 n 1 - 52) (-1074) > 971
    · rw [if_pos h2]; exact Or.inl rfl
    · rw [if_neg h2]; exact Or.inr ⟨_, _, rfl, hm'⟩

/-- The `float64` of a negative `int64` is below zero. -/
theorem ofInt_neg_ltZero (c : Int) (hc : c < 0) : (float64.ofInt c).ltZero = true := by
  unfold float64.ofInt
  rw [decide_eq_true hc]
  rcases roundNearest_int_ne_zero true c.natAbs (by omega) with h | ⟨m, e, h, hm⟩
  · rw [h]; rfl
  · rw [h]
    simp [float64.ltZero, hm]

/-! ## The largest magnitude and the scale -/

/-- The histogrammer `hist` leaves when the scanner stops with an error: the
fields `maxVal`, `gt` and `gscale` are as before. -/
theorem hist_fst_error (h : histogrammer) (inp : Bytes) (e : ScanError)
    (hs : (scan h.words inp).err = some e) :
    (hist h inp).1.maxVal = h.maxVal ∧ (hist h inp).1.gt = h.gt ∧
    (hist h inp).1.gscale = h.gscale := by
  simp only [hist, hs, and_self]

/-- The histogrammer `hist` leaves when it returns entries: `maxVal` comes from
the first and the last entry, `gavail` from `hlinefmt`. -/
theorem hist_fst_ok (h : histogrammer) (inp : Bytes) (hs : (scan h.words inp).err = none) :
    (hist h inp).1.maxVal =
      (match (histEntries h inp).head?, (histEntries h inp).getLast? with
        | some f, some l => if abs l.cnt > abs f.cnt then abs l.cnt else abs f.cnt
        | _, _ => h.maxVal) ∧
    (hist h inp).1.gt = h.gt ∧
    (hist h inp).1.gavail = gavailOf (hlinefmt h.termWidth (h.gt != gType.gNone) h.ofs) := by
  have hf := foldl_histStep h (scan h.words inp).tokens ([], h.maxKey)
  rw [histEntries_ok h inp hs]
  simp only [hist, hs, entriesOf, gavailOf, and_true]
  rw [← hf]
  rfl

/-- `abs` is the magnitude, except at the least `int64`. -/
theorem abs_eq_natAbs (v : Int) (hv : -(2 ^ 63) < v) : abs v = (v.natAbs : Int) := by
  unfold abs
  by_cases h : v ≥ 0
  · rw [if_pos h]; omega
  · rw [if_neg h, wrapInt_of_isInt64 (by unfold isInt64; omega)]; omega

/-- In a list in the order of `hist`, the counts lie between the first and the
last. -/
theorem sorted_between (kc : List keyCount) (hsort : kc.Pairwise countKeyLE)
    (f l : keyCount) (hf : kc.head? = some f) (hl : kc.getLast? = some l) :
    f ∈ kc ∧ l ∈ kc ∧ ∀ e ∈ kc, f.cnt ≤ e.cnt ∧ e.cnt ≤ l.cnt := by
  have hfm : f ∈ kc := List.mem_of_mem_head? hf
  have hlm : l ∈ kc := List.mem_of_mem_getLast? hl
  refine ⟨hfm, hlm, ?_⟩
  intro e he
  constructor
  · rcases kc with _ | ⟨a, rest⟩
    · simp at he
    · simp only [List.head?_cons, Option.some.injEq] at hf
      subst hf
      rcases List.mem_cons.mp he with h1 | h1
      · rw [h1]
      · have := (List.pairwise_cons.mp hsort).1 e h1
        unfold countKeyLE at this
        omega
  · obtain ⟨init, hinit⟩ : ∃ init, kc = init ++ [l] := by
      have hne : kc ≠ [] := List.ne_nil_of_mem hlm
      refine ⟨kc.dropLast, ?_⟩
      have h1 := List.dropLast_append_getLast hne
      have h2 : kc.getLast hne = l := by
        have := List.getLast?_eq_getLast kc hne
        rw [this] at hl
        exact Option.some.inj hl
      rw [h2] at h1
      exact h1.symm
    rw [hinit] at he hsort
    rcases List.mem_append.mp he with h1 | h1
    · have := (List.pairwise_append.mp hsort).2.2 e h1 l (List.mem_singleton.mpr rfl)
      unfold countKeyLE at this
      omega
    · rw [List.mem_singleton.mp h1]

/-- The full method when the scanner stops with an error: the error is
returned and `maxVal`, `gt`, `gscale` are left as they were. -/
theorem histScaled_error (Log2 : float64 → float64) (h : histogrammer) (inp : Bytes)
    (e : ScanError) (hs : (scan h.words inp).err = some e) :
    (histScaled Log2 h inp).2 = Except.error e ∧
    (histScaled Log2 h inp).1.maxVal = h.maxVal ∧
    (histScaled Log2 h inp).1.gscale = h.gscale := by
  have h2 := hist_error h inp e hs
  obtain ⟨h3, _, h5⟩ := hist_fst_error h inp e hs
  unfold histScaled
  simp only [h2]
  exact ⟨trivial, h3, h5⟩

/-- The full method when the scanner reads the input to its end. -/
theorem histScaled_ok (Log2 : float64 → float64) (h : histogrammer) (inp : Bytes)
    (hs : (scan h.words inp).err = none) :
    (histScaled Log2 h inp).2 = Except.ok (histEntries h inp) ∧
    (histScaled Log2 h inp).1.maxVal = (hist h inp).1.maxVal ∧
    (histScaled Log2 h inp).1.gt = h.gt ∧
    (histScaled Log2 h inp).1.gavail =
      gavailOf (hlinefmt h.termWidth (h.gt != gType.gNone) h.ofs) ∧
    (histScaled Log2 h inp).1.gscale = gscaleOf Log2 (hist h inp).1 := by
  have h2 := hist_ok h inp hs
  obtain ⟨_, h4, h5⟩ := hist_fst_ok h inp hs
  rw [histEntries_ok h inp hs]
  unfold histScaled
  simp only [h2]
  exact ⟨trivial, trivial, h4, h5, trivial⟩

/-- C12, the claim as stated fails.  An entry with the count -2^63 has the
magnitude 2^63, but `abs` wraps around and `maxVal` is -2^63.  On an input
that the scanner gives up on (a line of 70000 bytes) in Log mode, `hist` returns
before it assigns `gscale`: the field keeps its zero, while
`log2(maxVal) / gavail` is `-Inf`.  And `hist` does not reset `maxVal`: on a
histogrammer that holds 5 there, the empty input leaves 5, not 0. -/
theorem hist_maxVal_gscale_counterexample :
    (histScaled log2Floor { ifs := reSpaces, keys := [1], weightCol := 2, gt := gType.gLinear }
        (ascii "a -9223372036854775808")).2.toOption = some [kc "a" (-9223372036854775808)] ∧
    (histScaled log2Floor { ifs := reSpaces, keys := [1], weightCol := 2, gt := gType.gLinear }
        (ascii "a -9223372036854775808")).1.maxVal = -9223372036854775808 ∧
    (histScaled log2Floor { ifs := reSpaces, gt := gType.gLog, termWidth := 40 }
        (ascii "a" ++ 10 :: List.replicate 70000 98)).1.gscale = float64.zero ∧
    (log2Floor (float64.ofInt 0)).div (float64.ofInt 18) = float64.inf true ∧
    (histScaled log2Floor { ifs := reSpaces, maxVal := 5 } []).2.toOption = some [] ∧
    (histScaled log2Floor { ifs := reSpaces, maxVal := 5 } []).1.maxVal = 5 := by
  refine ⟨by decide, by decide, ?_, by decide, by decide, by decide⟩
  have hsc : (scan ({ ifs := reSpaces, gt := gType.gLog, termWidth := 40 } : histogrammer).words
      (ascii "a" ++ 10 :: List.replicate 70000 98)).err = some ScanError.ErrTooLong := by
    have h := scanLines_long (ascii "a") 70000 98 (by decide) (by decide) (by decide)
      (by decide)
    show (scanLines _).err = _
    rw [h]
  exact (histScaled_error log2Floor _ _ _ hsc).2.2

/-- C12, amended: on a histogrammer whose `maxVal` is still zero, when `hist`
returns entries that all have a count above -2^63, `maxVal` is the largest
magnitude among them (zero when there are none): it is the larger of
`abs(first.cnt)` and `abs(last.cnt)`; and `gscale` is `float64(maxVal)` in Linear
mode, `math.Log2(float64(maxVal))` in Log mode, divided by `float64(gavail)`.
When `hist` returns an error, `maxVal` is zero and `gscale` is not assigned. -/
theorem hist_maxVal_gscale (Log2 : float64 → float64) (h : histogrammer) (inp : Bytes)
    (hfresh : h.maxVal = 0) :
    (∀ kc, (histScaled Log2 h inp).2 = Except.ok kc → (∀ e ∈ kc, -(2 ^ 63) < e.cnt) →
      (∀ e ∈ kc, (e.cnt.natAbs : Int) ≤ (histScaled Log2 h inp).1.maxVal) ∧
      (kc ≠ [] → ∃ e ∈ kc, (e.cnt.natAbs : Int) = (histScaled Log2 h inp).1.maxVal) ∧
      (kc = [] → (histScaled Log2 h inp).1.maxVal = 0) ∧
      (∀ f l, kc.head? = some f → kc.getLast? = some l →
        (histScaled Log2 h inp).1.maxVal = max (abs f.cnt) (abs l.cnt)) ∧
      ((histScaled Log2 h inp).1.gt = gType.gLinear →
        (histScaled Log2 h inp).1.gscale =
          (float64.ofInt (histScaled Log2 h inp).1.maxVal).div
            (float64.ofInt (histScaled Log2 h inp).1.gavail)) ∧
      ((histScaled Log2 h inp).1.gt = gType.gLog →
        (histScaled Log2 h inp).1.gscale =
          (Log2 (float64.ofInt (histScaled Log2 h inp).1.maxVal)).div
            (float64.ofInt (histScaled Log2 h inp).1.gavail))) ∧
    (∀ e, (histScaled Log2 h inp).2 = Except.error e →
      (histScaled Log2 h inp).1.maxVal = 0 ∧ (histScaled Log2 h inp).1.gscale = h.gscale) := by
  cases hs : (scan h.words inp).err with
  | some e0 =>
    obtain ⟨h1, h2, h3⟩ := histScaled_error Log2 h inp e0 hs
    refine ⟨fun kc hkc => ?_, fun e _ => ⟨h2.trans hfresh, h3⟩⟩
    rw [h1] at hkc
    exact absurd hkc (by simp)
  | none =>
    obtain ⟨h1, h2, h3, h4, h5⟩ := histScaled_ok Log2 h inp hs
    obtain ⟨g1, g2, g3⟩ := hist_fst_ok h inp hs
    refine ⟨fun kc hkc hmin => ?_, fun e he => ?_⟩
    · rw [h1] at hkc
      have hkc2 : histEntries h inp = kc := Except.ok.inj hkc
      have hsort : kc.Pairwise countKeyLE := by
        rw [← hkc2, histEntries_ok h inp hs]
        exact sortSort_sorted _
      have hgs : (histScaled Log2 h inp).1.gscale =
          (if h.gt = gType.gLog then Log2 (float64.ofInt (histScaled Log2 h inp).1.maxVal)
            else float64.ofInt (histScaled Log2 h inp).1.maxVal).div
            (float64.ofInt (histScaled Log2 h inp).1.gavail) := by
        rw [h5, h2, h4]
        unfold gscaleOf
        rw [g2, g3]
      rw [h3]
      rw [h2, g1, hkc2]
      rcases kc with _ | ⟨a, rest⟩
      · have hmv0 : (match ([] : List keyCount).head?, ([] : List keyCount).getLast? with
            | some f, some l => if abs l.cnt > abs f.cnt then abs l.cnt else abs f.cnt
            | _, _ => h.maxVal) = 0 := hfresh
        rw [hmv0]
        refine ⟨fun e he => absurd he (List.not_mem_nil e), fun hne => absurd rfl hne,
          fun _ => rfl, fun f l hf _ => by simp at hf, ?_, ?_⟩
        · intro hl
          rw [hgs, if_neg (by rw [hl]; decide), h2, g1, hkc2, hmv0]
        · intro hl
          rw [hgs, if_pos hl, h2, g1, hkc2, hmv0]
      · obtain ⟨l, hl⟩ : ∃ l, (a :: rest).getLast? = some l :=
          ⟨_, List.getLast?_eq_getLast _ (List.cons_ne_nil a rest)⟩
        have hhead : (a :: rest).head? = some a := rfl
        obtain ⟨hfm, hlm, hbet⟩ := sorted_between (a :: rest) hsort a l hhead hl
        have ha := abs_eq_natAbs a.cnt (hmin a hfm)
        have hla := abs_eq_natAbs l.cnt (hmin l hlm)
        have hmv : (match (a :: rest).head?, (a :: rest).getLast? with
            | some f, some l => if abs l.cnt > abs f.cnt then abs l.cnt else abs f.cnt
            | _, _ => h.maxVal) = max (abs a.cnt) (abs l.cnt) := by
          rw [hl]
          simp only [List.head?_cons]
          by_cases hc : abs l.cnt > abs a.cnt
          · rw [if_pos hc, max_eq_right (le_of_lt hc)]
          · rw [if_neg hc, max_eq_left (not_lt.mp hc)]
        rw [hmv]
        refine ⟨?_, ?_, fun hnil => absurd hnil (List.cons_ne_nil a rest), ?_, ?_, ?_⟩
        · intro e he
          obtain ⟨hb1, hb2⟩ := hbet e he
          rw [ha, hla]
          have := le_max_left (a.cnt.natAbs : Int) (l.cnt.natAbs : Int)
          have := le_max_right (a.cnt.natAbs : Int) (l.cnt.natAbs : Int)
          omega
        · intro _
          rcases le_total (abs a.cnt) (abs l.cnt) with hc | hc
          · exact ⟨l, hlm, by rw [max_eq_right hc, hla]⟩
          · exact ⟨a, hfm, by rw [max_eq_left hc, ha]⟩
        · intro f l2 hf hl2
          rw [hhead] at hf
          rw [hl] at hl2
          rw [← Option.some.inj hf, ← Option.some.inj hl2]
        · intro hlin
          rw [hgs, if_neg (by rw [hlin]; decide), h2, g1, hkc2, hmv]
        · intro hlog
          rw [hgs, if_pos hlog, h2, g1, hkc2, hmv]
    · rw [h1] at he
      exact absurd he (by simp)

/-- C12 at the input of `TestGraph` in Linear mode: the counts are
-10, 0, 1, 10, 100, 100, `maxVal` is 100, `gavail` is 18, and `gscale` is
100/18 rounded to a `float64`. -/
theorem hist_maxVal_gscale_witness :
    (testGraphHist gType.gLinear).maxVal = 0 ∧
    (histScaled log2Floor (testGraphHist gType.gLinear) testGraphInput).1.maxVal = 100 ∧
    (histScaled log2Floor (testGraphHist gType.gLinear) testGraphInput).1.gavail = 18 ∧
    ((histScaled log2Floor (testGraphHist gType.gLinear) testGraphInput).1.gt = gType.gLinear →
      (histScaled log2Floor (testGraphHist gType.gLinear) testGraphInput).1.gscale =
        (float64.ofInt (histScaled log2Floor (testGraphHist gType.gLinear) testGraphInput).1.maxVal).div
          (float64.ofInt (histScaled log2Floor (testGraphHist gType.gLinear) testGraphInput).1.gavail)) :=
  ⟨by decide, by decide, by decide,
    ((hist_maxVal_gscale log2Floor (testGraphHist gType.gLinear) testGraphInput (by decide)).1
      _ (histScaled_ok log2Floor (testGraphHist gType.gLinear) testGraphInput (by decide)).1
      (by decide)).2.2.2.2.1⟩

/-! ## The bar of a value -/

/-- The value 0.49999999999999994, the largest `float64` below one half. -/
theorem val_below_half :
    (float64.fin false (2 ^ 53 - 1) (-54)).val = 1 / 2 - 1 / 2 ^ 54 := by
  unfold float64.val
  norm_num

/-- C14, the failing input: the finite value `0.49999999999999994` is below one
half, so rounded to the nearest integer it is 0 and its bar is empty; but its
sum with 0.5 is not a `float64` and is rounded to 1, so `gv` returns a bar of one
character.  For a NaN and for the infinities `gv` returns the literal texts. -/
theorem gv_below_half :
    (float64.fin false (2 ^ 53 - 1) (-54)).val < 1 / 2 ∧
    (float64.fin false (2 ^ 53 - 1) (-54)).add (Copysign float64.half
      (float64.fin false (2 ^ 53 - 1) (-54))) = float64.ofInt 1 ∧
    gv (float64.fin false (2 ^ 53 - 1) (-54)) = some (ascii "+") ∧
    gv float64.nan = some (ascii "NaN") ∧ gv (float64.inf false) = some (ascii "+Inf") ∧
    gv (float64.inf true) = some (ascii "-Inf") := by
  have h1 : (float64.fin false (2 ^ 53 - 1) (-54)).add (Copysign float64.half
      (float64.fin false (2 ^ 53 - 1) (-54))) = float64.ofInt 1 := by decide
  have h2 : gv (float64.fin false (2 ^ 53 - 1) (-54)) = some (ascii "+") := by decide
  refine ⟨?_, h1, h2, by decide, by decide, by decide⟩
  rw [val_below_half]
  norm_num

example : gv (float64.fin false (2 ^ 52) (-53)) = some (ascii "+") := by decide
example : gv (float64.fin true (2 ^ 52) (-53)) = some (ascii "-") := by decide
example : gv (float64.fin false (3 * 2 ^ 51) (-52)) = some (ascii "++") := by decide
example : gv (float64.fin true (5 * 2 ^ 50) (-51)) = some (ascii "---") := by decide
example : gv (float64.fin false (2 ^ 52 + 1) (-54)) = some [] := by decide
example : gv (float64.fin true 0 (-1074)) = some [] := by decide

/-! ## Log mode: the value of a bar -/

/-- The stand-in `log2Floor` gives a NaN below zero, as `math.Log2` does. -/
theorem log2Floor_neg (x : float64) (hx : x.ltZero = true) : log2Floor x = float64.nan := by
  rcases x with _ | s | ⟨s, m, e⟩
  · simp [float64.ltZero] at hx
  · simp only [float64.ltZero] at hx
    simp [log2Floor, hx]
  · simp only [float64.ltZero, Bool.and_eq_true, decide_eq_true_eq] at hx
    simp [log2Floor, hx.1, hx.2]

theorem div_nan_left (y : float64) : float64.nan.div y = float64.nan := by
  cases y <;> rfl

/-- C16, the claim as stated fails: for the entry with the count -10 of the
histogram of `TestGraph` in Log mode, the value passed to `gv` is a NaN, not a
negative number, and the line ends in the text "NaN", not in a run of `-`. -/
theorem hline_log_value_counterexample :
    (histScaled log2Floor (testGraphHist gType.gLog) testGraphInput).1.gt = gType.gLog ∧
    barValue log2Floor (histScaled log2Floor (testGraphHist gType.gLog) testGraphInput).1 (-10) =
      float64.nan ∧
    hline log2Floor (histScaled log2Floor (testGraphHist gType.gLog) testGraphInput).1
      (kc "-" (-10)) = some (ascii "            -10 -    NaN") := by
  refine ⟨by decide, by decide, by decide⟩

/-- C16, amended: in Log mode `hline` computes the bar value as
`math.Log2(float64(count)) / gscale`, the logarithm of the count itself: no
absolute value is taken and no sign is reapplied.  For an entry with a negative
count the value is a NaN (`Log2` of a number below zero is a NaN), and the line
carries the text "NaN" in place of a bar. -/
theorem hline_log_value (Log2 : float64 → float64)
    (hneg : ∀ x, x.ltZero = true → Log2 x = float64.nan)
    (h : histogrammer) (hgt : h.gt = gType.gLog) (e : keyCount) :
    barValue Log2 h e.cnt = (Log2 (float64.ofInt e.cnt)).div h.gscale ∧
    (e.cnt < 0 →
      barValue Log2 h e.cnt = float64.nan ∧
      gv (barValue Log2 h e.cnt) = some (ascii "NaN") ∧
      ∀ key, (if h.snip then (snip e.key h.kavail).map (fun r => r.1) else some e.key) = some key →
        hline Log2 h e =
          (Sprintf h.hfmt [FmtArg.int64 e.cnt, FmtArg.string key,
            FmtArg.string (ascii "NaN")]).map TrimRight) := by
  have hv : barValue Log2 h e.cnt = (Log2 (float64.ofInt e.cnt)).div h.gscale := by
    unfold barValue
    rw [hgt]
  refine ⟨hv, fun hc => ?_⟩
  have hnan : barValue Log2 h e.cnt = float64.nan := by
    rw [hv, hneg _ (ofInt_neg_ltZero e.cnt hc), div_nan_left]
  have hgv : gv (barValue Log2 h e.cnt) = some (ascii "NaN") := by
    rw [hnan]; rfl
  refine ⟨hnan, hgv, fun key hkey => ?_⟩
  have hne : ¬ h.gt = gType.gNone := by rw [hgt]; decide
  unfold hline
  simp only [hkey, if_neg hne, hgv]

/-- C16 at the entry with the count -10 of `TestGraph`, with the stand-in
`log2Floor` for `math.Log2`. -/
theorem hline_log_value_witness :
    barValue log2Floor (histScaled log2Floor (testGraphHist gType.gLog) testGraphInput).1 (-10) =
      float64.nan ∧
    gv (barValue log2Floor
      (histScaled log2Floor (testGraphHist gType.gLog) testGraphInput).1 (-10)) =
      some (ascii "NaN") :=
  ⟨((hline_log_value log2Floor log2Floor_neg
      (histScaled log2Floor (testGraphHist gType.gLog) testGraphInput).1 (by decide)
      (kc "-" (-10))).2 (by decide)).1,
   ((hline_log_value log2Floor log2Floor_neg
      (histScaled log2Floor (testGraphHist gType.gLog) testGraphInput).1 (by decide)
      (kc "-" (-10))).2 (by decide)).2.1⟩

/-! ## Decimal digits -/

theorem toDigitsCore_append (b : Nat) : ∀ (fuel n : Nat) (ds : List Char),
    Nat.toDigitsCore b fuel n ds = Nat.toDigitsCore b fuel n [] ++ ds := by
  intro fuel
  induction fuel with
  | zero => intro n ds; rfl
  | succ fuel ih =>
    intro n ds
    simp only [Nat.toDigitsCore]
    by_cases h : n / b = 0
    · simp [h]
    · simp only [h, if_false]
      rw [ih (n / b) (Nat.digitChar (n % b) :: ds), ih (n / b) [Nat.digitChar (n % b)]]
      simp

theorem toDigitsCore_fuel : ∀ (f1 f2 n : Nat), n < f1 → n < f2 →
    Nat.toDigitsCore 10 f1 n [] = Nat.toDigitsCore 10 f2 n [] := by
  intro f1
  induction f1 with
  | zero => intro f2 n h; omega
  | succ f1 ih =>
    intro f2 n h1 h2
    rcases f2 with _ | f2
    · omega
    · simp only [Nat.toDigitsCore]
      by_cases h : n / 10 = 0
      · simp [h]
      · simp only [h, if_false]
        rw [toDigitsCore_append 10 f1, toDigitsCore_append 10 f2,
          ih f2 (n / 10) (by omega) (by omega)]

/-- The decimal digits of a number of one digit. -/
theorem natDigits_lt (n : Nat) (h : n < 10) : natDigits n = [48 + n] := by
  have h0 : n / 10 = 0 := by omega
  unfold natDigits Nat.toDigits
  simp only [Nat.toDigitsCore, h0, if_true, List.map_cons, List.map_nil]
  have hm : n % 10 = n := Nat.mod_eq_of_lt h
  rw [hm]
  interval_cases n <;> rfl

/-- The decimal digits of a number of several digits: those of its tenth part,
then its last digit. -/
theorem natDigits_ge (n : Nat) (h : 10 ≤ n) :
    natDigits n = natDigits (n / 10) ++ [48 + n % 10] := by
  have h0 : ¬ n / 10 = 0 := by omega
  unfold natDigits Nat.toDigits
  simp only [Nat.toDigitsCore, h0, if_false]
  rw [toDigitsCore_append 10 n, toDigitsCore_fuel n (n / 10 + 1) (n / 10) (by omega) (by omega)]
  simp only [List.map_append, List.map_cons, List.map_nil]
  have hr : n % 10 < 10 := Nat.mod_lt _ (by decide)
  generalize n % 10 = r at hr
  interval_cases r <;> rfl

/-- Decimal digits are ASCII digits. -/
theorem natDigits_digit : ∀ (n : Nat), ∀ b ∈ natDigits n, 48 ≤ b ∧ b ≤ 57 := by
  intro n
  induction n using Nat.strong_induction_on with
  | _ n ih =>
    by_cases h : n < 10
    · rw [natDigits_lt n h]
      intro b hb
      rw [List.mem_singleton.mp hb]
      omega
    · rw [natDigits_ge n (by omega)]
      intro b hb
      rcases List.mem_append.mp hb with h1 | h1
      · exact ih (n / 10) (by omega) b h1
      · rw [List.mem_singleton.mp h1]
        have := Nat.mod_lt n (show 10 > 0 by decide)
        omega

/-- A string of ASCII bytes has one rune per byte. -/
theorem runeCount_ascii : ∀ (l : Bytes), (∀ b ∈ l, b < 128) → RuneCountInString l = l.length := by
  intro l
  induction l with
  | nil => intro _; rfl
  | cons b l ih =>
    intro h
    have hb : b < 128 := h b (List.mem_cons_self b l)
    have hd : DecodeRuneInString (b :: l) = (b, 1) := by
      have hf : first b = 0xF0 := by
        unfold first
        rw [if_pos hb]
      rw [decode_cons, hf]
      simp
    rw [runeCount_unfold (b :: l) (List.cons_ne_nil b l), hd]
    simp only [List.drop_succ_cons, List.drop_zero, List.length_cons]
    rw [ih (fun x hx => h x (List.mem_cons_of_mem b hx))]
    omega

theorem Itoa_ascii (v : Int) : ∀ b ∈ Itoa v, b < 128 := by
  intro b hb
  unfold Itoa at hb
  by_cases h : v < 0
  · rw [if_pos h] at hb
    rcases List.mem_cons.mp hb with h1 | h1
    · omega
    · have := natDigits_digit _ b h1
      omega
  · rw [if_neg h] at hb
    have := natDigits_digit _ b hb
    omega

theorem Itoa_nonneg (v : Int) (h : 0 ≤ v) : Itoa v = natDigits v.toNat := by
  unfold Itoa
  rw [if_neg (by omega)]
  congr 1
  omega

/-! ## Sprintf on the formats of `hlinefmt` -/

/-- A decimal width after the flags: `parsenum` reads it as long as the digits
before its last one do not exceed 1000000. -/
theorem doPrintf_width : ∀ (n : Nat), 1 ≤ n → n / 10 ≤ 1000000 →
    ∀ (rest : Bytes) (minus : Bool) (args : List FmtArg),
    doPrintf (natDigits n ++ rest) (FmtState.flags minus) args =
      doPrintf rest (FmtState.width minus n) args := by
  intro n
  induction n using Nat.strong_induction_on with
  | _ n ih =>
    intro h1 h2 rest minus args
    by_cases h : n < 10
    · rw [natDigits_lt n h]
      have hc1 : ¬ 48 + n = 45 := by omega
      have hc2 : ¬ 48 + n = 48 := by omega
      have hc3 : ¬ (48 + n = 35 ∨ 48 + n = 43 ∨ 48 + n = 32 ∨ 48 + n = 42 ∨ 48 + n = 46 ∨
          48 + n = 91) := by omega
      have hc4 : 49 ≤ 48 + n ∧ 48 + n ≤ 57 := by omega
      rw [List.singleton_append]
      simp only [doPrintf, if_neg hc1, if_neg hc2, if_neg hc3, if_pos hc4]
      rw [show 48 + n - 48 = n by omega]
    · rw [natDigits_ge n (by omega), List.append_assoc, List.singleton_append,
        ih (n / 10) (by omega) (by omega) (by omega)]
      have hr := Nat.mod_lt n (show 10 > 0 by decide)
      have hc4 : 48 ≤ 48 + n % 10 ∧ 48 + n % 10 ≤ 57 := by omega
      have hc5 : ¬ n / 10 > 1000000 := by omega
      simp only [doPrintf, if_pos hc4, if_neg hc5]
      rw [show n / 10 * 10 + (48 + n % 10 - 48) = n by omega]

/-- Text that `hlinefmt` has escaped is written out as it was. -/
theorem doPrintf_escape (ofs : Bytes) : ∀ (rest : Bytes) (args : List FmtArg),
    doPrintf (escapePercent ofs ++ rest) FmtState.text args =
      (doPrintf rest FmtState.text args).map (fun out => ofs ++ out) := by
  induction ofs with
  | nil => intro rest args; simp [escapePercent]
  | cons b ofs ih =>
    intro rest args
    by_cases hb : b = 37
    · subst hb
      simp only [escapePercent, if_true, List.cons_append, doPrintf, printVerb]
      simp [List.append_eq, ih, Option.map_map, Function.comp_def]
    · simp only [escapePercent, if_neg hb, List.cons_append, doPrintf, ih, Option.map_map]
      rfl

/-- The verb `%d` without width. -/
theorem doPrintf_d (rest : Bytes) (v : Int) (args : List FmtArg) :
    doPrintf (37 :: 100 :: rest) FmtState.text (FmtArg.int64 v :: args) =
      (doPrintf rest FmtState.text args).map (fun out => Itoa v ++ out) := by
  simp [doPrintf, printVerb, fmtPad]

/-- The verb `%s` without width. -/
theorem doPrintf_s (rest : Bytes) (s : Bytes) (args : List FmtArg) :
    doPrintf (37 :: 115 :: rest) FmtState.text (FmtArg.string s :: args) =
      (doPrintf rest FmtState.text args).map (fun out => s ++ out) := by
  simp [doPrintf, printVerb, fmtPad]

/-- The verb `%15d`. -/
theorem doPrintf_15d (rest : Bytes) (v : Int) (args : List FmtArg) :
    doPrintf (37 :: 49 :: 53 :: 100 :: rest) FmtState.text (FmtArg.int64 v :: args) =
      (doPrintf rest FmtState.text args).map
        (fun out => (List.replicate (15 - (Itoa v).length) 32 ++ Itoa v) ++ out) := by
  simp [doPrintf, printVerb, fmtPad, runeCount_ascii (Itoa v) (Itoa_ascii v)]

/-- The verb `%-Ns` for a width `N` that `parsenum` reads. -/
theorem doPrintf_minus_s (n : Nat) (hn : n / 10 ≤ 1000000) (rest : Bytes) (s : Bytes)
    (args : List FmtArg) :
    doPrintf (37 :: 45 :: (natDigits n ++ 115 :: rest)) FmtState.text (FmtArg.string s :: args) =
      (doPrintf rest FmtState.text args).map
        (fun out => (s ++ List.replicate (n - RuneCountInString s) 32) ++ out) := by
  by_cases h0 : n = 0
  · subst h0
    rw [natDigits_lt 0 (by decide)]
    simp [doPrintf, printVerb, fmtPad]
  · have h1 : doPrintf (37 :: 45 :: (natDigits n ++ 115 :: rest)) FmtState.text
        (FmtArg.string s :: args) =
        doPrintf (natDigits n ++ 115 :: rest) (FmtState.flags true) (FmtArg.string s :: args) := by
      simp [doPrintf]
    rw [h1, doPrintf_width n (by omega) hn]
    simp [doPrintf, printVerb, fmtPad]

theorem doPrintf_end : doPrintf [] FmtState.text [] = some [] := rfl

theorem doPrintf_space (rest : Bytes) (args : List FmtArg) :
    doPrintf (32 :: rest) FmtState.text args =
      (doPrintf rest FmtState.text args).map (fun out => 32 :: out) := by
  simp [doPrintf]

/-! ## TrimRight -/

theorem TrimRight_replicate (l : Bytes) (n : Nat) :
    TrimRight (l ++ List.replicate n 32) = TrimRight l := by
  induction n with
  | zero => simp
  | succ n ih =>
    rw [List.replicate_succ', ← List.append_assoc]
    unfold TrimRight at ih ⊢
    rw [List.rdropWhile_concat_pos _ _ _ (by simp), ih]

/-- What `TrimRight` returns does not end in a space. -/
theorem TrimRight_last (l : Bytes) : (TrimRight l).getLast? ≠ some 32 := by
  unfold TrimRight
  intro h
  have hne : l.rdropWhile (fun b => decide (b = 32)) ≠ [] := by
    intro h0
    rw [h0] at h
    simp at h
  have h1 := List.rdropWhile_last_not (fun b => decide (b = 32)) l hne
  rw [List.getLast?_eq_getLast _ hne] at h
  have h2 := Option.some.inj h
  rw [h2] at h1
  simp at h1

/-- `TrimRight` removes a suffix that consists of spaces. -/
theorem TrimRight_prefix (l : Bytes) :
    ∃ n, l = TrimRight l ++ List.replicate n 32 := by
  unfold TrimRight
  induction l using List.reverseRecOn with
  | nil => exact ⟨0, rfl⟩
  | append_singleton l b ih =>
    by_cases hb : b = 32
    · obtain ⟨n, hn⟩ := ih
      rw [List.rdropWhile_concat_pos _ _ _ (by simp [hb])]
      refine ⟨n + 1, ?_⟩
      rw [List.replicate_succ', ← List.append_assoc, ← hn, hb]
    · rw [List.rdropWhile_concat_neg _ _ _ (by simp [hb])]
      exact ⟨0, by simp⟩

/-! ## The report line -/

/-- The format string of `hlinefmt`, piece by piece. -/
theorem hlinefmt_format (tw : Int) (graph : Bool) (ofs : Bytes) :
    (hlinefmt tw graph ofs).1 =
      if ofs = [] then
        37 :: 49 :: 53 :: 100 :: 32 :: 37 :: 45 ::
          (Itoa (kavailOf (hlinefmt tw graph ofs)) ++ 115 ::
            (if graph then [32, 37, 115] else []))
      else
        37 :: 100 :: (escapePercent ofs ++ 37 :: 115 ::
          (if graph then escapePercent ofs ++ [37, 115] else [])) := by
  have h15 : Itoa countAvail = [49, 53] := by decide
  by_cases ho : ofs = []
  · subst ho
    cases graph <;>
      simp [hlinefmt, kavailOf, stringsJoin, List.intercalate, h15]
  · cases graph <;>
      simp [hlinefmt, kavailOf, stringsJoin, List.intercalate, ho]

/-- Every line `hline` returns has passed through `TrimRight`. -/
theorem hline_trimmed (Log2 : float64 → float64) (h : histogrammer) (e : keyCount)
    (l : Bytes) (hl : hline Log2 h e = some l) : ∃ x, l = TrimRight x := by
  unfold hline at hl
  simp only [] at hl
  cases hk : (if h.snip then (snip e.key h.kavail).map (fun r => r.1) else some e.key) with
  | none => rw [hk] at hl; simp at hl
  | some key =>
    rw [hk] at hl
    simp only [] at hl
    by_cases hg : h.gt = gType.gNone
    · rw [if_pos hg] at hl
      obtain ⟨x, _, hx⟩ := Option.map_eq_some'.mp hl
      exact ⟨x, hx.symm⟩
    · rw [if_neg hg] at hl
      cases hb : gv (barValue Log2 h e.cnt) with
      | none => rw [hb] at hl; simp at hl
      | some bar =>
        rw [hb] at hl
        simp only [] at hl
        obtain ⟨x, _, hx⟩ := Option.map_eq_some'.mp hl
        exact ⟨x, hx.symm⟩

/-- The key `hline` prints: the key of the entry, snippeted when `h.snip`. -/
theorem hline_key (h : histogrammer) (e : keyCount) :
    ∃ key, (if h.snip then (snip e.key h.kavail).map (fun r => r.1) else some e.key) = some key := by
  by_cases hs : h.snip = true
  · obtain ⟨r, hr⟩ := snip_total e.key h.kavail
    exact ⟨r.1, by rw [if_pos hs, hr]; rfl⟩
  · exact ⟨e.key, by rw [if_neg hs]⟩

/-- `hline` in terms of `Sprintf`, once the key and the bar are known. -/
theorem hline_eq (Log2 : float64 → float64) (h : histogrammer) (e : keyCount) (key : Bytes)
    (hkey : (if h.snip then (snip e.key h.kavail).map (fun r => r.1) else some e.key) = some key) :
    (h.gt = gType.gNone →
      hline Log2 h e =
        (Sprintf h.hfmt [FmtArg.int64 e.cnt, FmtArg.string key]).map TrimRight) ∧
    (h.gt ≠ gType.gNone → ∀ bar, gv (barValue Log2 h e.cnt) = some bar →
      hline Log2 h e =
        (Sprintf h.hfmt [FmtArg.int64 e.cnt, FmtArg.string key, FmtArg.string bar]).map
          TrimRight) := by
  constructor
  · intro hg
    unfold hline
    simp only [hkey, if_pos hg]
  · intro hg bar hbar
    unfold hline
    simp only [hkey, if_neg hg, hbar]

/-- C18: with a non-empty `ofs` (which may contain `%`), `hline` returns the
count in decimal at its natural width, `ofs` as it is, the key (snippeted when
`h.snip`), and with a graph `ofs` again and the bar; nothing is inserted between
the fields, and the trailing spaces of the line are removed.  For `ofs` ","
`hlinefmt` builds "%d,%s" without graph and "%d,%s,%s" with graph. -/
theorem hline_literal (Log2 : float64 → float64) (h : histogrammer) (e : keyCount)
    (tw : Int) (ofs : Bytes) (hofs : ofs ≠ [])
    (hfmt : h.hfmt = (hlinefmt tw (h.gt != gType.gNone) ofs).1) :
    (∃ key,
      (if h.snip then (snip e.key h.kavail).map (fun r => r.1) else some e.key) = some key ∧
      (h.gt = gType.gNone →
        hline Log2 h e = some (TrimRight (Itoa e.cnt ++ ofs ++ key))) ∧
      (h.gt ≠ gType.gNone → ∀ bar, gv (barValue Log2 h e.cnt) = some bar →
        hline Log2 h e = some (TrimRight (Itoa e.cnt ++ ofs ++ key ++ ofs ++ bar)))) ∧
    (hlinefmt tw false (ascii ",")).1 = ascii "%d,%s" ∧
    (hlinefmt tw true (ascii ",")).1 = ascii "%d,%s,%s" := by
  have hcomma : ¬ ascii "," = [] := by decide
  refine ⟨?_, by rw [hlinefmt_format, if_neg hcomma]; decide,
    by rw [hlinefmt_format, if_neg hcomma]; decide⟩
  obtain ⟨key, hkey⟩ := hline_key h e
  obtain ⟨e1, e2⟩ := hline_eq Log2 h e key hkey
  refine ⟨key, hkey, ?_, ?_⟩
  · intro hg
    have hb : (h.gt != gType.gNone) = false := by rw [hg]; decide
    rw [e1 hg, hfmt, hlinefmt_format, if_neg hofs, hb]
    simp only [Sprintf, Bool.false_eq_true, if_false]
    rw [doPrintf_d, doPrintf_escape, doPrintf_s, doPrintf_end]
    simp
  · intro hg bar hbar
    have hb : (h.gt != gType.gNone) = true := by
      cases hgt : h.gt
      · exact absurd hgt hg
      · decide
      · decide
    rw [e2 hg bar hbar, hfmt, hlinefmt_format, if_neg hofs, hb]
    simp only [Sprintf, if_true]
    rw [doPrintf_d, doPrintf_escape, doPrintf_s, doPrintf_escape, doPrintf_s, doPrintf_end]
    simp

/-- C18 at the entry {"k%": 7} with the separator "%," and snippeting off: the
line without graph is "7%,k%". -/
theorem hline_literal_witness :
    ascii "%," ≠ [] ∧
    hline log2Floor
      { ifs := reSpaces, ofs := ascii "%,", hfmt := (hlinefmt 40 false (ascii "%,")).1 }
      (kc "k%" 7) = some (ascii "7%,k%") ∧
    (hlinefmt 40 false (ascii ",")).1 = ascii "%d,%s" ∧
    (hlinefmt 40 true (ascii ",")).1 = ascii "%d,%s,%s" :=
  ⟨by decide, by decide,
    (hline_literal log2Floor
      { ifs := reSpaces, ofs := ascii "%,", hfmt := (hlinefmt 40 false (ascii "%,")).1 }
      (kc "k%" 7) 40 (ascii "%,") (by decide) (by decide)).2⟩

/-- C17, the claim as stated fails: at the terminal width 20000017 without
graph, `hlinefmt` returns kavail = 20000000 and the format "%15d %-20000000s", whose
width `Sprintf` does not read (its `parsenum` gives up on a number above
1000000 that is followed by another digit): the line of the entry {"a": 1}
is the count followed by an error text, and the key is not in it. -/
theorem hline_auto_counterexample :
    (histScaled log2Floor { ifs := reSpaces, termWidth := 20000017 } (ascii "a")).2.toOption =
      some [kc "a" 1] ∧
    (histScaled log2Floor { ifs := reSpaces, termWidth := 20000017 } (ascii "a")).1.kavail =
      20000000 ∧
    (histScaled log2Floor { ifs := reSpaces, termWidth := 20000017 } (ascii "a")).1.hfmt =
      ascii "%15d %-20000000s" ∧
    hline log2Floor
      (histScaled log2Floor { ifs := reSpaces, termWidth := 20000017 } (ascii "a")).1 (kc "a" 1) =
      some (ascii "              1 %!(NOVERB)%!(EXTRA string=a)") := by
  refine ⟨by decide, by decide, by decide, by decide⟩

/-- C17, amended: for a layout that `hlinefmt` computes with an empty `ofs` and
`0 ≤ kavail ≤ 10000009` (a width that `Sprintf` reads), `hline` with graph off
returns the count in decimal, right-justified in a field of 15 characters, one
space, and the key (snippeted when `h.snip`); with graph on the key is
left-justified, padded with spaces to `kavail` code points, and one space and
the bar follow.  In both cases the trailing spaces are removed: no line that
`hline` returns ends in a space. -/
theorem hline_auto (Log2 : float64 → float64) (h : histogrammer) (e : keyCount) (tw : Int)
    (hfmt : h.hfmt = (hlinefmt tw (h.gt != gType.gNone) []).1)
    (hk : h.kavail = kavailOf (hlinefmt tw (h.gt != gType.gNone) []))
    (hk0 : 0 ≤ h.kavail) (hk1 : h.kavail ≤ 10000009) :
    (∃ key,
      (if h.snip then (snip e.key h.kavail).map (fun r => r.1) else some e.key) = some key ∧
      (h.gt = gType.gNone →
        hline Log2 h e = some (TrimRight
          (List.replicate (15 - (Itoa e.cnt).length) 32 ++ Itoa e.cnt ++ [32] ++ key))) ∧
      (h.gt ≠ gType.gNone → ∀ bar, gv (barValue Log2 h e.cnt) = some bar →
        hline Log2 h e = some (TrimRight
          (List.replicate (15 - (Itoa e.cnt).length) 32 ++ Itoa e.cnt ++ [32] ++
            (key ++ List.replicate (h.kavail.toNat - RuneCountInString key) 32) ++ [32] ++
            bar)))) ∧
    (∀ l, hline Log2 h e = some l → l.getLast? ≠ some 32) := by
  refine ⟨?_, ?_⟩
  · obtain ⟨key, hkey⟩ := hline_key h e
    obtain ⟨e1, e2⟩ := hline_eq Log2 h e key hkey
    have hI : Itoa h.kavail = natDigits h.kavail.toNat := Itoa_nonneg _ hk0
    have hw : h.kavail.toNat / 10 ≤ 1000000 := by omega
    refine ⟨key, hkey, ?_, ?_⟩
    · intro hg
      have hb : (h.gt != gType.gNone) = false := by rw [hg]; decide
      rw [hb] at hfmt hk
      rw [e1 hg, hfmt, hlinefmt_format, if_pos rfl, ← hk, hI]
      simp only [Sprintf, Bool.false_eq_true, if_false]
      rw [doPrintf_15d, doPrintf_space, doPrintf_minus_s _ hw, doPrintf_end]
      simp only [Option.map_some', List.append_nil, List.append_assoc, List.cons_append,
        List.nil_append]
      rw [show List.replicate (15 - (Itoa e.cnt).length) 32 ++ (Itoa e.cnt ++ 32 ::
          (key ++ List.replicate (h.kavail.toNat - RuneCountInString key) 32)) =
        (List.replicate (15 - (Itoa e.cnt).length) 32 ++ (Itoa e.cnt ++ 32 :: key)) ++
          List.replicate (h.kavail.toNat - RuneCountInString key) 32 by simp,
        TrimRight_replicate]
    · intro hg bar hbar
      have hb : (h.gt != gType.gNone) = true := by
        cases hgt : h.gt
        · exact absurd hgt hg
        · decide
        · decide
      rw [hb] at hfmt hk
      rw [e2 hg bar hbar, hfmt, hlinefmt_format, if_pos rfl, ← hk, hI]
      simp only [Sprintf, if_true]
      rw [doPrintf_15d, doPrintf_space, doPrintf_minus_s _ hw, doPrintf_space, doPrintf_s,
        doPrintf_end]
      simp
  · intro l hl
    obtain ⟨x, hx⟩ := hline_trimmed Log2 h e l hl
    rw [hx]
    exact TrimRight_last x

/-- C17 at the entry {"b": 10} of `TestGraph` in Linear mode (terminal width 40,
kavail 4, gavail 18): the line is the count in 15 columns, a space, the key
padded to 4 columns, a space, and a bar of two characters. -/
theorem hline_auto_witness :
    hline log2Floor (histScaled log2Floor (testGraphHist gType.gLinear) testGraphInput).1
      (kc "b" 10) = some (ascii "             10 b    ++") ∧
    (∀ l, hline log2Floor (histScaled log2Floor (testGraphHist gType.gLinear) testGraphInput).1
      (kc "b" 10) = some l → l.getLast? ≠ some 32) :=
  ⟨by decide,
    (hline_auto log2Floor (histScaled log2Floor (testGraphHist gType.gLinear) testGraphInput).1
      (kc "b" 10) 40 (by decide) (by decide) (by decide) (by decide)).2⟩

/-! ## float64: the rounded magnitude -/

/-- `roundNearest` in terms of `roundSig` and `roundExp`. -/
theorem roundNearest_unfold (s : Bool) (n d : Nat) (hn : n ≠ 0) :
    roundNearest s n d =
      if roundSig n d = 2 ^ 53 then
        (if roundExp n d + 1 > 971 then float64.inf s
          else float64.fin s (2 ^ 52) (roundExp n d + 1))
      else if roundExp n d > 971 then float64.inf s
      else float64.fin s (roundSig n d) (roundExp n d) := by
  unfold roundNearest
  rw [if_neg hn]
  rfl

/-- `floorLog2` is the binary exponent of `n/d`. -/
theorem floorLog2_spec (n d : Nat) (hn : 0 < n) (hd : 0 < d) :
    (2 : ℚ) ^ floorLog2 n d ≤ (n : ℚ) / d ∧ (n : ℚ) / d < (2 : ℚ) ^ (floorLog2 n d + 1) := by
  obtain ⟨ha1, ha2⟩ := log2Nat_spec n hn
  obtain ⟨hb1, hb2⟩ := log2Nat_spec d hd
  have hdq : (0 : ℚ) < d := by exact_mod_cast hd
  have hnq : (0 : ℚ) < n := by exact_mod_cast hn
  have ha1q : (2 : ℚ) ^ (log2Nat n : ℤ) ≤ n := by
    rw [zpow_natCast]; exact_mod_cast ha1
  have ha2q : (n : ℚ) < (2 : ℚ) ^ ((log2Nat n : ℤ) + 1) := by
    rw [show ((log2Nat n : ℤ) + 1) = ((log2Nat n + 1 : ℕ) : ℤ) by push_cast; ring, zpow_natCast]
    exact_mod_cast ha2
  have hb1q : (2 : ℚ) ^ (log2Nat d : ℤ) ≤ d := by
    rw [zpow_natCast]; exact_mod_cast hb1
  have hb2q : (d : ℚ) < (2 : ℚ) ^ ((log2Nat d : ℤ) + 1) := by
    rw [show ((log2Nat d : ℤ) + 1) = ((log2Nat d + 1 : ℕ) : ℤ) by push_cast; ring, zpow_natCast]
    exact_mod_cast hb2
  have h2 : (0 : ℚ) < 2 := by norm_num
  have h2ne : (2 : ℚ) ≠ 0 := by norm_num
  have hP : (if (log2Nat n : ℤ) - (log2Nat d : ℤ) ≥ 0
        then d <<< ((log2Nat n : ℤ) - (log2Nat d : ℤ)).toNat ≤ n
        else d ≤ n <<< (-((log2Nat n : ℤ) - (log2Nat d : ℤ))).toNat) ↔
      (2 : ℚ) ^ ((log2Nat n : ℤ) - (log2Nat d : ℤ)) ≤ (n : ℚ) / d := by
    generalize (log2Nat n : ℤ) - (log2Nat d : ℤ) = k
    rw [le_div_iff₀ hdq]
    by_cases hk : k ≥ 0
    · rw [if_pos hk, Nat.shiftLeft_eq]
      have hkk : (2 : ℚ) ^ k = ((2 ^ k.toNat : ℕ) : ℚ) := by
        rw [Nat.cast_pow, ← zpow_natCast, Int.toNat_of_nonneg hk]
        rfl
      rw [hkk, mul_comm]
      exact_mod_cast Iff.rfl
    · rw [if_neg hk, Nat.shiftLeft_eq]
      have hkk : (2 : ℚ) ^ (-k) = ((2 ^ (-k).toNat : ℕ) : ℚ) := by
        rw [Nat.cast_pow, ← zpow_natCast, Int.toNat_of_nonneg (by omega)]
        rfl
      have hpos : (0 : ℚ) < (2 : ℚ) ^ (-k) := zpow_pos h2 _
      have hinv : (2 : ℚ) ^ k * (2 : ℚ) ^ (-k) = 1 := by
        rw [← zpow_add₀ h2ne]; simp
      have h1 : (d ≤ n * 2 ^ (-k).toNat) ↔ ((d : ℚ) ≤ n * (2 : ℚ) ^ (-k)) := by
        rw [hkk]; exact_mod_cast Iff.rfl
      rw [h1]
      constructor
      · intro h
        have := mul_le_mul_of_nonneg_left h (le_of_lt (zpow_pos h2 k))
        calc (2 : ℚ) ^ k * d ≤ (2 : ℚ) ^ k * (n * (2 : ℚ) ^ (-k)) := this
          _ = n * ((2 : ℚ) ^ k * (2 : ℚ) ^ (-k)) := by ring
          _ = n := by rw [hinv, mul_one]
      · intro h
        have := mul_le_mul_of_nonneg_right h (le_of_lt hpos)
        calc (d : ℚ) = (2 : ℚ) ^ k * (2 : ℚ) ^ (-k) * d := by rw [hinv, one_mul]
          _ = (2 : ℚ) ^ k * d * (2 : ℚ) ^ (-k) := by ring
          _ ≤ n * (2 : ℚ) ^ (-k) := this
  unfold floorLog2
  simp only []
  have hk1 : (2 : ℚ) ^ ((log2Nat n : ℤ) - (log2Nat d : ℤ) + 1) * (2 : ℚ) ^ (log2Nat d : ℤ) =
      (2 : ℚ) ^ ((log2Nat n : ℤ) + 1) := by
    rw [← zpow_add₀ h2ne]; congr 1; ring
  have hk2 : (2 : ℚ) ^ ((log2Nat n : ℤ) - (log2Nat d : ℤ) - 1) * (2 : ℚ) ^ ((log2Nat d : ℤ) + 1) =
      (2 : ℚ) ^ (log2Nat n : ℤ) := by
    rw [← zpow_add₀ h2ne]; congr 1; ring
  by_cases hc : (if (log2Nat n : ℤ) - (log2Nat d : ℤ) ≥ 0
        then d <<< ((log2Nat n : ℤ) - (log2Nat d : ℤ)).toNat ≤ n
        else d ≤ n <<< (-((log2Nat n : ℤ) - (log2Nat d : ℤ))).toNat)
  · rw [if_pos hc]
    refine ⟨hP.mp hc, ?_⟩
    rw [div_lt_iff₀ hdq]
    calc (n : ℚ) < (2 : ℚ) ^ ((log2Nat n : ℤ) + 1) := ha2q
      _ = (2 : ℚ) ^ ((log2Nat n : ℤ) - (log2Nat d : ℤ) + 1) * (2 : ℚ) ^ (log2Nat d : ℤ) := hk1.symm
      _ ≤ (2 : ℚ) ^ ((log2Nat n : ℤ) - (log2Nat d : ℤ) + 1) * d :=
        mul_le_mul_of_nonneg_left hb1q (le_of_lt (zpow_pos h2 _))
  · rw [if_neg hc]
    have hlt : (n : ℚ) / d < (2 : ℚ) ^ ((log2Nat n : ℤ) - (log2Nat d : ℤ)) :=
      not_le.mp (fun h => hc (hP.mpr h))
    refine ⟨?_, by rw [sub_add_cancel]; exact hlt⟩
    rw [le_div_iff₀ hdq]
    calc (2 : ℚ) ^ ((log2Nat n : ℤ) - (log2Nat d : ℤ) - 1) * d
        ≤ (2 : ℚ) ^ ((log2Nat n : ℤ) - (log2Nat d : ℤ) - 1) * (2 : ℚ) ^ ((log2Nat d : ℤ) + 1) :=
          mul_le_mul_of_nonneg_left (le_of_lt hb2q) (le_of_lt (zpow_pos h2 _))
      _ = (2 : ℚ) ^ (log2Nat n : ℤ) := hk2
      _ ≤ n := ha1q

/-- `roundHalfEven` rounds to the nearest integer, ties to even. -/
theorem roundHalfEven_spec (n d : Nat) (hd : 0 < d) :
    nearestEven ((n : ℚ) / d) (roundHalfEven n d) := by
  have hdq : (0 : ℚ) < d := by exact_mod_cast hd
  have hdiv : d * (n / d) + n % d = n := Nat.div_add_mod n d
  have hr : n % d < d := Nat.mod_lt n hd
  have hnq : (n : ℚ) = (d : ℚ) * ((n / d : ℕ) : ℚ) + ((n % d : ℕ) : ℚ) := by
    exact_mod_cast hdiv.symm
  have hx : (n : ℚ) / d = (n / d : ℕ) + ((n % d : ℕ) : ℚ) / d := by
    have h0 : ((n / d : ℕ) : ℚ) + ((n % d : ℕ) : ℚ) / d =
        ((d : ℚ) * ((n / d : ℕ) : ℚ) + ((n % d : ℕ) : ℚ)) / d := by
      field_simp
      ring
    rw [h0, ← hnq]
  have hy0 : (0 : ℚ) ≤ ((n % d : ℕ) : ℚ) / d := by positivity
  have hy1 : ((n % d : ℕ) : ℚ) / d < 1 := by
    rw [div_lt_one hdq]; exact_mod_cast hr
  have hlt : 2 * (n % d) < d ↔ ((n % d : ℕ) : ℚ) / d < 1 / 2 := by
    rw [div_lt_iff₀ hdq]
    constructor
    · intro h
      have : ((2 * (n % d) : ℕ) : ℚ) < d := by exact_mod_cast h
      push_cast at this
      linarith
    · intro h
      have : ((2 * (n % d) : ℕ) : ℚ) < d := by push_cast; linarith
      exact_mod_cast this
  have hgt : d < 2 * (n % d) ↔ 1 / 2 < ((n % d : ℕ) : ℚ) / d := by
    rw [lt_div_iff₀ hdq]
    constructor
    · intro h
      have : (d : ℚ) < ((2 * (n % d) : ℕ) : ℚ) := by exact_mod_cast h
      push_cast at this
      linarith
    · intro h
      have : (d : ℚ) < ((2 * (n % d) : ℕ) : ℚ) := by push_cast; linarith
      exact_mod_cast this
  unfold nearestEven roundHalfEven
  simp only []
  rw [hx]
  generalize ((n % d : ℕ) : ℚ) / d = y at hy0 hy1 hlt hgt
  by_cases h1 : 2 * (n % d) < d
  · rw [if_pos h1]
    have := hlt.mp h1
    refine ⟨by linarith, by linarith, fun h => ?_, fun h => ?_⟩ <;> exfalso <;> linarith
  · rw [if_neg h1]
    by_cases h2 : d < 2 * (n % d)
    · rw [if_pos h2]
      have := hgt.mp h2
      push_cast
      refine ⟨by linarith, by linarith, fun h => ?_, fun h => ?_⟩ <;> exfalso <;> linarith
    · rw [if_neg h2]
      have hy : y = 1 / 2 := by
        have a1 : ¬ y < 1 / 2 := fun h => h1 (hlt.mpr h)
        have a2 : ¬ 1 / 2 < y := fun h => h2 (hgt.mpr h)
        linarith [not_lt.mp a1, not_lt.mp a2]
      by_cases h3 : n / d % 2 = 0
      · rw [if_pos h3]
        refine ⟨by linarith, by linarith, fun h => ?_, fun _ => h3⟩
        exfalso; linarith
      · rw [if_neg h3]
        push_cast
        refine ⟨by linarith, by linarith, fun _ => by omega, fun h => ?_⟩
        exfalso; linarith

/-- Rounding to nearest is monotone. -/
theorem nearestEven_mono {x y : ℚ} {m k : Nat} (hxy : x ≤ y) (hm : nearestEven x m)
    (hk : nearestEven y k) : m ≤ k := by
  obtain ⟨-, m2, m3, -⟩ := hm
  obtain ⟨k1, -, -, k4⟩ := hk
  by_contra hlt
  have h1 : k + 1 ≤ m := by omega
  have h1q : (k : ℚ) + 1 ≤ m := by exact_mod_cast h1
  have e1 : (m : ℚ) = x + 1 / 2 := by linarith
  have e2 : (k : ℚ) = y - 1 / 2 := by linarith
  have e3 : (m : ℚ) = k + 1 := by linarith
  have := m3 e1
  have := k4 e2
  have e4 : m = k + 1 := by exact_mod_cast e3
  omega

/-- A natural number rounds to itself. -/
theorem nearestEven_nat {a m : Nat} (h : nearestEven (a : ℚ) m) : m = a := by
  obtain ⟨h1, h2, -, -⟩ := h
  have a1 : (m : ℚ) < a + 1 := by linarith
  have a2 : (a : ℚ) < m + 1 := by linarith
  have b1 : m < a + 1 := by exact_mod_cast a1
  have b2 : a < m + 1 := by exact_mod_cast a2
  omega

/-- Bounds of the rounded number by natural numbers on either side. -/
theorem nearestEven_le {x : ℚ} {m a : Nat} (h : nearestEven x m) (hx : x ≤ a) : m ≤ a := by
  obtain ⟨-, h2, -, -⟩ := h
  have a1 : (m : ℚ) < a + 1 := by linarith
  have b1 : m < a + 1 := by exact_mod_cast a1
  omega

theorem nearestEven_ge {x : ℚ} {m a : Nat} (h : nearestEven x m) (hx : (a : ℚ) ≤ x) : a ≤ m := by
  obtain ⟨h1, -, -, -⟩ := h
  have a1 : (a : ℚ) < m + 1 := by linarith
  have b1 : a < m + 1 := by exact_mod_cast a1
  omega

theorem two_zpow_toNat (k : Int) (hk : 0 ≤ k) : (((2 : ℕ) ^ k.toNat : ℕ) : ℚ) = (2 : ℚ) ^ k := by
  rw [Nat.cast_pow, ← zpow_natCast, Int.toNat_of_nonneg hk]
  rfl

/-- The significand is the scaled value rounded to nearest, ties to even. -/
theorem roundSig_spec (n d : Nat) (hd : 0 < d) :
    nearestEven ((n : ℚ) / d / (2 : ℚ) ^ roundExp n d) (roundSig n d) := by
  have hdq : (0 : ℚ) < d := by exact_mod_cast hd
  have h2 : (0 : ℚ) < 2 := by norm_num
  have h2ne : (2 : ℚ) ≠ 0 := by norm_num
  unfold roundSig
  by_cases hE : roundExp n d ≥ 0
  · rw [if_pos hE]
    have hpos : 0 < d <<< (roundExp n d).toNat := by
      rw [Nat.shiftLeft_eq]; positivity
    have h := roundHalfEven_spec n (d <<< (roundExp n d).toNat) hpos
    have hc : ((d <<< (roundExp n d).toNat : ℕ) : ℚ) = d * (2 : ℚ) ^ roundExp n d := by
      rw [Nat.shiftLeft_eq, Nat.cast_mul, two_zpow_toNat _ hE]
    rw [hc, ← div_div] at h
    exact h
  · rw [if_neg hE]
    have h := roundHalfEven_spec (n <<< (-(roundExp n d)).toNat) d hd
    have hc : ((n <<< (-(roundExp n d)).toNat : ℕ) : ℚ) = n / (2 : ℚ) ^ roundExp n d := by
      rw [Nat.shiftLeft_eq, Nat.cast_mul, two_zpow_toNat _ (by omega), zpow_neg,
        div_eq_mul_inv]
    rw [hc, div_right_comm] at h
    exact h

/-- The scaled value is below `2^53`, and at least `2^52` unless the exponent is
held at -1074. -/
theorem scaled_bounds (n d : Nat) (hn : 0 < n) (hd : 0 < d) :
    (n : ℚ) / d / (2 : ℚ) ^ roundExp n d < 2 ^ 53 ∧
    (-1074 ≤ floorLog2 n d - 52 → (2 : ℚ) ^ 52 ≤ (n : ℚ) / d / (2 : ℚ) ^ roundExp n d) := by
  obtain ⟨h1, h2⟩ := floorLog2_spec n d hn hd
  have h2' : (0 : ℚ) < 2 := by norm_num
  have h2ne : (2 : ℚ) ≠ 0 := by norm_num
  have hpos : (0 : ℚ) < (2 : ℚ) ^ roundExp n d := zpow_pos h2' _
  constructor
  · rw [div_lt_iff₀ hpos]
    have hle : floorLog2 n d + 1 ≤ 53 + roundExp n d := by
      unfold roundExp
      have := le_max_left (floorLog2 n d - 52) (-1074)
      omega
    calc (n : ℚ) / d < (2 : ℚ) ^ (floorLog2 n d + 1) := h2
      _ ≤ (2 : ℚ) ^ (53 + roundExp n d) := zpow_le_zpow_right₀ (by norm_num) hle
      _ = 2 ^ 53 * (2 : ℚ) ^ roundExp n d := by
        rw [zpow_add₀ h2ne]; norm_num
  · intro hnorm
    have hE : roundExp n d = floorLog2 n d - 52 := by
      unfold roundExp
      exact max_eq_left hnorm
    rw [le_div_iff₀ hpos, hE]
    calc (2 : ℚ) ^ 52 * (2 : ℚ) ^ (floorLog2 n d - 52) = (2 : ℚ) ^ floorLog2 n d := by
          rw [show (2 : ℚ) ^ 52 = (2 : ℚ) ^ (52 : ℤ) by norm_num, ← zpow_add₀ h2ne]
          congr 1; ring
      _ ≤ (n : ℚ) / d := h1

/-- The significand has at most 53 bits (or is `2^53`), and 53 bits unless the
exponent is held at -1074. -/
theorem roundSig_bounds (n d : Nat) (hn : 0 < n) (hd : 0 < d) :
    roundSig n d ≤ 2 ^ 53 ∧ (-1074 ≤ floorLog2 n d - 52 → 2 ^ 52 ≤ roundSig n d) := by
  obtain ⟨h1, h2⟩ := scaled_bounds n d hn hd
  have hs := roundSig_spec n d hd
  constructor
  · exact nearestEven_le hs (by push_cast; exact le_of_lt h1)
  · intro hnorm
    exact nearestEven_ge hs (by push_cast; exact h2 hnorm)

/-- The binary exponent grows with the value. -/
theorem floorLog2_mono (n1 d1 n2 d2 : Nat) (hn1 : 0 < n1) (hd1 : 0 < d1) (hn2 : 0 < n2)
    (hd2 : 0 < d2) (hq : (n1 : ℚ) / d1 ≤ (n2 : ℚ) / d2) : floorLog2 n1 d1 ≤ floorLog2 n2 d2 := by
  obtain ⟨a1, -⟩ := floorLog2_spec n1 d1 hn1 hd1
  obtain ⟨-, b2⟩ := floorLog2_spec n2 d2 hn2 hd2
  have hlt : (2 : ℚ) ^ floorLog2 n1 d1 < (2 : ℚ) ^ (floorLog2 n2 d2 + 1) :=
    lt_of_le_of_lt (le_trans a1 hq) b2
  have := (zpow_lt_zpow_iff_right₀ (show (1 : ℚ) < 2 by norm_num)).mp hlt
  omega

/-- Rounding is monotone: a larger value has a rounded magnitude at least as
large. -/
theorem roundMag_mono (n1 d1 n2 d2 : Nat) (hn1 : 0 < n1) (hd1 : 0 < d1) (hn2 : 0 < n2)
    (hd2 : 0 < d2) (hq : (n1 : ℚ) / d1 ≤ (n2 : ℚ) / d2) : roundMag n1 d1 ≤ roundMag n2 d2 := by
  have hK := floorLog2_mono n1 d1 n2 d2 hn1 hd1 hn2 hd2 hq
  have h2 : (0 : ℚ) < 2 := by norm_num
  have h2ne : (2 : ℚ) ≠ 0 := by norm_num
  have hE : roundExp n1 d1 ≤ roundExp n2 d2 := by
    unfold roundExp
    exact max_le_max (by omega) (le_refl _)
  unfold roundMag
  rcases eq_or_lt_of_le hE with heq | hlt
  · have hpos : (0 : ℚ) < (2 : ℚ) ^ roundExp n2 d2 := zpow_pos h2 _
    have hx : (n1 : ℚ) / d1 / (2 : ℚ) ^ roundExp n1 d1 ≤ (n2 : ℚ) / d2 / (2 : ℚ) ^ roundExp n2 d2 := by
      rw [heq]
      exact div_le_div_of_nonneg_right hq (le_of_lt hpos)
    have hm := nearestEven_mono hx (roundSig_spec n1 d1 hd1) (roundSig_spec n2 d2 hd2)
    rw [heq]
    exact mul_le_mul_of_nonneg_right (by exact_mod_cast hm) (le_of_lt hpos)
  · have hnorm : -1074 ≤ floorLog2 n2 d2 - 52 := by
      unfold roundExp at hlt
      have := le_max_right (floorLog2 n1 d1 - 52) (-1074)
      by_contra hc
      rw [max_eq_right (by omega : floorLog2 n2 d2 - 52 ≤ -1074)] at hlt
      omega
    have hm1 := (roundSig_bounds n1 d1 hn1 hd1).1
    have hm2 := (roundSig_bounds n2 d2 hn2 hd2).2 hnorm
    have hm1q : (roundSig n1 d1 : ℚ) ≤ 2 ^ 53 := by exact_mod_cast hm1
    have hm2q : (2 : ℚ) ^ 52 ≤ roundSig n2 d2 := by exact_mod_cast hm2
    calc (roundSig n1 d1 : ℚ) * (2 : ℚ) ^ roundExp n1 d1
        ≤ 2 ^ 53 * (2 : ℚ) ^ roundExp n1 d1 :=
          mul_le_mul_of_nonneg_right hm1q (le_of_lt (zpow_pos h2 _))
      _ = (2 : ℚ) ^ (53 + roundExp n1 d1) := by
          rw [zpow_add₀ h2ne]; norm_num
      _ ≤ (2 : ℚ) ^ (52 + roundExp n2 d2) := zpow_le_zpow_right₀ (by norm_num) (by omega)
      _ = 2 ^ 52 * (2 : ℚ) ^ roundExp n2 d2 := by
          rw [zpow_add₀ h2ne]; norm_num
      _ ≤ (roundSig n2 d2 : ℚ) * (2 : ℚ) ^ roundExp n2 d2 :=
          mul_le_mul_of_nonneg_right hm2q (le_of_lt (zpow_pos h2 _))

/-- The rounded magnitude depends on the value only. -/
theorem roundMag_congr (n1 d1 n2 d2 : Nat) (hn1 : 0 < n1) (hd1 : 0 < d1) (hn2 : 0 < n2)
    (hd2 : 0 < d2) (hq : (n1 : ℚ) / d1 = (n2 : ℚ) / d2) : roundMag n1 d1 = roundMag n2 d2 :=
  le_antisymm (roundMag_mono n1 d1 n2 d2 hn1 hd1 hn2 hd2 (le_of_eq hq))
    (roundMag_mono n2 d2 n1 d1 hn2 hd2 hn1 hd1 (le_of_eq hq.symm))

/-- A value in the normal range and its rounded magnitude lie in the same
binade. -/
theorem roundMag_binade (n d : Nat) (hn : 0 < n) (hd : 0 < d)
    (hnorm : -1074 ≤ floorLog2 n d - 52) :
    (2 : ℚ) ^ floorLog2 n d ≤ roundMag n d ∧ roundMag n d ≤ (2 : ℚ) ^ (floorLog2 n d + 1) := by
  have h2 : (0 : ℚ) < 2 := by norm_num
  have h2ne : (2 : ℚ) ≠ 0 := by norm_num
  have hE : roundExp n d = floorLog2 n d - 52 := by
    unfold roundExp
    exact max_eq_left hnorm
  obtain ⟨hm1, hm2⟩ := roundSig_bounds n d hn hd
  have hm1q : (roundSig n d : ℚ) ≤ 2 ^ 53 := by exact_mod_cast hm1
  have hm2q : (2 : ℚ) ^ 52 ≤ roundSig n d := by exact_mod_cast hm2 hnorm
  unfold roundMag
  rw [hE]
  constructor
  · calc (2 : ℚ) ^ floorLog2 n d = 2 ^ 52 * (2 : ℚ) ^ (floorLog2 n d - 52) := by
          rw [show (2 : ℚ) ^ 52 = (2 : ℚ) ^ (52 : ℤ) by norm_num, ← zpow_add₀ h2ne]
          congr 1; ring
      _ ≤ (roundSig n d : ℚ) * (2 : ℚ) ^ (floorLog2 n d - 52) :=
          mul_le_mul_of_nonneg_right hm2q (le_of_lt (zpow_pos h2 _))
  · calc (roundSig n d : ℚ) * (2 : ℚ) ^ (floorLog2 n d - 52)
        ≤ 2 ^ 53 * (2 : ℚ) ^ (floorLog2 n d - 52) :=
          mul_le_mul_of_nonneg_right hm1q (le_of_lt (zpow_pos h2 _))
      _ = (2 : ℚ) ^ (floorLog2 n d + 1) := by
          rw [show (2 : ℚ) ^ 53 = (2 : ℚ) ^ (53 : ℤ) by norm_num, ← zpow_add₀ h2ne]
          congr 1; ring

/-- A value whose scaled form is a natural number is its own rounding. -/
theorem roundMag_exact (n d : Nat) (hd : 0 < d) (a : Nat)
    (ha : (n : ℚ) / d / (2 : ℚ) ^ roundExp n d = a) : roundMag n d = (n : ℚ) / d := by
  have h2 : (0 : ℚ) < 2 := by norm_num
  have hs := roundSig_spec n d hd
  rw [ha] at hs
  have hm := nearestEven_nat hs
  unfold roundMag
  rw [hm, ← ha]
  exact div_mul_cancel₀ _ (ne_of_gt (zpow_pos h2 _))

/-- The binary exponent of a power of two. -/
theorem floorLog2_unique (n d : Nat) (hn : 0 < n) (hd : 0 < d) (k : Int)
    (h1 : (2 : ℚ) ^ k ≤ (n : ℚ) / d) (h2 : (n : ℚ) / d < (2 : ℚ) ^ (k + 1)) :
    floorLog2 n d = k := by
  obtain ⟨a1, a2⟩ := floorLog2_spec n d hn hd
  have b1 := (zpow_lt_zpow_iff_right₀ (show (1 : ℚ) < 2 by norm_num)).mp (lt_of_le_of_lt a1 h2)
  have b2 := (zpow_lt_zpow_iff_right₀ (show (1 : ℚ) < 2 by norm_num)).mp (lt_of_le_of_lt h1 a2)
  omega

/-- A power of two in the normal range is its own rounding. -/
theorem roundMag_pow (n d : Nat) (hn : 0 < n) (hd : 0 < d) (k : Int) (hk : -1022 ≤ k)
    (hq : (n : ℚ) / d = (2 : ℚ) ^ k) : roundMag n d = (2 : ℚ) ^ k := by
  have h2 : (0 : ℚ) < 2 := by norm_num
  have h2ne : (2 : ℚ) ≠ 0 := by norm_num
  have hK : floorLog2 n d = k := by
    refine floorLog2_unique n d hn hd k (le_of_eq hq.symm) ?_
    rw [hq]
    exact zpow_lt_zpow_right₀ (by norm_num) (by omega)
  have hE : roundExp n d = k - 52 := by
    unfold roundExp
    rw [hK]
    exact max_eq_left (by omega)
  rw [roundMag_exact n d hd (2 ^ 52) ?_, hq]
  rw [hq, hE, ← zpow_sub₀ h2ne]
  norm_num

/-- Rounding keeps a value on its side of a power of two. -/
theorem roundMag_le_pow (n d : Nat) (hn : 0 < n) (hd : 0 < d) (k : Int) (hk : -1022 ≤ k)
    (hq : (n : ℚ) / d ≤ (2 : ℚ) ^ k) : roundMag n d ≤ (2 : ℚ) ^ k := by
  have h2 : (0 : ℚ) < 2 := by norm_num
  by_cases hk0 : 0 ≤ k
  · have hc : (((2 ^ k.toNat : ℕ) : ℚ)) / ((1 : ℕ) : ℚ) = (2 : ℚ) ^ k := by
      rw [two_zpow_toNat k hk0]; simp
    have h := roundMag_mono n d (2 ^ k.toNat) 1 hn hd (by positivity) (by decide)
      (by rw [hc]; exact hq)
    rwa [roundMag_pow (2 ^ k.toNat) 1 (by positivity) (by decide) k hk hc] at h
  · have hc : (((1 : ℕ) : ℚ)) / ((2 ^ (-k).toNat : ℕ) : ℚ) = (2 : ℚ) ^ k := by
      rw [two_zpow_toNat (-k) (by omega), zpow_neg]; simp
    have h := roundMag_mono n d 1 (2 ^ (-k).toNat) hn hd (by decide) (by positivity)
      (by rw [hc]; exact hq)
    rwa [roundMag_pow 1 (2 ^ (-k).toNat) (by decide) (by positivity) k hk hc] at h

theorem roundMag_ge_pow (n d : Nat) (hn : 0 < n) (hd : 0 < d) (k : Int) (hk : -1022 ≤ k)
    (hq : (2 : ℚ) ^ k ≤ (n : ℚ) / d) : (2 : ℚ) ^ k ≤ roundMag n d := by
  have h2 : (0 : ℚ) < 2 := by norm_num
  by_cases hk0 : 0 ≤ k
  · have hc : (((2 ^ k.toNat : ℕ) : ℚ)) / ((1 : ℕ) : ℚ) = (2 : ℚ) ^ k := by
      rw [two_zpow_toNat k hk0]; simp
    have h := roundMag_mono (2 ^ k.toNat) 1 n d (by positivity) (by decide) hn hd
      (by rw [hc]; exact hq)
    rwa [roundMag_pow (2 ^ k.toNat) 1 (by positivity) (by decide) k hk hc] at h
  · have hc : (((1 : ℕ) : ℚ)) / ((2 ^ (-k).toNat : ℕ) : ℚ) = (2 : ℚ) ^ k := by
      rw [two_zpow_toNat (-k) (by omega), zpow_neg]; simp
    have h := roundMag_mono 1 (2 ^ (-k).toNat) n d (by decide) (by positivity) hn hd
      (by rw [hc]; exact hq)
    rwa [roundMag_pow 1 (2 ^ (-k).toNat) (by decide) (by positivity) k hk hc] at h

/-! ## float64: the operations on finite values -/

/-- A rounded magnitude below `2^1024` that is not zero is the magnitude of the
finite value `roundNearest` returns. -/
theorem roundNearest_finite (s : Bool) (n d : Nat) (hn : 0 < n) (hd : 0 < d)
    (hpos : 0 < roundMag n d) (hlt : roundMag n d < (2 : ℚ) ^ (1024 : ℤ)) :
    (roundNearest s n d).finite s (roundMag n d) := by
  have h2 : (0 : ℚ) < 2 := by norm_num
  have h2ne : (2 : ℚ) ≠ 0 := by norm_num
  obtain ⟨hm1, hm2⟩ := roundSig_bounds n d hn hd
  have hE := le_max_right (floorLog2 n d - 52) (-1074)
  have hEdef : roundExp n d = max (floorLog2 n d - 52) (-1074) := rfl
  rw [roundNearest_unfold s n d (by omega)]
  unfold roundMag at hpos hlt ⊢
  by_cases h53 : roundSig n d = 2 ^ 53
  · rw [if_pos h53]
    have hval : ((2 ^ 52 : ℕ) : ℚ) * (2 : ℚ) ^ (roundExp n d + 1) =
        (roundSig n d : ℚ) * (2 : ℚ) ^ roundExp n d := by
      rw [h53, zpow_add₀ h2ne]
      push_cast
      ring
    by_cases hc : roundExp n d + 1 > 971
    · exfalso
      rw [h53] at hlt
      have : (2 : ℚ) ^ (1024 : ℤ) ≤ ((2 ^ 53 : ℕ) : ℚ) * (2 : ℚ) ^ roundExp n d := by
        calc (2 : ℚ) ^ (1024 : ℤ) = 2 ^ 53 * (2 : ℚ) ^ (971 : ℤ) := by
              rw [show (2 : ℚ) ^ 53 = (2 : ℚ) ^ (53 : ℤ) by norm_num, ← zpow_add₀ h2ne]
              norm_num
          _ ≤ 2 ^ 53 * (2 : ℚ) ^ roundExp n d :=
              mul_le_mul_of_nonneg_left (zpow_le_zpow_right₀ (by norm_num) (by omega))
                (by positivity)
          _ = ((2 ^ 53 : ℕ) : ℚ) * (2 : ℚ) ^ roundExp n d := by push_cast; rfl
      linarith
    · rw [if_neg hc]
      exact ⟨2 ^ 52, roundExp n d + 1, rfl, by decide, by decide, hval⟩
  · rw [if_neg h53]
    have hne : roundSig n d ≠ 0 := by
      intro h0
      rw [h0] at hpos
      simp at hpos
    by_cases hc : roundExp n d > 971
    · exfalso
      have hnorm : -1074 ≤ floorLog2 n d - 52 := by
        by_contra hcon
        rw [hEdef, max_eq_right (by omega)] at hc
        omega
      have hm2q : (2 : ℚ) ^ 52 ≤ roundSig n d := by exact_mod_cast hm2 hnorm
      have : (2 : ℚ) ^ (1024 : ℤ) ≤ (roundSig n d : ℚ) * (2 : ℚ) ^ roundExp n d := by
        calc (2 : ℚ) ^ (1024 : ℤ) = 2 ^ 52 * (2 : ℚ) ^ (972 : ℤ) := by
              rw [show (2 : ℚ) ^ 52 = (2 : ℚ) ^ (52 : ℤ) by norm_num, ← zpow_add₀ h2ne]
              norm_num
          _ ≤ 2 ^ 52 * (2 : ℚ) ^ roundExp n d :=
              mul_le_mul_of_nonneg_left (zpow_le_zpow_right₀ (by norm_num) (by omega))
                (by positivity)
          _ ≤ (roundSig n d : ℚ) * (2 : ℚ) ^ roundExp n d :=
              mul_le_mul_of_nonneg_right hm2q (le_of_lt (zpow_pos h2 _))
      linarith
    · rw [if_neg hc]
      exact ⟨roundSig n d, roundExp n d, rfl, hne, by omega, rfl⟩

/-- The rounding of a value between two powers of two of the normal range is
finite, and lies between them. -/
theorem roundNearest_between (s : Bool) (n d : Nat) (hn : 0 < n) (hd : 0 < d) (a b : Int)
    (ha : -1022 ≤ a) (hb : b ≤ 1023) (h1 : (2 : ℚ) ^ a ≤ (n : ℚ) / d)
    (h2 : (n : ℚ) / d ≤ (2 : ℚ) ^ b) :
    (roundNearest s n d).finite s (roundMag n d) ∧
    (2 : ℚ) ^ a ≤ roundMag n d ∧ roundMag n d ≤ (2 : ℚ) ^ b := by
  have hab : a ≤ b := by
    have := (zpow_le_zpow_iff_right₀ (show (1 : ℚ) < 2 by norm_num)).mp (le_trans h1 h2)
    exact this
  have g1 := roundMag_ge_pow n d hn hd a ha h1
  have g2 := roundMag_le_pow n d hn hd b (by omega) h2
  refine ⟨roundNearest_finite s n d hn hd (lt_of_lt_of_le (zpow_pos (by norm_num) a) g1) ?_, g1, g2⟩
  exact lt_of_le_of_lt g2 (zpow_lt_zpow_right₀ (by norm_num) (by omega))

/-- The quotient of two finite values is the rounding of the quotient of their
magnitudes. -/
theorem div_finite {s t : Bool} {x y : float64} {v w : ℚ} (hx : x.finite s v)
    (hy : y.finite t w) :
    ∃ n d : Nat, 0 < n ∧ 0 < d ∧ (n : ℚ) / d = v / w ∧
      x.div y = roundNearest (xor s t) n d := by
  obtain ⟨m, e, rfl, hm, -, rfl⟩ := hx
  obtain ⟨m2, e2, rfl, hm2, -, rfl⟩ := hy
  have h2 : (0 : ℚ) < 2 := by norm_num
  have h2ne : (2 : ℚ) ≠ 0 := by norm_num
  have hmq : (m2 : ℚ) ≠ 0 := by exact_mod_cast hm2
  by_cases he : e2 ≤ e
  · refine ⟨m <<< (e - e2).toNat, m2, ?_, by omega, ?_, ?_⟩
    · rw [Nat.shiftLeft_eq]; positivity
    · rw [Nat.shiftLeft_eq, Nat.cast_mul, two_zpow_toNat _ (by omega), zpow_sub₀ h2ne]
      field_simp
      ring
    · simp only [float64.div, if_neg hm2, if_pos he]
  · refine ⟨m, m2 <<< (e2 - e).toNat, by omega, ?_, ?_, ?_⟩
    · rw [Nat.shiftLeft_eq]; positivity
    · rw [Nat.shiftLeft_eq, Nat.cast_mul, two_zpow_toNat _ (by omega), zpow_sub₀ h2ne]
      field_simp
    · simp only [float64.div, if_neg hm2, if_neg he]

/-- The sum of two finite values of the same sign is the rounding of the sum of
their magnitudes. -/
theorem add_finite {s : Bool} {x y : float64} {v w : ℚ} (hx : x.finite s v)
    (hy : y.finite s w) :
    ∃ n d : Nat, 0 < n ∧ 0 < d ∧ (n : ℚ) / d = v + w ∧ x.add y = roundNearest s n d := by
  obtain ⟨m, e, rfl, hm, -, rfl⟩ := hx
  obtain ⟨m2, e2, rfl, hm2, -, rfl⟩ := hy
  have h2 : (0 : ℚ) < 2 := by norm_num
  have h2ne : (2 : ℚ) ≠ 0 := by norm_num
  have hA : 0 < m <<< (e - min e e2).toNat := by rw [Nat.shiftLeft_eq]; positivity
  have hB : 0 < m2 <<< (e2 - min e e2).toNat := by rw [Nat.shiftLeft_eq]; positivity
  have hAq : ((m <<< (e - min e e2).toNat : ℕ) : ℚ) = m * (2 : ℚ) ^ e / (2 : ℚ) ^ min e e2 := by
    rw [Nat.shiftLeft_eq, Nat.cast_mul, two_zpow_toNat _ (by have := min_le_left e e2; omega),
      zpow_sub₀ h2ne]
    ring
  have hBq : ((m2 <<< (e2 - min e e2).toNat : ℕ) : ℚ) =
      m2 * (2 : ℚ) ^ e2 / (2 : ℚ) ^ min e e2 := by
    rw [Nat.shiftLeft_eq, Nat.cast_mul, two_zpow_toNat _ (by have := min_le_right e e2; omega),
      zpow_sub₀ h2ne]
    ring
  generalize hAdef : m <<< (e - min e e2).toNat = A at hA hAq
  generalize hBdef : m2 <<< (e2 - min e e2).toNat = B at hB hBq
  have hsum : ((if s then -1 else 1) * (A : ℤ) + (if s then -1 else 1) * (B : ℤ)) ≠ 0 ∧
      decide ((if s then -1 else 1) * (A : ℤ) + (if s then -1 else 1) * (B : ℤ) < 0) = s ∧
      ((if s then -1 else 1) * (A : ℤ) + (if s then -1 else 1) * (B : ℤ)).natAbs = A + B := by
    cases s
    · simp only [Bool.false_eq_true, if_false, one_mul]
      refine ⟨by omega, by simp; omega, by omega⟩
    · simp only [if_true]
      refine ⟨by omega, by simp; omega, by omega⟩
  obtain ⟨s1, s2, s3⟩ := hsum
  have hpow : (0 : ℚ) < (2 : ℚ) ^ min e e2 := zpow_pos h2 _
  have hnz : ¬ (m = 0 ∧ m2 = 0) := fun h => hm h.1
  by_cases he0 : 0 ≤ min e e2
  · refine ⟨(A + B) <<< (min e e2).toNat, 1, ?_, by decide, ?_, ?_⟩
    · rw [Nat.shiftLeft_eq]; positivity
    · rw [Nat.shiftLeft_eq, Nat.cast_mul, two_zpow_toNat _ he0, Nat.cast_add, hAq, hBq]
      field_simp
    · simp only [float64.add, if_neg hnz, if_neg hm, if_neg hm2, hAdef, hBdef, if_neg s1,
        if_pos he0, s2, s3]
  · refine ⟨A + B, 1 <<< (-(min e e2)).toNat, by omega, ?_, ?_, ?_⟩
    · rw [Nat.shiftLeft_eq]; positivity
    · rw [Nat.shiftLeft_eq, Nat.cast_mul, two_zpow_toNat _ (by omega), Nat.cast_add, hAq, hBq,
        zpow_neg]
      field_simp
    · simp only [float64.add, if_neg hnz, if_neg hm, if_neg hm2, hAdef, hBdef, if_neg s1,
        if_neg he0, s2, s3]

/-- A natural number below `2^53` is a `float64`. -/
theorem roundMag_nat (N : Nat) (hN : 0 < N) (hlt : N < 2 ^ 53) : roundMag N 1 = N := by
  have h2 : (0 : ℚ) < 2 := by norm_num
  obtain ⟨a1, -⟩ := floorLog2_spec N 1 hN (by decide)
  have hNq : ((N : ℚ)) / ((1 : ℕ) : ℚ) < (2 : ℚ) ^ (53 : ℤ) := by
    rw [Nat.cast_one, div_one]
    calc (N : ℚ) < ((2 ^ 53 : ℕ) : ℚ) := by exact_mod_cast hlt
      _ = (2 : ℚ) ^ (53 : ℤ) := by norm_num
  have hK : floorLog2 N 1 < 53 :=
    (zpow_lt_zpow_iff_right₀ (show (1 : ℚ) < 2 by norm_num)).mp (lt_of_le_of_lt a1 hNq)
  have hE : roundExp N 1 ≤ 0 := by
    unfold roundExp
    exact max_le (by omega) (by decide)
  have h := roundMag_exact N 1 (by decide) (N * 2 ^ (-(roundExp N 1)).toNat) (by
    rw [Nat.cast_mul, two_zpow_toNat _ (by omega), zpow_neg]
    simp [div_eq_mul_inv])
  simpa using h

/-- The integer part of a finite value, as `int(math.Abs(math.Trunc(x)))` gives
it. -/
theorem toInt_trunc {s : Bool} {x : float64} {v : ℚ} (hx : x.finite s v)
    (hv : v < (2 : ℚ) ^ (62 : ℤ)) : (Abs (Trunc x)).toInt = some ((⌊v⌋₊ : ℕ) : ℤ) := by
  obtain ⟨m, e, rfl, hm, hm53, rfl⟩ := hx
  have h2 : (0 : ℚ) < 2 := by norm_num
  have h2ne : (2 : ℚ) ≠ 0 := by norm_num
  by_cases he : 0 ≤ e
  · have hq : ((m <<< e.toNat : ℕ) : ℚ) = (m : ℚ) * (2 : ℚ) ^ e := by
      rw [Nat.shiftLeft_eq, Nat.cast_mul, two_zpow_toNat _ he]
    rw [← hq] at hv ⊢
    rw [Nat.floor_natCast]
    simp only [Trunc, if_pos he, Abs, float64.toInt, Bool.false_eq_true, if_false]
    generalize m <<< e.toNat = a at hv
    have hlt : a < 2 ^ 62 := by
      have : (a : ℚ) < ((2 ^ 62 : ℕ) : ℚ) := by
        calc (a : ℚ) < (2 : ℚ) ^ (62 : ℤ) := hv
          _ = ((2 ^ 62 : ℕ) : ℚ) := by norm_num
      exact_mod_cast this
    have hint : isInt64 (a : ℤ) := by
      unfold isInt64
      constructor <;> omega
    rw [if_pos hint]
  · have hfloor : ⌊(m : ℚ) * (2 : ℚ) ^ e⌋₊ = m >>> (-e).toNat := by
      rw [Nat.shiftRight_eq_div_pow]
      have : (m : ℚ) * (2 : ℚ) ^ e = (m : ℚ) / ((2 ^ (-e).toNat : ℕ) : ℚ) := by
        rw [two_zpow_toNat _ (by omega), zpow_neg, div_eq_mul_inv, inv_inv]
      rw [this, Nat.floor_div_eq_div]
    have hN53 : m >>> (-e).toNat < 2 ^ 53 := by
      rw [Nat.shiftRight_eq_div_pow]
      exact lt_of_le_of_lt (Nat.div_le_self _ _) hm53
    rw [hfloor]
    simp only [Trunc, if_neg he]
    generalize m >>> (-e).toNat = N at hN53
    by_cases hN : N = 0
    · subst hN
      rfl
    · have hNpos : 0 < N := Nat.pos_of_ne_zero hN
      have hmag := roundMag_nat N hNpos hN53
      have hfin := roundNearest_finite s N 1 hNpos (by decide)
        (by rw [hmag]; exact_mod_cast hNpos)
        (by rw [hmag]
            calc (N : ℚ) < ((2 ^ 53 : ℕ) : ℚ) := by exact_mod_cast hN53
              _ ≤ (2 : ℚ) ^ (1024 : ℤ) := by norm_num)
      rw [hmag] at hfin
      obtain ⟨m3, e3, h3, hm3, -, hv3⟩ := hfin
      rw [h3]
      have hint : isInt64 (N : ℤ) := by
        unfold isInt64
        have : (N : ℤ) < 2 ^ 53 := by exact_mod_cast hN53
        constructor <;> omega
      have ha : (if 0 ≤ e3 then m3 <<< e3.toNat else m3 >>> (-e3).toNat) = N := by
        by_cases he3 : 0 ≤ e3
        · rw [if_pos he3]
          have : ((m3 <<< e3.toNat : ℕ) : ℚ) = (N : ℚ) := by
            rw [Nat.shiftLeft_eq, Nat.cast_mul, two_zpow_toNat _ he3, hv3]
          exact_mod_cast this
        · rw [if_neg he3, Nat.shiftRight_eq_div_pow]
          have : (m3 : ℚ) = ((N * 2 ^ (-e3).toNat : ℕ) : ℚ) := by
            rw [Nat.cast_mul, two_zpow_toNat _ (by omega), ← hv3, mul_assoc, ← zpow_add₀ h2ne]
            simp
          have hm3eq : m3 = N * 2 ^ (-e3).toNat := by exact_mod_cast this
          rw [hm3eq]
          exact Nat.mul_div_cancel _ (by positivity)
      simp only [Abs, float64.toInt, ha, Bool.false_eq_true, if_false, if_pos hint]

/-! ## float64: rounding as a function of the value -/

theorem roundMag_eq_roundQ (n d : Nat) (hn : 0 < n) (hd : 0 < d) :
    roundMag n d = roundQ ((n : ℚ) / d) := by
  have hq : (0 : ℚ) < (n : ℚ) / d := by positivity
  have hnum : 0 < ((n : ℚ) / d).num := Rat.num_pos.mpr hq
  unfold roundQ
  refine roundMag_congr n d _ _ hn hd (by omega) (Rat.den_pos _) ?_
  have h1 : ((((n : ℚ) / d).num.natAbs : ℕ) : ℚ) = ((((n : ℚ) / d).num : ℤ) : ℚ) := by
    rw [Nat.cast_natAbs, abs_of_pos hnum]
  rw [h1, Rat.num_div_den]

/-- A positive rational as a quotient of positive natural numbers. -/
theorem rat_as_quotient (q : ℚ) (hq : 0 < q) :
    0 < q.num.natAbs ∧ 0 < q.den ∧ ((q.num.natAbs : ℕ) : ℚ) / q.den = q := by
  have hnum : 0 < q.num := Rat.num_pos.mpr hq
  refine ⟨by omega, Rat.den_pos _, ?_⟩
  have h1 : ((q.num.natAbs : ℕ) : ℚ) = ((q.num : ℤ) : ℚ) := by
    rw [Nat.cast_natAbs, abs_of_pos hnum]
  rw [h1, Rat.num_div_den]

theorem roundQ_mono {p q : ℚ} (hp : 0 < p) (hpq : p ≤ q) : roundQ p ≤ roundQ q := by
  obtain ⟨a1, a2, a3⟩ := rat_as_quotient p hp
  obtain ⟨b1, b2, b3⟩ := rat_as_quotient q (lt_of_lt_of_le hp hpq)
  unfold roundQ
  exact roundMag_mono _ _ _ _ a1 a2 b1 b2 (by rw [a3, b3]; exact hpq)

theorem roundQ_le_pow {q : ℚ} (hq : 0 < q) (k : Int) (hk : -1022 ≤ k) (h : q ≤ (2 : ℚ) ^ k) :
    roundQ q ≤ (2 : ℚ) ^ k := by
  obtain ⟨a1, a2, a3⟩ := rat_as_quotient q hq
  unfold roundQ
  exact roundMag_le_pow _ _ a1 a2 k hk (by rw [a3]; exact h)

theorem roundQ_ge_pow {q : ℚ} (k : Int) (hk : -1022 ≤ k) (h : (2 : ℚ) ^ k ≤ q) :
    (2 : ℚ) ^ k ≤ roundQ q := by
  have hq : 0 < q := lt_of_lt_of_le (zpow_pos (by norm_num) k) h
  obtain ⟨a1, a2, a3⟩ := rat_as_quotient q hq
  unfold roundQ
  exact roundMag_ge_pow _ _ a1 a2 k hk (by rw [a3]; exact h)

/-- In the normal range rounding loses less than half of the value. -/
theorem roundQ_half {q : ℚ} (h : (2 : ℚ) ^ (-1022 : ℤ) ≤ q) : q ≤ 2 * roundQ q := by
  have h2ne : (2 : ℚ) ≠ 0 := by norm_num
  have hq : 0 < q := lt_of_lt_of_le (zpow_pos (by norm_num) _) h
  obtain ⟨a1, a2, a3⟩ := rat_as_quotient q hq
  obtain ⟨b1, b2⟩ := floorLog2_spec _ _ a1 a2
  rw [a3] at b1 b2
  have hK : -1022 ≤ floorLog2 q.num.natAbs q.den := by
    have := (zpow_lt_zpow_iff_right₀ (show (1 : ℚ) < 2 by norm_num)).mp (lt_of_le_of_lt h b2)
    omega
  obtain ⟨c1, -⟩ := roundMag_binade _ _ a1 a2 (by omega)
  unfold roundQ
  calc q ≤ (2 : ℚ) ^ (floorLog2 q.num.natAbs q.den + 1) := le_of_lt b2
    _ = 2 * (2 : ℚ) ^ floorLog2 q.num.natAbs q.den := by
        rw [zpow_add₀ h2ne]; ring
    _ ≤ 2 * roundMag q.num.natAbs q.den := by linarith

/-- The magnitude of a finite value is positive. -/
theorem finite_pos {s : Bool} {x : float64} {v : ℚ} (hx : x.finite s v) : 0 < v := by
  obtain ⟨m, e, -, hm, -, rfl⟩ := hx
  have : (0 : ℚ) < m := by exact_mod_cast Nat.pos_of_ne_zero hm
  have h2 : (0 : ℚ) < (2 : ℚ) ^ e := zpow_pos (by norm_num) _
  positivity

/-- The quotient of two finite values whose exact quotient lies between two
powers of two of the normal range. -/
theorem div_round {s t : Bool} {x y : float64} {v w : ℚ} (hx : x.finite s v)
    (hy : y.finite t w) (a b : Int) (ha : -1022 ≤ a) (hb : b ≤ 1023)
    (h1 : (2 : ℚ) ^ a ≤ v / w) (h2 : v / w ≤ (2 : ℚ) ^ b) :
    (x.div y).finite (xor s t) (roundQ (v / w)) := by
  obtain ⟨n, d, hn, hd, hq, hdiv⟩ := div_finite hx hy
  rw [hdiv, ← hq, ← roundMag_eq_roundQ n d hn hd]
  exact (roundNearest_between _ n d hn hd a b ha hb (by rw [hq]; exact h1)
    (by rw [hq]; exact h2)).1

/-- The sum of two finite values of the same sign whose exact sum lies between
two powers of two of the normal range. -/
theorem add_round {s : Bool} {x y : float64} {v w : ℚ} (hx : x.finite s v)
    (hy : y.finite s w) (a b : Int) (ha : -1022 ≤ a) (hb : b ≤ 1023)
    (h1 : (2 : ℚ) ^ a ≤ v + w) (h2 : v + w ≤ (2 : ℚ) ^ b) :
    (x.add y).finite s (roundQ (v + w)) := by
  obtain ⟨n, d, hn, hd, hq, hadd⟩ := add_finite hx hy
  rw [hadd, ← hq, ← roundMag_eq_roundQ n d hn hd]
  exact (roundNearest_between _ n d hn hd a b ha hb (by rw [hq]; exact h1)
    (by rw [hq]; exact h2)).1

/-- The conversion of an `int64` other than zero. -/
theorem ofInt_round (c : Int) (hc : c ≠ 0) (hr : (c.natAbs : ℚ) ≤ (2 : ℚ) ^ (63 : ℤ)) :
    (float64.ofInt c).finite (decide (c < 0)) (roundQ (c.natAbs : ℚ)) ∧
    1 ≤ roundQ (c.natAbs : ℚ) ∧ roundQ (c.natAbs : ℚ) ≤ (2 : ℚ) ^ (63 : ℤ) := by
  have hn : 0 < c.natAbs := Int.natAbs_pos.mpr hc
  have hq : ((c.natAbs : ℕ) : ℚ) / ((1 : ℕ) : ℚ) = (c.natAbs : ℚ) := by simp
  have h1 : (2 : ℚ) ^ (0 : ℤ) ≤ ((c.natAbs : ℕ) : ℚ) / ((1 : ℕ) : ℚ) := by
    rw [hq, zpow_zero]
    exact_mod_cast hn
  obtain ⟨g1, g2, g3⟩ := roundNearest_between (decide (c < 0)) c.natAbs 1 hn (by decide) 0 63
    (by decide) (by decide) h1 (by rw [hq]; exact hr)
  rw [roundMag_eq_roundQ c.natAbs 1 hn (by decide), hq] at g1 g2 g3
  rw [zpow_zero] at g2
  exact ⟨g1, g2, g3⟩

/-! ## The bar of a finite value -/

/-- The bar of a zero is empty. -/
theorem gv_zero (s : Bool) (e : Int) : gv (float64.fin s 0 e) = some [] := by
  cases s <;> rfl

/-- The bar of a finite value other than zero: as many characters as the
integer part of the rounded sum of the magnitude and one half, `-` for a
negative value and `+` for a positive one. -/
theorem gv_round {s : Bool} {x : float64} {v : ℚ} (hx : x.finite s v)
    (hv : v ≤ (2 : ℚ) ^ (60 : ℤ)) :
    gv x = some (List.replicate ⌊roundQ (v + 1 / 2)⌋₊ (if s then 45 else 43)) := by
  have hvpos := finite_pos hx
  have hhalf : (Copysign float64.half x).finite s (1 / 2) := by
    obtain ⟨m, e, rfl, -, -, -⟩ := hx
    exact ⟨2 ^ 52, -53, rfl, by decide, by decide, by norm_num⟩
  have h1 : (2 : ℚ) ^ (-1 : ℤ) ≤ v + 1 / 2 := by
    rw [zpow_neg, zpow_one]; linarith
  have h2 : v + 1 / 2 ≤ (2 : ℚ) ^ (61 : ℤ) := by
    have : (2 : ℚ) ^ (61 : ℤ) = 2 * (2 : ℚ) ^ (60 : ℤ) := by norm_num
    have : (1 : ℚ) ≤ (2 : ℚ) ^ (60 : ℤ) := by norm_num
    linarith
  have hadd := add_round hx hhalf (-1) 61 (by decide) (by decide) h1 h2
  have hle : roundQ (v + 1 / 2) < (2 : ℚ) ^ (62 : ℤ) :=
    lt_of_le_of_lt (roundQ_le_pow (by linarith) 61 (by decide) h2) (by norm_num)
  have hint := toInt_trunc hadd hle
  obtain ⟨m, e, rfl, hm, -, -⟩ := hx
  have hlt : (float64.fin s m e).ltZero = s := by
    simp [float64.ltZero, hm]
  unfold gv
  simp only [IsNaN, IsInf, Bool.or_self, Bool.false_eq_true, if_false, hint, hlt, stringsRepeat]
  have hnn : ¬ ((⌊roundQ (v + 1 / 2)⌋₊ : ℕ) : ℤ) < 0 := by omega
  rw [if_neg hnn, Int.toNat_natCast]

/-- Among finite values of one sign, a larger magnitude has a bar at least as
long. -/
theorem gv_mono {s : Bool} {x y : float64} {v w : ℚ} (hx : x.finite s v) (hy : y.finite s w)
    (hvw : v ≤ w) (hw : w ≤ (2 : ℚ) ^ (60 : ℤ)) :
    ∃ b1 b2, gv x = some b1 ∧ gv y = some b2 ∧ b1.length ≤ b2.length := by
  have hvpos := finite_pos hx
  refine ⟨_, _, gv_round hx (le_trans hvw hw), gv_round hy hw, ?_⟩
  rw [List.length_replicate, List.length_replicate]
  exact Nat.floor_mono (roundQ_mono (by linarith) (by linarith))

/-! ## The scaled value of a bar -/

/-- The exact quotients in the computation of a bar stay within the normal
range: `μ` is the magnitude of the largest count (or of its logarithm), `κ` that
of the count, `γ` that of `gavail`. -/
theorem scaled_bounds_bar (μ κ γ : ℚ) (hμ1 : 1 ≤ μ) (hμ2 : μ ≤ (2 : ℚ) ^ (63 : ℤ))
    (hκ1 : 1 ≤ κ) (hκ2 : κ ≤ 64 * μ) (hγ1 : 1 ≤ γ) (hγ2 : γ ≤ (2 : ℚ) ^ (31 : ℤ)) :
    (2 : ℚ) ^ (-31 : ℤ) ≤ μ / γ ∧ μ / γ ≤ (2 : ℚ) ^ (63 : ℤ) ∧
    (2 : ℚ) ^ (-63 : ℤ) ≤ κ / roundQ (μ / γ) ∧ κ / roundQ (μ / γ) ≤ (2 : ℚ) ^ (38 : ℤ) := by
  have hγ0 : 0 < γ := by linarith
  have hμ0 : 0 < μ := by linarith
  have a1 : (2 : ℚ) ^ (-31 : ℤ) ≤ μ / γ := by
    rw [le_div_iff₀ hγ0]
    have : (2 : ℚ) ^ (-31 : ℤ) * (2 : ℚ) ^ (31 : ℤ) = 1 := by norm_num
    have h0 : (0 : ℚ) ≤ (2 : ℚ) ^ (-31 : ℤ) := by norm_num
    nlinarith
  have a2 : μ / γ ≤ (2 : ℚ) ^ (63 : ℤ) := by
    rw [div_le_iff₀ hγ0]
    have h0 : (0 : ℚ) ≤ (2 : ℚ) ^ (63 : ℤ) := by norm_num
    nlinarith
  have hq0 : 0 < μ / γ := by positivity
  have s1 : (2 : ℚ) ^ (-31 : ℤ) ≤ roundQ (μ / γ) := roundQ_ge_pow (-31) (by decide) a1
  have s2 : roundQ (μ / γ) ≤ (2 : ℚ) ^ (63 : ℤ) := roundQ_le_pow hq0 63 (by decide) a2
  have s3 : μ / γ ≤ 2 * roundQ (μ / γ) :=
    roundQ_half (le_trans (by norm_num) a1)
  have hs0 : 0 < roundQ (μ / γ) := lt_of_lt_of_le (by norm_num) s1
  refine ⟨a1, a2, ?_, ?_⟩
  · rw [le_div_iff₀ hs0]
    have : (2 : ℚ) ^ (-63 : ℤ) * (2 : ℚ) ^ (63 : ℤ) = 1 := by norm_num
    have h0 : (0 : ℚ) ≤ (2 : ℚ) ^ (-63 : ℤ) := by norm_num
    nlinarith
  · rw [div_le_iff₀ hs0]
    have h4 : μ ≤ 2 * roundQ (μ / γ) * γ := by
      have := (div_le_iff₀ hγ0).mp s3
      linarith
    have h5 : (2 : ℚ) ^ (38 : ℤ) = 128 * (2 : ℚ) ^ (31 : ℤ) := by norm_num
    rw [h5]
    have h6 : 2 * roundQ (μ / γ) * γ ≤ 2 * roundQ (μ / γ) * (2 : ℚ) ^ (31 : ℤ) :=
      mul_le_mul_of_nonneg_left hγ2 (by linarith)
    nlinarith

/-- A wider graph column gives a larger exact quotient. -/
theorem scaled_mono_bar (μ κ γ γ2 : ℚ) (hμ1 : 1 ≤ μ)
    (hκ1 : 1 ≤ κ) (hγ1 : 1 ≤ γ) (hγγ : γ ≤ γ2) (hγ2 : γ2 ≤ (2 : ℚ) ^ (31 : ℤ)) :
    κ / roundQ (μ / γ) ≤ κ / roundQ (μ / γ2) := by
  have hγ0 : 0 < γ := by linarith
  have hγ20 : 0 < γ2 := by linarith
  have hμ0 : 0 < μ := by linarith
  have hq : μ / γ2 ≤ μ / γ := div_le_div_of_nonneg_left (le_of_lt hμ0) hγ0 hγγ
  have hq0 : 0 < μ / γ2 := by positivity
  have hr : roundQ (μ / γ2) ≤ roundQ (μ / γ) := roundQ_mono hq0 hq
  have a1 : (2 : ℚ) ^ (-31 : ℤ) ≤ μ / γ2 := by
    rw [le_div_iff₀ hγ20]
    have : (2 : ℚ) ^ (-31 : ℤ) * (2 : ℚ) ^ (31 : ℤ) = 1 := by norm_num
    have h0 : (0 : ℚ) ≤ (2 : ℚ) ^ (-31 : ℤ) := by norm_num
    nlinarith
  have s1 : (2 : ℚ) ^ (-31 : ℤ) ≤ roundQ (μ / γ2) := roundQ_ge_pow (-31) (by decide) a1
  have hs0 : 0 < roundQ (μ / γ2) := lt_of_lt_of_le (by norm_num) s1
  exact div_le_div_of_nonneg_left (by linarith) hs0 hr

/-- The value passed to `gv` for finite operands: finite, with the sign of the
count, and small enough for a bar. -/
theorem bar_finite {sc : Bool} {xc xm xg : float64} {κ μ γ : ℚ} (hc : xc.finite sc κ)
    (hm : xm.finite false μ) (hg : xg.finite false γ) (hμ1 : 1 ≤ μ)
    (hμ2 : μ ≤ (2 : ℚ) ^ (63 : ℤ)) (hκ1 : 1 ≤ κ) (hκ2 : κ ≤ 64 * μ) (hγ1 : 1 ≤ γ)
    (hγ2 : γ ≤ (2 : ℚ) ^ (31 : ℤ)) :
    (xc.div (xm.div xg)).finite sc (roundQ (κ / roundQ (μ / γ))) ∧
    roundQ (κ / roundQ (μ / γ)) ≤ (2 : ℚ) ^ (38 : ℤ) := by
  obtain ⟨a1, a2, a3, a4⟩ := scaled_bounds_bar μ κ γ hμ1 hμ2 hκ1 hκ2 hγ1 hγ2
  have hs := div_round hm hg (-31) 63 (by decide) (by decide) a1 a2
  have hgv := div_round hc hs (-63) 38 (by decide) (by decide) a3 a4
  have hx : xor sc (xor false false) = sc := by cases sc <;> rfl
  rw [hx] at hgv
  have hpos : 0 < κ / roundQ (μ / γ) := lt_of_lt_of_le (by norm_num) a3
  exact ⟨hgv, roundQ_le_pow hpos 38 (by decide) a4⟩

/-- For finite operands, a wider graph column never gives a shorter bar. -/
theorem bar_mono {sc : Bool} {xc xm xg xg2 : float64} {κ μ γ γ2 : ℚ} (hc : xc.finite sc κ)
    (hm : xm.finite false μ) (hg : xg.finite false γ) (hg2 : xg2.finite false γ2)
    (hμ1 : 1 ≤ μ) (hμ2 : μ ≤ (2 : ℚ) ^ (63 : ℤ)) (hκ1 : 1 ≤ κ) (hκ2 : κ ≤ 64 * μ)
    (hγ1 : 1 ≤ γ) (hγγ : γ ≤ γ2) (hγ2 : γ2 ≤ (2 : ℚ) ^ (31 : ℤ)) :
    ∃ b1 b2, gv (xc.div (xm.div xg)) = some b1 ∧ gv (xc.div (xm.div xg2)) = some b2 ∧
      b1.length ≤ b2.length := by
  obtain ⟨f1, -⟩ := bar_finite hc hm hg hμ1 hμ2 hκ1 hκ2 hγ1 (le_trans hγγ hγ2)
  obtain ⟨f2, l2⟩ := bar_finite hc hm hg2 hμ1 hμ2 hκ1 hκ2 (le_trans hγ1 hγγ) hγ2
  have hq := scaled_mono_bar μ κ γ γ2 hμ1 hκ1 hγ1 hγγ hγ2
  have hpos : 0 < κ / roundQ (μ / γ) :=
    lt_of_lt_of_le (by norm_num)
      (scaled_bounds_bar μ κ γ hμ1 hμ2 hκ1 hκ2 hγ1 (le_trans hγγ hγ2)).2.2.1
  exact gv_mono f1 f2 (roundQ_mono hpos hq) (le_trans l2 (by norm_num))

/-! ## The bar and the width of the graph column -/

theorem div_zero_left (s t : Bool) (e : Int) (m2 : Nat) (e2 : Int) (hm2 : m2 ≠ 0) :
    (float64.fin s 0 e).div (float64.fin t m2 e2) = float64.fin (xor s t) 0 (-1074) := by
  by_cases he : e2 ≤ e
  · simp [float64.div, hm2, he, roundNearest]
  · simp [float64.div, hm2, he, roundNearest]

theorem div_nan_right (x : float64) : x.div float64.nan = float64.nan := by
  cases x <;> rfl

theorem ofInt_zero : float64.ofInt 0 = float64.fin false 0 (-1074) := by decide

/-- The conversion of a positive `int64`. -/
theorem ofInt_pos (c : Int) (h1 : 1 ≤ c) (h2 : c < 2 ^ 63) :
    (float64.ofInt c).finite false (roundQ (c : ℚ)) ∧ 1 ≤ roundQ (c : ℚ) ∧
    roundQ (c : ℚ) ≤ (2 : ℚ) ^ (63 : ℤ) := by
  have hcast : ((c.natAbs : ℕ) : ℚ) = (c : ℚ) := by
    rw [Nat.cast_natAbs, abs_of_pos (by omega)]
  have hr : (c.natAbs : ℚ) ≤ (2 : ℚ) ^ (63 : ℤ) := by
    rw [hcast]
    have : (c : ℚ) ≤ ((2 ^ 63 : ℤ) : ℚ) := by exact_mod_cast le_of_lt h2
    calc (c : ℚ) ≤ ((2 ^ 63 : ℤ) : ℚ) := this
      _ = (2 : ℚ) ^ (63 : ℤ) := by norm_num
  have h := ofInt_round c (by omega) hr
  rw [hcast] at h
  have hd : decide (c < 0) = false := decide_eq_false (by omega)
  rw [hd] at h
  exact h

/-- The conversion of an `int64` other than zero, by its magnitude. -/
theorem ofInt_ne_zero (c : Int) (h0 : c ≠ 0) (h1 : -(2 ^ 63) < c) (h2 : c < 2 ^ 63) :
    (float64.ofInt c).finite (decide (c < 0)) (roundQ (c.natAbs : ℚ)) ∧
    1 ≤ roundQ (c.natAbs : ℚ) := by
  have hr : (c.natAbs : ℚ) ≤ (2 : ℚ) ^ (63 : ℤ) := by
    have hz : (c.natAbs : ℤ) ≤ 2 ^ 63 := by omega
    have : ((c.natAbs : ℤ) : ℚ) ≤ ((2 ^ 63 : ℤ) : ℚ) := by exact_mod_cast hz
    calc (c.natAbs : ℚ) = ((c.natAbs : ℤ) : ℚ) := (Int.cast_natCast c.natAbs).symm
      _ ≤ ((2 ^ 63 : ℤ) : ℚ) := this
      _ = (2 : ℚ) ^ (63 : ℤ) := by norm_num
  have h := ofInt_round c h0 hr
  exact ⟨h.1, h.2.1⟩

/-- The width of the graph column as a `float64`. -/
theorem ofInt_gavail (G : Int) (h1 : 1 ≤ G) (h2 : G ≤ 2 ^ 31) :
    (float64.ofInt G).finite false (roundQ (G : ℚ)) ∧ 1 ≤ roundQ (G : ℚ) ∧
    roundQ (G : ℚ) ≤ (2 : ℚ) ^ (31 : ℤ) := by
  obtain ⟨a1, a2, -⟩ := ofInt_pos G h1 (by omega)
  refine ⟨a1, a2, ?_⟩
  have hq : (G : ℚ) ≤ (2 : ℚ) ^ (31 : ℤ) := by
    have : (G : ℚ) ≤ ((2 ^ 31 : ℤ) : ℚ) := by exact_mod_cast h2
    calc (G : ℚ) ≤ ((2 ^ 31 : ℤ) : ℚ) := this
      _ = (2 : ℚ) ^ (31 : ℤ) := by norm_num
  have hpos : (0 : ℚ) < G := by exact_mod_cast (by omega : (0 : ℤ) < G)
  exact roundQ_le_pow hpos 31 (by decide) hq

theorem ofInt_mono (a b : Int) (ha : 1 ≤ a) (hab : a ≤ b) : roundQ (a : ℚ) ≤ roundQ (b : ℚ) := by
  have hpos : (0 : ℚ) < a := by exact_mod_cast (by omega : (0 : ℤ) < a)
  exact roundQ_mono hpos (by exact_mod_cast hab)

/-- Linear mode: a wider graph column never gives a shorter bar. -/
theorem linear_bar_mono (M cnt G G2 : Int) (hM : 0 ≤ M) (hM2 : M < 2 ^ 63)
    (hc : (cnt.natAbs : Int) ≤ M) (hG : 1 ≤ G) (hGG : G ≤ G2) (hG2 : G2 ≤ 2 ^ 31) :
    ∃ b1 b2,
      gv ((float64.ofInt cnt).div ((float64.ofInt M).div (float64.ofInt G))) = some b1 ∧
      gv ((float64.ofInt cnt).div ((float64.ofInt M).div (float64.ofInt G2))) = some b2 ∧
      b1.length ≤ b2.length := by
  obtain ⟨g1, g2, g3⟩ := ofInt_gavail G hG (by omega)
  obtain ⟨k1, k2, k3⟩ := ofInt_gavail G2 (by omega) hG2
  have hgg := ofInt_mono G G2 hG hGG
  obtain ⟨mg, eg, hgeq, hmg, -, -⟩ := g1
  obtain ⟨mk, ek, hkeq, hmk, -, -⟩ := k1
  have g1 : (float64.ofInt G).finite false (roundQ (G : ℚ)) := (ofInt_gavail G hG (by omega)).1
  have k1 : (float64.ofInt G2).finite false (roundQ (G2 : ℚ)) :=
    (ofInt_gavail G2 (by omega) hG2).1
  by_cases hM0 : M = 0
  · have hc0 : cnt = 0 := by omega
    subst hM0
    subst hc0
    refine ⟨ascii "NaN", ascii "NaN", ?_, ?_, le_refl _⟩
    · rw [ofInt_zero, hgeq, div_zero_left _ _ _ _ _ hmg]; rfl
    · rw [ofInt_zero, hkeq, div_zero_left _ _ _ _ _ hmk]; rfl
  · obtain ⟨m1, m2, m3⟩ := ofInt_pos M (by omega) hM2
    by_cases hc0 : cnt = 0
    · subst hc0
      obtain ⟨-, s1, -⟩ := scaled_bounds_bar _ 1 _ m2 m3 (le_refl _) (by linarith) g2 g3
      obtain ⟨-, t1, -⟩ := scaled_bounds_bar _ 1 _ m2 m3 (le_refl _) (by linarith) k2 k3
      have a1 := (scaled_bounds_bar _ 1 _ m2 m3 (le_refl _) (by linarith) g2 g3).1
      have b1 := (scaled_bounds_bar _ 1 _ m2 m3 (le_refl _) (by linarith) k2 k3).1
      obtain ⟨ms, es, hseq, hms, -, -⟩ := div_round m1 g1 (-31) 63 (by decide) (by decide) a1 s1
      obtain ⟨mt, et, hteq, hmt, -, -⟩ := div_round m1 k1 (-31) 63 (by decide) (by decide) b1 t1
      refine ⟨[], [], ?_, ?_, le_refl _⟩
      · rw [ofInt_zero, hseq, div_zero_left _ _ _ _ _ hms]; exact gv_zero _ _
      · rw [ofInt_zero, hteq, div_zero_left _ _ _ _ _ hmt]; exact gv_zero _ _
    · obtain ⟨c1, c2⟩ := ofInt_ne_zero cnt hc0 (by omega) (by omega)
      have hcm : roundQ (cnt.natAbs : ℚ) ≤ roundQ (M : ℚ) := by
        have hpos : (0 : ℚ) < (cnt.natAbs : ℚ) := by
          exact_mod_cast Int.natAbs_pos.mpr hc0
        refine roundQ_mono hpos ?_
        calc (cnt.natAbs : ℚ) = ((cnt.natAbs : ℤ) : ℚ) := (Int.cast_natCast cnt.natAbs).symm
          _ ≤ (M : ℚ) := by exact_mod_cast hc
      exact bar_mono c1 m1 g1 k1 m2 m3 c2 (by linarith) g2 hgg k3

theorem div_inf_fin (s t : Bool) (m : Nat) (e : Int) :
    (float64.inf s).div (float64.fin t m e) = float64.inf (xor s t) := rfl

/-- Log mode: a wider graph column never gives a shorter bar (or a shorter
text, where the bar value is a NaN or an infinity). -/
theorem log_bar_mono (Log2 : float64 → float64) (hL : Log2Spec Log2) (M cnt G G2 : Int)
    (hM : 0 ≤ M) (hM2 : M < 2 ^ 63) (hc : (cnt.natAbs : Int) ≤ M) (hG : 1 ≤ G) (hGG : G ≤ G2)
    (hG2 : G2 ≤ 2 ^ 31) :
    ∃ b1 b2,
      gv ((Log2 (float64.ofInt cnt)).div ((Log2 (float64.ofInt M)).div (float64.ofInt G))) =
        some b1 ∧
      gv ((Log2 (float64.ofInt cnt)).div ((Log2 (float64.ofInt M)).div (float64.ofInt G2))) =
        some b2 ∧
      b1.length ≤ b2.length := by
  obtain ⟨g1, g2, g3⟩ := ofInt_gavail G hG (by omega)
  obtain ⟨k1, k2, k3⟩ := ofInt_gavail G2 (by omega) hG2
  have hgg := ofInt_mono G G2 hG hGG
  obtain ⟨mg, eg, hgeq, hmg, -, -⟩ := id g1
  obtain ⟨mk, ek, hkeq, hmk, -, -⟩ := id k1
  by_cases hneg : cnt < 0
  · refine ⟨ascii "NaN", ascii "NaN", ?_, ?_, le_refl _⟩
    · rw [hL.neg _ (ofInt_neg_ltZero cnt hneg), div_nan_left]; rfl
    · rw [hL.neg _ (ofInt_neg_ltZero cnt hneg), div_nan_left]; rfl
  · by_cases hc0 : cnt = 0
    · subst hc0
      rw [ofInt_zero, hL.zero]
      by_cases hM0 : M = 0
      · subst hM0
        refine ⟨ascii "NaN", ascii "NaN", ?_, ?_, le_refl _⟩
        · rw [ofInt_zero, hL.zero, hgeq]; rfl
        · rw [ofInt_zero, hL.zero, hkeq]; rfl
      · refine ⟨ascii "-Inf", ascii "-Inf", ?_, ?_, le_refl _⟩
        · rcases hL.int M (by omega) hM2 with ⟨e, hz⟩ | ⟨v, hv, v1, v2⟩
          · rw [hz, hgeq, div_zero_left _ _ _ _ _ hmg]; rfl
          · obtain ⟨a1, a2, -⟩ := scaled_bounds_bar v 1 _ v1 (le_trans v2 (by norm_num))
              (le_refl _) (by linarith) g2 g3
            obtain ⟨ms, es, hseq, -, -, -⟩ := div_round hv g1 (-31) 63 (by decide) (by decide) a1 a2
            rw [hseq]; rfl
        · rcases hL.int M (by omega) hM2 with ⟨e, hz⟩ | ⟨v, hv, v1, v2⟩
          · rw [hz, hkeq, div_zero_left _ _ _ _ _ hmk]; rfl
          · obtain ⟨a1, a2, -⟩ := scaled_bounds_bar v 1 _ v1 (le_trans v2 (by norm_num))
              (le_refl _) (by linarith) k2 k3
            obtain ⟨ms, es, hseq, -, -, -⟩ := div_round hv k1 (-31) 63 (by decide) (by decide) a1 a2
            rw [hseq]; rfl
    · have hcpos : 1 ≤ cnt := by omega
      have hMpos : 1 ≤ M := by omega
      rcases hL.int M hMpos hM2 with ⟨e, hz⟩ | ⟨v, hv, v1, v2⟩
      · rw [hz, hgeq, hkeq, div_zero_left _ _ _ _ _ hmg, div_zero_left _ _ _ _ _ hmk]
        rcases hL.int cnt hcpos (by omega) with ⟨e2, hz2⟩ | ⟨w, hw, -, -⟩
        · rw [hz2]
          exact ⟨ascii "NaN", ascii "NaN", rfl, rfl, le_refl _⟩
        · obtain ⟨mc, ec, hceq, hmc, -, -⟩ := hw
          rw [hceq]
          refine ⟨ascii "+Inf", ascii "+Inf", ?_, ?_, le_refl _⟩
          · simp [float64.div, hmc]; rfl
          · simp [float64.div, hmc]; rfl
      · have v63 : v ≤ (2 : ℚ) ^ (63 : ℤ) := le_trans v2 (by norm_num)
        rcases hL.int cnt hcpos (by omega) with ⟨e2, hz2⟩ | ⟨w, hw, w1, w2⟩
        · rw [hz2]
          obtain ⟨a1, a2, -⟩ := scaled_bounds_bar v 1 _ v1 v63 (le_refl _) (by linarith) g2 g3
          obtain ⟨b1, b2, -⟩ := scaled_bounds_bar v 1 _ v1 v63 (le_refl _) (by linarith) k2 k3
          obtain ⟨ms, es, hseq, hms, -, -⟩ :=
            div_round hv g1 (-31) 63 (by decide) (by decide) a1 a2
          obtain ⟨mt, et, hteq, hmt, -, -⟩ :=
            div_round hv k1 (-31) 63 (by decide) (by decide) b1 b2
          refine ⟨[], [], ?_, ?_, le_refl _⟩
          · rw [hseq, div_zero_left _ _ _ _ _ hms]; exact gv_zero _ _
          · rw [hteq, div_zero_left _ _ _ _ _ hmt]; exact gv_zero _ _
        · exact bar_mono hw hv g1 k1 v1 v63 w1 (by linarith) g2 hgg k3

/-- The stand-in `log2Floor` has the properties assumed of `math.Log2`. -/
theorem log2Floor_spec : Log2Spec log2Floor := by
  refine ⟨log2Floor_neg, fun s e => by simp [log2Floor], ?_⟩
  intro c h1 h2
  obtain ⟨hf, r1, r2⟩ := ofInt_pos c h1 h2
  obtain ⟨m, e, heq, hm, -, hv⟩ := hf
  obtain ⟨l1, l2⟩ := log2Nat_spec m (Nat.pos_of_ne_zero hm)
  have h2ne : (2 : ℚ) ≠ 0 := by norm_num
  have hpe : (0 : ℚ) < (2 : ℚ) ^ e := zpow_pos (by norm_num) _
  have l1q : (2 : ℚ) ^ ((log2Nat m : ℤ) + e) ≤ roundQ (c : ℚ) := by
    rw [← hv, zpow_add₀ h2ne, zpow_natCast]
    exact mul_le_mul_of_nonneg_right (by exact_mod_cast l1) (le_of_lt hpe)
  have l2q : roundQ (c : ℚ) < (2 : ℚ) ^ ((log2Nat m : ℤ) + 1 + e) := by
    rw [← hv, zpow_add₀ h2ne,
      show ((log2Nat m : ℤ) + 1) = ((log2Nat m + 1 : ℕ) : ℤ) by push_cast; ring, zpow_natCast]
    exact mul_lt_mul_of_pos_right (by exact_mod_cast l2) hpe
  have j0 : 0 ≤ (log2Nat m : ℤ) + e := by
    have : (2 : ℚ) ^ (0 : ℤ) < (2 : ℚ) ^ ((log2Nat m : ℤ) + 1 + e) := by
      rw [zpow_zero]; exact lt_of_le_of_lt r1 l2q
    have := (zpow_lt_zpow_iff_right₀ (show (1 : ℚ) < 2 by norm_num)).mp this
    omega
  have j63 : (log2Nat m : ℤ) + e ≤ 63 :=
    (zpow_le_zpow_iff_right₀ (show (1 : ℚ) < 2 by norm_num)).mp (le_trans l1q r2)
  have hlog : log2Floor (float64.ofInt c) = float64.ofInt ((log2Nat m : ℤ) + e) := by
    rw [heq]
    simp [log2Floor, hm]
  rw [hlog]
  by_cases hj : (log2Nat m : ℤ) + e = 0
  · left
    rw [hj]
    exact ⟨-1074, ofInt_zero⟩
  · right
    obtain ⟨f1, f2, -⟩ := ofInt_pos ((log2Nat m : ℤ) + e) (by omega) (by omega)
    refine ⟨_, f1, f2, ?_⟩
    have hpos : (0 : ℚ) < (((log2Nat m : ℤ) + e : ℤ) : ℚ) := by
      exact_mod_cast (by omega : (0 : ℤ) < (log2Nat m : ℤ) + e)
    have hle : ((((log2Nat m : ℤ) + e : ℤ)) : ℚ) ≤ (2 : ℚ) ^ (6 : ℤ) := by
      have : ((((log2Nat m : ℤ) + e : ℤ)) : ℚ) ≤ ((64 : ℤ) : ℚ) := by
        exact_mod_cast (by omega : (log2Nat m : ℤ) + e ≤ 64)
      calc ((((log2Nat m : ℤ) + e : ℤ)) : ℚ) ≤ ((64 : ℤ) : ℚ) := this
        _ = (2 : ℚ) ^ (6 : ℤ) := by norm_num
    have := roundQ_le_pow hpos 6 (by decide) hle
    calc roundQ ((((log2Nat m : ℤ) + e : ℤ)) : ℚ) ≤ (2 : ℚ) ^ (6 : ℤ) := this
      _ = 64 := by norm_num

/-- C13, the claim as stated fails: with the largest count 100 in Linear mode,
the bar of the count 100 has 18 characters at gavail = 18 and 36 characters at
gavail = 36; with the largest count 4 in Log mode, the bar of the count 4 has
18 and then 36 characters.  The bar grows with the width of the column.  (It
does so only for a positive width: from gavail = -2 to gavail = -1 the bar of the
count 10, the largest being 10, goes from two characters to one.) -/
theorem bar_length_monotone_counterexample :
    gv (barValue log2Floor
      (rescale log2Floor { ifs := reSpaces, gt := gType.gLinear, maxVal := 100 } 18) 100) =
      some (List.replicate 18 43) ∧
    gv (barValue log2Floor
      (rescale log2Floor { ifs := reSpaces, gt := gType.gLinear, maxVal := 100 } 36) 100) =
      some (List.replicate 36 43) ∧
    gv (barValue log2Floor
      (rescale log2Floor { ifs := reSpaces, gt := gType.gLog, maxVal := 4 } 18) 4) =
      some (List.replicate 18 43) ∧
    gv (barValue log2Floor
      (rescale log2Floor { ifs := reSpaces, gt := gType.gLog, maxVal := 4 } 36) 4) =
      some (List.replicate 36 43) ∧
    gv (barValue log2Floor
      (rescale log2Floor { ifs := reSpaces, gt := gType.gLinear, maxVal := 10 } (-2)) 10) =
      some (ascii "--") ∧
    gv (barValue log2Floor
      (rescale log2Floor { ifs := reSpaces, gt := gType.gLinear, maxVal := 10 } (-1)) 10) =
      some (ascii "-") := by
  refine ⟨by decide, by decide, by decide, by decide, by decide, by decide⟩

set_option maxRecDepth 8000 in
/-- At a width of the graph column near the largest `int`, the bar value of the
largest count is `2^63`, which `int(v)` cannot hold: `gv` has no result. -/
example : gv (barValue log2Floor
    (rescale log2Floor { ifs := reSpaces, gt := gType.gLinear, maxVal := 10 } (2 ^ 63 - 1)) 10) =
    none := by
  decide

/-- C13, amended: for entries whose largest magnitude is `maxVal` and every
entry among them (a count `cnt` with `|cnt| ≤ maxVal`), in Linear and in Log
mode, increasing the graph column width `gavail` from `G` to `G2` with
`1 ≤ G ≤ G2 ≤ 2^31` (and recomputing the scale factor from it) never decreases
the length of what `gv` renders for that entry.  `math.Log2` is any function
with the properties `Log2Spec`. -/
theorem bar_length_monotone (Log2 : float64 → float64) (hL : Log2Spec Log2) (h : histogrammer)
    (cnt G G2 : Int) (hM : 0 ≤ h.maxVal) (hM2 : h.maxVal < 2 ^ 63)
    (hc : (cnt.natAbs : Int) ≤ h.maxVal) (hG : 1 ≤ G) (hGG : G ≤ G2) (hG2 : G2 ≤ 2 ^ 31) :
    ∃ b1 b2,
      gv (barValue Log2 (rescale Log2 h G) cnt) = some b1 ∧
      gv (barValue Log2 (rescale Log2 h G2) cnt) = some b2 ∧
      b1.length ≤ b2.length := by
  cases hgt : h.gt with
  | gNone =>
    refine ⟨[], [], ?_, ?_, le_refl _⟩
    · simp only [barValue, rescale, hgt]; rfl
    · simp only [barValue, rescale, hgt]; rfl
  | gLinear =>
    have e1 : ∀ g : Int, barValue Log2 (rescale Log2 h g) cnt =
        (float64.ofInt cnt).div ((float64.ofInt h.maxVal).div (float64.ofInt g)) := by
      intro g
      simp only [barValue, rescale, gscaleOf, hgt]
      rfl
    rw [e1, e1]
    exact linear_bar_mono h.maxVal cnt G G2 hM hM2 hc hG hGG hG2
  | gLog =>
    have e1 : ∀ g : Int, barValue Log2 (rescale Log2 h g) cnt =
        (Log2 (float64.ofInt cnt)).div ((Log2 (float64.ofInt h.maxVal)).div (float64.ofInt g)) := by
      intro g
      simp only [barValue, rescale, gscaleOf, hgt]
      rfl
    rw [e1, e1]
    exact log_bar_mono Log2 hL h.maxVal cnt G G2 hM hM2 hc hG hGG hG2

/-- C13 for the histogram of `TestGraph` in Linear mode (largest count 100), the
entry with the count 10 and the widths 18 and 36, with the stand-in
`log2Floor`; the two bars have 2 and 4 characters. -/
theorem bar_length_monotone_witness :
    (∃ b1 b2,
      gv (barValue log2Floor (rescale log2Floor
        (histScaled log2Floor (testGraphHist gType.gLinear) testGraphInput).1 18) 10) = some b1 ∧
      gv (barValue log2Floor (rescale log2Floor
        (histScaled log2Floor (testGraphHist gType.gLinear) testGraphInput).1 36) 10) = some b2 ∧
      b1.length ≤ b2.length) ∧
    gv (barValue log2Floor (rescale log2Floor
      (histScaled log2Floor (testGraphHist gType.gLinear) testGraphInput).1 18) 10) =
      some (ascii "++") ∧
    gv (barValue log2Floor (rescale log2Floor
      (histScaled log2Floor (testGraphHist gType.gLinear) testGraphInput).1 36) 10) =
      some (ascii "++++") :=
  ⟨bar_length_monotone log2Floor log2Floor_spec
      (histScaled log2Floor (testGraphHist gType.gLinear) testGraphInput).1 10 18 36
      (by decide) (by decide) (by decide) (by decide) (by decide) (by decide),
    by decide, by decide⟩

/-! ## Log mode: the special values -/

/-- C15, the claim as stated fails: in the histogram with the single entry
{"a": 0} the largest magnitude is 0.  In Log mode the scale factor is
`log2(0) / 18 = -Inf` and the bar value of the entry is `-Inf / -Inf`, a NaN: the
line ends in "NaN", not in "-Inf".  In Linear mode the scale factor is 0 and the
bar value is `0 / 0`: the line ends in "NaN" as well, not in a run of `+` or `-`.
And for the histogram of `TestGraph` at the terminal width 0, where `hlinefmt`
returns gavail = -2, the scale factor of Log mode is negative and the bar of
the count 0 is "+Inf". -/
theorem log_special_tokens_counterexample :
    (histScaled log2Floor
      { ifs := reSpaces, keys := [1], weightCol := 2, termWidth := 40, gt := gType.gLog }
      (ascii "a 0")).2.toOption = some [kc "a" 0] ∧
    hline log2Floor (histScaled log2Floor
      { ifs := reSpaces, keys := [1], weightCol := 2, termWidth := 40, gt := gType.gLog }
      (ascii "a 0")).1 (kc "a" 0) = some (ascii "              0 a    NaN") ∧
    hline log2Floor (histScaled log2Floor
      { ifs := reSpaces, keys := [1], weightCol := 2, termWidth := 40, gt := gType.gLinear }
      (ascii "a 0")).1 (kc "a" 0) = some (ascii "              0 a    NaN") ∧
    (histScaled log2Floor { testGraphHist gType.gLog with termWidth := 0 }
      testGraphInput).1.gavail = -2 ∧
    gv (barValue log2Floor (histScaled log2Floor
      { testGraphHist gType.gLog with termWidth := 0 } testGraphInput).1 0) =
      some (ascii "+Inf") := by
  refine ⟨by decide, by decide, by decide, by decide, by decide⟩

/-- C15, amended: for a histogram whose largest magnitude `maxVal` is at least 1,
with `gavail ≥ 1` and the scale factor `hist` computes from them: in Log mode the
bar of an entry with the count 0 is the text "-Inf" and the bar of every entry
with a negative count is the text "NaN"; in Linear mode, for `gavail ≤ 2^31`, the
bar of every entry (a count `cnt` with `|cnt| ≤ maxVal`) is a run of `+`, or of
`-` when the count is negative.  `math.Log2` is any function with the properties
`Log2Spec`. -/
theorem log_special_tokens (Log2 : float64 → float64) (hL : Log2Spec Log2) (h : histogrammer)
    (hgs : h.gscale = gscaleOf Log2 h) (hM1 : 1 ≤ h.maxVal) (hM2 : h.maxVal < 2 ^ 63)
    (hG1 : 1 ≤ h.gavail) (hG2 : h.gavail < 2 ^ 63) :
    (h.gt = gType.gLog →
      gv (barValue Log2 h 0) = some (ascii "-Inf") ∧
      ∀ cnt, cnt < 0 → gv (barValue Log2 h cnt) = some (ascii "NaN")) ∧
    (h.gt = gType.gLinear → h.gavail ≤ 2 ^ 31 →
      ∀ cnt : Int, (cnt.natAbs : Int) ≤ h.maxVal →
        ∃ n, gv (barValue Log2 h cnt) = some (List.replicate n (if cnt < 0 then 45 else 43))) := by
  constructor
  · intro hgt
    have e1 : ∀ cnt : Int, barValue Log2 h cnt =
        (Log2 (float64.ofInt cnt)).div
          ((Log2 (float64.ofInt h.maxVal)).div (float64.ofInt h.gavail)) := by
      intro cnt
      simp only [barValue, hgs, gscaleOf, hgt]
      rfl
    constructor
    · obtain ⟨g1, g2, g3⟩ := ofInt_pos h.gavail hG1 hG2
      obtain ⟨mg, eg, hgeq, hmg, -, -⟩ := id g1
      rw [e1, ofInt_zero, hL.zero]
      rcases hL.int h.maxVal hM1 hM2 with ⟨e, hz⟩ | ⟨v, hv, v1, v2⟩
      · rw [hz, hgeq, div_zero_left _ _ _ _ _ hmg]; rfl
      · have hγ0 : (0 : ℚ) < roundQ (h.gavail : ℚ) := by linarith
        have a1 : (2 : ℚ) ^ (-63 : ℤ) ≤ v / roundQ (h.gavail : ℚ) := by
          rw [le_div_iff₀ hγ0]
          have : (2 : ℚ) ^ (-63 : ℤ) * (2 : ℚ) ^ (63 : ℤ) = 1 := by norm_num
          have h0 : (0 : ℚ) ≤ (2 : ℚ) ^ (-63 : ℤ) := by norm_num
          nlinarith
        have a2 : v / roundQ (h.gavail : ℚ) ≤ (2 : ℚ) ^ (63 : ℤ) := by
          rw [div_le_iff₀ hγ0]
          have h0 : (64 : ℚ) ≤ (2 : ℚ) ^ (63 : ℤ) := by norm_num
          nlinarith
        obtain ⟨ms, es, hseq, -, -, -⟩ := div_round hv g1 (-63) 63 (by decide) (by decide) a1 a2
        rw [hseq]; rfl
    · intro cnt hneg
      rw [e1, hL.neg _ (ofInt_neg_ltZero cnt hneg), div_nan_left]; rfl
  · intro hgt hG31 cnt hc
    have e1 : barValue Log2 h cnt =
        (float64.ofInt cnt).div ((float64.ofInt h.maxVal).div (float64.ofInt h.gavail)) := by
      simp only [barValue, hgs, gscaleOf, hgt]
      rfl
    rw [e1]
    obtain ⟨g1, g2, g3⟩ := ofInt_gavail h.gavail hG1 hG31
    obtain ⟨m1, m2, m3⟩ := ofInt_pos h.maxVal hM1 hM2
    by_cases hc0 : cnt = 0
    · subst hc0
      obtain ⟨a1, a2, -⟩ := scaled_bounds_bar _ 1 _ m2 m3 (le_refl _) (by linarith) g2 g3
      obtain ⟨ms, es, hseq, hms, -, -⟩ := div_round m1 g1 (-31) 63 (by decide) (by decide) a1 a2
      refine ⟨0, ?_⟩
      rw [ofInt_zero, hseq, div_zero_left _ _ _ _ _ hms]
      exact gv_zero _ _
    · obtain ⟨c1, c2⟩ := ofInt_ne_zero cnt hc0 (by omega) (by omega)
      have hcm : roundQ (cnt.natAbs : ℚ) ≤ roundQ (h.maxVal : ℚ) := by
        have hpos : (0 : ℚ) < (cnt.natAbs : ℚ) := by
          exact_mod_cast Int.natAbs_pos.mpr hc0
        refine roundQ_mono hpos ?_
        calc (cnt.natAbs : ℚ) = ((cnt.natAbs : ℤ) : ℚ) := (Int.cast_natCast cnt.natAbs).symm
          _ ≤ (h.maxVal : ℚ) := by exact_mod_cast hc
      obtain ⟨f1, f2⟩ := bar_finite c1 m1 g1 m2 m3 c2 (by linarith) g2 g3
      refine ⟨⌊roundQ (roundQ (roundQ (cnt.natAbs : ℚ) /
        roundQ (roundQ (h.maxVal : ℚ) / roundQ (h.gavail : ℚ))) + 1 / 2)⌋₊, ?_⟩
      rw [gv_round f1 (le_trans f2 (by norm_num))]
      by_cases hn : cnt < 0
      · simp [hn]
      · simp [hn]

/-- C15 at the histogram of `TestGraph` (counts -10, 0, 1, 10, 100, 100 at terminal
width 40: `maxVal` = 100, `gavail` = 18) in Log mode, with the stand-in `log2Floor`:
the bar of the count 0 is "-Inf", the bar of the count -10 is "NaN". -/
theorem log_special_tokens_witness :
    gv (barValue log2Floor
      (histScaled log2Floor (testGraphHist gType.gLog) testGraphInput).1 0) =
      some (ascii "-Inf") ∧
    gv (barValue log2Floor
      (histScaled log2Floor (testGraphHist gType.gLog) testGraphInput).1 (-10)) =
      some (ascii "NaN") :=
  ⟨((log_special_tokens log2Floor log2Floor_spec
      (histScaled log2Floor (testGraphHist gType.gLog) testGraphInput).1 (by decide) (by decide)
      (by decide) (by decide) (by decide)).1 (by decide)).1,
   ((log_special_tokens log2Floor log2Floor_spec
      (histScaled log2Floor (testGraphHist gType.gLog) testGraphInput).1 (by decide) (by decide)
      (by decide) (by decide) (by decide)).1 (by decide)).2 (-10) (by decide)⟩

/-! ## strconv.Atoi and AtoiList (C21) -/

example : Atoi (ascii "42") = some 42 := by decide
example : Atoi (ascii "-10") = some (-10) := by decide
example : Atoi (ascii "+7") = some 7 := by decide
example : Atoi (ascii "007") = some 7 := by decide
example : Atoi (ascii "") = none := by decide
example : Atoi (ascii "-") = none := by decide
example : Atoi (ascii "1_000") = none := by decide
example : Atoi (ascii "9223372036854775807") = some 9223372036854775807 := by decide
example : Atoi (ascii "9223372036854775808") = none := by decide
example : AtoiList [ascii "1", ascii "-2", ascii "3"] = AtoiListResult.ok [1, -2, 3] := by decide
example : AtoiList [] = AtoiListResult.ok [] := by decide

/-- The digit loop of `ParseInt` on a string of digits: their value. -/
theorem parseDigits_digits : ∀ (ds : Bytes) (acc : Nat), (∀ c ∈ ds, 48 ≤ c ∧ c ≤ 57) →
    parseDigits ds acc = some (ds.foldl (fun acc c => acc * 10 + (c - 48)) acc) := by
  intro ds
  induction ds with
  | nil => intro acc _; rfl
  | cons c rest ih =>
    intro acc h
    have hc := h c (List.mem_cons_self _ _)
    simp only [parseDigits, if_pos hc, List.foldl_cons]
    exact ih _ (fun x hx => h x (List.mem_cons_of_mem _ hx))

/-- The digit loop of `ParseInt` fails on any byte that is not a digit. -/
theorem parseDigits_none : ∀ (ds : Bytes) (acc : Nat), ¬ (∀ c ∈ ds, 48 ≤ c ∧ c ≤ 57) →
    parseDigits ds acc = none := by
  intro ds
  induction ds with
  | nil => intro acc h; exact absurd (fun c hc => absurd hc (List.not_mem_nil c)) h
  | cons c rest ih =>
    intro acc h
    by_cases hc : 48 ≤ c ∧ c ≤ 57
    · simp only [parseDigits, if_pos hc]
      apply ih
      intro hall
      apply h
      intro x hx
      rcases List.mem_cons.mp hx with h1 | h1
      · rw [h1]; exact hc
      · exact hall x h1
    · simp only [parseDigits, if_neg hc]

theorem digitsOf_cons (c : Nat) (rest : Bytes) :
    digitsOf (c :: rest) = if c = 43 ∨ c = 45 then rest else c :: rest := rfl

/-- The fast path of `Atoi` reads digits as the loop of `ParseInt` does. -/
theorem atoiLoop_eq : ∀ (ds : Bytes) (acc : Nat),
    atoiLoop ds (acc : Int) = Option.map (fun un : Nat => (un : Int)) (parseDigits ds acc) := by
  intro ds
  induction ds with
  | nil => intro acc; rfl
  | cons c rest ih =>
    intro acc
    by_cases hc : 48 ≤ c ∧ c ≤ 57
    · have hn : ¬ (c < 48 ∨ c - 48 > 9) := by omega
      simp only [atoiLoop, parseDigits, if_pos hc, if_neg hn]
      rw [← ih]
      congr 1
    · have hn : c < 48 ∨ c - 48 > 9 := by omega
      simp only [atoiLoop, parseDigits, if_neg hc, if_pos hn, Option.map_none']

/-- A string of `k` digits stands for a number below `10^k`. -/
theorem foldl_digits_lt : ∀ (ds : Bytes) (acc : Nat), (∀ c ∈ ds, 48 ≤ c ∧ c ≤ 57) →
    ds.foldl (fun acc c => acc * 10 + (c - 48)) acc < (acc + 1) * 10 ^ ds.length := by
  intro ds
  induction ds with
  | nil => intro acc _; simp
  | cons c rest ih =>
    intro acc h
    have hc := h c (List.mem_cons_self _ _)
    have h1 := ih (acc * 10 + (c - 48)) (fun x hx => h x (List.mem_cons_of_mem _ hx))
    simp only [List.foldl_cons, List.length_cons]
    refine lt_of_lt_of_le h1 ?_
    rw [pow_succ, mul_comm (10 ^ rest.length) 10, ← mul_assoc]
    apply Nat.mul_le_mul_right
    omega

theorem digitsValue_lt (ds : Bytes) (h : ∀ c ∈ ds, 48 ≤ c ∧ c ≤ 57) :
    digitsValue ds < 10 ^ ds.length := by
  have := foldl_digits_lt ds 0 h
  simpa [digitsValue] using this

/-- `ParseInt` accepts exactly the decimal integers that an `int64` holds, and
returns their value. -/
theorem ParseInt_eq (s : Bytes) :
    ParseInt s = if isDecimalInt s then some (decimalValue s) else none := by
  rcases s with _ | ⟨c, rest⟩
  · have h : ¬ isDecimalInt [] := by decide
    rw [if_neg h]
    rfl
  · unfold ParseInt
    simp only []
    have hdo : digitsOf (c :: rest) = (if c = 43 ∨ c = 45 then rest else c :: rest) := rfl
    rw [← hdo]
    by_cases hdn : digitsOf (c :: rest) = []
    · rw [if_pos hdn, if_neg (fun h => h.1.1 hdn)]
    · rw [if_neg hdn]
      by_cases hall : ∀ x ∈ digitsOf (c :: rest), 48 ≤ x ∧ x ≤ 57
      · rw [parseDigits_digits _ 0 hall]
        simp only []
        have hv : (digitsOf (c :: rest)).foldl (fun acc c => acc * 10 + (c - 48)) 0 =
            digitsValue (digitsOf (c :: rest)) := rfl
        rw [hv]
        generalize hun : digitsValue (digitsOf (c :: rest)) = un
        have hdec : isDecimal (c :: rest) := ⟨hdn, hall⟩
        have hval : decimalValue (c :: rest) = if c = 45 then -(un : Int) else (un : Int) := by
          unfold decimalValue
          rw [hun]
          simp only [List.head?_cons, Option.some.injEq]
        by_cases hneg : c = 45
        · have hd : decide (c = 45) = true := decide_eq_true hneg
          rw [if_neg (fun h => h.1 hd)]
          rw [hval, if_pos hneg]
          by_cases h2 : un > 2 ^ 63
          · rw [if_pos ⟨hd, h2⟩, if_neg]
            intro h
            have := h.2
            rw [hval, if_pos hneg] at this
            unfold isInt64 at this
            have h3 : ((2 : Int) ^ 63) < (un : Int) := by exact_mod_cast h2
            omega
          · rw [if_neg (fun h => h2 h.2), if_pos hd, if_pos]
            refine ⟨hdec, ?_⟩
            rw [hval, if_pos hneg]
            unfold isInt64
            have h3 : (un : Int) ≤ (2 : Int) ^ 63 := by exact_mod_cast (not_lt.mp h2)
            omega
        · have hd : ¬ decide (c = 45) = true := by simpa using hneg
          rw [hval, if_neg hneg]
          by_cases h1 : un ≥ 2 ^ 63
          · rw [if_pos ⟨hd, h1⟩, if_neg]
            intro h
            have := h.2
            rw [hval, if_neg hneg] at this
            unfold isInt64 at this
            have h3 : ((2 : Int) ^ 63) ≤ (un : Int) := by exact_mod_cast h1
            omega
          · rw [if_neg (fun h => h1 h.2), if_neg (fun h => hd h.1), if_neg hd, if_pos]
            refine ⟨hdec, ?_⟩
            rw [hval, if_neg hneg]
            unfold isInt64
            have h3 : (un : Int) < (2 : Int) ^ 63 := by exact_mod_cast (not_le.mp h1)
            omega
      · rw [parseDigits_none _ 0 hall, if_neg (fun h => hall h.1.2)]

/-- The two paths of `Atoi` agree: `Atoi(s)` returns what `ParseInt(s, 10, 64)`
returns. -/
theorem Atoi_eq_ParseInt (s : Bytes) : Atoi s = ParseInt s := by
  unfold Atoi
  by_cases hlen : 0 < s.length ∧ s.length < 19
  · rw [if_pos hlen, ParseInt_eq]
    rcases s with _ | ⟨c, rest⟩
    · exact absurd hlen.1 (by simp)
    · simp only []
      have hdo : (if c = 45 ∨ c = 43 then rest else c :: rest) = digitsOf (c :: rest) := by
        rw [digitsOf_cons]
        by_cases h : c = 45 ∨ c = 43
        · rw [if_pos h, if_pos (Or.symm h)]
        · rw [if_neg h, if_neg (fun h2 => h (Or.symm h2))]
      rw [hdo]
      have hdl : (digitsOf (c :: rest)).length ≤ 18 := by
        rw [digitsOf_cons]
        simp only [List.length_cons] at hlen
        by_cases h : c = 43 ∨ c = 45
        · rw [if_pos h]; omega
        · rw [if_neg h]; simp only [List.length_cons]; omega
      by_cases hdn : digitsOf (c :: rest) = []
      · have hsign : c = 45 ∨ c = 43 := by
          rw [digitsOf_cons] at hdn
          by_cases h : c = 43 ∨ c = 45
          · exact Or.symm h
          · rw [if_neg h] at hdn
            exact absurd hdn (List.cons_ne_nil _ _)
        rw [if_pos ⟨hsign, by rw [hdn]; decide⟩, if_neg (fun h => h.1.1 hdn)]
      · have hl1 : ¬ (digitsOf (c :: rest)).length < 1 := by
          have := List.length_pos.mpr hdn
          omega
        rw [if_neg (fun h => hl1 h.2)]
        have hloop := atoiLoop_eq (digitsOf (c :: rest)) 0
        simp only [Nat.cast_zero] at hloop
        rw [hloop]
        by_cases hall : ∀ x ∈ digitsOf (c :: rest), 48 ≤ x ∧ x ≤ 57
        · rw [parseDigits_digits _ 0 hall]
          simp only [Option.map_some']
          have hv : (digitsOf (c :: rest)).foldl (fun acc c => acc * 10 + (c - 48)) 0 =
              digitsValue (digitsOf (c :: rest)) := rfl
          rw [hv]
          have hlt := digitsValue_lt _ hall
          have hpow : 10 ^ (digitsOf (c :: rest)).length ≤ 10 ^ 18 :=
            Nat.pow_le_pow_right (by decide) hdl
          have hval : decimalValue (c :: rest) =
              if c = 45 then -(digitsValue (digitsOf (c :: rest)) : Int)
              else (digitsValue (digitsOf (c :: rest)) : Int) := by
            unfold decimalValue
            simp only [List.head?_cons, Option.some.injEq]
          have hb : (digitsValue (digitsOf (c :: rest)) : Int) < 10 ^ 18 := by
            have : digitsValue (digitsOf (c :: rest)) < 10 ^ 18 := lt_of_lt_of_le hlt hpow
            exact_mod_cast this
          have hdi : isDecimalInt (c :: rest) := by
            refine ⟨⟨hdn, hall⟩, ?_⟩
            rw [hval]
            unfold isInt64
            by_cases hneg : c = 45
            · rw [if_pos hneg]; omega
            · rw [if_neg hneg]; omega
          rw [if_pos hdi, hval]
        · rw [parseDigits_none _ 0 hall, if_neg (fun h => hall h.1.2)]
          rfl
  · rw [if_neg hlen]

/-- `Atoi` accepts exactly the decimal integers that an `int` holds, and returns
their value. -/
theorem Atoi_eq (s : Bytes) :
    Atoi s = if isDecimalInt s then some (decimalValue s) else none := by
  rw [Atoi_eq_ParseInt, ParseInt_eq]

/-- The loop of `AtoiList` on strings that `Atoi` accepts. -/
theorem atoiListLoop_ok : ∀ (nums : List Bytes) (res : List Int), (∀ v ∈ nums, isDecimalInt v) →
    atoiListLoop nums res = AtoiListResult.ok (res ++ nums.map decimalValue) := by
  intro nums
  induction nums with
  | nil => intro res _; simp [atoiListLoop]
  | cons v rest ih =>
    intro res h
    have hv := h v (List.mem_cons_self _ _)
    simp only [atoiListLoop, Atoi_eq, if_pos hv]
    rw [ih _ (fun x hx => h x (List.mem_cons_of_mem _ hx))]
    simp

/-- The loop of `AtoiList` stops at the first string that `Atoi` rejects. -/
theorem atoiListLoop_error (pre : List Bytes) (v : Bytes) (post : List Bytes) :
    ∀ (res : List Int), (∀ u ∈ pre, isDecimalInt u) → ¬ isDecimalInt v →
    atoiListLoop (pre ++ v :: post) res = AtoiListResult.notAnInteger v := by
  induction pre with
  | nil =>
    intro res _ hv
    simp only [List.nil_append, atoiListLoop, Atoi_eq, if_neg hv]
  | cons u rest ih =>
    intro res h hv
    have hu := h u (List.mem_cons_self _ _)
    simp only [List.cons_append, atoiListLoop, Atoi_eq, if_pos hu]
    exact ih _ (fun x hx => h x (List.mem_cons_of_mem _ hx)) hv

/-- A list with an element outside a decidable set splits at the first one. -/
theorem split_first {α : Type} (p : α → Prop) [DecidablePred p] : ∀ (l : List α),
    (∃ v ∈ l, ¬ p v) → ∃ pre v post, l = pre ++ v :: post ∧ (∀ u ∈ pre, p u) ∧ ¬ p v := by
  intro l
  induction l with
  | nil => intro ⟨v, hv, _⟩; exact absurd hv (List.not_mem_nil v)
  | cons a rest ih =>
    intro ⟨v, hv, hpv⟩
    by_cases ha : p a
    · have : ∃ v ∈ rest, ¬ p v := by
        rcases List.mem_cons.mp hv with h1 | h1
        · rw [h1] at hpv; exact absurd ha hpv
        · exact ⟨v, h1, hpv⟩
      obtain ⟨pre, w, post, hl, hpre, hw⟩ := ih this
      refine ⟨a :: pre, w, post, by rw [hl]; rfl, ?_, hw⟩
      intro u hu
      rcases List.mem_cons.mp hu with h1 | h1
      · rw [h1]; exact ha
      · exact hpre u h1
    · exact ⟨[], a, rest, rfl, fun u hu => absurd hu (List.not_mem_nil u), ha⟩

/-- C21, the claim as stated fails: "9223372036854775808" is a decimal integer,
yet `AtoiList` fails on it, `Atoi` reporting a value out of range.  (The largest
`int`, one less, is accepted.) -/
theorem AtoiList_contract_counterexample :
    isDecimal (ascii "9223372036854775808") ∧
    decimalValue (ascii "9223372036854775808") = 9223372036854775808 ∧
    AtoiList [ascii "9223372036854775808"] =
      AtoiListResult.notAnInteger (ascii "9223372036854775808") ∧
    AtoiList [ascii "9223372036854775807"] = AtoiListResult.ok [9223372036854775807] := by
  decide

/-- C21, amended: `AtoiList(nums)` fails exactly when some element of `nums` is
not a decimal integer (an optional sign and one or more digits) within the range
of `int`; it then returns the nil list and the error made from the first such
element.  Otherwise it returns no error and the list of the values of the
elements, of the same length and in the same order. -/
theorem AtoiList_contract (nums : List Bytes) :
    ((∃ v, AtoiList nums = AtoiListResult.notAnInteger v) ↔ ∃ v ∈ nums, ¬ isDecimalInt v) ∧
    (∀ v, AtoiList nums = AtoiListResult.notAnInteger v ↔
      ∃ pre post, nums = pre ++ v :: post ∧ (∀ u ∈ pre, isDecimalInt u) ∧ ¬ isDecimalInt v) ∧
    ((∀ v ∈ nums, isDecimalInt v) →
      AtoiList nums = AtoiListResult.ok (nums.map decimalValue) ∧
      (nums.map decimalValue).length = nums.length ∧
      ∀ (i : Nat) (hi : i < nums.length),
        (nums.map decimalValue).get? i = some (decimalValue (nums.get ⟨i, hi⟩))) := by
  have hok : (∀ v ∈ nums, isDecimalInt v) →
      AtoiList nums = AtoiListResult.ok (nums.map decimalValue) := by
    intro h
    have := atoiListLoop_ok nums [] h
    simpa [AtoiList] using this
  have herr : ∀ pre v post, nums = pre ++ v :: post → (∀ u ∈ pre, isDecimalInt u) →
      ¬ isDecimalInt v → AtoiList nums = AtoiListResult.notAnInteger v := by
    intro pre v post hl hpre hv
    rw [hl]
    exact atoiListLoop_error pre v post [] hpre hv
  have hsecond : ∀ v, AtoiList nums = AtoiListResult.notAnInteger v ↔
      ∃ pre post, nums = pre ++ v :: post ∧ (∀ u ∈ pre, isDecimalInt u) ∧ ¬ isDecimalInt v := by
    intro v
    constructor
    · intro h
      by_cases hall : ∀ u ∈ nums, isDecimalInt u
      · rw [hok hall] at h
        exact absurd h (by simp)
      · have hex : ∃ u ∈ nums, ¬ isDecimalInt u := by
          by_contra hc
          apply hall
          intro u hu
          by_contra hn
          exact hc ⟨u, hu, hn⟩
        obtain ⟨pre, w, post, hl, hpre, hw⟩ := split_first isDecimalInt nums hex
        have h2 := herr pre w post hl hpre hw
        rw [h2] at h
        have hwv : w = v := by
          injection h
        rw [← hwv]
        exact ⟨pre, post, hl, hpre, hw⟩
    · intro ⟨pre, post, hl, hpre, hv⟩
      exact herr pre v post hl hpre hv
  refine ⟨?_, hsecond, ?_⟩
  · constructor
    · intro ⟨v, hv⟩
      obtain ⟨pre, post, hl, _, hnv⟩ := (hsecond v).mp hv
      exact ⟨v, by rw [hl]; simp, hnv⟩
    · intro hex
      obtain ⟨pre, w, post, hl, hpre, hw⟩ := split_first isDecimalInt nums hex
      exact ⟨w, herr pre w post hl hpre hw⟩
  · intro h
    refine ⟨hok h, by simp, ?_⟩
    intro i hi
    simp [List.getElem?_eq_getElem hi]

/-- C21 on the key specification "2,x,-1,y" and on "1,-2,+3": the first fails
with the error that names "x", the second gives the three values. -/
theorem AtoiList_contract_witness :
    AtoiList [ascii "2", ascii "x", ascii "-1", ascii "y"] =
      AtoiListResult.notAnInteger (ascii "x") ∧
    (∀ v ∈ [ascii "1", ascii "-2", ascii "+3"], isDecimalInt v) ∧
    AtoiList [ascii "1", ascii "-2", ascii "+3"] = AtoiListResult.ok [1, -2, 3] ∧
    ((∃ v, AtoiList [ascii "2", ascii "x", ascii "-1", ascii "y"] =
        AtoiListResult.notAnInteger v) ↔
      ∃ v ∈ [ascii "2", ascii "x", ascii "-1", ascii "y"], ¬ isDecimalInt v) :=
  ⟨by decide, by decide, by decide,
   (AtoiList_contract [ascii "2", ascii "x", ascii "-1", ascii "y"]).1⟩

/-! ## The field extractor at the index 0 (C25) -/

/-- The index 0 selects the first part, or nil when there is none. -/
theorem fieldAt_zero (parts : List Bytes) : fieldAt parts 0 = parts.head? := by
  unfold fieldAt
  rcases parts with _ | ⟨a, rest⟩
  · simp
  · simp only [lt_self_iff_false, if_false, List.length_cons]
    rw [if_pos]
    · rfl
    · constructor
      · exact le_refl _
      · push_cast; omega

/-- The index 1 selects the first part, or nil when there is none. -/
theorem fieldAt_one (parts : List Bytes) : fieldAt parts 1 = parts.head? := by
  have hi : isInt64 1 := by unfold isInt64; omega
  rcases parts with _ | ⟨a, rest⟩
  · rw [fieldAt_out [] 1 (Or.inr (by simp)) hi (by simp)]
    rfl
  · have hlen : (1 : Int) ≤ ((a :: rest).length : Int) := by
      simp only [List.length_cons]
      push_cast
      omega
    rw [(fieldAt_pos (a :: rest) 1 (le_refl _) hlen hi).1]
    rfl

/-- Replacing an index 0 by 1 does not change what the indexes select. -/
theorem map_fieldAt_set (parts : List Bytes) : ∀ (idx : List Int) (i : Nat),
    idx.get? i = some 0 → (idx.set i 1).map (fieldAt parts) = idx.map (fieldAt parts) := by
  intro idx
  induction idx with
  | nil => intro i _; rfl
  | cons a rest ih =>
    intro i h
    rcases i with _ | j
    · simp only [List.get?_cons_zero, Option.some.injEq] at h
      simp only [List.set_cons_zero, List.map_cons, h, fieldAt_zero, fieldAt_one]
    · simp only [List.get?_cons_succ] at h
      simp only [List.set_cons_succ, List.map_cons, ih j h]

/-- C25: index 0 is not rejected.  Where the index list of a `Parter` holds 0,
`Fields` returns at that position the first field of the line (nil when the line
has no field), and the whole result is the one the index list with 1 in place
of that 0 gives; so the key of `hist` for a key field index 0 is its key for the
index 1. -/
theorem Fields_index_zero (p : Parter) (line : Bytes) (i : Nat) (hi : i < p.idx.length)
    (h0 : p.idx.get ⟨i, hi⟩ = 0) :
    (p.Fields line).length = p.idx.length ∧
    (p.Fields line).get? i = some ((splitb p.re line).head?) ∧
    (∀ f rest, splitb p.re line = f :: rest → (p.Fields line).get? i = some (some f)) ∧
    (splitb p.re line = [] → (p.Fields line).get? i = some none) ∧
    p.Fields line = Parter.Fields { p with idx := p.idx.set i 1 } line ∧
    (∀ h : histogrammer, h.ifs = p.re → h.keys = p.idx →
      keyFn h line = keyFn { h with keys := h.keys.set i 1 } line) := by
  have hne : p.idx ≠ [] := by
    intro h
    rw [h] at hi
    exact absurd hi (by simp)
  have hget : p.idx.get? i = some 0 := by
    rw [List.get?_eq_get hi, h0]
  have hF := Fields_eq_map p line hne
  have hne2 : p.idx.set i 1 ≠ [] := by
    intro h
    have := congrArg List.length h
    simp only [List.length_set, List.length_nil] at this
    omega
  have hF2 := Fields_eq_map { p with idx := p.idx.set i 1 } line hne2
  have hat : (p.Fields line).get? i = some ((splitb p.re line).head?) := by
    rw [hF, List.get?_eq_getElem?, List.getElem?_map, ← List.get?_eq_getElem?, hget,
      Option.map_some', fieldAt_zero]
  have heq : p.Fields line = Parter.Fields { p with idx := p.idx.set i 1 } line := by
    rw [hF, hF2]
    exact (map_fieldAt_set _ p.idx i hget).symm
  refine ⟨by rw [hF, List.length_map], hat, ?_, ?_, heq, ?_⟩
  · intro f rest hs
    rw [hat, hs, List.head?_cons]
  · intro hs
    rw [hat, hs, List.head?_nil]
  · intro h hifs hkeys
    have hl : h.keys.length > 0 := by rw [hkeys]; omega
    have hl2 : (h.keys.set i 1).length > 0 := by rw [List.length_set]; exact hl
    unfold keyFn
    simp only [if_pos hl, if_pos hl2, NewParter]
    rw [hifs, hkeys]
    have h1 : Parter.Fields { re := p.re, idx := p.idx } line = p.Fields line := rfl
    have h2 : Parter.Fields { re := p.re, idx := p.idx.set i 1 } line =
        Parter.Fields { p with idx := p.idx.set i 1 } line := rfl
    rw [h1, h2, heq]

/-- C25 on the line "one_two" split at underscores: the index list `[0, 2]`
selects "one" and "two", as `[1, 2]` does; on the empty line the index 0 selects
nil; and the key of the line "a b 2" for the key field index 0 is "a". -/
theorem Fields_index_zero_witness :
    (NewParter reUnderscores [0, 2]).Fields (ascii "one_two") =
      [some (ascii "one"), some (ascii "two")] ∧
    (NewParter reUnderscores [1, 2]).Fields (ascii "one_two") =
      [some (ascii "one"), some (ascii "two")] ∧
    (NewParter reUnderscores [0, 2]).Fields [] = [none, none] ∧
    keyFn { ifs := reSpaces, keys := [0] } (ascii "a b 2") = ascii "a" ∧
    ((NewParter reUnderscores [0, 2]).Fields (ascii "one_two")).get? 0 =
      some ((splitb reUnderscores (ascii "one_two")).head?) :=
  ⟨by decide, by decide, by decide, by decide,
   (Fields_index_zero (NewParter reUnderscores [0, 2]) (ascii "one_two") 0 (by decide)
      (by decide)).2.1⟩

/-! ## The order of the map does not show in the result (C24) -/

/-- Two arrangements of the same entries that are both in order are the same
list, when no two different entries compare as equal. -/
theorem sorted_perm_unique {α : Type} (r : α → α → Prop) : ∀ (l1 l2 : List α),
    l1.Perm l2 → (∀ a ∈ l1, ∀ b ∈ l1, r a b → r b a → a = b) →
    l1.Pairwise r → l2.Pairwise r → l1 = l2 := by
  intro l1
  induction l1 with
  | nil => intro l2 hp _ _ _; exact (List.Perm.nil_eq hp)
  | cons a t1 ih =>
    intro l2 hp hanti h1 h2
    rcases l2 with _ | ⟨b, t2⟩
    · exact absurd (List.Perm.eq_nil hp) (List.cons_ne_nil _ _)
    · have hab : a = b := by
        by_contra hne
        have ha2 : a ∈ t2 := by
          have : a ∈ b :: t2 := hp.subset (List.mem_cons_self _ _)
          rcases List.mem_cons.mp this with h | h
          · exact absurd h hne
          · exact h
        have hb1 : b ∈ t1 := by
          have : b ∈ a :: t1 := hp.symm.subset (List.mem_cons_self _ _)
          rcases List.mem_cons.mp this with h | h
          · exact absurd h.symm hne
          · exact h
        have hrab := (List.pairwise_cons.mp h1).1 b hb1
        have hrba := (List.pairwise_cons.mp h2).1 a ha2
        exact hne (hanti a (List.mem_cons_self _ _) b (List.mem_cons_of_mem _ hb1) hrab hrba)
      subst hab
      have hp2 : t1.Perm t2 := (List.perm_cons a).mp hp
      rw [ih t2 hp2 (fun x hx y hy => hanti x (List.mem_cons_of_mem _ hx) y
        (List.mem_cons_of_mem _ hy)) (List.pairwise_cons.mp h1).2 (List.pairwise_cons.mp h2).2]

/-- Entries made from the pairs of a map that neither is less than the other are
the same entry. -/
theorem entriesOf_antisymm (d : CountMap) :
    ∀ a ∈ entriesOf d, ∀ b ∈ entriesOf d, countKeyLE a b → countKeyLE b a → a = b := by
  intro a ha b hb hab hba
  unfold entriesOf at ha hb
  obtain ⟨x, _, hx⟩ := List.mem_map.mp ha
  obtain ⟨y, _, hy⟩ := List.mem_map.mp hb
  subst hx
  subst hy
  unfold countKeyLE at hab hba
  simp only at hab hba
  have hc : x.2 = y.2 := by omega
  have hk : x.1 = y.1 := by
    rcases hab with h | ⟨_, h1⟩
    · omega
    · rcases hba with h | ⟨_, h2⟩
      · omega
      · exact le_antisymm h1 h2
  rw [hc, hk]

/-- An arrangement of the entries of a map without an inversion between
neighbours is the list `sortSort` returns. -/
theorem sorted_eq_sortSort (d : CountMap) (r : List keyCount) (hp : r.Perm (entriesOf d))
    (hs : r.Chain' (fun a b => b.less a = false)) : r = sortSort (entriesOf d) := by
  haveI := notLess_isTrans
  have hpw : r.Pairwise (fun a b => b.less a = false) := List.chain'_iff_pairwise.mp hs
  have hpw2 : r.Pairwise countKeyLE :=
    List.Pairwise.imp (fun {a b} hab => (not_less_iff a b).mp hab) hpw
  have hperm : r.Perm (sortSort (entriesOf d)) := hp.trans (sortSort_perm _).symm
  refine sorted_perm_unique countKeyLE r _ hperm ?_ hpw2 (sortSort_sorted _)
  intro a ha b hb
  exact entriesOf_antisymm d a (hp.subset ha) b (hp.subset hb)

/-- The entries of two enumerations of one map are arrangements of each other. -/
theorem entriesOf_perm (d d2 : CountMap) (hp : d2.Perm d) :
    (entriesOf d2).Perm (entriesOf d) := by
  unfold entriesOf
  exact hp.map _

/-- C24: the result of `hist` does not depend on the order in which the map is
ranged over.  For any two enumerations of the same pairs of key and count,
sorting the entries made from them gives the same list; that list is the only
arrangement of the entries that `Less` finds in order, so any correct
`sort.Sort` returns it; and it is what `hist` returns, whichever enumeration of
its map is taken. -/
theorem hist_order_independent :
    (∀ d d2 : CountMap, d2.Perm d → sortSort (entriesOf d2) = sortSort (entriesOf d)) ∧
    (∀ (d : CountMap) (r : List keyCount), r.Perm (entriesOf d) →
      r.Chain' (fun a b => b.less a = false) → r = sortSort (entriesOf d)) ∧
    (∀ (h : histogrammer) (inp : Bytes) (kc : List keyCount),
      (hist h inp).2 = Except.ok kc →
      ∀ d2 : CountMap, d2.Perm (addAll [] (pairsOf h (scan h.words inp).tokens)) →
        sortSort (entriesOf d2) = kc) := by
  have h1 : ∀ d d2 : CountMap, d2.Perm d →
      sortSort (entriesOf d2) = sortSort (entriesOf d) := by
    intro d d2 hp
    haveI := notLess_isTotal
    haveI := notLess_isTrans
    apply sorted_eq_sortSort d
    · exact (sortSort_perm _).trans (entriesOf_perm d d2 hp)
    · exact List.Pairwise.chain' (List.sorted_insertionSort _ (entriesOf d2))
  refine ⟨h1, sorted_eq_sortSort, ?_⟩
  intro h inp kc hok d2 hp
  by_cases hs : (scan h.words inp).err = none
  · rw [hist_ok h inp hs] at hok
    injection hok with hok
    rw [← hok]
    exact h1 _ d2 hp
  · obtain ⟨e, he⟩ := Option.ne_none_iff_exists.mp hs
    rw [hist_error h inp e he.symm] at hok
    exact absurd hok (by simp)

/-- C24 on the map `{b: 1, a: 2, c: 1}` of three keys: ranged over in the
order b, a, c or in the order c, a, b, the sorted entries are b, c, a. -/
theorem hist_order_independent_witness :
    ([(ascii "c", 1), (ascii "a", 2), (ascii "b", 1)] : CountMap).Perm
      [(ascii "b", 1), (ascii "a", 2), (ascii "c", 1)] ∧
    sortSort (entriesOf [(ascii "b", 1), (ascii "a", 2), (ascii "c", 1)]) =
      [kc "b" 1, kc "c" 1, kc "a" 2] ∧
    sortSort (entriesOf [(ascii "c", 1), (ascii "a", 2), (ascii "b", 1)]) =
      sortSort (entriesOf [(ascii "b", 1), (ascii "a", 2), (ascii "c", 1)]) :=
  ⟨by decide, by decide,
   hist_order_independent.1 [(ascii "b", 1), (ascii "a", 2), (ascii "c", 1)]
     [(ascii "c", 1), (ascii "a", 2), (ascii "b", 1)] (by decide)⟩

/-! ## snip: where the cut falls (C22) -/

example : ValidString (ascii "hello") = true := by decide
example : ValidString [0xC3, 0xA9, 0xE2, 0x80, 0xA6] = true := by decide
example : ValidString [0xC3] = false := by decide
example : ValidString [0xEF, 0xBF, 0xBD] = true := by decide
example : runePrefix 2 [0xC3, 0xA9, 0x61, 0x62] = [0xC3, 0xA9, 0x61] := by decide

/-- The number of runes of a string is the length of the list of its runes. -/
theorem runes_length : ∀ (n : Nat) (s : Bytes), s.length ≤ n →
    (runes s).length = RuneCountInString s := by
  intro n
  induction n with
  | zero =>
    intro s h
    have hs : s = [] := List.length_eq_zero.mp (by omega)
    subst hs
    rfl
  | succ n ih =>
    intro s h
    by_cases hs : s = []
    · subst hs; rfl
    · have hw := decode_width s hs
      rw [runes_unfold s hs, runeCount_unfold s hs, List.length_cons,
        ih _ (by simp only [List.length_drop]; omega)]
      omega

/-- The first runes of a string, followed by text that does not begin with a
continuation byte, decode as before, and the text after them on its own. -/
theorem runes_prefix_append (seg : List (Nat × Bytes)) :
    ∀ (s : Bytes) (B : List (Nat × Bytes)) (t : Bytes),
    runes s = seg ++ B → (t.headD 0 < 0x80 ∨ 0xBF < t.headD 0) →
    runes (bytesOfRunes seg ++ t) = seg ++ runes t := by
  induction seg with
  | nil => intro s B t _ _; rfl
  | cons x seg ih =>
    intro s B t h ht
    have hs : s ≠ [] := by
      intro hnil
      rw [hnil, runes_nil] at h
      exact List.noConfusion h
    have hw := decode_width s hs
    rw [runes_unfold s hs, List.cons_append] at h
    obtain ⟨hx, hrest⟩ := List.cons.inj h
    have hseg := ih _ B t hrest ht
    have hdrop : s.drop (DecodeRuneInString s).2 = bytesOfRunes seg ++ bytesOfRunes B := by
      rw [← bytesOfRunes_append, ← hrest, bytesOfRunes_runes]
    have hstab := decode_stable s (bytesOfRunes seg) (bytesOfRunes B) t hs hdrop ht
    have hlen : (s.take (DecodeRuneInString s).2).length = (DecodeRuneInString s).2 := by
      simp only [List.length_take]; omega
    have hne : s.take (DecodeRuneInString s).2 ++ (bytesOfRunes seg ++ t) ≠ [] := by
      intro hnil
      have := congrArg List.length hnil
      simp only [List.length_append, List.length_nil] at this
      omega
    rw [bytesOfRunes_cons, ← hx]
    simp only []
    rw [List.append_assoc, runes_unfold _ hne, hstab, List.take_append_eq_append_take, hlen,
      Nat.sub_self, List.take_zero, List.append_nil, List.take_take, Nat.min_self,
      List.drop_append_eq_append_drop, hlen, Nat.sub_self, List.drop_zero,
      List.drop_of_length_le (by omega), List.nil_append, hseg, List.cons_append]

/-- The loop of `snip` on a string that has at least `width` runes from the
byte index `i` on: it cuts after `width - 1` whole runes. -/
theorem snipLoop_runes (s : Bytes) : ∀ (fuel i : Nat) (width : Int),
    i ≤ s.length → s.length - i < fuel → 1 ≤ width →
    width ≤ (RuneCountInString (s.drop i) : Int) →
    snipLoop s fuel i width =
      some (s.take i ++ runePrefix (width - 1).toNat (s.drop i) ++ snipMark, true) := by
  intro fuel
  induction fuel with
  | zero => intro i width _ h; omega
  | succ n ih =>
    intro i width hi hf hw1 hc
    by_cases hlt : i < s.length
    · have hd : s.drop i ≠ [] := by
        intro h
        have := congrArg List.length h
        simp only [List.length_drop, List.length_nil] at this
        omega
      have hw := decode_width (s.drop i) hd
      simp only [List.length_drop] at hw
      by_cases hwd : width ≤ 1
      · have h1 : width = 1 := by omega
        subst h1
        simp only [snipLoop, if_pos hlt, if_pos hwd]
        have : runePrefix ((1 : Int) - 1).toNat (s.drop i) = [] := rfl
        rw [this, List.append_nil]
      · simp only [snipLoop, if_pos hlt, if_neg hwd]
        have hdd : (s.drop i).drop (DecodeRuneInString (s.drop i)).2 =
            s.drop (i + (DecodeRuneInString (s.drop i)).2) := by
          rw [List.drop_drop, Nat.add_comm]
        have hcnt := runeCount_unfold (s.drop i) hd
        rw [hdd] at hcnt
        rw [ih (i + (DecodeRuneInString (s.drop i)).2) (width - 1) (by omega) (by omega)
          (by omega) (by rw [hcnt] at hc; push_cast at hc; omega)]
        have hn : (width - 1).toNat = (width - 1 - 1).toNat + 1 := by omega
        rw [hn]
        unfold runePrefix
        rw [runes_unfold (s.drop i) hd, List.take_succ_cons, bytesOfRunes_cons, hdd,
          List.take_add]
        simp only [List.append_assoc]
    · have hil : i = s.length := by omega
      rw [hil, List.drop_length, runeCount_nil] at hc
      simp only [Nat.cast_zero] at hc
      omega

/-- The first runes of a string are a prefix of it, decode as they do in the
string, and are as many as were taken. -/
theorem runePrefix_spec (n : Nat) (s : Bytes) (hn : n ≤ RuneCountInString s) :
    runePrefix n s <+: s ∧ runes (runePrefix n s) = (runes s).take n ∧
    RuneCountInString (runePrefix n s) = n := by
  have hsplit : runes s = (runes s).take n ++ (runes s).drop n := (List.take_append_drop n _).symm
  have hr : runes (runePrefix n s) = (runes s).take n :=
    runes_prefix ((runes s).take n) s ((runes s).drop n) hsplit
  refine ⟨⟨bytesOfRunes ((runes s).drop n), ?_⟩, hr, ?_⟩
  · unfold runePrefix
    rw [← bytesOfRunes_append, List.take_append_drop, bytesOfRunes_runes]
  · rw [← runes_length _ _ (le_refl _), hr, List.length_take, runes_length _ s (le_refl _)]
    omega

/-- C22: the shape of a truncation.  For every valid UTF-8 string `s` and every
width >= 1 such that `s` has at least `width` code points, `snip(s, width)`
returns `(p + "…", true)`, where `p` is the bytes of the first `width - 1` code
points of `s`: a prefix of `s` that ends where a code point ends, so that `p`
and the result are valid UTF-8 again, with `width - 1` and `width` code
points. -/
theorem snip_truncation_shape (s : Bytes) (width : Int) (hv : ValidString s = true)
    (hw : 1 ≤ width) (hc : width ≤ (RuneCountInString s : Int)) :
    snip s width = some (runePrefix (width - 1).toNat s ++ snipMark, true) ∧
    runePrefix (width - 1).toNat s <+: s ∧
    runes (runePrefix (width - 1).toNat s) = (runes s).take (width - 1).toNat ∧
    runes (runePrefix (width - 1).toNat s ++ snipMark) =
      (runes s).take (width - 1).toNat ++ [(0x2026, snipMark)] ∧
    ValidString (runePrefix (width - 1).toNat s) = true ∧
    ValidString (runePrefix (width - 1).toNat s ++ snipMark) = true ∧
    (RuneCountInString (runePrefix (width - 1).toNat s) : Int) = width - 1 ∧
    (RuneCountInString (runePrefix (width - 1).toNat s ++ snipMark) : Int) = width := by
  have hn : (width - 1).toNat ≤ RuneCountInString s := by omega
  obtain ⟨hpre, hr, hcount⟩ := runePrefix_spec (width - 1).toNat s hn
  have hsnip : snip s width = some (runePrefix (width - 1).toNat s ++ snipMark, true) := by
    have := snipLoop_runes s (s.length + 1) 0 width (Nat.zero_le _) (by omega) hw
      (by rw [List.drop_zero]; exact hc)
    simpa only [snip, List.drop_zero, List.take_zero, List.nil_append] using this
  have hsplit : runes s = (runes s).take (width - 1).toNat ++ (runes s).drop (width - 1).toNat :=
    (List.take_append_drop _ _).symm
  have hrm : runes (runePrefix (width - 1).toNat s ++ snipMark) =
      (runes s).take (width - 1).toNat ++ [(0x2026, snipMark)] := by
    have := runes_prefix_append _ s _ snipMark hsplit (by decide)
    unfold runePrefix
    rw [this]
    rfl
  have hall : ∀ x ∈ runes s, decide (¬ (x.1 = RuneError ∧ x.2.length = 1)) = true := by
    unfold ValidString at hv
    exact List.all_eq_true.mp hv
  have hv1 : ValidString (runePrefix (width - 1).toNat s) = true := by
    unfold ValidString
    rw [hr]
    exact List.all_eq_true.mpr (fun x hx => hall x (List.mem_of_mem_take hx))
  have hv2 : ValidString (runePrefix (width - 1).toNat s ++ snipMark) = true := by
    unfold ValidString
    rw [hrm]
    apply List.all_eq_true.mpr
    intro x hx
    rcases List.mem_append.mp hx with h1 | h1
    · exact hall x (List.mem_of_mem_take h1)
    · rw [List.mem_singleton.mp h1]
      decide
  refine ⟨hsnip, hpre, hr, hrm, hv1, hv2, ?_, ?_⟩
  · rw [hcount]; omega
  · rw [← runes_length _ _ (le_refl _), hrm, List.length_append, List.length_take,
      runes_length _ s (le_refl _)]
    simp only [List.length_singleton]
    omega

/-- C22 on the key of `TestGraph` at the width 14 of its key column, and on a
string of two-byte code points: "éé" has exactly 2 code points and is cut at
width 2 after the first one, between the code points. -/
theorem snip_truncation_shape_witness :
    ValidString (ascii "z_long_key_that_is_snippetted") = true ∧
    (14 : Int) ≤ (RuneCountInString (ascii "z_long_key_that_is_snippetted") : Int) ∧
    runePrefix 13 (ascii "z_long_key_that_is_snippetted") = ascii "z_long_key_th" ∧
    snip (ascii "z_long_key_that_is_snippetted") 14 =
      some (runePrefix ((14 : Int) - 1).toNat (ascii "z_long_key_that_is_snippetted") ++
        snipMark, true) ∧
    ValidString [0xC3, 0xA9, 0xC3, 0xA9] = true ∧
    RuneCountInString [0xC3, 0xA9, 0xC3, 0xA9] = 2 ∧
    snip [0xC3, 0xA9, 0xC3, 0xA9] 2 = some ([0xC3, 0xA9] ++ snipMark, true) :=
  ⟨by decide, by decide, by decide,
   (snip_truncation_shape (ascii "z_long_key_that_is_snippetted") 14 (by decide) (by decide)
     (by decide)).1,
   by decide, by decide, by decide⟩

/-! ## float64: the error of a rounding -/

/-- In the normal range a rounding changes a value by at most one part in
`2^53`. -/
theorem roundQ_rel {q : ℚ} (h : (2 : ℚ) ^ (-1022 : ℤ) ≤ q) :
    q * (1 - 1 / 2 ^ 53) ≤ roundQ q ∧ roundQ q ≤ q * (1 + 1 / 2 ^ 53) := by
  have hq : 0 < q := lt_of_lt_of_le (zpow_pos (by norm_num) _) h
  obtain ⟨a1, a2, a3⟩ := rat_as_quotient q hq
  obtain ⟨b1, b2⟩ := floorLog2_spec _ _ a1 a2
  rw [a3] at b1 b2
  have hK : -1022 ≤ floorLog2 q.num.natAbs q.den := by
    have := (zpow_lt_zpow_iff_right₀ (show (1 : ℚ) < 2 by norm_num)).mp (lt_of_le_of_lt h b2)
    omega
  have hs := roundSig_spec q.num.natAbs q.den a2
  have s2 := (scaled_bounds q.num.natAbs q.den a1 a2).2 (by omega)
  rw [a3] at hs s2
  unfold roundQ roundMag
  generalize roundExp q.num.natAbs q.den = e at hs s2
  generalize roundSig q.num.natAbs q.den = m at hs
  have he : 0 < (2 : ℚ) ^ e := zpow_pos (by norm_num) e
  obtain ⟨n1, n2, -, -⟩ := hs
  have hqx : q = q / (2 : ℚ) ^ e * (2 : ℚ) ^ e := (div_mul_cancel₀ q (ne_of_gt he)).symm
  generalize q / (2 : ℚ) ^ e = x at n1 n2 s2 hqx
  have hp : (2 : ℚ) ^ (52 : ℕ) = 4503599627370496 := by norm_num
  have hp2 : (1 : ℚ) / 2 ^ 53 = 1 / 9007199254740992 := by norm_num
  rw [hp] at s2
  rw [hp2]
  have l1 : x * (1 - 1 / 9007199254740992) ≤ (m : ℚ) := by linarith
  have l2 : (m : ℚ) ≤ x * (1 + 1 / 9007199254740992) := by linarith
  constructor
  · calc q * (1 - 1 / 9007199254740992)
        = x * (1 - 1 / 9007199254740992) * (2 : ℚ) ^ e := by rw [hqx]; ring
      _ ≤ (m : ℚ) * (2 : ℚ) ^ e := mul_le_mul_of_nonneg_right l1 (le_of_lt he)
  · calc (m : ℚ) * (2 : ℚ) ^ e ≤ x * (1 + 1 / 9007199254740992) * (2 : ℚ) ^ e :=
          mul_le_mul_of_nonneg_right l2 (le_of_lt he)
      _ = q * (1 + 1 / 9007199254740992) := by rw [hqx]; ring

/-- An integer below `2^53` is a `float64`. -/
theorem roundQ_nat (N : Nat) (hN : 0 < N) (hlt : N < 2 ^ 53) : roundQ (N : ℚ) = N := by
  have h := roundMag_eq_roundQ N 1 hN Nat.one_pos
  rw [Nat.cast_one, div_one] at h
  rw [← h, roundMag_nat N hN hlt]

/-- The error of the computation of a bar, over the rationals: `c` is the
magnitude of the count, `M` that of the largest count and `G` the width of the
graph column; `κ` and `μ` are `c` and `M` as `float64`, `gs` the scale factor,
`v` the scaled value and `r` the sum `v + 0.5`, each off by at most one part in
`2^53` from what it is computed from.  Then `r` is within `2^-18` of
`c * G / M + 1/2`. -/
theorem bar_error (c M G μ κ gs v r : ℚ) (hc1 : 1 ≤ c) (hcM : c ≤ M) (hG1 : 1 ≤ G)
    (hG2 : G ≤ 2147483648)
    (hμ1 : M * (1 - 1 / 2 ^ 53) ≤ μ) (hμ2 : μ ≤ M * (1 + 1 / 2 ^ 53))
    (hκ1 : c * (1 - 1 / 2 ^ 53) ≤ κ) (hκ2 : κ ≤ c * (1 + 1 / 2 ^ 53))
    (hg1 : μ / G * (1 - 1 / 2 ^ 53) ≤ gs) (hg2 : gs ≤ μ / G * (1 + 1 / 2 ^ 53))
    (hv1 : κ / gs * (1 - 1 / 2 ^ 53) ≤ v) (hv2 : v ≤ κ / gs * (1 + 1 / 2 ^ 53))
    (hr1 : (v + 1 / 2) * (1 - 1 / 2 ^ 53) ≤ r) (hr2 : r ≤ (v + 1 / 2) * (1 + 1 / 2 ^ 53)) :
    c * G / M + 1 / 2 - 1 / 2 ^ 18 ≤ r ∧ r ≤ c * G / M + 1 / 2 + 1 / 2 ^ 18 := by
  have hM0 : 0 < M := by linarith
  have hG0 : 0 < G := by linarith
  have hc0 : 0 < c := by linarith
  have hε : (1 : ℚ) / 2 ^ 53 = 1 / 9007199254740992 := by norm_num
  rw [hε] at hμ1 hμ2 hκ1 hκ2 hg1 hg2 hv1 hv2 hr1 hr2
  have hlo : (0 : ℚ) < 1 - 1 / 9007199254740992 := by norm_num
  have hhi : (0 : ℚ) < 1 + 1 / 9007199254740992 := by norm_num
  generalize hL : (1 : ℚ) - 1 / 9007199254740992 = L at *
  generalize hU : (1 : ℚ) + 1 / 9007199254740992 = U at *
  have hMG : 0 < M / G := div_pos hM0 hG0
  have hq0 : 0 < c * G / M := div_pos (mul_pos hc0 hG0) hM0
  have hqG : c * G / M ≤ 2147483648 := by
    rw [div_le_iff₀ hM0]
    calc c * G ≤ M * G := mul_le_mul_of_nonneg_right hcM (le_of_lt hG0)
      _ ≤ M * 2147483648 := mul_le_mul_of_nonneg_left hG2 (le_of_lt hM0)
      _ = 2147483648 * M := by ring
  -- the scale factor
  have A1 : M / G * (L * L) ≤ gs := by
    calc M / G * (L * L) = M * L / G * L := by ring
      _ ≤ μ / G * L :=
          mul_le_mul_of_nonneg_right (div_le_div_of_nonneg_right hμ1 (le_of_lt hG0))
            (le_of_lt hlo)
      _ ≤ gs := hg1
  have A2 : gs ≤ M / G * (U * U) := by
    calc gs ≤ μ / G * U := hg2
      _ ≤ M * U / G * U :=
          mul_le_mul_of_nonneg_right (div_le_div_of_nonneg_right hμ2 (le_of_lt hG0))
            (le_of_lt hhi)
      _ = M / G * (U * U) := by ring
  have hA1 : 0 < M / G * (L * L) := mul_pos hMG (mul_pos hlo hlo)
  have hgs0 : 0 < gs := lt_of_lt_of_le hA1 A1
  have hκ0 : 0 < κ := lt_of_lt_of_le (mul_pos hc0 hlo) hκ1
  -- the quotient
  have B1 : κ / gs ≤ c * G / M * (U / (L * L)) := by
    calc κ / gs ≤ c * U / (M / G * (L * L)) :=
          div_le_div₀ (le_of_lt (mul_pos hc0 hhi)) hκ2 hA1 A1
      _ = c * G / M * (U / (L * L)) := by
          field_simp
          ring
  have B2 : c * G / M * (L / (U * U)) ≤ κ / gs := by
    calc c * G / M * (L / (U * U)) = c * L / (M / G * (U * U)) := by
          field_simp
          ring
      _ ≤ κ / gs := div_le_div₀ (le_of_lt hκ0) hκ1 hgs0 A2
  have ht0 : 0 < κ / gs := div_pos hκ0 hgs0
  -- the numbers
  have N1 : U / (L * L) * U * U ≤ 1 + 1 / 2 ^ 50 := by
    rw [← hL, ← hU]; norm_num
  have N2 : 1 - 1 / 2 ^ 50 ≤ L / (U * U) * L * L := by
    rw [← hL, ← hU]; norm_num
  have N3 : 1 / 2 * U ≤ 1 / 2 + 1 / 2 ^ 54 := by
    rw [← hU]; norm_num
  have N4 : 1 / 2 - 1 / 2 ^ 54 ≤ 1 / 2 * L := by
    rw [← hL]; norm_num
  constructor
  · have h1 : c * G / M * (L / (U * U)) * L ≤ v :=
      le_trans (mul_le_mul_of_nonneg_right B2 (le_of_lt hlo)) hv1
    have h2 : (c * G / M * (L / (U * U)) * L + 1 / 2) * L ≤ r :=
      le_trans (mul_le_mul_of_nonneg_right (by linarith) (le_of_lt hlo)) hr1
    have h3 : c * G / M * (1 - 1 / 2 ^ 50) ≤ c * G / M * (L / (U * U) * L * L) :=
      mul_le_mul_of_nonneg_left N2 (le_of_lt hq0)
    have h4 : (c * G / M * (L / (U * U)) * L + 1 / 2) * L =
        c * G / M * (L / (U * U) * L * L) + 1 / 2 * L := by ring
    have h5 : c * G / M * (1 - 1 / 2 ^ 50) = c * G / M - c * G / M * (1 / 2 ^ 50) := by ring
    have h6 : c * G / M * (1 / 2 ^ 50) ≤ 2147483648 * (1 / 2 ^ 50) :=
      mul_le_mul_of_nonneg_right hqG (by norm_num)
    have h7 : (2147483648 : ℚ) * (1 / 2 ^ 50) + 1 / 2 ^ 54 ≤ 1 / 2 ^ 18 := by norm_num
    linarith
  · have h1 : v ≤ c * G / M * (U / (L * L)) * U :=
      le_trans hv2 (mul_le_mul_of_nonneg_right B1 (le_of_lt hhi))
    have h2 : r ≤ (c * G / M * (U / (L * L)) * U + 1 / 2) * U :=
      le_trans hr2 (mul_le_mul_of_nonneg_right (by linarith) (le_of_lt hhi))
    have h3 : c * G / M * (U / (L * L) * U * U) ≤ c * G / M * (1 + 1 / 2 ^ 50) :=
      mul_le_mul_of_nonneg_left N1 (le_of_lt hq0)
    have h4 : (c * G / M * (U / (L * L)) * U + 1 / 2) * U =
        c * G / M * (U / (L * L) * U * U) + 1 / 2 * U := by ring
    have h5 : c * G / M * (1 + 1 / 2 ^ 50) = c * G / M + c * G / M * (1 / 2 ^ 50) := by ring
    have h6 : c * G / M * (1 / 2 ^ 50) ≤ 2147483648 * (1 / 2 ^ 50) :=
      mul_le_mul_of_nonneg_right hqG (by norm_num)
    have h7 : (2147483648 : ℚ) * (1 / 2 ^ 50) + 1 / 2 ^ 54 ≤ 1 / 2 ^ 18 := by norm_num
    linarith

/-! ## Linear mode: the length of a bar -/

/-- Linear mode, for a count within the largest magnitude `M` and a graph column
of `G` characters: the bar is a run of `n` characters with the sign of the
count, `n` is within `1/2 + 2^-18` of `|cnt| * G / M`, it is at most `G`, and it
is `G` for a count of the magnitude `M`. -/
theorem linear_bar_near (M cnt G : Int) (hM1 : 1 ≤ M) (hM2 : M < 2 ^ 63)
    (hc : (cnt.natAbs : Int) ≤ M) (hG1 : 1 ≤ G) (hG2 : G ≤ 2 ^ 31) :
    ∃ n : Nat,
      gv ((float64.ofInt cnt).div ((float64.ofInt M).div (float64.ofInt G))) =
        some (List.replicate n (if cnt < 0 then 45 else 43)) ∧
      (cnt.natAbs : ℚ) * G / M - 1 / 2 - 1 / 2 ^ 18 ≤ n ∧
      (n : ℚ) ≤ (cnt.natAbs : ℚ) * G / M + 1 / 2 + 1 / 2 ^ 18 ∧
      (n : Int) ≤ G ∧ ((cnt.natAbs : Int) = M → (n : Int) = G) := by
  obtain ⟨g1, g2, g3⟩ := ofInt_gavail G hG1 hG2
  obtain ⟨m1, m2, m3⟩ := ofInt_pos M hM1 hM2
  have hMq : (1 : ℚ) ≤ (M : ℚ) := by exact_mod_cast hM1
  have hGq1 : (1 : ℚ) ≤ (G : ℚ) := by exact_mod_cast hG1
  have hGq2 : (G : ℚ) ≤ 2147483648 := by
    have : (G : ℚ) ≤ ((2 ^ 31 : ℤ) : ℚ) := by exact_mod_cast hG2
    calc (G : ℚ) ≤ ((2 ^ 31 : ℤ) : ℚ) := this
      _ = 2147483648 := by norm_num
  by_cases hc0 : cnt = 0
  · subst hc0
    obtain ⟨a1, a2, -⟩ := scaled_bounds_bar _ 1 _ m2 m3 (le_refl _) (by linarith) g2 g3
    obtain ⟨ms, es, hseq, hms, -, -⟩ := div_round m1 g1 (-31) 63 (by decide) (by decide) a1 a2
    refine ⟨0, ?_, ?_, ?_, ?_, ?_⟩
    · rw [ofInt_zero, hseq, div_zero_left _ _ _ _ _ hms]
      exact gv_zero _ _
    · simp only [Int.natAbs_zero, Nat.cast_zero, zero_mul, zero_div]
      norm_num
    · simp only [Int.natAbs_zero, Nat.cast_zero, zero_mul, zero_div]
      norm_num
    · simp only [Nat.cast_zero]; omega
    · intro h
      simp only [Int.natAbs_zero, Nat.cast_zero] at h
      omega
  · obtain ⟨c1, c2⟩ := ofInt_ne_zero cnt hc0 (by omega) (by omega)
    have hcq1 : (1 : ℚ) ≤ (cnt.natAbs : ℚ) := by
      exact_mod_cast Int.natAbs_pos.mpr hc0
    have hcqM : (cnt.natAbs : ℚ) ≤ (M : ℚ) := by
      calc (cnt.natAbs : ℚ) = ((cnt.natAbs : ℤ) : ℚ) := (Int.cast_natCast cnt.natAbs).symm
        _ ≤ (M : ℚ) := by exact_mod_cast hc
    have hcm : roundQ (cnt.natAbs : ℚ) ≤ roundQ (M : ℚ) := roundQ_mono (by linarith) hcqM
    have hGr : roundQ (G : ℚ) = (G : ℚ) := by
      have hnat : (G : ℚ) = ((G.toNat : ℕ) : ℚ) := by
        have : (G : ℤ) = ((G.toNat : ℕ) : ℤ) := by omega
        calc (G : ℚ) = (((G.toNat : ℕ) : ℤ) : ℚ) := by rw [← this]
          _ = ((G.toNat : ℕ) : ℚ) := Int.cast_natCast _
      rw [hnat]
      have hlt : G.toNat < 2 ^ 53 := by
        have : (2 : ℤ) ^ 31 < 2 ^ 53 := by norm_num
        have h2 : ((G.toNat : ℕ) : ℤ) < 2 ^ 53 := by omega
        exact_mod_cast h2
      exact roundQ_nat G.toNat (by omega) hlt
    obtain ⟨a1, a2, a3, a4⟩ := scaled_bounds_bar _ _ _ m2 m3 c2 (by linarith) g2 g3
    obtain ⟨f1, f2⟩ := bar_finite c1 m1 g1 m2 m3 c2 (by linarith) g2 g3
    have hgv := gv_round f1 (le_trans f2 (by norm_num))
    have hsmall : (2 : ℚ) ^ (-1022 : ℤ) ≤ (2 : ℚ) ^ (-63 : ℤ) :=
      zpow_le_zpow_right₀ (by norm_num) (by decide)
    have hsmall2 : (2 : ℚ) ^ (-1022 : ℤ) ≤ 1 / 2 := by
      calc (2 : ℚ) ^ (-1022 : ℤ) ≤ (2 : ℚ) ^ (-1 : ℤ) :=
            zpow_le_zpow_right₀ (by norm_num) (by decide)
        _ = 1 / 2 := by norm_num
    have hsmall1 : (2 : ℚ) ^ (-1022 : ℤ) ≤ 1 := le_trans hsmall2 (by norm_num)
    obtain ⟨rκ1, rκ2⟩ := roundQ_rel (q := (cnt.natAbs : ℚ)) (le_trans hsmall1 hcq1)
    obtain ⟨rμ1, rμ2⟩ := roundQ_rel (q := (M : ℚ)) (le_trans hsmall1 hMq)
    obtain ⟨rg1, rg2⟩ := roundQ_rel (q := roundQ (M : ℚ) / roundQ (G : ℚ))
      (le_trans (le_trans hsmall (zpow_le_zpow_right₀ (by norm_num) (by decide))) a1)
    obtain ⟨rv1, rv2⟩ := roundQ_rel
      (q := roundQ (cnt.natAbs : ℚ) / roundQ (roundQ (M : ℚ) / roundQ (G : ℚ)))
      (le_trans hsmall a3)
    have hvpos := finite_pos f1
    obtain ⟨rr1, rr2⟩ := roundQ_rel
      (q := roundQ (roundQ (cnt.natAbs : ℚ) / roundQ (roundQ (M : ℚ) / roundQ (G : ℚ))) + 1 / 2)
      (le_trans hsmall2 (by linarith))
    rw [hGr] at rg1 rg2 rv1 rv2 rr1 rr2 hgv
    obtain ⟨e1, e2⟩ := bar_error (cnt.natAbs : ℚ) (M : ℚ) (G : ℚ) _ _ _ _ _ hcq1 hcqM hGq1 hGq2
      rμ1 rμ2 rκ1 rκ2 rg1 rg2 rv1 rv2 rr1 rr2
    generalize roundQ (roundQ (roundQ (cnt.natAbs : ℚ) / roundQ (roundQ (M : ℚ) / (G : ℚ))) +
      1 / 2) = r at hgv e1 e2
    have hqG : (cnt.natAbs : ℚ) * G / M ≤ G := by
      rw [div_le_iff₀ (by linarith)]
      have hG0 : (0 : ℚ) ≤ (G : ℚ) := by linarith
      calc (cnt.natAbs : ℚ) * G ≤ (M : ℚ) * G := mul_le_mul_of_nonneg_right hcqM hG0
        _ = (G : ℚ) * M := by ring
    have hδ : (1 : ℚ) / 2 ^ 18 < 1 / 2 := by norm_num
    have hr0 : 0 ≤ r := by
      have : (0 : ℚ) ≤ (cnt.natAbs : ℚ) * G / M := by positivity
      linarith
    have hfl1 : ((⌊r⌋₊ : ℕ) : ℚ) ≤ r := Nat.floor_le hr0
    have hfl2 : r < ((⌊r⌋₊ : ℕ) : ℚ) + 1 := Nat.lt_floor_add_one r
    refine ⟨⌊r⌋₊, ?_, by linarith, by linarith, ?_, ?_⟩
    · rw [hgv]
      by_cases hn : cnt < 0
      · simp [hn]
      · simp [hn]
    · have h1 : ((⌊r⌋₊ : ℕ) : ℚ) < (G : ℚ) + 1 := by linarith
      have h2 : (((⌊r⌋₊ : ℕ) : ℤ) : ℚ) < ((G + 1 : ℤ) : ℚ) := by
        push_cast
        exact h1
      have h3 : ((⌊r⌋₊ : ℕ) : ℤ) < G + 1 := by exact_mod_cast h2
      omega
    · intro heq
      have hceq : (cnt.natAbs : ℚ) = (M : ℚ) := by
        calc (cnt.natAbs : ℚ) = ((cnt.natAbs : ℤ) : ℚ) := (Int.cast_natCast cnt.natAbs).symm
          _ = (M : ℚ) := by rw [heq]
      have hq : (cnt.natAbs : ℚ) * G / M = G := by
        rw [hceq]
        field_simp
      rw [hq] at e1 e2
      have h1 : ((⌊r⌋₊ : ℕ) : ℚ) < (G : ℚ) + 1 := by linarith
      have h1b : (G : ℚ) - 1 < ((⌊r⌋₊ : ℕ) : ℚ) := by linarith
      have h2 : (((⌊r⌋₊ : ℕ) : ℤ) : ℚ) < ((G + 1 : ℤ) : ℚ) := by
        push_cast
        exact h1
      have h2b : ((G - 1 : ℤ) : ℚ) < (((⌊r⌋₊ : ℕ) : ℤ) : ℚ) := by
        push_cast
        exact h1b
      have h3 : ((⌊r⌋₊ : ℕ) : ℤ) < G + 1 := by exact_mod_cast h2
      have h3b : G - 1 < ((⌊r⌋₊ : ℕ) : ℤ) := by exact_mod_cast h2b
      omega

/-! ## The width of a report line -/

/-- The layout fields of the histogrammer as `hist` leaves it, on either path. -/
theorem histScaled_layout (Log2 : float64 → float64) (h : histogrammer) (inp : Bytes) :
    (histScaled Log2 h inp).1.hfmt = (hlinefmt h.termWidth (h.gt != gType.gNone) h.ofs).1 ∧
    (histScaled Log2 h inp).1.kavail =
      kavailOf (hlinefmt h.termWidth (h.gt != gType.gNone) h.ofs) ∧
    (histScaled Log2 h inp).1.gavail =
      gavailOf (hlinefmt h.termWidth (h.gt != gType.gNone) h.ofs) ∧
    (histScaled Log2 h inp).1.snip = h.snip ∧ (histScaled Log2 h inp).1.gt = h.gt := by
  cases hs : (scan h.words inp).err with
  | some e0 =>
    have h2 := hist_error h inp e0 hs
    unfold histScaled
    simp only [h2]
    simp only [hist, hs, kavailOf, gavailOf, and_self]
  | none =>
    have h2 := hist_ok h inp hs
    unfold histScaled
    simp only [h2]
    simp only [hist, hs, kavailOf, gavailOf, and_self]

/-- The entries `hist` returns lie within `maxVal`, when none of them is the
least `int64`; and `maxVal` is itself an `int64`. -/
theorem histScaled_within (Log2 : float64 → float64) (h : histogrammer) (inp : Bytes)
    (kc : List keyCount) (hok : (histScaled Log2 h inp).2 = Except.ok kc)
    (hmin : ∀ e ∈ kc, -(2 ^ 63) < e.cnt) (e : keyCount) (he : e ∈ kc) :
    (e.cnt.natAbs : Int) ≤ (histScaled Log2 h inp).1.maxVal ∧
    (histScaled Log2 h inp).1.maxVal < 2 ^ 63 ∧
    (histScaled Log2 h inp).1.gscale = gscaleOf Log2 (histScaled Log2 h inp).1 := by
  cases hs : (scan h.words inp).err with
  | some e0 =>
    obtain ⟨h1, -, -⟩ := histScaled_error Log2 h inp e0 hs
    rw [h1] at hok
    exact absurd hok (by simp)
  | none =>
    obtain ⟨h1, h2, h3, h4, h5⟩ := histScaled_ok Log2 h inp hs
    obtain ⟨g1, g2, g3⟩ := hist_fst_ok h inp hs
    rw [h1] at hok
    have hkc2 : histEntries h inp = kc := Except.ok.inj hok
    have hsort : kc.Pairwise countKeyLE := by
      rw [← hkc2, histEntries_ok h inp hs]
      exact sortSort_sorted _
    have hgs : (histScaled Log2 h inp).1.gscale = gscaleOf Log2 (histScaled Log2 h inp).1 := by
      rw [h5]
      unfold gscaleOf
      rw [h2, h3, h4, g2, g3]
    rcases kc with _ | ⟨a, rest⟩
    · exact absurd he (List.not_mem_nil e)
    · obtain ⟨l, hl⟩ : ∃ l, (a :: rest).getLast? = some l :=
        ⟨_, List.getLast?_eq_getLast _ (List.cons_ne_nil a rest)⟩
      have hhead : (a :: rest).head? = some a := rfl
      obtain ⟨hfm, hlm, hbet⟩ := sorted_between (a :: rest) hsort a l hhead hl
      have ha := abs_eq_natAbs a.cnt (hmin a hfm)
      have hla := abs_eq_natAbs l.cnt (hmin l hlm)
      have hmv : (hist h inp).1.maxVal = max (abs a.cnt) (abs l.cnt) := by
        rw [g1, hkc2, hl]
        simp only [List.head?_cons]
        by_cases hc : abs l.cnt > abs a.cnt
        · rw [if_pos hc, max_eq_right (le_of_lt hc)]
        · rw [if_neg hc, max_eq_left (not_lt.mp hc)]
      have hint : ∀ x ∈ a :: rest, isInt64 x.cnt := by
        intro x hx
        rw [← hkc2, histEntries_ok h inp hs] at hx
        rw [(rank_spec _).2.2 x hx]
        exact wrapInt_isInt64 _
      have hia := hint a hfm
      have hil := hint l hlm
      unfold isInt64 at hia hil
      rw [h2, hmv, ha, hla]
      refine ⟨?_, ?_, hgs⟩
      · obtain ⟨hb1, hb2⟩ := hbet e he
        have := le_max_left (a.cnt.natAbs : Int) (l.cnt.natAbs : Int)
        have := le_max_right (a.cnt.natAbs : Int) (l.cnt.natAbs : Int)
        omega
      · have h7 := hmin a hfm
        have h8 := hmin l hlm
        rcases max_choice (a.cnt.natAbs : Int) (l.cnt.natAbs : Int) with hm | hm
        · rw [hm]; omega
        · rw [hm]; omega

/-- Text that does not begin with a continuation byte adds its runes to those of
the text before it. -/
theorem runeCount_append (a t : Bytes) (ht : t.headD 0 < 0x80 ∨ 0xBF < t.headD 0) :
    RuneCountInString (a ++ t) = RuneCountInString a + RuneCountInString t := by
  have h := runes_prefix_append (runes a) a [] t (List.append_nil _).symm ht
  rw [bytesOfRunes_runes] at h
  rw [← runes_length _ (a ++ t) (le_refl _), h, List.length_append,
    runes_length _ a (le_refl _), runes_length _ t (le_refl _)]

/-- ASCII text before any text adds one rune for each of its bytes. -/
theorem runeCount_ascii_append : ∀ (a b : Bytes), (∀ x ∈ a, x < 128) →
    RuneCountInString (a ++ b) = a.length + RuneCountInString b := by
  intro a
  induction a with
  | nil => intro b _; simp
  | cons x a ih =>
    intro b h
    have hx : x < 128 := h x (List.mem_cons_self x a)
    have hd : DecodeRuneInString (x :: (a ++ b)) = (x, 1) := by
      have hf : first x = 0xF0 := by
        unfold first
        rw [if_pos hx]
      rw [decode_cons, hf]
      simp
    rw [List.cons_append, runeCount_unfold _ (List.cons_ne_nil _ _), hd]
    simp only [List.drop_succ_cons, List.drop_zero, List.length_cons]
    rw [ih b (fun y hy => h y (List.mem_cons_of_mem x hy))]
    omega

/-- Trimming spaces does not add runes. -/
theorem runeCount_TrimRight (l : Bytes) :
    RuneCountInString (TrimRight l) ≤ RuneCountInString l := by
  obtain ⟨n, hn⟩ := TrimRight_prefix l
  have ht : (List.replicate n 32).headD 0 < 0x80 ∨ 0xBF < (List.replicate n 32).headD 0 := by
    left
    rcases n with _ | k
    · decide
    · simp [List.replicate_succ]
  have := runeCount_append (TrimRight l) (List.replicate n 32) ht
  rw [← hn] at this
  omega

/-- At a width of at least 1 the snippet has at most `width` runes. -/
theorem snip_runeCount_le (s : Bytes) (width : Int) (hw : 1 ≤ width) :
    ∃ key b, snip s width = some (key, b) ∧ (RuneCountInString key : Int) ≤ width := by
  rcases snip_spec s width with ⟨k, _, hres, hc, _⟩ | ⟨hres, hc⟩
  · refine ⟨_, _, hres, ?_⟩
    rw [hc, max_eq_left hw]
  · refine ⟨_, _, hres, ?_⟩
    rw [max_eq_left hw] at hc
    exact le_of_lt hc

/-- The width of an auto-formatted line with a graph, at a terminal width from
34 (where the key column has one character) to 20000051 (the widest key column
`fmt` reads): with snippeting on, a count of at most 15 characters and a bar of
ASCII characters that fits the graph column, the line has at most `tw - 1` code
points. -/
theorem hline_width (Log2 : float64 → float64) (h : histogrammer) (e : keyCount) (tw : Int)
    (hfmt : h.hfmt = (hlinefmt tw true []).1)
    (hk : h.kavail = kavailOf (hlinefmt tw true []))
    (hg : h.gavail = gavailOf (hlinefmt tw true []))
    (hgt : h.gt ≠ gType.gNone) (hsnip : h.snip = true)
    (htw1 : 34 ≤ tw) (htw2 : tw ≤ 20000051) (hlen : (Itoa e.cnt).length ≤ 15)
    (bar : Bytes) (hbar : gv (barValue Log2 h e.cnt) = some bar)
    (hascii : ∀ x ∈ bar, x < 128) (hn : (bar.length : Int) ≤ h.gavail) :
    ∃ l, hline Log2 h e = some l ∧ (RuneCountInString l : Int) ≤ tw - 1 := by
  obtain ⟨-, -, x1, x2⟩ := hlinefmt_exact tw [] (by omega) (by omega)
  rw [tdiv_two, if_pos (by omega : (0 : Int) ≤ tw)] at x1
  rw [← hk] at x1 x2
  rw [← hg] at x2
  have hk1 : 1 ≤ h.kavail := by omega
  have hk2 : h.kavail ≤ 10000009 := by omega
  obtain ⟨key, b, hsn, hcount⟩ := snip_runeCount_le e.key h.kavail hk1
  have hkey : (if h.snip then (snip e.key h.kavail).map (fun r => r.1) else some e.key) =
      some key := by
    rw [hsnip, if_pos rfl, hsn]
    rfl
  obtain ⟨-, e2⟩ := hline_eq Log2 h e key hkey
  have hI : Itoa h.kavail = natDigits h.kavail.toNat := Itoa_nonneg _ (by omega)
  have hw : h.kavail.toNat / 10 ≤ 1000000 := by omega
  have hline : hline Log2 h e = some (TrimRight
      ((List.replicate (15 - (Itoa e.cnt).length) 32 ++ Itoa e.cnt ++ [32]) ++
        (key ++ (List.replicate (h.kavail.toNat - RuneCountInString key) 32 ++ 32 :: bar)))) := by
    rw [e2 hgt bar hbar, hfmt, hlinefmt_format, if_pos rfl, ← hk, hI]
    simp only [Sprintf, if_true]
    rw [doPrintf_15d, doPrintf_space, doPrintf_minus_s _ hw, doPrintf_space, doPrintf_s,
      doPrintf_end]
    simp
  refine ⟨_, hline, ?_⟩
  have h1 := runeCount_TrimRight
    ((List.replicate (15 - (Itoa e.cnt).length) 32 ++ Itoa e.cnt ++ [32]) ++
      (key ++ (List.replicate (h.kavail.toNat - RuneCountInString key) 32 ++ 32 :: bar)))
  have hA : ∀ x ∈ List.replicate (15 - (Itoa e.cnt).length) 32 ++ Itoa e.cnt ++ [32],
      x < 128 := by
    intro x hx
    rcases List.mem_append.mp hx with h3 | h3
    · rcases List.mem_append.mp h3 with h4 | h4
      · rw [(List.mem_replicate.mp h4).2]; decide
      · exact Itoa_ascii _ x h4
    · rw [List.mem_singleton.mp h3]; decide
  have hT : ∀ x ∈ List.replicate (h.kavail.toNat - RuneCountInString key) 32 ++ 32 :: bar,
      x < 128 := by
    intro x hx
    rcases List.mem_append.mp hx with h3 | h3
    · rw [(List.mem_replicate.mp h3).2]; decide
    · rcases List.mem_cons.mp h3 with h4 | h4
      · rw [h4]; decide
      · exact hascii x h4
  have hThead :
      (List.replicate (h.kavail.toNat - RuneCountInString key) 32 ++ 32 :: bar).headD 0 < 0x80 ∨
      0xBF < (List.replicate (h.kavail.toNat - RuneCountInString key) 32 ++ 32 :: bar).headD 0 := by
    left
    rcases hp : h.kavail.toNat - RuneCountInString key with _ | k
    · simp
    · simp [List.replicate_succ]
  have h2 := runeCount_ascii_append _
    (key ++ (List.replicate (h.kavail.toNat - RuneCountInString key) 32 ++ 32 :: bar)) hA
  have h3 := runeCount_append key _ hThead
  have h4 := runeCount_ascii _ hT
  rw [h2, h3, h4] at h1
  simp only [List.length_append, List.length_replicate, List.length_cons, List.length_nil] at h1
  omega

/-! ## Linear mode: the bar fits the graph column (C23) -/

/-- C23, the claim as stated fails, on each of its two parts.  At terminal width
40 (`gavail` = 18) the counts 33 and 44 give `maxVal` = 44, and the bar of the
count 33 has 13 characters, while `33 * 18 / 44` is 13.5, which rounds to 14:
the scale factor `44/18` and the quotient by it are rounded to a `float64`, and
the value passed to `gv` falls below 13.5.  And at terminal width 32 `hlinefmt`
returns `kavail` = 0 and `gavail` = 14: for the single count 1 (`maxVal` = 1), with
snippeting on, the key is cut to the mark and the line has 32 code points, more
than 31. -/
theorem bar_fits_column_counterexample :
    (histScaled log2Floor
      { ifs := reSpaces, keys := [1], weightCol := 2, termWidth := 40, gt := gType.gLinear,
        snip := true } (ascii "a 33\nb 44")).2.toOption = some [kc "a" 33, kc "b" 44] ∧
    (histScaled log2Floor
      { ifs := reSpaces, keys := [1], weightCol := 2, termWidth := 40, gt := gType.gLinear,
        snip := true } (ascii "a 33\nb 44")).1.maxVal = 44 ∧
    (histScaled log2Floor
      { ifs := reSpaces, keys := [1], weightCol := 2, termWidth := 40, gt := gType.gLinear,
        snip := true } (ascii "a 33\nb 44")).1.gavail = 18 ∧
    gv (barValue log2Floor (histScaled log2Floor
      { ifs := reSpaces, keys := [1], weightCol := 2, termWidth := 40, gt := gType.gLinear,
        snip := true } (ascii "a 33\nb 44")).1 33) = some (List.replicate 13 43) ∧
    (33 : ℚ) * 18 / 44 = 13 + 1 / 2 ∧ round ((33 : ℚ) * 18 / 44) = 14 ∧
    (histScaled log2Floor
      { ifs := reSpaces, keys := [1], weightCol := 2, termWidth := 32, gt := gType.gLinear,
        snip := true } (ascii "a 1")).2.toOption = some [kc "a" 1] ∧
    (histScaled log2Floor
      { ifs := reSpaces, keys := [1], weightCol := 2, termWidth := 32, gt := gType.gLinear,
        snip := true } (ascii "a 1")).1.maxVal = 1 ∧
    (histScaled log2Floor
      { ifs := reSpaces, keys := [1], weightCol := 2, termWidth := 32, gt := gType.gLinear,
        snip := true } (ascii "a 1")).1.kavail = 0 ∧
    (histScaled log2Floor
      { ifs := reSpaces, keys := [1], weightCol := 2, termWidth := 32, gt := gType.gLinear,
        snip := true } (ascii "a 1")).1.gavail = 14 ∧
    hline log2Floor (histScaled log2Floor
      { ifs := reSpaces, keys := [1], weightCol := 2, termWidth := 32, gt := gType.gLinear,
        snip := true } (ascii "a 1")).1 (kc "a" 1) =
      some (ascii "              1 " ++ snipMark ++ ascii " ++++++++++++++") ∧
    RuneCountInString (ascii "              1 " ++ snipMark ++ ascii " ++++++++++++++") = 32 := by
  refine ⟨by decide, by decide, by decide, by decide, by norm_num, ?_, by decide, by decide,
    by decide, by decide, by decide, by decide⟩
  rw [round_eq, Int.floor_eq_iff]
  norm_num

/-- C23, amended.  In Linear mode, for every histogram that `hist` returns with
no count equal to the least `int64`, `maxVal` >= 1 and 1 <= `gavail` <= 2^31: the
bar that `hline` renders for every entry is a run of `n` characters `+` (of `-`
for a negative count), where `n` differs from `|cnt| * gavail / maxVal` by at
most `1/2 + 2^-18`, `n` <= `gavail`, and `n` = `gavail` for an entry whose
magnitude is `maxVal`; hence with snippeting on, auto formatting at a terminal
width from 34 to 20000051 and a count of at most 15 characters, the line has at
most `termWidth - 1` code points. -/
theorem bar_fits_column (Log2 : float64 → float64) (h : histogrammer) (inp : Bytes)
    (kc : List keyCount) (hgt : h.gt = gType.gLinear)
    (hok : (histScaled Log2 h inp).2 = Except.ok kc)
    (hmin : ∀ e ∈ kc, -(2 ^ 63) < e.cnt)
    (hM1 : 1 ≤ (histScaled Log2 h inp).1.maxVal)
    (hG1 : 1 ≤ (histScaled Log2 h inp).1.gavail)
    (hG2 : (histScaled Log2 h inp).1.gavail ≤ 2 ^ 31) :
    ∀ e ∈ kc, ∃ n : Nat,
      gv (barValue Log2 (histScaled Log2 h inp).1 e.cnt) =
        some (List.replicate n (if e.cnt < 0 then 45 else 43)) ∧
      (e.cnt.natAbs : ℚ) * (histScaled Log2 h inp).1.gavail / (histScaled Log2 h inp).1.maxVal
        - 1 / 2 - 1 / 2 ^ 18 ≤ n ∧
      (n : ℚ) ≤
        (e.cnt.natAbs : ℚ) * (histScaled Log2 h inp).1.gavail / (histScaled Log2 h inp).1.maxVal
          + 1 / 2 + 1 / 2 ^ 18 ∧
      (n : Int) ≤ (histScaled Log2 h inp).1.gavail ∧
      ((e.cnt.natAbs : Int) = (histScaled Log2 h inp).1.maxVal →
        (n : Int) = (histScaled Log2 h inp).1.gavail) ∧
      (h.snip = true → h.ofs = [] → 34 ≤ h.termWidth → h.termWidth ≤ 20000051 →
        (Itoa e.cnt).length ≤ 15 →
        ∃ l, hline Log2 (histScaled Log2 h inp).1 e = some l ∧
          (RuneCountInString l : Int) ≤ h.termWidth - 1) := by
  intro e he
  obtain ⟨w1, w2, w3⟩ := histScaled_within Log2 h inp kc hok hmin e he
  obtain ⟨l1, l2, l3, l4, l5⟩ := histScaled_layout Log2 h inp
  have hgt2 : (histScaled Log2 h inp).1.gt = gType.gLinear := l5.trans hgt
  have e1 : barValue Log2 (histScaled Log2 h inp).1 e.cnt =
      (float64.ofInt e.cnt).div ((float64.ofInt (histScaled Log2 h inp).1.maxVal).div
        (float64.ofInt (histScaled Log2 h inp).1.gavail)) := by
    unfold barValue
    rw [hgt2]
    simp only []
    rw [w3]
    simp only [gscaleOf, hgt2]
    rfl
  obtain ⟨n, n1, n2, n3, n4, n5⟩ := linear_bar_near _ e.cnt _ hM1 w2 w1 hG1 hG2
  rw [← e1] at n1
  refine ⟨n, n1, n2, n3, n4, n5, ?_⟩
  intro hsnip hofs htw1 htw2 hlen
  have hb : (h.gt != gType.gNone) = true := by rw [hgt]; decide
  rw [hb, hofs] at l1 l2 l3
  refine hline_width Log2 _ e h.termWidth l1 l2 l3 (by rw [hgt2]; decide) (l4.trans hsnip)
    htw1 htw2 hlen _ n1 ?_ (by rw [List.length_replicate]; exact n4)
  intro x hx
  rw [(List.mem_replicate.mp hx).2]
  by_cases hneg : e.cnt < 0
  · rw [if_pos hneg]; decide
  · rw [if_neg hneg]; decide

/-- C23 at the histogram of `TestGraph` in Linear mode (terminal width 40,
`maxVal` = 100, `gavail` = 18, `kavail` = 4): the entries with the count 100 have a
bar of 18 characters, the entry with the count 10 one of 2 characters
(`10 * 18 / 100` is 1.8), and the line of the long key has 39 code points. -/
theorem bar_fits_column_witness :
    (testGraphHist gType.gLinear).gt = gType.gLinear ∧
    (histScaled log2Floor (testGraphHist gType.gLinear) testGraphInput).2.toOption =
      some (histEntries (testGraphHist gType.gLinear) testGraphInput) ∧
    (∀ e ∈ histEntries (testGraphHist gType.gLinear) testGraphInput, -(2 ^ 63) < e.cnt) ∧
    (histScaled log2Floor (testGraphHist gType.gLinear) testGraphInput).1.maxVal = 100 ∧
    (histScaled log2Floor (testGraphHist gType.gLinear) testGraphInput).1.gavail = 18 ∧
    gv (barValue log2Floor (histScaled log2Floor (testGraphHist gType.gLinear) testGraphInput).1
      10) = some (ascii "++") ∧
    gv (barValue log2Floor (histScaled log2Floor (testGraphHist gType.gLinear) testGraphInput).1
      100) = some (List.replicate 18 43) ∧
    hline log2Floor (histScaled log2Floor (testGraphHist gType.gLinear) testGraphInput).1
      (kc "z_long_key_that_is_snippetted" 100) =
      some (ascii "            100 z_l" ++ snipMark ++ ascii " ++++++++++++++++++") ∧
    RuneCountInString (ascii "            100 z_l" ++ snipMark ++ ascii " ++++++++++++++++++") =
      39 ∧
    (∀ e ∈ histEntries (testGraphHist gType.gLinear) testGraphInput, ∃ n : Nat,
      gv (barValue log2Floor
        (histScaled log2Floor (testGraphHist gType.gLinear) testGraphInput).1 e.cnt) =
        some (List.replicate n (if e.cnt < 0 then 45 else 43)) ∧
      (e.cnt.natAbs : ℚ) *
          (histScaled log2Floor (testGraphHist gType.gLinear) testGraphInput).1.gavail /
          (histScaled log2Floor (testGraphHist gType.gLinear) testGraphInput).1.maxVal
        - 1 / 2 - 1 / 2 ^ 18 ≤ n ∧
      (n : ℚ) ≤
        (e.cnt.natAbs : ℚ) *
          (histScaled log2Floor (testGraphHist gType.gLinear) testGraphInput).1.gavail /
          (histScaled log2Floor (testGraphHist gType.gLinear) testGraphInput).1.maxVal
          + 1 / 2 + 1 / 2 ^ 18 ∧
      (n : Int) ≤ (histScaled log2Floor (testGraphHist gType.gLinear) testGraphInput).1.gavail ∧
      ((e.cnt.natAbs : Int) =
          (histScaled log2Floor (testGraphHist gType.gLinear) testGraphInput).1.maxVal →
        (n : Int) =
          (histScaled log2Floor (testGraphHist gType.gLinear) testGraphInput).1.gavail) ∧
      ((testGraphHist gType.gLinear).snip = true → (testGraphHist gType.gLinear).ofs = [] →
        34 ≤ (testGraphHist gType.gLinear).termWidth →
        (testGraphHist gType.gLinear).termWidth ≤ 20000051 →
        (Itoa e.cnt).length ≤ 15 →
        ∃ l, hline log2Floor
            (histScaled log2Floor (testGraphHist gType.gLinear) testGraphInput).1 e = some l ∧
          (RuneCountInString l : Int) ≤ (testGraphHist gType.gLinear).termWidth - 1)) :=
  ⟨by decide, by decide, by decide, by decide, by decide, by decide, by decide, by decide,
   by decide,
   bar_fits_column log2Floor (testGraphHist gType.gLinear) testGraphInput
     (histEntries (testGraphHist gType.gLinear) testGraphInput) (by decide)
     (histScaled_ok log2Floor (testGraphHist gType.gLinear) testGraphInput (by decide)).1
     (by decide) (by decide) (by decide) (by decide)⟩

end Shstat
